import Mathlib

/-!
# godis: frame decoder, sorted set and append-only file

A shallow embedding of three parts of the server:

* `redis/parser/parser.go`: the streaming decoder `parse0` with its helpers,
* `dataStruct/sortedset`: the skiplist and the sorted set built on it,
* `aof`: the log writer `handleAof`, the loader and the rewrite procedure.

Conventions.  A Go `byte` is a natural number, a `[]byte` or `string` a list of
them.  Go `int`/`int64` values are integers; the few places where the source can
wrap around are marked.  A Go panic, an exhausted loop budget and a normal
return are kept apart in every result type.
-/

namespace Godis

/-- A Go `[]byte` (or a `string` seen as bytes); a byte is a natural number. -/
abbrev Bytes := List Nat

/-! ## Part I: definitions -/

/-! ### `strconv` -/

/-- Value of an ASCII decimal digit. -/
def digitVal (c : Nat) : Option Nat :=
  if 48 ≤ c ∧ c ≤ 57 then some (c - 48) else none

/-- Digit loop of `strconv.ParseUint` in base 10: any byte that is not a decimal
digit is a syntax error. -/
def parseDigits : Bytes → Nat → Option Nat
  | [], acc => some acc
  | c :: cs, acc =>
    match digitVal c with
    | none => none
    | some d => parseDigits cs (acc * 10 + d)

/-- Go `strconv.ParseUint(s, 10, bitSize)`; `none` stands for a non-nil error
(empty input, a non-digit, or a value that does not fit `bitSize` bits). -/
def ParseUint (s : Bytes) (bitSize : Nat) : Option Nat :=
  match s with
  | [] => none
  | _ :: _ =>
    match parseDigits s 0 with
    | none => none
    | some n => if n < 2 ^ bitSize then some n else none

/-- Go `strconv.ParseInt(s, 10, bitSize)`; `none` stands for a non-nil error.
An optional leading `+` or `-` is followed by at least one digit. -/
def ParseInt (s : Bytes) (bitSize : Nat) : Option Int :=
  match s with
  | [] => none
  | c :: cs =>
    let neg : Bool := decide (c = 45)
    let body : Bytes := if c = 43 ∨ c = 45 then cs else s
    match body with
    | [] => none
    | _ :: _ =>
      match parseDigits body 0 with
      | none => none
      | some un =>
        if neg = false ∧ 2 ^ (bitSize - 1) ≤ un then none
        else if neg = true ∧ 2 ^ (bitSize - 1) < un then none
        else some (if neg then -(un : Int) else (un : Int))

/-- Go `strconv.Atoi` on a 64-bit platform. -/
def Atoi (s : Bytes) : Option Int := ParseInt s 64

/-- Digits of `n`, most significant first, pushed in front of `acc`; `fuel`
bounds the number of digits. -/
def decimalAux : Nat → Nat → Bytes → Bytes
  | 0, _, acc => acc
  | fuel + 1, n, acc =>
    if n < 10 then (48 + n) :: acc
    else decimalAux fuel (n / 10) ((48 + n % 10) :: acc)

/-- Decimal text of a natural number (Go `strconv.FormatUint(n, 10)`). -/
def decimal (n : Nat) : Bytes := decimalAux (n + 1) n []

/-- Go `strconv.FormatInt(i, 10)` and `strconv.Itoa(i)`. -/
def Itoa (i : Int) : Bytes :=
  if i < 0 then 45 :: decimal i.natAbs else decimal i.natAbs

/-! ### Slices and strings -/

/-- Go index expression `s[i]`; `none` is the run-time panic "index out of
range". -/
def index (s : Bytes) (i : Int) : Option Nat :=
  if 0 ≤ i then s.get? i.toNat else none

/-- Go slice expression `s[lo:hi]`; `none` is the run-time panic "slice bounds
out of range". -/
def slice (s : Bytes) (lo hi : Int) : Option Bytes :=
  if 0 ≤ lo ∧ lo ≤ hi ∧ hi ≤ (s.length : Int) then
    some ((s.take hi.toNat).drop lo.toNat)
  else none

/-- Go `strings.TrimSuffix`. -/
def TrimSuffix (s suffix : Bytes) : Bytes :=
  if suffix.isSuffixOf s then s.take (s.length - suffix.length) else s

/-- Go `strings.Split(s, sep)` for a separator of one byte. -/
def Split (sep : Nat) : Bytes → List Bytes
  | [] => [[]]
  | b :: bs =>
    if b = sep then [] :: Split sep bs
    else
      match Split sep bs with
      | [] => [[b]]
      | x :: xs => (b :: x) :: xs

/-- The two bytes CR LF. -/
def CRLF : Bytes := [13, 10]

/-! ### Replies, errors and payloads -/

/-- The reply values the parser builds through package `protocol`
(`MakeStatusReply`, `MakeErrReply`, `MakeIntReply`, `MakeBulkReply`,
`NullBulkReply`, `MakeMultiBulkReply`, `EmptyMultiBulkReply`). -/
inductive Reply where
  | status (s : Bytes)
  | err (s : Bytes)
  | int (code : Int)
  | bulk (arg : Bytes)
  | nullBulk
  | multiBulk (args : List Bytes)
  | emptyMultiBulk
  deriving DecidableEq, Repr

/-- The text "protocol error: ". -/
def protocolErrorText : Bytes :=
  [112, 114, 111, 116, 111, 99, 111, 108, 32, 101, 114, 114, 111, 114, 58, 32]

/-- The Go `error` values that travel in a payload. -/
inductive Error where
  /-- Go `io.EOF` -/
  | EOF
  /-- Go `io.ErrUnexpectedEOF` -/
  | ErrUnexpectedEOF
  /-- Go `errors.New(text)` -/
  | New (text : Bytes)
  deriving DecidableEq, Repr

/-- The value `errors.New("protocol error: " + string(msg))`. -/
def protocolError (msg : Bytes) : Error := Error.New (protocolErrorText ++ msg)

/-- Go `Payload`: a reply or an error, each possibly nil. -/
structure Payload where
  Data : Option Reply
  Err : Option Error
  deriving DecidableEq, Repr

/-- Go `readState`. -/
structure readState where
  readingMultiLine : Bool := false
  expectedArgsCount : Int := 0
  msgType : Nat := 0
  args : List Bytes := []
  bulkLen : Int := 0
  deriving DecidableEq, Repr

/-- Go `readState.finished`. -/
def readState.finished (s : readState) : Bool :=
  decide (0 < s.expectedArgsCount ∧ (s.args.length : Int) = s.expectedArgsCount)

/-! ### The byte source -/

/-- Go `bufio.Reader.ReadBytes(delim)` on the remaining input: the line up to and
including the first `delim` and what follows it; `none` when the input ends
before a `delim` (the reader then reports `io.EOF`). -/
def ReadBytes (delim : Nat) : Bytes → Option (Bytes × Bytes)
  | [] => none
  | b :: bs =>
    if b = delim then some ([b], bs)
    else
      match ReadBytes delim bs with
      | none => none
      | some (line, rest) => some (b :: line, rest)

/-- Go `io.ReadFull` into a buffer of `n` bytes: the `n` bytes read and the
remaining input, or the error (`io.EOF` when nothing could be read,
`io.ErrUnexpectedEOF` when the input ends early). -/
def ReadFull (n : Nat) (r : Bytes) : Except Error (Bytes × Bytes) :=
  if n ≤ r.length then Except.ok (r.take n, r.drop n)
  else if r = [] then Except.error Error.EOF
  else Except.error Error.ErrUnexpectedEOF

/-- Outcome of `readLine`. -/
inductive LineResult where
  /-- a line, the remaining input and the updated state -/
  | ok (msg : Bytes) (rest : Bytes) (state : readState)
  /-- `(nil, true, err)` -/
  | ioErr (e : Error)
  /-- `(nil, false, err)` with the remaining input -/
  | protoErr (e : Error) (rest : Bytes)
  /-- a run-time panic -/
  | panic
  deriving DecidableEq, Repr

/-- Go `readLine`.  With `bulkLen == 0` a line is read up to LF; otherwise
exactly `bulkLen + 2` bytes are read.  `make` with a negative length (also after
the 64-bit wrap of `bulkLen + 2`) panics, as does `msg[len(msg)-2]` on a line of
one byte. -/
def readLine (r : Bytes) (state : readState) : LineResult :=
  if state.bulkLen = 0 then
    match ReadBytes 10 r with
    | none => LineResult.ioErr Error.EOF
    | some (msg, rest) =>
      match index msg ((msg.length : Int) - 2) with
      | none => LineResult.panic
      | some c =>
        if c ≠ 13 then LineResult.protoErr (protocolError msg) rest
        else LineResult.ok msg rest state
  else
    let n : Int := state.bulkLen + 2
    if n < 0 ∨ 2 ^ 63 ≤ n then LineResult.panic
    else
      match ReadFull n.toNat r with
      | Except.error e => LineResult.ioErr e
      | Except.ok (msg, rest) =>
        if msg.length = 0 then LineResult.protoErr (protocolError msg) rest
        else
          match index msg ((msg.length : Int) - 2), index msg ((msg.length : Int) - 1) with
          | some c, some d =>
            if c ≠ 13 ∨ d ≠ 10 then LineResult.protoErr (protocolError msg) rest
            else LineResult.ok msg rest { state with bulkLen := 0 }
          | _, _ => LineResult.panic

/-- Outcome of a header or body parser: the new state, a (protocol) error, or a
run-time panic. -/
inductive StepResult where
  | ok (state : readState)
  | error
  | panic
  deriving DecidableEq, Repr

/-- Go `parseMultiBulkHeader`. -/
def parseMultiBulkHeader (msg : Bytes) (state : readState) : StepResult :=
  match slice msg 1 ((msg.length : Int) - 2), index msg 0 with
  | some body, some c =>
    match ParseUint body 32 with
    | none => StepResult.error
    | some expectedLine =>
      if expectedLine = 0 then StepResult.ok { state with expectedArgsCount := 0 }
      else
        StepResult.ok
          { state with
            msgType := c
            readingMultiLine := true
            expectedArgsCount := (expectedLine : Int)
            args := [] }
  | _, _ => StepResult.panic

/-- Go `parseBulkHeader`. -/
def parseBulkHeader (msg : Bytes) (state : readState) : StepResult :=
  match slice msg 1 ((msg.length : Int) - 2), index msg 0 with
  | some body, some c =>
    match ParseInt body 64 with
    | none => StepResult.error
    | some bulkLen =>
      if bulkLen = -1 then StepResult.ok { state with bulkLen := bulkLen }
      else if 0 < bulkLen then
        StepResult.ok
          { state with
            bulkLen := bulkLen
            msgType := c
            readingMultiLine := true
            expectedArgsCount := 1
            args := [] }
      else StepResult.error
  | _, _ => StepResult.panic

/-- Go `parseSingleLineReply`: the reply, or the error, or `none` for a
run-time panic. -/
def parseSingleLineReply (msg : Bytes) : Option Payload :=
  let str := TrimSuffix msg CRLF
  match index msg 0 with
  | none => none
  | some c =>
    if c = 43 then
      match slice str 1 str.length with
      | none => none
      | some t => some ⟨some (Reply.status t), none⟩
    else if c = 45 then
      match slice str 1 str.length with
      | none => none
      | some t => some ⟨some (Reply.err t), none⟩
    else if c = 58 then
      match slice str 1 str.length with
      | none => none
      | some t =>
        match ParseInt t 64 with
        | none => some ⟨none, some (protocolError msg)⟩
        | some val => some ⟨some (Reply.int val), none⟩
    else some ⟨some (Reply.multiBulk (Split 32 str)), none⟩

/-- Go `readBody`. -/
def readBody (msg : Bytes) (state : readState) : StepResult :=
  match slice msg 0 ((msg.length : Int) - 2) with
  | none => StepResult.panic
  | some line =>
    match index line 0 with
    | none => StepResult.panic
    | some c =>
      if c = 36 then
        match slice line 1 line.length with
        | none => StepResult.panic
        | some t =>
          match ParseInt t 64 with
          | none => StepResult.error
          | some bulkLen =>
            if bulkLen ≤ 0 then
              StepResult.ok { state with args := state.args ++ [[]], bulkLen := 0 }
            else StepResult.ok { state with bulkLen := bulkLen }
      else StepResult.ok { state with args := state.args ++ [line] }

/-- How the goroutine running `parse0` ended. -/
inductive Stop where
  /-- an IO error was sent and the channel closed -/
  | closed
  /-- a panic was recovered by the deferred function; the channel stays open -/
  | panicked
  /-- the loop budget of the model ran out -/
  | outOfFuel
  deriving DecidableEq, Repr

/-- What `parse0` sends through the channel, in order, and how it ended. -/
structure Stream where
  payloads : List Payload
  stop : Stop
  deriving DecidableEq, Repr

/-- Send `p`, then go on as `s`. -/
def Stream.send (p : Payload) (s : Stream) : Stream :=
  ⟨p :: s.payloads, s.stop⟩

/-- Outcome of one iteration of the loop of `parse0`. -/
inductive Iter where
  /-- the goroutine ends, after sending `last` when it is an IO error -/
  | halt (last : Option Payload) (stop : Stop)
  /-- `continue` (or the end of the body) after sending `out`, with the remaining
  input and the state for the next iteration -/
  | next (out : Option Payload) (rest : Bytes) (state : readState)
  deriving DecidableEq, Repr

/-- The body of the `for` loop of Go `parse0` on the remaining input `r`. -/
def parseIter (r : Bytes) (state : readState) : Iter :=
  match readLine r state with
  | LineResult.ioErr e => Iter.halt (some ⟨none, some e⟩) Stop.closed
  | LineResult.protoErr e rest => Iter.next (some ⟨none, some e⟩) rest {}
  | LineResult.panic => Iter.halt none Stop.panicked
  | LineResult.ok msg rest state =>
    if state.readingMultiLine = false then
      match index msg 0 with
      | none => Iter.halt none Stop.panicked
      | some c =>
        if c = 42 then
          match parseMultiBulkHeader msg state with
          | StepResult.panic => Iter.halt none Stop.panicked
          | StepResult.error => Iter.next (some ⟨none, some (protocolError msg)⟩) rest {}
          | StepResult.ok state =>
            if state.expectedArgsCount = 0 then
              Iter.next (some ⟨some Reply.emptyMultiBulk, none⟩) rest {}
            else Iter.next none rest state
        else if c = 36 then
          match parseBulkHeader msg state with
          | StepResult.panic => Iter.halt none Stop.panicked
          | StepResult.error => Iter.next (some ⟨none, some (protocolError msg)⟩) rest {}
          | StepResult.ok state =>
            if state.bulkLen = -1 then
              Iter.next (some ⟨some Reply.nullBulk, none⟩) rest {}
            else Iter.next none rest state
        else
          match parseSingleLineReply msg with
          | none => Iter.halt none Stop.panicked
          | some p => Iter.next (some p) rest {}
    else
      match readBody msg state with
      | StepResult.panic => Iter.halt none Stop.panicked
      | StepResult.error => Iter.next (some ⟨none, some (protocolError msg)⟩) rest {}
      | StepResult.ok state =>
        if state.finished then
          if state.msgType = 42 then
            Iter.next (some ⟨some (Reply.multiBulk state.args), none⟩) rest {}
          else if state.msgType = 36 then
            match state.args with
            | [] => Iter.halt none Stop.panicked
            | a :: _ => Iter.next (some ⟨some (Reply.bulk a), none⟩) rest {}
          else Iter.next (some ⟨none, none⟩) rest {}
        else Iter.next none rest state

/-- The `for` loop of Go `parse0` over the remaining input `r`, one iteration
for each unit of `fuel`. -/
def parseLoop : Nat → Bytes → readState → Stream
  | 0, _, _ => ⟨[], Stop.outOfFuel⟩
  | fuel + 1, r, state =>
    match parseIter r state with
    | Iter.halt last stop => ⟨last.toList, stop⟩
    | Iter.next none rest state1 => parseLoop fuel rest state1
    | Iter.next (some p) rest state1 => Stream.send p (parseLoop fuel rest state1)

/-- Go `parse0` on a reader that holds `data` and then reports end of input.
Every iteration that goes on consumes at least one byte, so the input length
bounds the number of iterations. -/
def parse0 (data : Bytes) : Stream := parseLoop (data.length + 1) data {}

/-- Go `ParseOne`: the first payload.  `none` means that the receive blocks for
ever (the producer panicked before sending anything). -/
def ParseOne (data : Bytes) : Option (Option Reply × Option Error) :=
  match (parse0 data).payloads with
  | [] => none
  | p :: _ => some (p.Data, p.Err)

/-! ### `dataStruct/sortedset`: the skiplist

Nodes live in a heap `nodes`; a `*node` is `none` (nil) or the position of the
node in the heap.  Spans and ranks are far from the 64-bit bounds and are not
wrapped.

A `float64` score is held as an integer.  The code only ever compares scores, so
the numbers are taken from the whole numbers: an integer of magnitude below
`infScore` = 2^1024 (beyond every finite `float64`) is the score of that value,
`infScore` and `-infScore` are +Inf and −Inf, and every integer beyond them is a
NaN (`isNaN`).  Go's `<`, `<=` and `==` on two scores are the comparisons of the
integers when neither is a NaN and false when one is (`f64lt`, `f64le`,
`f64eq`).  The searches of `insert`, `remove` and `getRank` below compare the
integers directly: they are the code on scores that are not NaN.  The same
functions on any scores, NaN included, are `skipList.insertF`,
`skipList.removeF` and `SortedSet.AddF`.  A finite score with a fraction has no
integer of its own; as the scores are only compared, a set with such scores
behaves as the set with whole numbers in the same order. -/

/-- The score +Inf: 2^1024, written (2^256)^4, the first power of two beyond the
finite `float64` values; −Inf is `-infScore`. -/
def infScore : Int := (((2 ^ 256) ^ 4 : Nat) : Int)

/-- A score that is a NaN. -/
def isNaN (x : Int) : Bool := decide (x < -infScore ∨ infScore < x)

/-- Go `a < b` on two `float64`: false when one of them is a NaN. -/
def f64lt (a b : Int) : Bool := !isNaN a && !isNaN b && decide (a < b)

/-- Go `a <= b` on two `float64`: false when one of them is a NaN. -/
def f64le (a b : Int) : Bool := !isNaN a && !isNaN b && decide (a ≤ b)

/-- Go `a == b` on two `float64`: false when one of them is a NaN. -/
def f64eq (a b : Int) : Bool := !isNaN a && !isNaN b && decide (a = b)

/-- Result of a call that may panic; `outOfFuel` is the loop budget of the model
running out. -/
inductive Res (α : Type) where
  | ok (a : α)
  | panic
  | outOfFuel
  deriving DecidableEq, Repr

/-- Go `maxLevel`. -/
def maxLevel : Nat := 16

/-- Go `Element`; `Score` is the `float64` score as a whole number, with
`infScore` and `-infScore` for ±Inf and the integers beyond for NaN. -/
structure Element where
  Member : Bytes
  Score : Int
  deriving DecidableEq, Repr

/-- Go `Level`. -/
structure Level where
  forward : Option Nat := none
  span : Int := 0
  deriving DecidableEq, Repr

/-- Go `node`; the embedded `Element` is the pair of `Member` and `Score`. -/
structure node where
  Member : Bytes
  Score : Int
  backward : Option Nat := none
  level : List Level
  deriving DecidableEq, Repr

/-- The embedded `Element` of a node. -/
def node.Element (n : node) : Element := ⟨n.Member, n.Score⟩

/-- Go `skipList`, with the heap its pointers refer to. -/
structure skipList where
  nodes : List node
  header : Nat
  tail : Option Nat
  length : Int
  level : Nat
  deriving DecidableEq, Repr

/-- Go `makeNode`. -/
def makeNode (level : Nat) (score : Int) (member : Bytes) : node :=
  { Member := member, Score := score, backward := none,
    level := List.replicate level { forward := none, span := 0 } }

/-- Go `makeSkipList`. -/
def makeSkipList : skipList :=
  { nodes := [makeNode maxLevel 0 []], header := 0, tail := none, length := 0, level := 1 }

/-- Go `randomLevel`, as a function of the number of consecutive draws that fall
below the threshold (the `int16` counter would wrap only after 32767 of them). -/
def randomLevel (draws : Nat) : Nat :=
  if draws + 1 < maxLevel then draws + 1 else maxLevel

/-- Go `<` on strings: bytewise lexicographic order. -/
def bytesLt : Bytes → Bytes → Bool
  | [], [] => false
  | [], _ :: _ => true
  | _ :: _, [] => false
  | a :: as, b :: bs => decide (a < b) || (decide (a = b) && bytesLt as bs)

/-- The insert and remove test
`n.Score < score || (n.Score == score && n.Member < member)`, on scores that are
not NaN. -/
def keyLess (n : node) (score : Int) (member : Bytes) : Bool :=
  decide (n.Score < score) || (decide (n.Score = score) && bytesLt n.Member member)

/-- The `getRank` test
`n.Score < score || (n.Score == score && n.Member <= member)`, on scores that
are not NaN. -/
def keyLessEq (n : node) (score : Int) (member : Bytes) : Bool :=
  decide (n.Score < score) ||
    (decide (n.Score = score) && (bytesLt n.Member member || decide (n.Member = member)))

/-- The expression `x.level[i]`; `none` is a panic. -/
def getLevel (nodes : List node) (x i : Nat) : Option Level :=
  match nodes[x]? with
  | none => none
  | some n => n.level[i]?

/-- The assignment `*x.level[i] = lv`. -/
def setLevel (nodes : List node) (x i : Nat) (lv : Level) : List node :=
  match nodes[x]? with
  | none => nodes
  | some n => nodes.set x { n with level := n.level.set i lv }

/-- The assignment `x.backward = b`. -/
def setBackward (nodes : List node) (x : Nat) (b : Option Nat) : List node :=
  match nodes[x]? with
  | none => nodes
  | some n => nodes.set x { n with backward := b }

/-- The loop
`for x.level[i].forward != nil && cond { rank += x.level[i].span; x = x.level[i].forward }`
shared by all searches; `cond` sees the level entry of `x`, the forward node and
the rank so far.  Returns the final `x` and `rank`. -/
def walk (nodes : List node) (i : Nat) (cond : Level → node → Int → Bool) :
    Nat → Nat → Int → Res (Nat × Int)
  | 0, _, _ => Res.outOfFuel
  | fuel + 1, x, rank =>
    match getLevel nodes x i with
    | none => Res.panic
    | some lv =>
      match lv.forward with
      | none => Res.ok (x, rank)
      | some f =>
        match nodes[f]? with
        | none => Res.panic
        | some nf =>
          if cond lv nf rank then walk nodes i cond fuel f (rank + lv.span)
          else Res.ok (x, rank)

/-- The loop `for i := k - 1; i >= 0; i--` of `insert`, `remove`,
`RemoveRangeByScore` and `RemoveRangeByRank`: walks level `i` and records the
node reached as `update[i]` and the rank crossed as `rank[i]`.  Entry `i` of the
result is `(update[i], rank[i])`. -/
def search (nodes : List node) (cond : Level → node → Int → Bool) (fuel : Nat) :
    Nat → Nat → Int → Res (List (Nat × Int))
  | 0, _, _ => Res.ok []
  | k + 1, x, rank =>
    match walk nodes k cond fuel x rank with
    | Res.panic => Res.panic
    | Res.outOfFuel => Res.outOfFuel
    | Res.ok (x1, rank1) =>
      match search nodes cond fuel k x1 rank1 with
      | Res.panic => Res.panic
      | Res.outOfFuel => Res.outOfFuel
      | Res.ok rest => Res.ok (rest ++ [(x1, rank1)])

/-- The loop `for i := s.level; i < level; i++` of `insert` that extends the
list: `update[i] = s.header` and `update[i].level[i].span = s.length`.
`cnt` is the number of iterations left. -/
def extendLoop (header : Nat) (length : Int) : Nat → Nat → List node → Option (List node)
  | 0, _, nodes => some nodes
  | cnt + 1, i, nodes =>
    match getLevel nodes header i with
    | none => none
    | some lv => extendLoop header length cnt (i + 1) (setLevel nodes header i { lv with span := length })

/-- The loop `for i := 0; i < level; i++` of `insert` that links the new node
`x`: returns the heap and the level entries of the new node. -/
def linkLoop (x : Nat) (update : List Nat) (rank : List Int) :
    Nat → Nat → List node → List Level → Option (List node × List Level)
  | 0, _, nodes, acc => some (nodes, acc)
  | cnt + 1, i, nodes, acc =>
    match update[i]?, rank[i]?, rank[0]? with
    | some u, some ri, some r0 =>
      match getLevel nodes u i with
      | none => none
      | some lv =>
        linkLoop x update rank cnt (i + 1)
          (setLevel nodes u i { forward := some x, span := (r0 - ri) + 1 })
          (acc ++ [{ forward := lv.forward, span := lv.span - (r0 - ri) }])
    | _, _, _ => none

/-- The loop `for i := level; i < s.level; i++ { update[i].level[i].span++ }`. -/
def bumpLoop (update : List Nat) : Nat → Nat → List node → Option (List node)
  | 0, _, nodes => some nodes
  | cnt + 1, i, nodes =>
    match update[i]? with
    | none => none
    | some u =>
      match getLevel nodes u i with
      | none => none
      | some lv => bumpLoop update cnt (i + 1) (setLevel nodes u i { lv with span := lv.span + 1 })

/-- Go `skipList.insert` on scores that are not NaN (`skipList.insertF` is the
function on any scores), with the value `level` returned by `randomLevel`.
Returns the list and the new node. -/
def skipList.insert (s : skipList) (member : Bytes) (score : Int) (level : Nat) :
    Res (skipList × Nat) :=
  match search s.nodes (fun _ nf _ => keyLess nf score member) (s.nodes.length + 1)
      s.level s.header 0 with
  | Res.panic => Res.panic
  | Res.outOfFuel => Res.outOfFuel
  | Res.ok ur =>
    let update := ur.map Prod.fst ++ List.replicate (level - s.level) s.header
    let rank := ur.map Prod.snd ++ List.replicate (level - s.level) 0
    match extendLoop s.header s.length (level - s.level) s.level s.nodes with
    | none => Res.panic
    | some nodes1 =>
      let level1 := if s.level < level then level else s.level
      let x := nodes1.length
      match linkLoop x update rank level 0 nodes1 [] with
      | none => Res.panic
      | some (nodes2, lvs) =>
        match bumpLoop update (level1 - level) level nodes2 with
        | none => Res.panic
        | some nodes3 =>
          match update[0]?, lvs[0]? with
          | some u0, some lv0 =>
            let newNode : node :=
              { Member := member, Score := score,
                backward := if u0 = s.header then none else some u0,
                level := lvs }
            let nodes4 := nodes3 ++ [newNode]
            match lv0.forward with
            | some f =>
              Res.ok ({ nodes := setBackward nodes4 f (some x), header := s.header,
                        tail := s.tail, length := s.length + 1, level := level1 }, x)
            | none =>
              Res.ok ({ nodes := nodes4, header := s.header,
                        tail := some x, length := s.length + 1, level := level1 }, x)
          | _, _ => Res.panic

/-- The first loop of Go `removeNode`, `for i := 0; i < s.level; i++`. -/
def unlinkLoop (x : Nat) (update : List Nat) : Nat → Nat → List node → Option (List node)
  | 0, _, nodes => some nodes
  | cnt + 1, i, nodes =>
    match update[i]? with
    | none => none
    | some u =>
      match getLevel nodes u i with
      | none => none
      | some lv =>
        if lv.forward = some x then
          match getLevel nodes x i with
          | none => none
          | some lx =>
            unlinkLoop x update cnt (i + 1)
              (setLevel nodes u i { forward := some x, span := lv.span + (lx.span - 1) })
        else
          unlinkLoop x update cnt (i + 1) (setLevel nodes u i { lv with span := lv.span - 1 })

/-- The loop `for s.level > 1 && s.header.level[s.level-1].forward == nil` of
`removeNode`; `none` is a panic. -/
def lowerLoop (nodes : List node) (header : Nat) : Nat → Option Nat
  | 0 => some 0
  | lvl + 1 =>
    if 1 < lvl + 1 then
      match getLevel nodes header lvl with
      | none => none
      | some lv => if lv.forward = none then lowerLoop nodes header lvl else some (lvl + 1)
    else some (lvl + 1)

/-- Go `skipList.removeNode`. -/
def skipList.removeNode (s : skipList) (x : Nat) (update : List Nat) : Res skipList :=
  match unlinkLoop x update s.level 0 s.nodes with
  | none => Res.panic
  | some nodes1 =>
    match nodes1[x]?, getLevel nodes1 x 0 with
    | some nx, some lx0 =>
      let nodes2 :=
        match lx0.forward with
        | some f => setBackward nodes1 f nx.backward
        | none => nodes1
      let tail2 :=
        match lx0.forward with
        | some _ => s.tail
        | none => nx.backward
      match lowerLoop nodes2 s.header s.level with
      | none => Res.panic
      | some level2 =>
        Res.ok { nodes := nodes2, header := s.header, tail := tail2,
                 length := s.length - 1, level := level2 }
    | _, _ => Res.panic

/-- Go `skipList.remove` on scores that are not NaN (`skipList.removeF` is the
function on any scores).  After the search the variable `node` is `update[0]`
(the header when the list has no level). -/
def skipList.remove (s : skipList) (member : Bytes) (score : Int) : Res (skipList × Bool) :=
  match search s.nodes (fun _ nf _ => keyLess nf score member) (s.nodes.length + 1)
      s.level s.header 0 with
  | Res.panic => Res.panic
  | Res.outOfFuel => Res.outOfFuel
  | Res.ok ur =>
    let update := ur.map Prod.fst
    match getLevel s.nodes ((update[0]?).getD s.header) 0 with
    | none => Res.panic
    | some lv =>
      match lv.forward with
      | none => Res.ok (s, false)
      | some x =>
        match s.nodes[x]? with
        | none => Res.panic
        | some nx =>
          if score = nx.Score ∧ nx.Member = member then
            match s.removeNode x update with
            | Res.ok s1 => Res.ok (s1, true)
            | Res.panic => Res.panic
            | Res.outOfFuel => Res.outOfFuel
          else Res.ok (s, false)

/-- The loop `for i := k - 1; i >= 0; i--` of Go `getRank`. -/
def getRankLoop (nodes : List node) (member : Bytes) (score : Int) (fuel : Nat) :
    Nat → Nat → Int → Res Int
  | 0, _, _ => Res.ok 0
  | k + 1, x, rank =>
    match walk nodes k (fun _ nf _ => keyLessEq nf score member) fuel x rank with
    | Res.panic => Res.panic
    | Res.outOfFuel => Res.outOfFuel
    | Res.ok (x1, rank1) =>
      match nodes[x1]? with
      | none => Res.panic
      | some n1 =>
        if n1.Member = member then Res.ok rank1
        else getRankLoop nodes member score fuel k x1 rank1

/-- Go `skipList.getRank`. -/
def skipList.getRank (s : skipList) (member : Bytes) (score : Int) : Res Int :=
  getRankLoop s.nodes member score (s.nodes.length + 1) s.level s.header 0

/-- The loop `for level := k - 1; level >= 0; level--` of Go `getByRank`. -/
def getByRankLoop (nodes : List node) (rank : Int) (fuel : Nat) :
    Nat → Nat → Int → Res (Option Nat)
  | 0, _, _ => Res.ok none
  | k + 1, n, i =>
    match walk nodes k (fun lv _ r => decide (r + lv.span ≤ rank)) fuel n i with
    | Res.panic => Res.panic
    | Res.outOfFuel => Res.outOfFuel
    | Res.ok (n1, i1) =>
      if i1 = rank then Res.ok (some n1)
      else getByRankLoop nodes rank fuel k n1 i1

/-- Go `skipList.getByRank`. -/
def skipList.getByRank (s : skipList) (rank : Int) : Res (Option Nat) :=
  getByRankLoop s.nodes rank (s.nodes.length + 1) s.level s.header 0

/-- Modelled from the spec: the Go type `ScoreBorder` of border.go.  §4.B: "A
border is (value: f64 | ±∞, exclude: bool)".  `Value` is a score, `-infScore`
for −∞ and `infScore` for +∞. -/
structure ScoreBorder where
  Value : Int
  Exclude : Bool
  deriving DecidableEq, Repr

/-- Modelled from the spec: §4.B "`less(x)` is true iff the border is strictly
below x (or below-or-equal when inclusive)", with the comparisons of
`float64`. -/
def ScoreBorder.less (b : ScoreBorder) (x : Int) : Bool :=
  if b.Exclude then f64lt b.Value x else f64le b.Value x

/-- Modelled from the spec: §4.B "Symmetric for `greater`": the border is
strictly above x (or above-or-equal when inclusive), with the comparisons of
`float64`. -/
def ScoreBorder.greater (b : ScoreBorder) (x : Int) : Bool :=
  if b.Exclude then f64lt x b.Value else f64le x b.Value

/-- The loop `for node != nil ...` of `RemoveRangeByScore` and
`RemoveRangeByRank` that removes the nodes in range.  `go` is the test that
keeps the loop running, on the node and on the rank `i` of the iteration:
`max.greater(node.Score)` for the first and `i < stop` for the second. -/
def removeLoop (update : List Nat) (go : node → Int → Bool) :
    Nat → skipList → Option Nat → Int → List Element → Res (skipList × List Element)
  | 0, _, _, _, _ => Res.outOfFuel
  | _ + 1, s, none, _, removed => Res.ok (s, removed)
  | fuel + 1, s, some x, i, removed =>
    match s.nodes[x]? with
    | none => Res.panic
    | some nx =>
      if go nx i then
        match nx.level[0]? with
        | none => Res.panic
        | some lv =>
          match s.removeNode x update with
          | Res.panic => Res.panic
          | Res.outOfFuel => Res.outOfFuel
          | Res.ok s1 =>
            removeLoop update go fuel s1 lv.forward (i + 1) (removed ++ [nx.Element])
      else Res.ok (s, removed)

/-- Go `skipList.RemoveRangeByScore`. -/
def skipList.RemoveRangeByScore (s : skipList) (min max : ScoreBorder) :
    Res (skipList × List Element) :=
  match search s.nodes (fun _ nf _ => !min.less nf.Score) (s.nodes.length + 1)
      s.level s.header 0 with
  | Res.panic => Res.panic
  | Res.outOfFuel => Res.outOfFuel
  | Res.ok ur =>
    let update := ur.map Prod.fst
    match getLevel s.nodes ((update[0]?).getD s.header) 0 with
    | none => Res.panic
    | some lv =>
      removeLoop update (fun n _ => max.greater n.Score) (s.nodes.length + 1) s lv.forward 0 []

/-- Go `skipList.RemoveRangeByRank`. -/
def skipList.RemoveRangeByRank (s : skipList) (start stop : Int) :
    Res (skipList × List Element) :=
  match search s.nodes (fun lv _ r => decide (r + lv.span < start)) (s.nodes.length + 1)
      s.level s.header 0 with
  | Res.panic => Res.panic
  | Res.outOfFuel => Res.outOfFuel
  | Res.ok ur =>
    let update := ur.map Prod.fst
    let i := ((ur.map Prod.snd)[0]?).getD 0
    match getLevel s.nodes ((update[0]?).getD s.header) 0 with
    | none => Res.panic
    | some lv =>
      removeLoop update (fun _ k => decide (k < stop)) (s.nodes.length + 1) s lv.forward (i + 1) []

/-! ### `dataStruct/sortedset`: the sorted set -/

/-- Go `SortedSet`; the map `dict` is an association list with one entry for
each key. -/
structure SortedSet where
  dict : List Element
  skipList : skipList
  deriving DecidableEq, Repr

/-- Map lookup `dict[member]`. -/
def dictGet (d : List Element) (member : Bytes) : Option Element :=
  d.find? (fun e => decide (e.Member = member))

/-- Map deletion `delete(dict, member)`. -/
def dictDelete (d : List Element) (member : Bytes) : List Element :=
  d.filter (fun e => decide (e.Member ≠ member))

/-- Map assignment `dict[e.Member] = e`. -/
def dictSet (d : List Element) (e : Element) : List Element :=
  e :: dictDelete d e.Member

/-- Go `sortedset.Make`. -/
def Make : SortedSet := { dict := [], skipList := makeSkipList }

/-- Go `SortedSet.Add` on scores that are not NaN (`SortedSet.AddF` is the
function on any scores); `draws` decides the level of a new node. -/
def SortedSet.Add (s : SortedSet) (member : Bytes) (score : Int) (draws : Nat) :
    Res (SortedSet × Bool) :=
  let dict1 := dictSet s.dict ⟨member, score⟩
  match dictGet s.dict member with
  | some element =>
    if score ≠ element.Score then
      match s.skipList.remove member element.Score with
      | Res.panic => Res.panic
      | Res.outOfFuel => Res.outOfFuel
      | Res.ok (sl1, _) =>
        match sl1.insert member score (randomLevel draws) with
        | Res.panic => Res.panic
        | Res.outOfFuel => Res.outOfFuel
        | Res.ok (sl2, _) => Res.ok ({ dict := dict1, skipList := sl2 }, false)
    else Res.ok ({ dict := dict1, skipList := s.skipList }, false)
  | none =>
    match s.skipList.insert member score (randomLevel draws) with
    | Res.panic => Res.panic
    | Res.outOfFuel => Res.outOfFuel
    | Res.ok (sl1, _) => Res.ok ({ dict := dict1, skipList := sl1 }, true)

/-- Go `SortedSet.Len`. -/
def SortedSet.Len (s : SortedSet) : Int := (s.dict.length : Int)

/-- Go `SortedSet.Get`; `none` is the result `(nil, false)`. -/
def SortedSet.Get (s : SortedSet) (member : Bytes) : Option Element :=
  dictGet s.dict member

/-- Go `SortedSet.Remove`. -/
def SortedSet.Remove (s : SortedSet) (member : Bytes) : Res (SortedSet × Bool) :=
  match dictGet s.dict member with
  | some v =>
    match s.skipList.remove member v.Score with
    | Res.panic => Res.panic
    | Res.outOfFuel => Res.outOfFuel
    | Res.ok (sl1, _) =>
      Res.ok ({ dict := dictDelete s.dict member, skipList := sl1 }, true)
  | none => Res.ok (s, false)

/-- Go `SortedSet.GetRank`. -/
def SortedSet.GetRank (s : SortedSet) (member : Bytes) (desc : Bool) : Res Int :=
  match dictGet s.dict member with
  | none => Res.ok (-1)
  | some element =>
    match s.skipList.getRank member element.Score with
    | Res.panic => Res.panic
    | Res.outOfFuel => Res.outOfFuel
    | Res.ok r => if desc then Res.ok (s.skipList.length - r) else Res.ok (r - 1)

/-- The loop `for i := 0; i < sliceSize; i++` of Go `SortedSet.ForEach` with the
consumer of `Range`, which stores every element and never stops early.  `cnt`
is the number of iterations left; using a nil `node` is a panic. -/
def forEachLoop (nodes : List node) (desc : Bool) : Nat → Option Nat → Option (List Element)
  | 0, _ => some []
  | cnt + 1, cur =>
    match cur with
    | none => none
    | some x =>
      match nodes[x]? with
      | none => none
      | some n =>
        let next : Option (Option Nat) :=
          if desc then some n.backward
          else
            match n.level[0]? with
            | none => none
            | some lv => some lv.forward
        match next with
        | none => none
        | some nx =>
          match forEachLoop nodes desc cnt nx with
          | none => none
          | some rest => some (n.Element :: rest)

/-- Go `SortedSet.Range`: `make` with a negative size panics, then `ForEach`
checks its arguments, finds the start node and collects `stop - start`
elements. -/
def SortedSet.Range (s : SortedSet) (start stop : Int) (desc : Bool) : Res (List Element) :=
  if stop - start < 0 then Res.panic
  else
    let size := s.Len
    if start < 0 ∨ size ≤ start then Res.panic
    else if stop < start ∨ size < stop then Res.panic
    else
      let first : Res (Option Nat) :=
        if desc then
          if 0 < start then s.skipList.getByRank (size - start) else Res.ok s.skipList.tail
        else
          if 0 < start then s.skipList.getByRank (start + 1)
          else
            match getLevel s.skipList.nodes s.skipList.header 0 with
            | none => Res.panic
            | some lv => Res.ok lv.forward
      match first with
      | Res.panic => Res.panic
      | Res.outOfFuel => Res.outOfFuel
      | Res.ok cur =>
        match forEachLoop s.skipList.nodes desc (stop - start).toNat cur with
        | none => Res.panic
        | some l => Res.ok l

/-- Go `SortedSet.RemoveByScore`. -/
def SortedSet.RemoveByScore (s : SortedSet) (min max : ScoreBorder) : Res (SortedSet × Int) :=
  match s.skipList.RemoveRangeByScore min max with
  | Res.panic => Res.panic
  | Res.outOfFuel => Res.outOfFuel
  | Res.ok (sl1, removed) =>
    Res.ok ({ dict := removed.foldl (fun d e => dictDelete d e.Member) s.dict, skipList := sl1 },
      (removed.length : Int))

/-- Go `SortedSet.RemoveByRank`. -/
def SortedSet.RemoveByRank (s : SortedSet) (start stop : Int) : Res (SortedSet × Int) :=
  match s.skipList.RemoveRangeByRank (start + 1) (stop + 1) with
  | Res.panic => Res.panic
  | Res.outOfFuel => Res.outOfFuel
  | Res.ok (sl1, removed) =>
    Res.ok ({ dict := removed.foldl (fun d e => dictDelete d e.Member) s.dict, skipList := sl1 },
      (removed.length : Int))

/-- A call of one of the methods that change a sorted set. -/
inductive Op where
  | add (member : Bytes) (score : Int) (draws : Nat)
  | remove (member : Bytes)
  | removeByScore (min max : ScoreBorder)
  | removeByRank (start stop : Int)
  deriving DecidableEq, Repr

/-- Apply one call. -/
def SortedSet.step (s : SortedSet) : Op → Res SortedSet
  | Op.add member score draws =>
    match s.Add member score draws with
    | Res.ok (s1, _) => Res.ok s1
    | Res.panic => Res.panic
    | Res.outOfFuel => Res.outOfFuel
  | Op.remove member =>
    match s.Remove member with
    | Res.ok (s1, _) => Res.ok s1
    | Res.panic => Res.panic
    | Res.outOfFuel => Res.outOfFuel
  | Op.removeByScore min max =>
    match s.RemoveByScore min max with
    | Res.ok (s1, _) => Res.ok s1
    | Res.panic => Res.panic
    | Res.outOfFuel => Res.outOfFuel
  | Op.removeByRank start stop =>
    match s.RemoveByRank start stop with
    | Res.ok (s1, _) => Res.ok s1
    | Res.panic => Res.panic
    | Res.outOfFuel => Res.outOfFuel

/-- Apply a sequence of calls in order. -/
def SortedSet.run : List Op → SortedSet → Res SortedSet
  | [], s => Res.ok s
  | op :: ops, s =>
    match s.step op with
    | Res.ok s1 => SortedSet.run ops s1
    | Res.panic => Res.panic
    | Res.outOfFuel => Res.outOfFuel

/-! ### Frames and their wire form -/

/-- The frames of the data model, with arrays as the code holds them: a list of
bulk strings (`MultiBulkReply`). -/
inductive Frame where
  | simpleString (text : Bytes)
  | error (text : Bytes)
  | integer (n : Int)
  | bulkString (b : Bytes)
  | nullBulk
  | array (elems : List Bytes)
  | nullArray
  deriving DecidableEq, Repr

/-- Modelled from the spec: the encoder (`ToBytes` of package `protocol`, which
is not among the sources) for one bulk string, `$<n>CRLF<n bytes>CRLF`. -/
def encodeBulk (b : Bytes) : Bytes :=
  36 :: (decimal b.length ++ CRLF ++ b ++ CRLF)

/-- Modelled from the spec: the encoder (`ToBytes` of package `protocol`, which
is not among the sources) by the wire grammar: `+<text>CRLF`, `-<text>CRLF`,
`:<decimal>CRLF`, `$<n>CRLF<n bytes>CRLF`, `$-1CRLF`, `*<n>CRLF<frame>×n`,
`*-1CRLF`; bulk lengths are the octet length of the payload and arrays emit the
header, then the elements in order. -/
def encode : Frame → Bytes
  | Frame.simpleString text => 43 :: (text ++ CRLF)
  | Frame.error text => 45 :: (text ++ CRLF)
  | Frame.integer n => 58 :: (Itoa n ++ CRLF)
  | Frame.bulkString b => encodeBulk b
  | Frame.nullBulk => [36, 45, 49, 13, 10]
  | Frame.array elems => 42 :: (decimal elems.length ++ CRLF ++ (elems.map encodeBulk).flatten)
  | Frame.nullArray => [42, 45, 49, 13, 10]

/-- The frame a decoded reply stands for. -/
def Reply.toFrame : Reply → Frame
  | Reply.status s => Frame.simpleString s
  | Reply.err s => Frame.error s
  | Reply.int code => Frame.integer code
  | Reply.bulk arg => Frame.bulkString arg
  | Reply.nullBulk => Frame.nullBulk
  | Reply.multiBulk args => Frame.array args
  | Reply.emptyMultiBulk => Frame.array []

/-! ### `aof`: writer, loader and rewrite -/

/-- Go `CmdLine`. -/
abbrev CmdLine := List Bytes

/-- Go `constant.Select`, the text "select". -/
def Select : Bytes := [115, 101, 108, 101, 99, 116]

/-- The command line `utils.ToCmdLine(constant.Select, strconv.Itoa(i))`. -/
def selectCmd (i : Int) : CmdLine := [Select, Itoa i]

/-- The bytes `MakeMultiBulkReply(cmdLine).ToBytes()`. -/
def cmdBytes (cmdLine : CmdLine) : Bytes := encode (Frame.array cmdLine)

/-- The bytes of a sequence of command frames written one after the other. -/
def framesBytes (frames : List CmdLine) : Bytes := (frames.map cmdBytes).flatten

/-- Go `payload` of package `aof`: a queued record. -/
structure payload where
  cmdLine : CmdLine
  dbIndex : Int
  deriving DecidableEq, Repr

/-- The part of Go `Handler` the writer and the rewrite use: the content of the
log file `aofFilename`, to which `aofFile` appends, and `currentDB`. -/
structure Handler where
  aofFile : Bytes
  currentDB : Int
  deriving DecidableEq, Repr

/-- The frames one iteration of the loop of Go `handleAof` writes for the record
`p` when the writer is at `currentDB` and the writes succeed, with the new
`currentDB`. -/
def aofFrames (currentDB : Int) (p : payload) : List CmdLine × Int :=
  if p.dbIndex ≠ currentDB then ([selectCmd p.dbIndex, p.cmdLine], p.dbIndex)
  else ([p.cmdLine], currentDB)

/-- One iteration of the loop of Go `handleAof`, every write succeeding. -/
def Handler.handleRecord (h : Handler) (p : payload) : Handler :=
  { aofFile := h.aofFile ++ framesBytes (aofFrames h.currentDB p).1,
    currentDB := (aofFrames h.currentDB p).2 }

/-- The loop of Go `handleAof` over the records taken from the queue. -/
def Handler.handleRecords (h : Handler) (ps : List payload) : Handler :=
  ps.foldl Handler.handleRecord h

/-- Go `handleAof`: `currentDB` is set to 0, then the queue is served. -/
def Handler.handleAof (h : Handler) (ps : List payload) : Handler :=
  Handler.handleRecords { h with currentDB := 0 } ps

/-- Go `NewAOFHandler` on a log file with content `file`: the file is opened
for appending and the writer goroutine is started. -/
def NewAOFHandler (file : Bytes) : Handler := { aofFile := file, currentDB := 0 }

/-- The reader Go `LoadAof(maxBytes)` hands to the decoder: the file behind
`io.LimitReader` when `maxBytes > 0`, the whole file otherwise. -/
def loadReader (file : Bytes) (maxBytes : Int) : Bytes :=
  if 0 < maxBytes then file.take maxBytes.toNat else file

/-- The loop `for p := range ch` of Go `LoadAof`: the command lines handed to
`db.Exec`, in order. -/
def loadLoop : List Payload → List CmdLine
  | [] => []
  | p :: ps =>
    match p.Err with
    | some e => if e = Error.EOF then [] else loadLoop ps
    | none =>
      match p.Data with
      | some (Reply.multiBulk args) => args :: loadLoop ps
      | _ => loadLoop ps

/-- Go `LoadAof(maxBytes)` on a log file with content `file`: the command lines
it executes. -/
def LoadAof (file : Bytes) (maxBytes : Int) : List CmdLine :=
  loadLoop (parse0 (loadReader file maxBytes)).payloads

/-- Go `RewriteCtx`; `tmpFile` is the content of the temporary file. -/
structure RewriteCtx where
  tmpFile : Bytes
  fileSize : Int
  dbIdx : Int
  deriving DecidableEq, Repr

/-- Go `StartRewrite` (sync and file creation succeeding). -/
def Handler.StartRewrite (h : Handler) : RewriteCtx :=
  { tmpFile := [], fileSize := (h.aofFile.length : Int), dbIdx := h.currentDB }

/-- The frames the callback of `ForEach` in Go `DoRewrite` writes for one key:
the command of `EntityToCmd` unless nil, then the command of `MakeExpireCmd`
when the key has an expiration. -/
def dumpEntry (e : Option CmdLine × Option CmdLine) : List CmdLine :=
  e.1.toList ++ e.2.toList

/-- The frames Go `DoRewrite` writes: for each database `i` a `select i`, then
the dump of its keys.  `snapshot loaded i` stands for the keys of database `i`
of the temporary database after executing the command lines `loaded`, each with
its `EntityToCmd` command and its expiration command. -/
def dumpFrames (databases : Nat)
    (snapshot : List CmdLine → Nat → List (Option CmdLine × Option CmdLine))
    (loaded : List CmdLine) : List CmdLine :=
  (List.range databases).flatMap
    (fun i => selectCmd (i : Int) :: (snapshot loaded i).flatMap dumpEntry)

/-- Go `DoRewrite` (every write succeeding), with `live` the content of the log
file at the time `LoadAof` reads it. -/
def DoRewrite (databases : Nat)
    (snapshot : List CmdLine → Nat → List (Option CmdLine × Option CmdLine))
    (live : Bytes) (ctx : RewriteCtx) : RewriteCtx :=
  { ctx with
    tmpFile := ctx.tmpFile ++
      framesBytes (dumpFrames databases snapshot (LoadAof live ctx.fileSize)) }

/-- Go `FinishRewrite` (every file operation succeeding): `select dbIdx` and the
log from offset `fileSize` are appended to the temporary file, which replaces
the log; then `select currentDB` is appended. -/
def Handler.FinishRewrite (h : Handler) (ctx : RewriteCtx) : Handler :=
  { aofFile := ctx.tmpFile ++ cmdBytes (selectCmd ctx.dbIdx) ++
      h.aofFile.drop ctx.fileSize.toNat ++ cmdBytes (selectCmd h.currentDB),
    currentDB := h.currentDB }

/-! ### Linear replay of a log, in the words of the specification -/

/-- ASCII lower case of a byte. -/
def toLower (b : Nat) : Nat := if 65 ≤ b ∧ b ≤ 90 then b + 32 else b

/-- A frame whose command name is `select`, in any letter case. -/
def isSelect (cmd : CmdLine) : Bool :=
  match cmd with
  | [] => false
  | name :: _ => decide (name.map toLower = Select)

/-- The database index of a `SELECT i` frame. -/
def selectArg (cmd : CmdLine) : Option Int :=
  match cmd with
  | [_, arg] => Atoi arg
  | _ => none

/-- Linear replay from database `db`: a `SELECT i` frame switches to database
`i`, every other frame is a command run in the current database.  Returns the
commands run, each with its database. -/
def linearReplay (db : Int) : List CmdLine → List (Int × CmdLine)
  | [] => []
  | f :: fs =>
    if isSelect f then
      match selectArg f with
      | some i => linearReplay i fs
      | none => linearReplay db fs
    else (db, f) :: linearReplay db fs

/-- The database selected at the end of a linear replay from database `db`. -/
def finalDB (db : Int) : List CmdLine → Int
  | [] => db
  | f :: fs =>
    if isSelect f then
      match selectArg f with
      | some i => finalDB i fs
      | none => finalDB db fs
    else finalDB db fs


/-! ### Frames the decoder reads back -/

/-- A bulk payload the decoder reads back: not empty, not starting with `$`, and
of a length that fits the 64-bit buffer size `bulkLen + 2`. -/
def bulkOk (p : Bytes) : Prop :=
  p ≠ [] ∧ p.head? ≠ some 36 ∧ p.length + 2 < 2 ^ 63

instance (p : Bytes) : Decidable (bulkOk p) :=
  inferInstanceAs (Decidable (p ≠ [] ∧ p.head? ≠ some 36 ∧ p.length + 2 < 2 ^ 63))

/-- The frames of the restricted round trip: a simple string or error without CR
and LF, a 64-bit integer, the null bulk, a bulk string with a payload as in
`bulkOk`, and an array of fewer than 2^32 such bulk strings (the empty array
included). -/
def Frame.canonical : Frame → Prop
  | Frame.simpleString text => 13 ∉ text ∧ 10 ∉ text
  | Frame.error text => 13 ∉ text ∧ 10 ∉ text
  | Frame.integer n => -(2 : Int) ^ 63 ≤ n ∧ n < (2 : Int) ^ 63
  | Frame.bulkString b => bulkOk b
  | Frame.nullBulk => True
  | Frame.array elems => elems.length < 2 ^ 32 ∧ ∀ p ∈ elems, bulkOk p
  | Frame.nullArray => False

instance : (F : Frame) → Decidable F.canonical
  | Frame.simpleString text => inferInstanceAs (Decidable (13 ∉ text ∧ 10 ∉ text))
  | Frame.error text => inferInstanceAs (Decidable (13 ∉ text ∧ 10 ∉ text))
  | Frame.integer n => inferInstanceAs (Decidable (-(2 : Int) ^ 63 ≤ n ∧ n < (2 : Int) ^ 63))
  | Frame.bulkString b => inferInstanceAs (Decidable (bulkOk b))
  | Frame.nullBulk => inferInstanceAs (Decidable True)
  | Frame.array elems =>
    inferInstanceAs (Decidable (elems.length < 2 ^ 32 ∧ ∀ p ∈ elems, bulkOk p))
  | Frame.nullArray => inferInstanceAs (Decidable False)

/-- The state of the decoder inside an array of `n` elements of which `done`
have been read. -/
def arrayState (n : Nat) (done : List Bytes) : readState :=
  { readingMultiLine := true, expectedArgsCount := (n : Int), msgType := 42, args := done,
    bulkLen := 0 }


/-! ### Observations on a skiplist -/

/-- The sum of the span fields along the forward chain of level `i` that starts
at node `x`; `none` when the chain is broken or longer than `fuel`. -/
def spanSum (nodes : List node) (i : Nat) : Nat → Option Nat → Option Int
  | 0, _ => none
  | _ + 1, none => some 0
  | fuel + 1, some x =>
    match getLevel nodes x i with
    | none => none
    | some lv =>
      match spanSum nodes i fuel lv.forward with
      | none => none
      | some t => some (lv.span + t)

/-! ### Observations on the log writer -/

/-- The values of a Go `int` on a 64-bit platform. -/
def int64 (i : Int) : Prop := -(2 : Int) ^ 63 ≤ i ∧ i < (2 : Int) ^ 63

instance (i : Int) : Decidable (int64 i) :=
  inferInstanceAs (Decidable (-(2 : Int) ^ 63 ≤ i ∧ i < (2 : Int) ^ 63))

/-- The frames for a sequence of records in which a `select` frame goes before
exactly those records whose `dbIndex` differs from the current database of the
writer, which is `db` before the first record and the `dbIndex` of the
preceding record after that. -/
def framesFrom (db : Int) (ps : List payload) : List CmdLine :=
  (List.zip (db :: ps.map payload.dbIndex) ps).flatMap
    (fun cp => if cp.2.dbIndex ≠ cp.1 then [selectCmd cp.2.dbIndex, cp.2.cmdLine]
               else [cp.2.cmdLine])

/-- The records as a linear replay presents them: each command with its
database. -/
def recordsRun (ps : List payload) : List (Int × CmdLine) :=
  ps.map (fun p => (p.dbIndex, p.cmdLine))

/-! ### The shape of a well-formed skiplist

The invariant below describes the forward pointers of a skiplist through a
list `order` of its nodes (all but the header) in the order of the level-0
chain: at level `i` every node points to the next node of the list that has
more than `i` levels. -/

/-- A sort key: score, then member. -/
abbrev Key := Int × Bytes

/-- The order of the skiplist on keys: `score` first, then `member`. -/
def keyLt (a b : Key) : Bool :=
  decide (a.1 < b.1) || (decide (a.1 = b.1) && bytesLt a.2 b.2)

/-- The number of levels of node `x` (0 when `x` is not allocated). -/
def htOf (nodes : List node) (x : Nat) : Nat :=
  match nodes[x]? with
  | some n => n.level.length
  | none => 0

/-- The forward pointer of node `x` at level `i`. -/
def fwdOf (nodes : List node) (x i : Nat) : Option Nat :=
  match getLevel nodes x i with
  | some lv => lv.forward
  | none => none

/-- The key of node `x`. -/
def keyAt (nodes : List node) (x : Nat) : Option Key :=
  match nodes[x]? with
  | some n => some (n.Score, n.Member)
  | none => none

/-- The first node of a list with more than `i` levels. -/
def nextAt (ht : Nat → Nat) (i : Nat) : List Nat → Option Nat
  | [] => none
  | y :: ys => if i < ht y then some y else nextAt ht i ys

/-- Every node of the list points, at each of its levels, to the next node of
the list that reaches that level. -/
def Linked (ht : Nat → Nat) (fwd : Nat → Nat → Option Nat) : List Nat → Prop
  | [] => True
  | x :: rest => (∀ i, i < ht x → fwd x i = nextAt ht i rest) ∧ Linked ht fwd rest

/-- The last node with more than `i` levels among `x` and the list after it
(`x` when there is none in the list). -/
def lastTall (ht : Nat → Nat) (i : Nat) : Nat → List Nat → Nat
  | x, [] => x
  | x, y :: ys => if i < ht y then lastTall ht i y ys else lastTall ht i x ys

/-- The keys along the list never decrease. -/
def SortedKeys (key : Nat → Option Key) (order : List Nat) : Prop :=
  order.Pairwise (fun x y => ∀ kx ky, key x = some kx → key y = some ky → keyLt ky kx = false)

/-- The invariant of a skiplist whose nodes, in the order of the level-0 chain,
are `order`. -/
structure skipList.WF (s : skipList) (order : List Nat) : Prop where
  header : s.header = 0
  count : s.nodes.length = order.length + 1
  htHeader : htOf s.nodes 0 = maxLevel
  levelPos : 1 ≤ s.level
  levelLe : s.level ≤ maxLevel
  valid : ∀ x ∈ order, 0 < x ∧ x < s.nodes.length
  nodup : order.Nodup
  ht : ∀ x ∈ order, 1 ≤ htOf s.nodes x ∧ htOf s.nodes x ≤ s.level
  linked : Linked (htOf s.nodes) (fwdOf s.nodes) (0 :: order)
  sorted : SortedKeys (keyAt s.nodes) order

/-- The invariant of a sorted set: the skiplist is well formed and the map has
one entry for each key. -/
def SortedSet.Inv (s : SortedSet) : Prop :=
  (∃ order, s.skipList.WF order) ∧ (s.dict.map Element.Member).Nodup

/-- Two heaps with the same nodes up to spans and backward pointers. -/
def SameShape (a b : List node) : Prop :=
  a.length = b.length ∧ (∀ y, htOf a y = htOf b y) ∧ (∀ y j, fwdOf a y j = fwdOf b y j) ∧
    (∀ y, keyAt a y = keyAt b y)

/-! ### Replies for frames -/

/-- The reply the decoder builds for a frame it reads back (the empty array is
the reply `EmptyMultiBulkReply`). -/
def Frame.toReply : Frame → Reply
  | Frame.simpleString text => Reply.status text
  | Frame.error text => Reply.err text
  | Frame.integer n => Reply.int n
  | Frame.bulkString b => Reply.bulk b
  | Frame.nullBulk => Reply.nullBulk
  | Frame.array [] => Reply.emptyMultiBulk
  | Frame.array (p :: t) => Reply.multiBulk (p :: t)
  | Frame.nullArray => Reply.emptyMultiBulk

/-- The command line a frame of the log stands for: a non-empty array. -/
def Frame.cmdLine? : Frame → Option CmdLine
  | Frame.array (p :: t) => some (p :: t)
  | _ => none

/-! ### `lib/utils` and `dataStruct/list`: the linked list

Nodes live in a heap `nodes`; a `*node` is `none` (nil) or the position of the
node in the heap.  A new node is allocated at the end of the heap; removed nodes
stay in the heap, unreferenced.  The receiver `list` is never nil. -/

namespace utils

/-- The values stored through `interface{}`: the nil interface, a `[]byte`
(`none` for the nil slice) and an `int`. -/
inductive Val where
  | nil
  | bytes (b : Option Bytes)
  | int (i : Int)
  deriving DecidableEq, Repr

/-- The loop `for i := 0; i < size; i++` of Go `BytesEquals` on two slices of the
same length. -/
def bytesEqualsLoop : Bytes → Bytes → Bool
  | a :: as, b :: bs => if a ≠ b then false else bytesEqualsLoop as bs
  | _, _ => true

/-- Go `utils.BytesEquals`. -/
def BytesEquals (a b : Option Bytes) : Bool :=
  if (a = none ∧ b ≠ none) ∨ (a ≠ none ∧ b = none) then false
  else if (a.getD []).length ≠ (b.getD []).length then false
  else bytesEqualsLoop (a.getD []) (b.getD [])

/-- Go `utils.Equals`: `BytesEquals` on two `[]byte`, the comparison `a == b` of
the interface values otherwise. -/
def Equals (a b : Val) : Bool :=
  match a, b with
  | Val.bytes sa, Val.bytes sb => BytesEquals sa sb
  | _, _ => decide (a = b)

end utils

namespace list

open utils

/-- Go `node` of package `list`. -/
structure node where
  val : Val
  prev : Option Nat := none
  next : Option Nat := none
  deriving DecidableEq, Repr

/-- Go `LinkedList`, with the heap its pointers refer to. -/
structure LinkedList where
  nodes : List node := []
  first : Option Nat := none
  last : Option Nat := none
  size : Int := 0
  deriving DecidableEq, Repr

/-- The assignment `x.next = b`. -/
def setNext (nodes : List node) (x : Nat) (b : Option Nat) : List node :=
  match nodes[x]? with
  | none => nodes
  | some n => nodes.set x { n with next := b }

/-- The assignment `x.prev = b`. -/
def setPrev (nodes : List node) (x : Nat) (b : Option Nat) : List node :=
  match nodes[x]? with
  | none => nodes
  | some n => nodes.set x { n with prev := b }

/-- The assignment `x.val = v`. -/
def setVal (nodes : List node) (x : Nat) (v : Val) : List node :=
  match nodes[x]? with
  | none => nodes
  | some n => nodes.set x { n with val := v }

/-- Go `LinkedList.Add`. -/
def LinkedList.Add (l : LinkedList) (val : Val) : LinkedList :=
  match l.last with
  | none =>
    { nodes := l.nodes ++ [{ val := val, prev := none, next := none }],
      first := some l.nodes.length, last := some l.nodes.length, size := l.size + 1 }
  | some t =>
    { nodes := setNext (l.nodes ++ [{ val := val, prev := some t, next := none }]) t
        (some l.nodes.length),
      first := l.first, last := some l.nodes.length, size := l.size + 1 }

/-- The statement `n = n.next`, `k` times; `none` is a nil dereference. -/
def stepNext (nodes : List node) : Nat → Option Nat → Option (Option Nat)
  | 0, n => some n
  | k + 1, n =>
    match n with
    | none => none
    | some x =>
      match nodes[x]? with
      | none => none
      | some nd => stepNext nodes k nd.next

/-- The statement `n = n.prev`, `k` times; `none` is a nil dereference. -/
def stepPrev (nodes : List node) : Nat → Option Nat → Option (Option Nat)
  | 0, n => some n
  | k + 1, n =>
    match n with
    | none => none
    | some x =>
      match nodes[x]? with
      | none => none
      | some nd => stepPrev nodes k nd.prev

/-- Go `LinkedList.find`: forward from `first` with `index` steps when
`index < size/2`, backward from `last` with `size - 1 - index` steps otherwise
(a loop whose bound is not positive makes no step). -/
def LinkedList.find (l : LinkedList) (index : Int) : Option (Option Nat) :=
  if index < Int.tdiv l.size 2 then stepNext l.nodes index.toNat l.first
  else stepPrev l.nodes (l.size - 1 - index).toNat l.last

/-- Go `LinkedList.Get`. -/
def LinkedList.Get (l : LinkedList) (index : Int) : Res Val :=
  if index < 0 ∨ l.size ≤ index then Res.panic
  else
    match l.find index with
    | some (some x) =>
      match l.nodes[x]? with
      | some n => Res.ok n.val
      | none => Res.panic
    | _ => Res.panic

/-- Go `LinkedList.Set`. -/
def LinkedList.Set (l : LinkedList) (index : Int) (val : Val) : Res LinkedList :=
  if index < 0 ∨ l.size ≤ index then Res.panic
  else
    match l.find index with
    | some (some x) =>
      match l.nodes[x]? with
      | some _ => Res.ok { l with nodes := setVal l.nodes x val }
      | none => Res.panic
    | _ => Res.panic

/-- Go `LinkedList.Insert`. -/
def LinkedList.Insert (l : LinkedList) (index : Int) (val : Val) : Res LinkedList :=
  if index < 0 ∨ l.size < index then Res.panic
  else if index = l.size then Res.ok (l.Add val)
  else
    match l.find index with
    | some (some pivot) =>
      match l.nodes[pivot]? with
      | none => Res.panic
      | some pn =>
        let nodes1 := l.nodes ++ [{ val := val, prev := pn.prev, next := some pivot }]
        match pn.prev with
        | none =>
          Res.ok { nodes := setPrev nodes1 pivot (some l.nodes.length),
                   first := some l.nodes.length, last := l.last, size := l.size + 1 }
        | some q =>
          match nodes1[q]? with
          | none => Res.panic
          | some _ =>
            Res.ok { nodes := setPrev (setNext nodes1 q (some l.nodes.length)) pivot
                       (some l.nodes.length),
                     first := l.first, last := l.last, size := l.size + 1 }
    | _ => Res.panic

/-- Go `LinkedList.removeNode`; `none` is a nil dereference. -/
def LinkedList.removeNode (l : LinkedList) (x : Nat) : Option LinkedList :=
  match l.nodes[x]? with
  | none => none
  | some n =>
    let step1 : Option (List node × Option Nat) :=
      match n.prev with
      | none => some (l.nodes, n.next)
      | some p =>
        match l.nodes[p]? with
        | none => none
        | some _ => some (setNext l.nodes p n.next, l.first)
    match step1 with
    | none => none
    | some (nodes1, first1) =>
      match nodes1[x]? with
      | none => none
      | some n1 =>
        let step2 : Option (List node × Option Nat) :=
          match n1.next with
          | none => some (nodes1, n1.prev)
          | some q =>
            match nodes1[q]? with
            | none => none
            | some _ => some (setPrev nodes1 q n1.prev, l.last)
        match step2 with
        | none => none
        | some (nodes2, last2) =>
          some { nodes := setNext (setPrev nodes2 x none) x none,
                 first := first1, last := last2, size := l.size - 1 }

/-- Go `LinkedList.Remove`: the list and the value removed. -/
def LinkedList.Remove (l : LinkedList) (index : Int) : Res (LinkedList × Val) :=
  if index < 0 ∨ l.size ≤ index then Res.panic
  else
    match l.find index with
    | some (some x) =>
      match l.removeNode x with
      | none => Res.panic
      | some l1 =>
        match l1.nodes[x]? with
        | some n => Res.ok (l1, n.val)
        | none => Res.panic
    | _ => Res.panic

/-- Go `LinkedList.RemoveLast`: the list and the value removed (the nil
interface for an empty list). -/
def LinkedList.RemoveLast (l : LinkedList) : Res (LinkedList × Val) :=
  match l.last with
  | none => Res.ok (l, Val.nil)
  | some x =>
    match l.removeNode x with
    | none => Res.panic
    | some l1 =>
      match l1.nodes[x]? with
      | some n => Res.ok (l1, n.val)
      | none => Res.panic

/-- The loop `for n != nil` of Go `RemoveAllByVal`. -/
def removeAllLoop (val : Val) : Nat → LinkedList → Option Nat → Int → Res (LinkedList × Int)
  | 0, _, _, _ => Res.outOfFuel
  | _ + 1, l, none, removed => Res.ok (l, removed)
  | fuel + 1, l, some x, removed =>
    match l.nodes[x]? with
    | none => Res.panic
    | some n =>
      if Equals n.val val then
        match l.removeNode x with
        | none => Res.panic
        | some l1 => removeAllLoop val fuel l1 n.next (removed + 1)
      else removeAllLoop val fuel l n.next removed

/-- Go `LinkedList.RemoveAllByVal`: the list and the number of nodes removed. -/
def LinkedList.RemoveAllByVal (l : LinkedList) (val : Val) : Res (LinkedList × Int) :=
  removeAllLoop val (l.nodes.length + 1) l l.first 0

/-- The loop `for n != nil` of Go `RemoveByVal`, with the test
`removed == count` after each node. -/
def removeByValLoop (val : Val) (count : Int) :
    Nat → LinkedList → Option Nat → Int → Res (LinkedList × Int)
  | 0, _, _, _ => Res.outOfFuel
  | _ + 1, l, none, removed => Res.ok (l, removed)
  | fuel + 1, l, some x, removed =>
    match l.nodes[x]? with
    | none => Res.panic
    | some n =>
      if Equals n.val val then
        match l.removeNode x with
        | none => Res.panic
        | some l1 =>
          if removed + 1 = count then Res.ok (l1, removed + 1)
          else removeByValLoop val count fuel l1 n.next (removed + 1)
      else
        if removed = count then Res.ok (l, removed)
        else removeByValLoop val count fuel l n.next removed

/-- Go `LinkedList.RemoveByVal`: the list and the number of nodes removed. -/
def LinkedList.RemoveByVal (l : LinkedList) (val : Val) (count : Int) :
    Res (LinkedList × Int) :=
  removeByValLoop val count (l.nodes.length + 1) l l.first 0

/-- Go `LinkedList.Len`. -/
def LinkedList.Len (l : LinkedList) : Int := l.size

/-- The loop `for n != nil` of Go `ForEach`; the consumer is a function of the
index, the value and the state it has built so far, and returns the new state
and whether to go on. -/
def forEachLoop {σ : Type} (consumer : Int → Val → σ → σ × Bool) (nodes : List node) :
    Nat → Option Nat → Int → σ → Res σ
  | 0, _, _, _ => Res.outOfFuel
  | _ + 1, none, _, st => Res.ok st
  | fuel + 1, some x, i, st =>
    match nodes[x]? with
    | none => Res.panic
    | some n =>
      if (consumer i n.val st).2 then forEachLoop consumer nodes fuel n.next (i + 1)
        (consumer i n.val st).1
      else Res.ok (consumer i n.val st).1

/-- Go `LinkedList.ForEach`. -/
def LinkedList.ForEach {σ : Type} (l : LinkedList) (consumer : Int → Val → σ → σ × Bool)
    (init : σ) : Res σ :=
  forEachLoop consumer l.nodes (l.nodes.length + 1) l.first 0 init

/-- The loop `for n != nil` of Go `Range`; `acc` holds the values stored in
`slice[0..sliceIndex)`. -/
def rangeLoop (start end_ : Int) (nodes : List node) :
    Nat → Option Nat → Int → List Val → Res (List Val)
  | 0, _, _, _ => Res.outOfFuel
  | _ + 1, none, _, acc => Res.ok acc
  | fuel + 1, some x, i, acc =>
    match nodes[x]? with
    | none => Res.panic
    | some n =>
      if start ≤ i ∧ i < end_ then rangeLoop start end_ nodes fuel n.next (i + 1) (acc ++ [n.val])
      else if end_ ≤ i then Res.ok acc
      else rangeLoop start end_ nodes fuel n.next (i + 1) acc

/-- Go `LinkedList.Range`: the slice of `end - start` entries, those not stored
by the loop being nil. -/
def LinkedList.Range (l : LinkedList) (start end_ : Int) : Res (List Val) :=
  if start < 0 ∨ l.size ≤ start then Res.panic
  else if end_ < start ∨ l.size < end_ then Res.panic
  else
    match rangeLoop start end_ l.nodes (l.nodes.length + 1) l.first 0 [] with
    | Res.ok acc => Res.ok (acc ++ List.replicate ((end_ - start).toNat - acc.length) Val.nil)
    | Res.panic => Res.panic
    | Res.outOfFuel => Res.outOfFuel

/-- Go `list.Make`. -/
def Make (vals : List Val) : LinkedList :=
  vals.foldl LinkedList.Add {}

/-- The values met by `ForEach` with a consumer that keeps every value and
always goes on. -/
def LinkedList.toList (l : LinkedList) : Res (List Val) :=
  l.ForEach (fun _ v acc => (acc ++ [v], true)) []

/-- The walk `for n := list.last; n != nil; n = n.prev`. -/
def backLoop (nodes : List node) : Nat → Option Nat → List Val → Res (List Val)
  | 0, _, _ => Res.outOfFuel
  | _ + 1, none, acc => Res.ok acc
  | fuel + 1, some x, acc =>
    match nodes[x]? with
    | none => Res.panic
    | some n => backLoop nodes fuel n.prev (acc ++ [n.val])

/-- The values met when the list is walked backward from `last` along `prev`. -/
def LinkedList.toListBack (l : LinkedList) : Res (List Val) :=
  backLoop l.nodes (l.nodes.length + 1) l.last []

/-- A call of one of the methods that change a list. -/
inductive Op where
  | add (val : Val)
  | set (index : Int) (val : Val)
  | insert (index : Int) (val : Val)
  | remove (index : Int)
  | removeLast
  | removeAllByVal (val : Val)
  | removeByVal (val : Val) (count : Int)
  deriving DecidableEq, Repr

/-- Apply one call. -/
def LinkedList.step (l : LinkedList) : Op → Res LinkedList
  | Op.add val => Res.ok (l.Add val)
  | Op.set index val => l.Set index val
  | Op.insert index val => l.Insert index val
  | Op.remove index =>
    match l.Remove index with
    | Res.ok (l1, _) => Res.ok l1
    | Res.panic => Res.panic
    | Res.outOfFuel => Res.outOfFuel
  | Op.removeLast =>
    match l.RemoveLast with
    | Res.ok (l1, _) => Res.ok l1
    | Res.panic => Res.panic
    | Res.outOfFuel => Res.outOfFuel
  | Op.removeAllByVal val =>
    match l.RemoveAllByVal val with
    | Res.ok (l1, _) => Res.ok l1
    | Res.panic => Res.panic
    | Res.outOfFuel => Res.outOfFuel
  | Op.removeByVal val count =>
    match l.RemoveByVal val count with
    | Res.ok (l1, _) => Res.ok l1
    | Res.panic => Res.panic
    | Res.outOfFuel => Res.outOfFuel

/-- Apply a sequence of calls in order. -/
def LinkedList.run : List Op → LinkedList → Res LinkedList
  | [], l => Res.ok l
  | op :: ops, l =>
    match l.step op with
    | Res.ok l1 => LinkedList.run ops l1
    | Res.panic => Res.panic
    | Res.outOfFuel => Res.outOfFuel

/-- The invariant of a list whose nodes are, from head to tail, `ids`, with the
values `xs`. -/
structure LinkedList.Holds (l : LinkedList) (ids : List Nat) (xs : List Val) : Prop where
  nodup : ids.Nodup
  len : xs.length = ids.length
  size : l.size = (ids.length : Int)
  first : l.first = ids[0]?
  last : l.last = ids[ids.length - 1]?
  node : ∀ k x, ids[k]? = some x → ∃ n, l.nodes[x]? = some n ∧ some n.val = xs[k]? ∧
    n.next = ids[k + 1]? ∧ n.prev = if k = 0 then none else ids[k - 1]?

/-- The naive lookup of the node at `index`: `index` steps forward from the
head. -/
def LinkedList.findNaive (l : LinkedList) (index : Int) : Option (Option Nat) :=
  stepNext l.nodes index.toNat l.first

/-- The first `c` elements equal to `v` are taken out of the list. -/
def eraseFirstN (v : Val) : Nat → List Val → List Val
  | 0, xs => xs
  | _ + 1, [] => []
  | c + 1, x :: t => if x = v then eraseFirstN v c t else x :: eraseFirstN v (c + 1) t

end list

/-! ### `dataStruct/sortedset`: ranges by score -/

/-- Go `skipList.hasInRange`; `none` is a panic. -/
def skipList.hasInRange (s : skipList) (min max : ScoreBorder) : Option Bool :=
  if f64lt max.Value min.Value = true ∨
      (f64eq min.Value max.Value = true ∧ (min.Exclude = true ∨ max.Exclude = true)) then
    some false
  else
    match s.tail with
    | none => some false
    | some t =>
      match s.nodes[t]? with
      | none => none
      | some nt =>
        if !min.less nt.Score then some false
        else
          match getLevel s.nodes s.header 0 with
          | none => none
          | some lv =>
            match lv.forward with
            | none => some false
            | some f =>
              match s.nodes[f]? with
              | none => none
              | some nf => if !max.greater nf.Score then some false else some true

/-- Go `skipList.getFirstInScoreRange`: the node, or nil. -/
def skipList.getFirstInScoreRange (s : skipList) (min max : ScoreBorder) : Res (Option Nat) :=
  match s.hasInRange min max with
  | none => Res.panic
  | some false => Res.ok none
  | some true =>
    match search s.nodes (fun _ nf _ => !min.less nf.Score) (s.nodes.length + 1)
        s.level s.header 0 with
    | Res.panic => Res.panic
    | Res.outOfFuel => Res.outOfFuel
    | Res.ok ur =>
      match getLevel s.nodes ((((ur.map Prod.fst)[0]?).getD s.header)) 0 with
      | none => Res.panic
      | some lv =>
        match lv.forward with
        | none => Res.panic
        | some f =>
          match s.nodes[f]? with
          | none => Res.panic
          | some nf => if !max.greater nf.Score then Res.ok none else Res.ok (some f)

/-- Go `skipList.getLastInScoreRange`: the node, or nil. -/
def skipList.getLastInScoreRange (s : skipList) (min max : ScoreBorder) : Res (Option Nat) :=
  match s.hasInRange min max with
  | none => Res.panic
  | some false => Res.ok none
  | some true =>
    match search s.nodes (fun _ nf _ => max.greater nf.Score) (s.nodes.length + 1)
        s.level s.header 0 with
    | Res.panic => Res.panic
    | Res.outOfFuel => Res.outOfFuel
    | Res.ok ur =>
      match s.nodes[(((ur.map Prod.fst)[0]?).getD s.header)]? with
      | none => Res.panic
      | some n =>
        if !min.less n.Score then Res.ok none
        else Res.ok (some (((ur.map Prod.fst)[0]?).getD s.header))

/-- The statement `node = node.backward` (when `desc`) or
`node = node.level[0].forward`; `none` is a panic. -/
def stepNode (nodes : List node) (desc : Bool) (x : Nat) : Option (Option Nat) :=
  match nodes[x]? with
  | none => none
  | some n =>
    if desc then some n.backward
    else
      match n.level[0]? with
      | none => none
      | some lv => some lv.forward

/-- The loop `for node != nil && offset > 0` of Go `ForEachByScore`. -/
def offsetLoop (nodes : List node) (desc : Bool) : Nat → Option Nat → Int → Res (Option Nat)
  | 0, _, _ => Res.outOfFuel
  | _ + 1, none, _ => Res.ok none
  | fuel + 1, some x, offset =>
    if 0 < offset then
      match stepNode nodes desc x with
      | none => Res.panic
      | some nx => offsetLoop nodes desc fuel nx (offset - 1)
    else Res.ok (some x)

/-- The loop `for i := 0; (i < int(limit) || limit < 0) && node != nil; i++` of
Go `ForEachByScore` with the consumer of `RangeByScore`, which stores every
element and never stops. -/
def byScoreLoop (nodes : List node) (min max : ScoreBorder) (limit : Int) (desc : Bool) :
    Nat → Option Nat → Int → List Element → Res (List Element)
  | 0, _, _, _ => Res.outOfFuel
  | _ + 1, none, _, acc => Res.ok acc
  | fuel + 1, some x, i, acc =>
    if i < limit ∨ limit < 0 then
      match nodes[x]? with
      | none => Res.panic
      | some n =>
        match stepNode nodes desc x with
        | none => Res.panic
        | some none => Res.ok (acc ++ [n.Element])
        | some (some y) =>
          match nodes[y]? with
          | none => Res.panic
          | some ny =>
            if !min.less ny.Score ∨ !max.greater ny.Score then Res.ok (acc ++ [n.Element])
            else byScoreLoop nodes min max limit desc fuel (some y) (i + 1) (acc ++ [n.Element])
    else Res.ok acc

/-- Go `SortedSet.RangeByScore` (through `ForEachByScore`). -/
def SortedSet.RangeByScore (s : SortedSet) (min max : ScoreBorder) (offset limit : Int)
    (desc : Bool) : Res (List Element) :=
  if limit = 0 ∨ offset < 0 then Res.ok []
  else
    match (if desc then s.skipList.getLastInScoreRange min max
           else s.skipList.getFirstInScoreRange min max) with
    | Res.panic => Res.panic
    | Res.outOfFuel => Res.outOfFuel
    | Res.ok first =>
      match offsetLoop s.skipList.nodes desc (s.skipList.nodes.length + 1) first offset with
      | Res.panic => Res.panic
      | Res.outOfFuel => Res.outOfFuel
      | Res.ok node =>
        byScoreLoop s.skipList.nodes min max limit desc (s.skipList.nodes.length + 1) node 0 []

/-! ### The ranks of a well-formed skiplist

The second invariant adds the spans and the backward pointers: the span of a
forward pointer is the distance, in the list `0 :: order`, between the two nodes
it joins. -/

/-- The span of node `x` at level `i`. -/
def spanAt (nodes : List node) (x i : Nat) : Option Int :=
  match getLevel nodes x i with
  | some lv => some lv.span
  | none => none

/-- The backward pointer of node `x`. -/
def bwdOf (nodes : List node) (x : Nat) : Option (Option Nat) :=
  match nodes[x]? with
  | some n => some n.backward
  | none => none

/-- The element of node `x`. -/
def elemAt (nodes : List node) (x : Nat) : Option Element :=
  match nodes[x]? with
  | some n => some n.Element
  | none => none

/-- The position of node `y` in the list that starts with the header. -/
def rankOf (order : List Nat) (y : Nat) : Int := ((0 :: order).indexOf y : Int)

/-- The invariant of a skiplist that has only seen insertions: it is well
formed, every forward pointer carries the distance it spans, every node points
back to the node before it (the first to nil) and `tail` is the last node. -/
structure skipList.Ranked (s : skipList) (order : List Nat) : Prop where
  wf : s.WF order
  span : ∀ z j y, fwdOf s.nodes z j = some y →
    spanAt s.nodes z j = some (rankOf order y - rankOf order z)
  back : ∀ k y, order[k]? = some y →
    bwdOf s.nodes y = some (if k = 0 then none else order[k - 1]?)
  tail : s.tail = order[order.length - 1]?

/-- The strict order of the elements: by score, then by member. -/
def elemLt (a b : Element) : Prop := keyLt (a.Score, a.Member) (b.Score, b.Member) = true

/-- The calls `Add(member, score)` of a list of members with their scores and
the draws that decide the levels. -/
def addOps (adds : List (Bytes × Int × Nat)) : List Op :=
  adds.map (fun a => Op.add a.1 a.2.1 a.2.2)

/-- The elements a list of `Add` calls puts in. -/
def addElems (adds : List (Bytes × Int × Nat)) : List Element :=
  adds.map (fun a => ⟨a.1, a.2.1⟩)

/-- The invariant of a sorted set filled by `Add` calls with distinct members:
the skiplist has ranks, its nodes carry the elements `els` in the order of the
list, and `els` are the entries of the map in ascending order. -/
structure SortedSet.Built (s : SortedSet) (order : List Nat) (els : List Element) : Prop where
  ranked : s.skipList.Ranked order
  elems : order.map (elemAt s.skipList.nodes) = els.map some
  perm : els.Perm s.dict
  sorted : els.Pairwise elemLt

/-! ### `dataStruct/sortedset`: `ForEach` with any consumer, and `Count` -/

/-- The loop `for i := 0; i < sliceSize; i++` of Go `SortedSet.ForEach`:
`consumer e st` is the state of the caller after the call `consumer(&node.Element)`
and the value the call returns; `false` breaks the loop.  `cnt` is the number of
iterations left; using a nil `node` is a panic (`none`). -/
def forEachWith {σ : Type} (nodes : List node) (desc : Bool)
    (consumer : Element → σ → σ × Bool) : Nat → Option Nat → σ → Option σ
  | 0, _, st => some st
  | cnt + 1, cur, st =>
    match cur with
    | none => none
    | some x =>
      match nodes[x]? with
      | none => none
      | some n =>
        if (consumer n.Element st).2 = false then some (consumer n.Element st).1
        else
          let next : Option (Option Nat) :=
            if desc then some n.backward
            else
              match n.level[0]? with
              | none => none
              | some lv => some lv.forward
          match next with
          | none => none
          | some nx => forEachWith nodes desc consumer cnt nx (consumer n.Element st).1

/-- Go `SortedSet.ForEach`, with the state `init` of the caller that the
consumer works on. -/
def SortedSet.ForEach {σ : Type} (s : SortedSet) (start stop : Int) (desc : Bool)
    (consumer : Element → σ → σ × Bool) (init : σ) : Res σ :=
  let size := s.Len
  if start < 0 ∨ size ≤ start then Res.panic
  else if stop < start ∨ size < stop then Res.panic
  else
    let first : Res (Option Nat) :=
      if desc then
        if 0 < start then s.skipList.getByRank (size - start) else Res.ok s.skipList.tail
      else
        if 0 < start then s.skipList.getByRank (start + 1)
        else
          match getLevel s.skipList.nodes s.skipList.header 0 with
          | none => Res.panic
          | some lv => Res.ok lv.forward
    match first with
    | Res.panic => Res.panic
    | Res.outOfFuel => Res.outOfFuel
    | Res.ok cur =>
      match forEachWith s.skipList.nodes desc consumer (stop - start).toNat cur init with
      | none => Res.panic
      | some st => Res.ok st

/-- The consumer of Go `SortedSet.Count` on the counter `i`: an element below the
range is passed over, the first element above it stops the walk, an element in
the range is counted. -/
def countConsumer (min max : ScoreBorder) (element : Element) (i : Int) : Int × Bool :=
  if !min.less element.Score then (i, true)
  else if !max.greater element.Score then (i, false)
  else (i + 1, true)

/-- Go `SortedSet.Count`. -/
def SortedSet.Count (s : SortedSet) (min max : ScoreBorder) : Res Int :=
  s.ForEach 0 s.Len false (countConsumer min max) 0

/-! ### `database`: the keys a command locks

A key extractor returns the keys to lock for writing and the keys to lock for
reading, in this order (`RWLocks(writeKeys, readKeys)`); a Go `string` is the
list of its bytes and a nil slice the empty list. -/

/-- Go `writeFirstKey`. -/
def writeFirstKey (args : List Bytes) : List Bytes × List Bytes :=
  match args with
  | [] => ([], [])
  | key :: _ => ([key], [])

/-- Go `readFirstKey`. -/
def readFirstKey (args : List Bytes) : List Bytes × List Bytes :=
  match args with
  | [] => ([], [])
  | key :: _ => ([], [key])

/-- Go `prepareRename`; `none` is the panic of `args[0]` or `args[1]` out of
range. -/
def prepareRename (args : List Bytes) : Option (List Bytes × List Bytes) :=
  match args[0]?, args[1]? with
  | some src, some dest => some ([dest], [src])
  | _, _ => none

/-! ### The keyspace: observations and engine-level commands -/

/-- The number of nodes met from the pointer `x` on along the level-0 forward
pointers (`x.level[0].forward`), as the loop of Go `ForEach` follows them;
`none` when a pointer leaves the heap or the fuel runs out. -/
def chainCount (nodes : List node) : Nat → Option Nat → Option Nat
  | 0, _ => none
  | _ + 1, none => some 0
  | fuel + 1, some x =>
    match getLevel nodes x 0 with
    | none => none
    | some lv =>
      match chainCount nodes fuel lv.forward with
      | none => none
      | some c => some (c + 1)

/-- The number of nodes reachable from the header along level-0 forward
pointers (the header itself is not counted). -/
def skipList.reachable (s : skipList) : Option Nat :=
  match getLevel s.nodes s.header 0 with
  | none => none
  | some lv => chainCount s.nodes (s.nodes.length + 1) lv.forward

/-- The reply `reply.MakeOkReply()`. -/
def okReply : Reply := Reply.status [79, 75]

/-- The text "ERR invalid DB index". -/
def invalidDBIndex : Bytes :=
  [69, 82, 82, 32, 105, 110, 118, 97, 108, 105, 100, 32, 68, 66, 32, 105, 110, 100, 101, 120]

/-- The text "ERR DB index is out of range". -/
def dbIndexOutOfRange : Bytes :=
  [69, 82, 82, 32, 68, 66, 32, 105, 110, 100, 101, 120, 32, 105, 115, 32, 111, 117, 116, 32,
   111, 102, 32, 114, 97, 110, 103, 101]

/-- Go `execSelect` of server.go.  `c` is the DB index of the connection before
the call, `dbSetLen` is `len(mdb.dbSet)`; the result is the DB index of the
connection after the call (`c.SelectDB(dbIndex)` stores it) and the reply.
`Res.panic` is the index panic of `args[0]` on an empty argument list. -/
def execSelect (c : Int) (dbSetLen : Nat) (args : List Bytes) : Res (Int × Reply) :=
  match args[0]? with
  | none => Res.panic
  | some a =>
    match Atoi a with
    | none => Res.ok (c, Reply.err invalidDBIndex)
    | some dbIndex =>
      if dbIndex ≥ (dbSetLen : Int) then Res.ok (c, Reply.err dbIndexOutOfRange)
      else Res.ok (dbIndex, okReply)

/-! ### `aof/marshal.go`: the command that rebuilds a value

A `[][]byte` command line is a list of byte strings; a nil `[]byte` in it is the
empty string. -/

/-- Go `setCmd`, the text "set". -/
def setCmd : Bytes := [115, 101, 116]

/-- Go `rPushAllCmd`, the text "rpush". -/
def rPushAllCmd : Bytes := [114, 112, 117, 115, 104]

/-- Go `sAddCmd`, the text "sadd". -/
def sAddCmd : Bytes := [115, 97, 100, 100]

/-- Go `hMSetCmd`, the text "hmset". -/
def hMSetCmd : Bytes := [104, 109, 115, 101, 116]

/-- Go `zAddCmd`, the text "zadd". -/
def zAddCmd : Bytes := [122, 97, 100, 100]

/-- Go `pExpireAtBytes` and `constant.PExpireAt`, the text "pexpireat". -/
def pExpireAtBytes : Bytes := [112, 101, 120, 112, 105, 114, 101, 97, 116]

/-- The dynamic types of `entity.Data` that the type switch of `EntityToCmd`
names: `[]byte`, `*list.LinkedList`, `*set.Set`, `dict.Dict` and
`*sortedset.SortedSet`.  The packages `set` and `dict` are not among the
sources; of such a value only `Len` and `ForEach` are used, and it is held as
the sequence of members (of fields with their values) that `ForEach` visits. -/
inductive Data where
  | bytes (b : Bytes)
  | list (l : list.LinkedList)
  | set (members : List Bytes)
  | dict (entries : List (Bytes × utils.Val))
  | zset (z : SortedSet)
  deriving DecidableEq

/-- The type assertion `bytes, _ := val.([]byte)`: the slice when the value is
one, the nil slice otherwise. -/
def valBytes : utils.Val → Bytes
  | utils.Val.bytes (some b) => b
  | _ => []

/-- The assignment `slots[i] = b` on a slice; `none` is the panic "index out of
range". -/
def setArg (slots : List Bytes) (i : Int) (b : Bytes) : Option (List Bytes) :=
  if 0 ≤ i ∧ i < (slots.length : Int) then some (slots.set i.toNat b) else none

/-- Go `stringToCmd`. -/
def stringToCmd (key : Bytes) (bytes : Bytes) : CmdLine := [setCmd, key, bytes]

/-- The consumer of Go `listToCmd`, `args[2+i] = bytes`, on the slots
`args[2:]`; `none` is the state after an index panic. -/
def listConsumer (i : Int) (val : utils.Val) (slots : Option (List Bytes)) :
    Option (List Bytes) × Bool :=
  match slots with
  | none => (none, false)
  | some a =>
    match setArg a i (valBytes val) with
    | none => (none, false)
    | some a1 => (some a1, true)

/-- Go `listToCmd`.  `args` has `2 + list.Len()` entries; the first two are
written at once and the consumer writes `args[2+i]`, so the entries from 2 on
are kept apart as `slots`. -/
def listToCmd (key : Bytes) (l : list.LinkedList) : Res CmdLine :=
  if l.Len < 0 then Res.panic
  else
    match l.ForEach listConsumer (some (List.replicate l.Len.toNat [])) with
    | Res.ok (some slots) => Res.ok (rPushAllCmd :: key :: slots)
    | Res.ok none => Res.panic
    | Res.panic => Res.panic
    | Res.outOfFuel => Res.outOfFuel

/-- Go `setToCmd`: `set.ForEach` writes the members it visits to `args[2+i]`,
`i` counting from 0 to `set.Len() - 1`. -/
def setToCmd (key : Bytes) (members : List Bytes) : CmdLine := sAddCmd :: key :: members

/-- Go `hashToCmd`: `hash.ForEach` writes the field it visits to `args[2+2*i]`
and its value to `args[3+2*i]`. -/
def hashToCmd (key : Bytes) (entries : List (Bytes × utils.Val)) : CmdLine :=
  hMSetCmd :: key :: (entries.map (fun e => [e.1, valBytes e.2])).flatten

/-- The consumer of Go `zSetToCmd` on the slots `args[2:]` and the counter `i`:
`args[2+i*2] = value`, `args[3+i*2] = member`, `i++`.  `fmt` is
`strconv.FormatFloat(score, 'f', -1, 64)`. -/
def zsetConsumer (fmt : Int → Bytes) (element : Element) (st : Option (List Bytes × Int)) :
    Option (List Bytes × Int) × Bool :=
  match st with
  | none => (none, false)
  | some (a, i) =>
    match setArg a (i * 2) (fmt element.Score) with
    | none => (none, false)
    | some a1 =>
      match setArg a1 (1 + i * 2) element.Member with
      | none => (none, false)
      | some a2 => (some (a2, i + 1), true)

/-- Go `zSetToCmd`; the number formatting is a parameter. -/
def zSetToCmd (fmt : Int → Bytes) (key : Bytes) (zset : SortedSet) : Res CmdLine :=
  match zset.ForEach 0 zset.Len true (zsetConsumer fmt)
      (some (List.replicate (zset.Len * 2).toNat [], 0)) with
  | Res.ok (some (slots, _)) => Res.ok (zAddCmd :: key :: slots)
  | Res.ok none => Res.panic
  | Res.panic => Res.panic
  | Res.outOfFuel => Res.outOfFuel

/-- Go `EntityToCmd`; `entity` is `none` for the nil pointer and the reply is
`none` for the nil reply, otherwise its `Args`. -/
def EntityToCmd (fmt : Int → Bytes) (key : Bytes) (entity : Option Data) : Res (Option CmdLine) :=
  match entity with
  | none => Res.ok none
  | some (Data.bytes val) => Res.ok (some (stringToCmd key val))
  | some (Data.list val) =>
    match listToCmd key val with
    | Res.ok cmd => Res.ok (some cmd)
    | Res.panic => Res.panic
    | Res.outOfFuel => Res.outOfFuel
  | some (Data.set val) => Res.ok (some (setToCmd key val))
  | some (Data.dict val) => Res.ok (some (hashToCmd key val))
  | some (Data.zset val) =>
    match zSetToCmd fmt key val with
    | Res.ok cmd => Res.ok (some cmd)
    | Res.panic => Res.panic
    | Res.outOfFuel => Res.outOfFuel

/-- The 64-bit wrap of an integer. -/
def wrap64 (i : Int) : Int := (i + 2 ^ 63) % 2 ^ 64 - 2 ^ 63

/-- Go `time.Unix(sec, nsec)`.  A `time.Time` is held as the number of
nanoseconds between the Unix epoch and the instant. -/
def Unix (sec nsec : Int) : Int := sec * 1000000000 + nsec

/-- Go `t.UnixNano()`: the nanoseconds since the epoch as an `int64`, which
wraps for instants out of its range. -/
def UnixNano (t : Int) : Int := wrap64 t

/-- Go `MakeExpireCmd`; Go `/` on integers truncates toward zero. -/
def MakeExpireCmd (key : Bytes) (expireAt : Int) : CmdLine :=
  [pExpireAtBytes, key, Itoa (Int.tdiv (UnixNano expireAt) 1000000)]

/-! ### `database`: the keyspace and the commands on keys

The file db.go (type `DB` with `GetEntity`, `PutEntity`, `Remove`, `Removes`,
`Persist`, `Expire`, `addAof`) is not among the sources; these are modelled from
§3 and §4.C of the specification.  The handlers are those of keys.go and
tx_utils.go.  `now` is the value of `time.Now()` at the call. -/

/-- Go `constant.Del`, the text "del". -/
def Del : Bytes := [100, 101, 108]

/-- Go `constant.Persist`, the text "persist". -/
def Persist : Bytes := [112, 101, 114, 115, 105, 115, 116]

/-- Go `constant.PExpireAt`, the text "pexpireat". -/
def PExpireAt : Bytes := [112, 101, 120, 112, 105, 114, 101, 97, 116]

/-- Go `constant.Rename`, the text "rename". -/
def Rename : Bytes := [114, 101, 110, 97, 109, 101]

/-- The map `m` with the entry of `key` set to `v` (`none`: no entry). -/
def putKey {α : Type} (m : Bytes → Option α) (key : Bytes) (v : Option α) : Bytes → Option α :=
  fun k => if k = key then v else m k

/-- Modelled from the spec: the type `DB` of db.go.  §3: "Keyspace.  A mapping
from key (string) to KeyEntry plus a parallel mapping from key to expiration
time (the TTL index)"; `aof` holds the command lines handed to the AOF writer,
in order. -/
structure DB where
  data : Bytes → Option Data
  ttlMap : Bytes → Option Int
  aof : List CmdLine

/-- Modelled from the spec: `DB.Remove` of db.go, "`remove(keys…)`" of §4.C for
one key: the entry and its TTL-index entry are removed (§3: "Every
expiration-index key exists in the main map"). -/
def DB.Remove (db : DB) (key : Bytes) : DB :=
  { db with data := putKey db.data key none, ttlMap := putKey db.ttlMap key none }

/-- Modelled from the spec: `DB.Removes` of db.go, §4.C
"`remove(keys…) → count_removed`": the keys are removed in order and those that
had an entry are counted. -/
def DB.Removes (db : DB) : List Bytes → DB × Int
  | [] => (db, 0)
  | key :: keys =>
    match db.data key with
    | none => DB.Removes db keys
    | some _ => ((DB.Removes (db.Remove key) keys).1, (DB.Removes (db.Remove key) keys).2 + 1)

/-- Modelled from the spec: the expiry test of db.go, §3 "A key with an
expiration instant `≤ now` is logically absent". -/
def DB.IsExpired (db : DB) (now : Int) (key : Bytes) : Bool :=
  match db.ttlMap key with
  | none => false
  | some t => decide (t ≤ now)

/-- Modelled from the spec: `DB.GetEntity` of db.go, §4.C
"`get(key) → Option<Value>`: applies lazy expiration" and "if expired, the entry
and its TTL-index entry are removed ..., and the read observes missing". -/
def DB.GetEntity (db : DB) (now : Int) (key : Bytes) : DB × Option Data :=
  match db.data key with
  | none => (db, none)
  | some entity => if db.IsExpired now key then (db.Remove key, none) else (db, some entity)

/-- Modelled from the spec: `DB.PutEntity` of db.go, §4.C "`put(key, entry)`:
overwrites; does not inherit prior TTL unless the caller preserves it". -/
def DB.PutEntity (db : DB) (key : Bytes) (entity : Data) : DB :=
  { db with data := putKey db.data key (some entity), ttlMap := putKey db.ttlMap key none }

/-- Modelled from the spec: `DB.Persist` of db.go, §4.C "`persist(key)`": the
TTL-index entry of the key is removed. -/
def DB.Persist (db : DB) (key : Bytes) : DB :=
  { db with ttlMap := putKey db.ttlMap key none }

/-- Modelled from the spec: `DB.Expire` of db.go, §4.C
"`expireAt(key, instant)`": the TTL-index entry of the key is set. -/
def DB.Expire (db : DB) (key : Bytes) (expireTime : Int) : DB :=
  { db with ttlMap := putKey db.ttlMap key (some expireTime) }

/-- Modelled from the spec: `DB.addAof` of db.go, §4.D "append the serialised
command to the AOF writer". -/
def DB.addAof (db : DB) (line : CmdLine) : DB :=
  { db with aof := db.aof ++ [line] }

/-- The text "no such key". -/
def noSuchKey : Bytes := [110, 111, 32, 115, 117, 99, 104, 32, 107, 101, 121]

/-- The text of the arity error of `execRename`. -/
def renameArgNum : Bytes :=
  [69, 82, 82, 32, 119, 114, 111, 110, 103, 32, 110, 117, 109, 98, 101, 114, 32, 111, 102, 32,
   97, 114, 103, 117, 109, 101, 110, 116, 115, 32, 102, 111, 114, 32, 96, 114, 101, 110, 97,
   109, 101, 96, 32, 99, 111, 109, 109, 97, 110, 100]

/-- The text "ERR value is not an integer or out of range". -/
def notAnInteger : Bytes :=
  [69, 82, 82, 32, 118, 97, 108, 117, 101, 32, 105, 115, 32, 110, 111, 116, 32, 97, 110, 32,
   105, 110, 116, 101, 103, 101, 114, 32, 111, 114, 32, 111, 117, 116, 32, 111, 102, 32, 114,
   97, 110, 103, 101]

/-- Go `execDel`; `utils.ToCmdLine3(name, args...)` is the name followed by the
arguments. -/
def execDel (db : DB) (args : List Bytes) : DB × Reply :=
  let r := db.Removes args
  if r.2 > 0 then (r.1.addAof (Del :: args), Reply.int r.2) else (r.1, Reply.int r.2)

/-- Go `execRename`. -/
def execRename (now : Int) (db : DB) (args : List Bytes) : DB × Reply :=
  match args with
  | [src, dest] =>
    match db.GetEntity now src with
    | (db1, none) => (db1, Reply.err noSuchKey)
    | (db1, some entity) =>
      let db3 := (db1.PutEntity dest entity).Remove src
      let db4 :=
        match db1.ttlMap src with
        | some expireTime => ((db3.Persist src).Persist dest).Expire dest expireTime
        | none => db3
      (db4.addAof (Rename :: args), okReply)
  | _ => (db, Reply.err renameArgNum)

/-- Go `execExpireAt`; `Res.panic` is the index panic of `args[0]` or
`args[1]`. -/
def execExpireAt (now : Int) (db : DB) (args : List Bytes) : Res (DB × Reply) :=
  match args[0]?, args[1]? with
  | some key, some a1 =>
    match ParseInt a1 64 with
    | none => Res.ok (db, Reply.err notAnInteger)
    | some raw =>
      let expireAt := Unix raw 0
      match db.GetEntity now key with
      | (db1, none) => Res.ok (db1, Reply.int 0)
      | (db1, some _) =>
        Res.ok ((db1.Expire key expireAt).addAof (MakeExpireCmd key expireAt), Reply.int 1)
  | _, _ => Res.panic

/-- Go `execPExpireAt`; the product `raw*int64(time.Millisecond)` wraps. -/
def execPExpireAt (now : Int) (db : DB) (args : List Bytes) : Res (DB × Reply) :=
  match args[0]?, args[1]? with
  | some key, some a1 =>
    match ParseInt a1 64 with
    | none => Res.ok (db, Reply.err notAnInteger)
    | some raw =>
      let expireAt := Unix 0 (wrap64 (raw * 1000000))
      match db.GetEntity now key with
      | (db1, none) => Res.ok (db1, Reply.int 0)
      | (db1, some _) =>
        Res.ok ((db1.Expire key expireAt).addAof (MakeExpireCmd key expireAt), Reply.int 1)
  | _, _ => Res.panic

/-- Go `execPersist`. -/
def execPersist (now : Int) (db : DB) (args : List Bytes) : Res (DB × Reply) :=
  match args[0]? with
  | none => Res.panic
  | some key =>
    match db.GetEntity now key with
    | (db1, none) => Res.ok (db1, Reply.int 0)
    | (db1, some _) =>
      match db1.ttlMap key with
      | none => Res.ok (db1, Reply.int 0)
      | some _ => Res.ok ((db1.Persist key).addAof (Persist :: args), Reply.int 1)

/-- Go `toTTLCmd`; `utils.ToCmdLine(name, key, ...)` is the list of its
arguments as byte strings. -/
def toTTLCmd (db : DB) (key : Bytes) : CmdLine :=
  match db.ttlMap key with
  | none => [Persist, key]
  | some expireTime =>
    [PExpireAt, key, Itoa (Int.tdiv (Int.tdiv (UnixNano expireTime) 1000) 1000)]

/-- Go `rollbackGivenKeys`; the keyspace is returned as well because
`GetEntity` removes the expired keys it meets.  `Res.panic` is a panic of
`EntityToCmd` or the use of `.Args` on its nil reply. -/
def rollbackGivenKeys (fmt : Int → Bytes) (now : Int) (db : DB) :
    List Bytes → Res (DB × List CmdLine)
  | [] => Res.ok (db, [])
  | key :: keys =>
    match (db.GetEntity now key).2 with
    | none =>
      match rollbackGivenKeys fmt now (db.GetEntity now key).1 keys with
      | Res.ok (db2, rest) => Res.ok (db2, [Del, key] :: rest)
      | Res.panic => Res.panic
      | Res.outOfFuel => Res.outOfFuel
    | some entity =>
      match EntityToCmd fmt key (some entity) with
      | Res.ok (some cmd) =>
        match rollbackGivenKeys fmt now (db.GetEntity now key).1 keys with
        | Res.ok (db2, rest) =>
          Res.ok (db2, [Del, key] :: cmd :: toTTLCmd (db.GetEntity now key).1 key :: rest)
        | Res.panic => Res.panic
        | Res.outOfFuel => Res.outOfFuel
      | Res.ok none => Res.panic
      | Res.panic => Res.panic
      | Res.outOfFuel => Res.outOfFuel

/-- The undo lines of one key in the words of the claim: `[del key]` when the
key is absent; otherwise `[del key]`, the command `EntityToCmd(key, entity)` and
the TTL command of `toTTLCmd`. -/
def undoOfKey (fmt : Int → Bytes) (now : Int) (db : DB) (key : Bytes) : List CmdLine :=
  match (db.GetEntity now key).2 with
  | none => [[Del, key]]
  | some entity =>
    match EntityToCmd fmt key (some entity) with
    | Res.ok (some cmd) => [[Del, key], cmd, toTTLCmd db key]
    | _ => []

/-- Modelled from the spec: the arity test of the registry, §4.D "check arity
(negative arity N means at least |N|)"; the count includes the command name. -/
def validateArity (arity : Int) (cmdLine : CmdLine) : Bool :=
  if 0 ≤ arity then decide ((cmdLine.length : Int) = arity)
  else decide (-arity ≤ (cmdLine.length : Int))

/-- Modelled from the spec: the execution of one command line on a keyspace
(`DB.Exec` of db.go), §4.D "A command is an array frame whose first element is
the command name (case-insensitive ASCII)", "look up the command in the
registry, check arity ..., invoke the handler".  The registry entries are those
of `init` in keys.go for `del` (`execDel`, arity -2), `pexpireat`
(`execPExpireAt`, arity 3) and `persist` (`execPersist`, arity 2); the handlers
of the other commands are not among the sources and are the parameter `others`.
The result is the keyspace after the command. -/
def execCmd (others : DB → CmdLine → DB) (now : Int) (db : DB) (cmdLine : CmdLine) : Res DB :=
  match cmdLine with
  | [] => Res.ok db
  | name :: args =>
    if name.map toLower = Del then
      if validateArity (-2) cmdLine then Res.ok (execDel db args).1 else Res.ok db
    else if name.map toLower = PExpireAt then
      if validateArity 3 cmdLine then
        match execPExpireAt now db args with
        | Res.ok r => Res.ok r.1
        | Res.panic => Res.panic
        | Res.outOfFuel => Res.outOfFuel
      else Res.ok db
    else if name.map toLower = Persist then
      if validateArity 2 cmdLine then
        match execPersist now db args with
        | Res.ok r => Res.ok r.1
        | Res.panic => Res.panic
        | Res.outOfFuel => Res.outOfFuel
      else Res.ok db
    else Res.ok (others db cmdLine)

/-- The command lines of a list are executed in order. -/
def execCmds (others : DB → CmdLine → DB) (now : Int) : DB → List CmdLine → Res DB
  | db, [] => Res.ok db
  | db, line :: lines =>
    match execCmd others now db line with
    | Res.ok db1 => execCmds others now db1 lines
    | Res.panic => Res.panic
    | Res.outOfFuel => Res.outOfFuel

/-- A keyspace for the examples: the string keys "a", with the value "x" and the
expiration 5 ms after the epoch, and "b", with the value "y" and the expiration
7.5 ms after the epoch; nothing is logged yet. -/
def exampleDB : DB :=
  { data := fun k =>
      if k = [97] then some (Data.bytes [120])
      else if k = [98] then some (Data.bytes [121]) else none,
    ttlMap := fun k =>
      if k = [97] then some 5000000 else if k = [98] then some 7500000 else none,
    aof := [] }

/-- Modelled from the spec: the handler of `SET`, for the examples (the string
commands are not among the sources).  §4.H: "one synthetic command per value
that reconstructs it (`SET`/...)": `set key value` puts the string `value`
under `key`; every other command line leaves the keyspace as it is. -/
def execSetOnly (db : DB) (cmdLine : CmdLine) : DB :=
  match cmdLine with
  | [name, key, value] => if name.map toLower = setCmd then db.PutEntity key (Data.bytes value) else db
  | _ => db

/-- The expiration a key is given by its undo lines: none for a key that
`GetEntity` does not find or that has no expiration, otherwise the expiration it
has cut to whole milliseconds, as `toTTLCmd` writes it and `PEXPIREAT` reads
it. -/
def restoredTTL (now : Int) (db : DB) (key : Bytes) : Option Int :=
  match (db.GetEntity now key).2 with
  | none => none
  | some _ =>
    match db.ttlMap key with
    | none => none
    | some t => some (Int.tdiv (Int.tdiv (UnixNano t) 1000) 1000 * 1000000)

/-- The invariant of §3, "Every expiration-index key exists in the main map": a
key without an entry has no expiration. -/
def DB.ttlOwned (db : DB) : Prop := ∀ k, db.data k = none → db.ttlMap k = none

/-- The value of `key` in the keyspace `db0` can be rebuilt with the handlers
`others`: if `GetEntity` finds an entity under `key`, `EntityToCmd` returns a
command for it, and on every keyspace in which `key` has neither an entry nor
an expiration the handler of that command puts the entity under `key` and
changes nothing else in the two maps (§4.H: "one synthetic command per value
that reconstructs it"). -/
def Rebuilds (fmt : Int → Bytes) (now : Int) (db0 : DB) (others : DB → CmdLine → DB)
    (key : Bytes) : Prop :=
  ∀ e, (db0.GetEntity now key).2 = some e →
    ∃ cmd, EntityToCmd fmt key (some e) = Res.ok (some cmd) ∧
      ∀ d : DB, d.data key = none → d.ttlMap key = none →
        (others d cmd).data = putKey d.data key (some e) ∧ (others d cmd).ttlMap = d.ttlMap

/-! ### `dataStruct/sortedset`: insertion and removal on any scores

The functions of this section are `insert`, `remove` and `Add` with the
comparisons of `float64` on the scores, so that a NaN compares false with every
score.  On scores that are not NaN they are the functions above. -/

/-- The insert and remove test
`n.Score < score || (n.Score == score && n.Member < member)` on any scores. -/
def keyLessF (n : node) (score : Int) (member : Bytes) : Bool :=
  f64lt n.Score score || (f64eq n.Score score && bytesLt n.Member member)

/-- Go `skipList.insert` on any scores, with the value `level` returned by
`randomLevel`.  Returns the list and the new node. -/
def skipList.insertF (s : skipList) (member : Bytes) (score : Int) (level : Nat) :
    Res (skipList × Nat) :=
  match search s.nodes (fun _ nf _ => keyLessF nf score member) (s.nodes.length + 1)
      s.level s.header 0 with
  | Res.panic => Res.panic
  | Res.outOfFuel => Res.outOfFuel
  | Res.ok ur =>
    let update := ur.map Prod.fst ++ List.replicate (level - s.level) s.header
    let rank := ur.map Prod.snd ++ List.replicate (level - s.level) 0
    match extendLoop s.header s.length (level - s.level) s.level s.nodes with
    | none => Res.panic
    | some nodes1 =>
      let level1 := if s.level < level then level else s.level
      let x := nodes1.length
      match linkLoop x update rank level 0 nodes1 [] with
      | none => Res.panic
      | some (nodes2, lvs) =>
        match bumpLoop update (level1 - level) level nodes2 with
        | none => Res.panic
        | some nodes3 =>
          match update[0]?, lvs[0]? with
          | some u0, some lv0 =>
            let newNode : node :=
              { Member := member, Score := score,
                backward := if u0 = s.header then none else some u0,
                level := lvs }
            let nodes4 := nodes3 ++ [newNode]
            match lv0.forward with
            | some f =>
              Res.ok ({ nodes := setBackward nodes4 f (some x), header := s.header,
                        tail := s.tail, length := s.length + 1, level := level1 }, x)
            | none =>
              Res.ok ({ nodes := nodes4, header := s.header,
                        tail := some x, length := s.length + 1, level := level1 }, x)
          | _, _ => Res.panic

/-- Go `skipList.remove` on any scores. -/
def skipList.removeF (s : skipList) (member : Bytes) (score : Int) : Res (skipList × Bool) :=
  match search s.nodes (fun _ nf _ => keyLessF nf score member) (s.nodes.length + 1)
      s.level s.header 0 with
  | Res.panic => Res.panic
  | Res.outOfFuel => Res.outOfFuel
  | Res.ok ur =>
    let update := ur.map Prod.fst
    match getLevel s.nodes ((update[0]?).getD s.header) 0 with
    | none => Res.panic
    | some lv =>
      match lv.forward with
      | none => Res.ok (s, false)
      | some x =>
        match s.nodes[x]? with
        | none => Res.panic
        | some nx =>
          if f64eq score nx.Score = true ∧ nx.Member = member then
            match s.removeNode x update with
            | Res.ok s1 => Res.ok (s1, true)
            | Res.panic => Res.panic
            | Res.outOfFuel => Res.outOfFuel
          else Res.ok (s, false)

/-- Go `SortedSet.Add` on any scores; `draws` decides the level of a new node.
The test `score != element.Score` is true when one of the two is a NaN. -/
def SortedSet.AddF (s : SortedSet) (member : Bytes) (score : Int) (draws : Nat) :
    Res (SortedSet × Bool) :=
  let dict1 := dictSet s.dict ⟨member, score⟩
  match dictGet s.dict member with
  | some element =>
    if f64eq score element.Score = false then
      match s.skipList.removeF member element.Score with
      | Res.panic => Res.panic
      | Res.outOfFuel => Res.outOfFuel
      | Res.ok (sl1, _) =>
        match sl1.insertF member score (randomLevel draws) with
        | Res.panic => Res.panic
        | Res.outOfFuel => Res.outOfFuel
        | Res.ok (sl2, _) => Res.ok ({ dict := dict1, skipList := sl2 }, false)
    else Res.ok ({ dict := dict1, skipList := s.skipList }, false)
  | none =>
    match s.skipList.insertF member score (randomLevel draws) with
    | Res.panic => Res.panic
    | Res.outOfFuel => Res.outOfFuel
    | Res.ok (sl1, _) => Res.ok ({ dict := dict1, skipList := sl1 }, true)

/-- The calls `Add(member, score)` of a list of members with their scores (any
scores) and the draws that decide the levels, in order. -/
def SortedSet.addAllF : List (Bytes × Int × Nat) → SortedSet → Res SortedSet
  | [], s => Res.ok s
  | a :: adds, s =>
    match s.AddF a.1 a.2.1 a.2.2 with
    | Res.ok (s1, _) => SortedSet.addAllF adds s1
    | Res.panic => Res.panic
    | Res.outOfFuel => Res.outOfFuel
/-! ## Part II: lemmas and theorems -/

/-! ### Decimal text -/

theorem digitVal_digit (d : Nat) (h : d < 10) : digitVal (48 + d) = some d := by
  unfold digitVal
  rw [if_pos (by omega)]
  congr 1
  omega

theorem parseDigits_decimalAux (fuel : Nat) :
    ∀ (n : Nat) (acc : Bytes), n < fuel →
      parseDigits (decimalAux fuel n acc) 0 = parseDigits acc n := by
  induction fuel with
  | zero => intro n acc h; omega
  | succ fuel ih =>
    intro n acc h
    unfold decimalAux
    by_cases h10 : n < 10
    · rw [if_pos h10]
      simp [parseDigits, digitVal_digit n h10]
    · rw [if_neg h10, ih (n / 10) _ (by omega)]
      simp only [parseDigits, digitVal_digit (n % 10) (Nat.mod_lt _ (by decide))]
      congr 1
      omega

theorem parseDigits_decimal (n : Nat) : parseDigits (decimal n) 0 = some n := by
  unfold decimal
  rw [parseDigits_decimalAux (n + 1) n [] (by omega)]
  rfl

theorem decimalAux_digits (fuel : Nat) :
    ∀ (n : Nat) (acc : Bytes), (∀ b ∈ acc, 48 ≤ b ∧ b ≤ 57) →
      ∀ b ∈ decimalAux fuel n acc, 48 ≤ b ∧ b ≤ 57 := by
  induction fuel with
  | zero => intro n acc h; simpa [decimalAux] using h
  | succ fuel ih =>
    intro n acc h
    unfold decimalAux
    by_cases h10 : n < 10
    · rw [if_pos h10]
      intro b hb
      rcases List.mem_cons.mp hb with rfl | hb
      · omega
      · exact h b hb
    · rw [if_neg h10]
      apply ih
      intro b hb
      rcases List.mem_cons.mp hb with rfl | hb
      · have := Nat.mod_lt n (show 0 < 10 by decide)
        omega
      · exact h b hb

theorem decimal_digits (n : Nat) : ∀ b ∈ decimal n, 48 ≤ b ∧ b ≤ 57 :=
  decimalAux_digits (n + 1) n [] (by simp)

theorem decimalAux_ne_nil (fuel : Nat) :
    ∀ (n : Nat) (acc : Bytes), n < fuel → decimalAux fuel n acc ≠ [] := by
  induction fuel with
  | zero => intro n acc h; omega
  | succ fuel ih =>
    intro n acc h
    unfold decimalAux
    by_cases h10 : n < 10
    · rw [if_pos h10]; simp
    · rw [if_neg h10]; exact ih _ _ (by omega)

theorem decimal_ne_nil (n : Nat) : decimal n ≠ [] :=
  decimalAux_ne_nil (n + 1) n [] (by omega)

theorem ParseUint_decimal (n bitSize : Nat) (h : n < 2 ^ bitSize) :
    ParseUint (decimal n) bitSize = some n := by
  have hne := decimal_ne_nil n
  have hp := parseDigits_decimal n
  unfold ParseUint
  cases hd : decimal n with
  | nil => exact absurd hd hne
  | cons c cs =>
    rw [hd] at hp
    simp only [hp, if_pos h]

theorem ParseInt_decimal (n : Nat) (h : n < 2 ^ 63) :
    ParseInt (decimal n) 64 = some (n : Int) := by
  have hne := decimal_ne_nil n
  have hp := parseDigits_decimal n
  have hdig := decimal_digits n
  unfold ParseInt
  cases hd : decimal n with
  | nil => exact absurd hd hne
  | cons c cs =>
    rw [hd] at hp hdig
    have hc := hdig c (List.mem_cons_self _ _)
    have h1 : ¬ (c = 43 ∨ c = 45) := by omega
    have h2 : ¬ (c = 45) := by omega
    simp only [if_neg h1, hp, decide_eq_false h2]
    simp
    omega

theorem ParseInt_Itoa (i : Int) (h1 : -(2 : Int) ^ 63 ≤ i) (h2 : i < (2 : Int) ^ 63) :
    ParseInt (Itoa i) 64 = some i := by
  unfold Itoa
  by_cases hi : i < 0
  · rw [if_pos hi]
    have hne := decimal_ne_nil i.natAbs
    have hp := parseDigits_decimal i.natAbs
    unfold ParseInt
    cases hd : decimal i.natAbs with
    | nil => exact absurd hd hne
    | cons c cs =>
      rw [hd] at hp
      simp
      rw [hp]
      simp
      have habs : |i| = -i := abs_of_neg hi
      omega
  · rw [if_neg hi, ParseInt_decimal _ (by omega)]
    congr 1
    omega

theorem Itoa_digits (i : Int) : ∀ b ∈ Itoa i, b = 45 ∨ (48 ≤ b ∧ b ≤ 57) := by
  intro b hb
  unfold Itoa at hb
  by_cases hi : i < 0
  · rw [if_pos hi] at hb
    rcases List.mem_cons.mp hb with rfl | hb
    · exact Or.inl rfl
    · exact Or.inr (decimal_digits _ b hb)
  · rw [if_neg hi] at hb
    exact Or.inr (decimal_digits _ b hb)

/-! ### Lines, indices and slices -/

theorem ReadBytes_line (l rest : Bytes) (h : 10 ∉ l) :
    ReadBytes 10 (l ++ 10 :: rest) = some (l ++ [10], rest) := by
  induction l with
  | nil => simp [ReadBytes]
  | cons a l ih =>
    have ha : a ≠ 10 := fun e => h (by simp [e])
    have hl : 10 ∉ l := fun e => h (by simp [e])
    simp [ReadBytes, ha, ih hl]

theorem index_zero_cons (c : Nat) (l : Bytes) : index (c :: l) 0 = some c := by
  simp [index]

theorem index_crlf_cr (l : Bytes) :
    index (l ++ CRLF) (((l ++ CRLF).length : Int) - 2) = some 13 := by
  have h : (((l ++ CRLF).length : Int) - 2) = (l.length : Int) := by
    simp [CRLF]
  rw [h]
  unfold index
  rw [if_pos (by omega)]
  simp only [Int.toNat_ofNat, List.get?_eq_getElem?]
  rw [List.getElem?_append_right (le_refl _)]
  simp [CRLF]

theorem index_crlf_lf (l : Bytes) :
    index (l ++ CRLF) (((l ++ CRLF).length : Int) - 1) = some 10 := by
  have h : (((l ++ CRLF).length : Int) - 1) = ((l.length + 1 : Nat) : Int) := by
    simp [CRLF]; omega
  rw [h]
  unfold index
  rw [if_pos (by omega)]
  simp only [Int.toNat_ofNat, List.get?_eq_getElem?]
  rw [List.getElem?_append_right (by omega)]
  simp [CRLF]

theorem slice_body (c : Nat) (body : Bytes) :
    slice (c :: (body ++ CRLF)) 1 (((c :: (body ++ CRLF)).length : Int) - 2) = some body := by
  have h : (((c :: (body ++ CRLF)).length : Int) - 2) = ((body.length + 1 : Nat) : Int) := by
    simp [CRLF]; omega
  rw [h]
  unfold slice
  rw [if_pos (by simp [CRLF])]
  simp [CRLF]

theorem slice_line (line : Bytes) :
    slice (line ++ CRLF) 0 (((line ++ CRLF).length : Int) - 2) = some line := by
  have h : (((line ++ CRLF).length : Int) - 2) = ((line.length : Nat) : Int) := by
    simp [CRLF]
  rw [h]
  unfold slice
  rw [if_pos (by simp [CRLF])]
  simp

theorem slice_tail (c : Nat) (t : Bytes) :
    slice (c :: t) 1 ((c :: t).length : Nat) = some t := by
  unfold slice
  rw [if_pos (by simp)]
  simp

theorem slice_tail_cast (c : Nat) (t : Bytes) :
    slice (c :: t) 1 ((t.length : Int) + 1) = some t := by
  have h := slice_tail c t
  simpa using h

theorem TrimSuffix_crlf (l : Bytes) : TrimSuffix (l ++ CRLF) CRLF = l := by
  unfold TrimSuffix
  have h : CRLF.isSuffixOf (l ++ CRLF) = true := by
    rw [List.isSuffixOf_iff_suffix]
    exact List.suffix_append l CRLF
  rw [if_pos h]
  simp [CRLF]

theorem readLine_line (body rest : Bytes) (st : readState) (hb : st.bulkLen = 0)
    (h10 : 10 ∉ body) :
    readLine (body ++ CRLF ++ rest) st = LineResult.ok (body ++ CRLF) rest st := by
  have hr : body ++ CRLF ++ rest = (body ++ [13]) ++ 10 :: rest := by simp [CRLF]
  have hm : (body ++ [13]) ++ [10] = body ++ CRLF := by simp [CRLF]
  unfold readLine
  rw [if_pos hb, hr, ReadBytes_line _ _ (by simp [h10])]
  simp only [hm, index_crlf_cr]
  simp

theorem readLine_bulk (p rest : Bytes) (st : readState) (hb : st.bulkLen = (p.length : Int))
    (hp : p ≠ []) (hlen : p.length + 2 < 2 ^ 63) :
    readLine (p ++ CRLF ++ rest) st = LineResult.ok (p ++ CRLF) rest { st with bulkLen := 0 } := by
  have hpos : 0 < p.length := List.length_pos.mpr hp
  have hn : (st.bulkLen + 2).toNat = (p ++ CRLF).length := by
    rw [hb]; simp [CRLF]; omega
  unfold readLine
  rw [if_neg (by omega)]
  simp only
  rw [if_neg (by rw [hb]; push_cast; omega), hn]
  have hrf : ReadFull (p ++ CRLF).length (p ++ CRLF ++ rest) = Except.ok (p ++ CRLF, rest) := by
    unfold ReadFull
    rw [if_pos (by simp), List.take_left, List.drop_left]
  rw [hrf]
  simp only [index_crlf_cr, index_crlf_lf]
  simp [CRLF]

/-! ### One iteration of the decoder on well-formed lines -/

theorem parseLoop_halt (f : Nat) (r : Bytes) (st : readState) (last : Option Payload)
    (stop : Stop) (h : parseIter r st = Iter.halt last stop) :
    parseLoop (f + 1) r st = ⟨last.toList, stop⟩ := by
  simp [parseLoop, h]

theorem parseLoop_next_some (f : Nat) (r rest : Bytes) (st st1 : readState) (p : Payload)
    (h : parseIter r st = Iter.next (some p) rest st1) :
    parseLoop (f + 1) r st = Stream.send p (parseLoop f rest st1) := by
  simp [parseLoop, h]

theorem parseLoop_next_none (f : Nat) (r rest : Bytes) (st st1 : readState)
    (h : parseIter r st = Iter.next none rest st1) :
    parseLoop (f + 1) r st = parseLoop f rest st1 := by
  simp [parseLoop, h]

theorem parseIter_nil (st : readState) (h : st.bulkLen = 0) :
    parseIter [] st = Iter.halt (some ⟨none, some Error.EOF⟩) Stop.closed := by
  simp [parseIter, readLine, h, ReadBytes]

theorem parseIter_status (text rest : Bytes) (h10 : 10 ∉ text) :
    parseIter (encode (Frame.simpleString text) ++ rest) {} =
      Iter.next (some ⟨some (Reply.status text), none⟩) rest {} := by
  have hr : encode (Frame.simpleString text) ++ rest = (43 :: text) ++ CRLF ++ rest := by
    simp [encode]
  have hl := readLine_line (43 :: text) rest {} rfl (by simp [h10])
  unfold parseIter
  rw [hr, hl]
  simp only [List.cons_append, index_zero_cons]
  have ht : TrimSuffix (43 :: (text ++ CRLF)) CRLF = 43 :: text := TrimSuffix_crlf (43 :: text)
  simp [parseSingleLineReply, index_zero_cons, ht, slice_tail_cast]

theorem parseIter_error (text rest : Bytes) (h10 : 10 ∉ text) :
    parseIter (encode (Frame.error text) ++ rest) {} =
      Iter.next (some ⟨some (Reply.err text), none⟩) rest {} := by
  have hr : encode (Frame.error text) ++ rest = (45 :: text) ++ CRLF ++ rest := by
    simp [encode]
  have hl := readLine_line (45 :: text) rest {} rfl (by simp [h10])
  unfold parseIter
  rw [hr, hl]
  simp only [List.cons_append, index_zero_cons]
  have ht : TrimSuffix (45 :: (text ++ CRLF)) CRLF = 45 :: text := TrimSuffix_crlf (45 :: text)
  simp [parseSingleLineReply, index_zero_cons, ht, slice_tail_cast]

theorem parseIter_integer (n : Int) (rest : Bytes) (h1 : -(2 : Int) ^ 63 ≤ n)
    (h2 : n < (2 : Int) ^ 63) :
    parseIter (encode (Frame.integer n) ++ rest) {} =
      Iter.next (some ⟨some (Reply.int n), none⟩) rest {} := by
  have hr : encode (Frame.integer n) ++ rest = (58 :: Itoa n) ++ CRLF ++ rest := by
    simp [encode]
  have h10 : 10 ∉ Itoa n := by
    intro h
    have := Itoa_digits n 10 h
    omega
  have hl := readLine_line (58 :: Itoa n) rest {} rfl (by simp [h10])
  unfold parseIter
  rw [hr, hl]
  simp only [List.cons_append, index_zero_cons]
  have ht : TrimSuffix (58 :: (Itoa n ++ CRLF)) CRLF = 58 :: Itoa n :=
    TrimSuffix_crlf (58 :: Itoa n)
  simp [parseSingleLineReply, index_zero_cons, ht, slice_tail_cast, ParseInt_Itoa n h1 h2]

theorem parseIter_nullBulk (rest : Bytes) :
    parseIter (encode Frame.nullBulk ++ rest) {} =
      Iter.next (some ⟨some Reply.nullBulk, none⟩) rest {} := by
  have hr : encode Frame.nullBulk ++ rest = [36, 45, 49] ++ CRLF ++ rest := by
    simp [encode, CRLF]
  have hl := readLine_line [36, 45, 49] rest {} rfl (by decide)
  unfold parseIter
  rw [hr, hl]
  have hh : parseBulkHeader ([36, 45, 49] ++ CRLF) {} = StepResult.ok { bulkLen := -1 } := by
    decide
  have hi : index ([36, 45, 49] ++ CRLF) 0 = some 36 := by decide
  simp only [hi, hh]
  simp

theorem parseIter_emptyArray (rest : Bytes) :
    parseIter (encode (Frame.array []) ++ rest) {} =
      Iter.next (some ⟨some Reply.emptyMultiBulk, none⟩) rest {} := by
  have hr : encode (Frame.array []) ++ rest = [42, 48] ++ CRLF ++ rest := by
    simp [encode, CRLF, decimal, decimalAux]
  have hl := readLine_line [42, 48] rest {} rfl (by decide)
  unfold parseIter
  rw [hr, hl]
  have hh : parseMultiBulkHeader ([42, 48] ++ CRLF) {} = StepResult.ok {} := by
    decide
  have hi : index ([42, 48] ++ CRLF) 0 = some 42 := by decide
  simp only [hi, hh]
  simp

theorem decimal_no_lf (n : Nat) : 10 ∉ decimal n := by
  intro h
  have := decimal_digits n 10 h
  omega

theorem parseIter_bulkHeader (n : Nat) (rest : Bytes) (hpos : 0 < n) (hlt : n < 2 ^ 63) :
    parseIter (36 :: (decimal n ++ CRLF) ++ rest) {} =
      Iter.next none rest
        { readingMultiLine := true, expectedArgsCount := 1, msgType := 36, args := [],
          bulkLen := (n : Int) } := by
  have hr : 36 :: (decimal n ++ CRLF) ++ rest = (36 :: decimal n) ++ CRLF ++ rest := by simp
  have hl := readLine_line (36 :: decimal n) rest {} rfl (by simp [decimal_no_lf])
  unfold parseIter
  rw [hr, hl]
  simp only [List.cons_append, index_zero_cons]
  have hh : parseBulkHeader (36 :: (decimal n ++ CRLF)) {} =
      StepResult.ok { readingMultiLine := true, expectedArgsCount := 1, msgType := 36,
                      args := [], bulkLen := (n : Int) } := by
    unfold parseBulkHeader
    rw [slice_body, index_zero_cons]
    simp only [ParseInt_decimal n hlt]
    rw [if_neg (by omega), if_pos (by omega)]
  rw [hh]
  simp

theorem parseIter_arrayHeader (n : Nat) (rest : Bytes) (hpos : 0 < n) (hlt : n < 2 ^ 32) :
    parseIter (42 :: (decimal n ++ CRLF) ++ rest) {} =
      Iter.next none rest
        { readingMultiLine := true, expectedArgsCount := (n : Int), msgType := 42, args := [],
          bulkLen := 0 } := by
  have hr : 42 :: (decimal n ++ CRLF) ++ rest = (42 :: decimal n) ++ CRLF ++ rest := by simp
  have hl := readLine_line (42 :: decimal n) rest {} rfl (by simp [decimal_no_lf])
  unfold parseIter
  rw [hr, hl]
  simp only [List.cons_append, index_zero_cons]
  have hh : parseMultiBulkHeader (42 :: (decimal n ++ CRLF)) {} =
      StepResult.ok { readingMultiLine := true, expectedArgsCount := (n : Int), msgType := 42,
                      args := [], bulkLen := 0 } := by
    unfold parseMultiBulkHeader
    rw [slice_body, index_zero_cons]
    simp only [ParseUint_decimal n 32 hlt]
    rw [if_neg (by omega)]
  rw [hh]
  simp
  omega

theorem parseIter_elemHeader (n : Nat) (rest : Bytes) (st : readState) (hpos : 0 < n)
    (hlt : n < 2 ^ 63) (hm : st.readingMultiLine = true) (hb : st.bulkLen = 0)
    (hf : st.finished = false) :
    parseIter (36 :: (decimal n ++ CRLF) ++ rest) st =
      Iter.next none rest { st with bulkLen := (n : Int) } := by
  have hr : 36 :: (decimal n ++ CRLF) ++ rest = (36 :: decimal n) ++ CRLF ++ rest := by simp
  have hl := readLine_line (36 :: decimal n) rest st hb (by simp [decimal_no_lf])
  unfold parseIter
  rw [hr, hl]
  have hh : readBody ((36 :: decimal n) ++ CRLF) st =
      StepResult.ok { st with bulkLen := (n : Int) } := by
    unfold readBody
    rw [slice_line]
    simp only [index_zero_cons, slice_tail, if_true, ParseInt_decimal n hlt]
    rw [if_neg (by omega)]
  have hf2 : ¬ (0 < st.expectedArgsCount ∧ (st.args.length : Int) = st.expectedArgsCount) := by
    simpa [readState.finished] using hf
  simp only [hm, hh]
  simp [readState.finished, hf2]

theorem readBody_plain (p : Bytes) (st : readState) (hp : p ≠ []) (h36 : p.head? ≠ some 36) :
    readBody (p ++ CRLF) st = StepResult.ok { st with args := st.args ++ [p] } := by
  unfold readBody
  rw [slice_line]
  cases p with
  | nil => exact absurd rfl hp
  | cons c t =>
    have hc : c ≠ 36 := by
      intro e; apply h36; simp [e]
    simp [index_zero_cons, hc]

theorem parseIter_body (p rest : Bytes) (st : readState) (hp : p ≠ [])
    (h36 : p.head? ≠ some 36) (hlen : p.length + 2 < 2 ^ 63)
    (hm : st.readingMultiLine = true) (hb : st.bulkLen = (p.length : Int)) :
    parseIter (p ++ CRLF ++ rest) st =
      (let st1 : readState := { st with bulkLen := 0, args := st.args ++ [p] }
       if st1.finished then
         if st1.msgType = 42 then
           Iter.next (some ⟨some (Reply.multiBulk st1.args), none⟩) rest {}
         else if st1.msgType = 36 then
           match st1.args with
           | [] => Iter.halt none Stop.panicked
           | a :: _ => Iter.next (some ⟨some (Reply.bulk a), none⟩) rest {}
         else Iter.next (some ⟨none, none⟩) rest {}
       else Iter.next none rest st1) := by
  have hl := readLine_bulk p rest st hb hp hlen
  unfold parseIter
  rw [hl]
  simp only [hm, readBody_plain p _ hp h36]
  simp

/-! ### The decoder loop ends on every input -/

theorem ReadBytes_split (d : Nat) :
    ∀ (r line rest : Bytes), ReadBytes d r = some (line, rest) →
      r = line ++ rest ∧ line ≠ [] := by
  intro r
  induction r with
  | nil => intro line rest h; simp [ReadBytes] at h
  | cons b bs ih =>
    intro line rest h
    unfold ReadBytes at h
    by_cases hb : b = d
    · rw [if_pos hb] at h
      simp only [Option.some.injEq, Prod.mk.injEq] at h
      obtain ⟨h1, h2⟩ := h
      subst h1 h2
      simp
    · rw [if_neg hb] at h
      cases hr : ReadBytes d bs with
      | none => rw [hr] at h; simp at h
      | some pr =>
        obtain ⟨l1, r1⟩ := pr
        rw [hr] at h
        simp only [Option.some.injEq, Prod.mk.injEq] at h
        obtain ⟨h1, h2⟩ := h
        subst h1 h2
        obtain ⟨e, _⟩ := ih l1 r1 hr
        simp [e]

theorem ReadFull_split (n : Nat) (r msg rest : Bytes)
    (h : ReadFull n r = Except.ok (msg, rest)) : r = msg ++ rest ∧ msg.length = n := by
  unfold ReadFull at h
  by_cases hn : n ≤ r.length
  · rw [if_pos hn] at h
    simp only [Except.ok.injEq, Prod.mk.injEq] at h
    obtain ⟨h1, h2⟩ := h
    subst h1 h2
    simp [hn]
  · rw [if_neg hn] at h
    split at h <;> simp at h

theorem readLine_ok_shorter (r msg rest : Bytes) (st st1 : readState)
    (h : readLine r st = LineResult.ok msg rest st1) :
    rest.length < r.length ∧ st1.bulkLen = 0 := by
  unfold readLine at h
  by_cases h0 : st.bulkLen = 0
  · rw [if_pos h0] at h
    cases hr : ReadBytes 10 r with
    | none => rw [hr] at h; simp at h
    | some pr =>
      obtain ⟨l1, r1⟩ := pr
      rw [hr] at h
      obtain ⟨e, hne⟩ := ReadBytes_split 10 r l1 r1 hr
      have hpos : 0 < l1.length := List.length_pos.mpr hne
      simp only at h
      split at h
      · simp at h
      · split at h
        · simp at h
        · simp only [LineResult.ok.injEq] at h
          obtain ⟨_, h2, h3⟩ := h
          subst h2 h3
          rw [e]
          simp [h0]
          omega
  · rw [if_neg h0] at h
    simp only at h
    split at h
    · simp at h
    · rename_i hn
      cases hr : ReadFull (st.bulkLen + 2).toNat r with
      | error e => rw [hr] at h; simp at h
      | ok pr =>
        obtain ⟨m1, r1⟩ := pr
        rw [hr] at h
        obtain ⟨e, hl⟩ := ReadFull_split _ r m1 r1 hr
        simp only at h
        split at h
        · simp at h
        · split at h
          · split at h
            · simp at h
            · simp only [LineResult.ok.injEq] at h
              obtain ⟨_, h2, h3⟩ := h
              subst h2 h3
              rw [e]
              simp
              omega
          · simp at h

theorem readLine_protoErr_shorter (r rest : Bytes) (st : readState) (e : Error)
    (hb : 0 ≤ st.bulkLen) (h : readLine r st = LineResult.protoErr e rest) :
    rest.length < r.length := by
  unfold readLine at h
  by_cases h0 : st.bulkLen = 0
  · rw [if_pos h0] at h
    cases hr : ReadBytes 10 r with
    | none => rw [hr] at h; simp at h
    | some pr =>
      obtain ⟨l1, r1⟩ := pr
      rw [hr] at h
      obtain ⟨e1, hne⟩ := ReadBytes_split 10 r l1 r1 hr
      have hpos : 0 < l1.length := List.length_pos.mpr hne
      simp only at h
      split at h
      · simp at h
      · split at h
        · simp only [LineResult.protoErr.injEq] at h
          obtain ⟨_, h2⟩ := h
          subst h2
          rw [e1]
          simp
          omega
        · simp at h
  · rw [if_neg h0] at h
    simp only at h
    split at h
    · simp at h
    · rename_i hn
      cases hr : ReadFull (st.bulkLen + 2).toNat r with
      | error e => rw [hr] at h; simp at h
      | ok pr =>
        obtain ⟨m1, r1⟩ := pr
        rw [hr] at h
        obtain ⟨e1, hl⟩ := ReadFull_split _ r m1 r1 hr
        simp only at h
        split at h
        · simp only [LineResult.protoErr.injEq] at h
          obtain ⟨_, h2⟩ := h
          subst h2
          rw [e1]
          simp
          omega
        · split at h
          · split at h
            · simp only [LineResult.protoErr.injEq] at h
              obtain ⟨_, h2⟩ := h
              subst h2
              rw [e1]
              simp
              omega
            · simp at h
          · simp at h

theorem parseMultiBulkHeader_bulkLen (msg : Bytes) (st st1 : readState)
    (h : parseMultiBulkHeader msg st = StepResult.ok st1) : st1.bulkLen = st.bulkLen := by
  unfold parseMultiBulkHeader at h
  split at h
  · split at h
    · simp at h
    · split at h
      · simp only [StepResult.ok.injEq] at h
        subst h
        rfl
      · simp only [StepResult.ok.injEq] at h
        subst h
        rfl
  · simp at h

theorem parseBulkHeader_bulkLen (msg : Bytes) (st st1 : readState)
    (h : parseBulkHeader msg st = StepResult.ok st1) : st1.bulkLen = -1 ∨ 0 < st1.bulkLen := by
  unfold parseBulkHeader at h
  split at h
  · split at h
    · simp at h
    · split at h
      · rename_i hb
        simp only [StepResult.ok.injEq] at h
        subst h
        exact Or.inl hb
      · split at h
        · rename_i hb
          simp only [StepResult.ok.injEq] at h
          subst h
          exact Or.inr hb
        · simp at h
  · simp at h

theorem readBody_bulkLen (msg : Bytes) (st st1 : readState) (hb : 0 ≤ st.bulkLen)
    (h : readBody msg st = StepResult.ok st1) : 0 ≤ st1.bulkLen := by
  unfold readBody at h
  split at h
  · simp at h
  · split at h
    · simp at h
    · split at h
      · split at h
        · simp at h
        · split at h
          · simp at h
          · split at h
            · simp only [StepResult.ok.injEq] at h
              subst h
              simp
            · simp only [StepResult.ok.injEq] at h
              subst h
              simp only
              omega
      · simp only [StepResult.ok.injEq] at h
        subst h
        exact hb

theorem parseIter_next_shorter (r rest : Bytes) (st st1 : readState) (out : Option Payload)
    (hb : 0 ≤ st.bulkLen) (h : parseIter r st = Iter.next out rest st1) :
    rest.length < r.length ∧ 0 ≤ st1.bulkLen := by
  unfold parseIter at h
  cases hl : readLine r st with
  | ioErr e => rw [hl] at h; simp at h
  | panic => rw [hl] at h; simp at h
  | protoErr e rest1 =>
    rw [hl] at h
    simp only [Iter.next.injEq] at h
    obtain ⟨_, h2, h3⟩ := h
    subst h2 h3
    exact ⟨readLine_protoErr_shorter r _ st e hb hl, le_refl _⟩
  | ok msg rest1 st2 =>
    rw [hl] at h
    obtain ⟨hlen, hb2⟩ := readLine_ok_shorter r msg rest1 st st2 hl
    simp only at h
    split at h
    · split at h
      · simp at h
      · split at h
        · cases hh : parseMultiBulkHeader msg st2 with
          | panic => rw [hh] at h; simp at h
          | error =>
            rw [hh] at h
            simp only [Iter.next.injEq] at h
            obtain ⟨_, h2, h3⟩ := h
            subst h2 h3
            exact ⟨hlen, le_refl _⟩
          | ok st3 =>
            rw [hh] at h
            have hb3 := parseMultiBulkHeader_bulkLen msg st2 st3 hh
            simp only at h
            split at h
            · simp only [Iter.next.injEq] at h
              obtain ⟨_, h2, h3⟩ := h
              subst h2 h3
              exact ⟨hlen, le_refl _⟩
            · simp only [Iter.next.injEq] at h
              obtain ⟨_, h2, h3⟩ := h
              subst h2 h3
              exact ⟨hlen, by omega⟩
        · split at h
          · cases hh : parseBulkHeader msg st2 with
            | panic => rw [hh] at h; simp at h
            | error =>
              rw [hh] at h
              simp only [Iter.next.injEq] at h
              obtain ⟨_, h2, h3⟩ := h
              subst h2 h3
              exact ⟨hlen, le_refl _⟩
            | ok st3 =>
              rw [hh] at h
              have hb3 := parseBulkHeader_bulkLen msg st2 st3 hh
              simp only at h
              split at h
              · simp only [Iter.next.injEq] at h
                obtain ⟨_, h2, h3⟩ := h
                subst h2 h3
                exact ⟨hlen, le_refl _⟩
              · simp only [Iter.next.injEq] at h
                obtain ⟨_, h2, h3⟩ := h
                subst h2 h3
                exact ⟨hlen, by omega⟩
          · cases hh : parseSingleLineReply msg with
            | none => rw [hh] at h; simp at h
            | some p =>
              rw [hh] at h
              simp only [Iter.next.injEq] at h
              obtain ⟨_, h2, h3⟩ := h
              subst h2 h3
              exact ⟨hlen, le_refl _⟩
    · cases hh : readBody msg st2 with
      | panic => rw [hh] at h; simp at h
      | error =>
        rw [hh] at h
        simp only [Iter.next.injEq] at h
        obtain ⟨_, h2, h3⟩ := h
        subst h2 h3
        exact ⟨hlen, le_refl _⟩
      | ok st3 =>
        rw [hh] at h
        have hb3 := readBody_bulkLen msg st2 st3 (by omega) hh
        simp only at h
        split at h
        · split at h
          · simp only [Iter.next.injEq] at h
            obtain ⟨_, h2, h3⟩ := h
            subst h2 h3
            exact ⟨hlen, le_refl _⟩
          · split at h
            · split at h
              · simp at h
              · simp only [Iter.next.injEq] at h
                obtain ⟨_, h2, h3⟩ := h
                subst h2 h3
                exact ⟨hlen, le_refl _⟩
            · simp only [Iter.next.injEq] at h
              obtain ⟨_, h2, h3⟩ := h
              subst h2 h3
              exact ⟨hlen, le_refl _⟩
        · simp only [Iter.next.injEq] at h
          obtain ⟨_, h2, h3⟩ := h
          subst h2 h3
          exact ⟨hlen, hb3⟩

theorem Stream.send_stop (p : Payload) (s : Stream) : (Stream.send p s).stop = s.stop := rfl

theorem parseLoop_total (fuel : Nat) :
    ∀ (r : Bytes) (st : readState), 0 ≤ st.bulkLen → r.length < fuel →
      (parseLoop fuel r st).stop ≠ Stop.outOfFuel := by
  induction fuel with
  | zero => intro r st _ h; omega
  | succ fuel ih =>
    intro r st hb hlen
    unfold parseLoop
    cases hi : parseIter r st with
    | halt last stop =>
      simp only
      unfold parseIter at hi
      revert hi
      repeat' split
      all_goals (first | (intro h; injection h with h1 h2; rw [← h2]; decide) | simp)
    | next out rest st1 =>
      obtain ⟨h1, h2⟩ := parseIter_next_shorter r rest st st1 out hb hi
      cases out with
      | none => exact ih rest st1 h2 (by omega)
      | some p => exact ih rest st1 h2 (by omega)

theorem parseLoop_fuel_succ (fuel : Nat) :
    ∀ (r : Bytes) (st : readState), (parseLoop fuel r st).stop ≠ Stop.outOfFuel →
      parseLoop (fuel + 1) r st = parseLoop fuel r st := by
  induction fuel with
  | zero => intro r st h; simp [parseLoop] at h
  | succ fuel ih =>
    intro r st h
    rw [parseLoop] at h ⊢
    conv => rhs; rw [parseLoop]
    cases hi : parseIter r st with
    | halt last stop => rfl
    | next out rest st1 =>
      rw [hi] at h
      cases out with
      | none => exact ih rest st1 h
      | some p =>
        simp only [Stream.send_stop] at h
        simp only [ih rest st1 h]

theorem parseLoop_fuel_add (fuel k : Nat) (r : Bytes) (st : readState)
    (h : (parseLoop fuel r st).stop ≠ Stop.outOfFuel) :
    parseLoop (fuel + k) r st = parseLoop fuel r st := by
  induction k with
  | zero => rfl
  | succ k ih =>
    rw [← Nat.add_assoc, parseLoop_fuel_succ (fuel + k) r st (by rw [ih]; exact h), ih]

/-- Whatever budget lets the loop end gives the stream of `parse0`. -/
theorem parse0_eq_parseLoop (fuel : Nat) (data : Bytes)
    (h : (parseLoop fuel data {}).stop ≠ Stop.outOfFuel) :
    parse0 data = parseLoop fuel data {} := by
  have ht : (parseLoop (data.length + 1) data {}).stop ≠ Stop.outOfFuel :=
    parseLoop_total _ data {} (le_refl _) (Nat.lt_succ_self _)
  unfold parse0
  rcases Nat.le_total fuel (data.length + 1) with hle | hle
  · obtain ⟨k, hk⟩ := Nat.exists_eq_add_of_le hle
    rw [hk, parseLoop_fuel_add fuel k data {} h]
  · obtain ⟨k, hk⟩ := Nat.exists_eq_add_of_le hle
    rw [hk, parseLoop_fuel_add (data.length + 1) k data {} ht]

/-- The model of `parse0` never runs out of its loop budget. -/
theorem parse0_total (data : Bytes) : (parse0 data).stop ≠ Stop.outOfFuel :=
  parseLoop_total _ data {} (le_refl _) (Nat.lt_succ_self _)

/-! ### Whole frames -/

theorem parseLoop_bulk (f : Nat) (p rest : Bytes) (h : bulkOk p) :
    parseLoop (f + 2) (encodeBulk p ++ rest) {} =
      Stream.send ⟨some (Reply.bulk p), none⟩ (parseLoop f rest {}) := by
  obtain ⟨hne, h36, hlen⟩ := h
  have hpos : 0 < p.length := List.length_pos.mpr hne
  have hr : encodeBulk p ++ rest = 36 :: (decimal p.length ++ CRLF) ++ (p ++ CRLF ++ rest) := by
    simp [encodeBulk]
  rw [hr, parseLoop_next_none (f + 1) _ _ _ _
    (parseIter_bulkHeader p.length (p ++ CRLF ++ rest) hpos (by omega))]
  rw [parseLoop_next_some f _ rest _ {} ⟨some (Reply.bulk p), none⟩]
  rw [parseIter_body p rest _ hne h36 hlen rfl rfl]
  simp [readState.finished]

theorem parseLoop_elem_last (f n : Nat) (done : List Bytes) (p rest : Bytes) (h : bulkOk p)
    (hn : done.length + 1 = n) :
    parseLoop (f + 2) (encodeBulk p ++ rest) (arrayState n done) =
      Stream.send ⟨some (Reply.multiBulk (done ++ [p])), none⟩ (parseLoop f rest {}) := by
  obtain ⟨hne, h36, hlen⟩ := h
  have hpos : 0 < p.length := List.length_pos.mpr hne
  have hr : encodeBulk p ++ rest = 36 :: (decimal p.length ++ CRLF) ++ (p ++ CRLF ++ rest) := by
    simp [encodeBulk]
  have hfin : (arrayState n done).finished = false := by
    simp only [arrayState, readState.finished, decide_eq_false_iff_not]
    omega
  rw [hr, parseLoop_next_none (f + 1) _ _ _ _
    (parseIter_elemHeader p.length (p ++ CRLF ++ rest) (arrayState n done) hpos (by omega)
      rfl rfl hfin)]
  rw [parseLoop_next_some f _ rest _ {} ⟨some (Reply.multiBulk (done ++ [p])), none⟩]
  rw [parseIter_body p rest _ hne h36 hlen rfl rfl]
  have hfin2 : (0 : Int) < (n : Int) ∧ ((done.length : Int) + 1 = (n : Int)) := by
    constructor <;> omega
  simp [arrayState, readState.finished, hfin2]

theorem parseLoop_elem_more (f n : Nat) (done : List Bytes) (p rest : Bytes) (h : bulkOk p)
    (hn : done.length + 1 < n) :
    parseLoop (f + 2) (encodeBulk p ++ rest) (arrayState n done) =
      parseLoop f rest (arrayState n (done ++ [p])) := by
  obtain ⟨hne, h36, hlen⟩ := h
  have hpos : 0 < p.length := List.length_pos.mpr hne
  have hr : encodeBulk p ++ rest = 36 :: (decimal p.length ++ CRLF) ++ (p ++ CRLF ++ rest) := by
    simp [encodeBulk]
  have hfin : (arrayState n done).finished = false := by
    simp only [arrayState, readState.finished, decide_eq_false_iff_not]
    omega
  rw [hr, parseLoop_next_none (f + 1) _ _ _ _
    (parseIter_elemHeader p.length (p ++ CRLF ++ rest) (arrayState n done) hpos (by omega)
      rfl rfl hfin)]
  rw [parseLoop_next_none f _ rest _ (arrayState n (done ++ [p]))]
  rw [parseIter_body p rest _ hne h36 hlen rfl rfl]
  have hfin2 : ¬ ((done.length : Int) + 1 = (n : Int)) := by
    omega
  simp [arrayState, readState.finished, hfin2]

theorem parseLoop_elems (f n : Nat) (rest : Bytes) :
    ∀ (todo done : List Bytes), todo ≠ [] → done.length + todo.length = n →
      (∀ p ∈ todo, bulkOk p) →
      parseLoop (f + 2 * todo.length) ((todo.map encodeBulk).flatten ++ rest)
          (arrayState n done) =
        Stream.send ⟨some (Reply.multiBulk (done ++ todo)), none⟩ (parseLoop f rest {}) := by
  intro todo
  induction todo with
  | nil => intro done h; exact absurd rfl h
  | cons p t ih =>
    intro done _ hn hok
    have hp : bulkOk p := hok p (List.mem_cons_self _ _)
    have hflat : ((p :: t).map encodeBulk).flatten ++ rest =
        encodeBulk p ++ ((t.map encodeBulk).flatten ++ rest) := by
      simp
    have hfuel : f + 2 * (p :: t).length = (f + 2 * t.length) + 2 := by
      simp only [List.length_cons]; omega
    rw [hflat, hfuel]
    cases t with
    | nil =>
      simp only [List.length_cons, List.length_nil] at hn
      simpa using parseLoop_elem_last f n done p rest hp (by omega)
    | cons q t2 =>
      have hn1 : done.length + 1 < n := by
        simp only [List.length_cons] at hn; omega
      have hn2 : (done ++ [p]).length + (q :: t2).length = n := by
        simp only [List.length_append, List.length_cons, List.length_nil] at hn ⊢; omega
      have hok2 : ∀ x ∈ q :: t2, bulkOk x := fun x hx => hok x (List.mem_cons_of_mem _ hx)
      rw [parseLoop_elem_more _ n done p _ hp hn1, ih (done ++ [p]) (by simp) hn2 hok2]
      simp

theorem parseLoop_array (f : Nat) (elems : List Bytes) (rest : Bytes) (hne : elems ≠ [])
    (hlen : elems.length < 2 ^ 32) (hok : ∀ p ∈ elems, bulkOk p) :
    parseLoop (f + 2 * elems.length + 1) (encode (Frame.array elems) ++ rest) {} =
      Stream.send ⟨some (Reply.multiBulk elems), none⟩ (parseLoop f rest {}) := by
  have hpos : 0 < elems.length := List.length_pos.mpr hne
  have hr : encode (Frame.array elems) ++ rest =
      42 :: (decimal elems.length ++ CRLF) ++ ((elems.map encodeBulk).flatten ++ rest) := by
    simp [encode]
  rw [hr, parseLoop_next_none _ _ _ _ _
    (parseIter_arrayHeader elems.length _ hpos hlen)]
  have := parseLoop_elems f elems.length rest elems [] hne (by simp) hok
  simpa [arrayState] using this

/-- Every canonical frame, followed by any input, is decoded in a bounded number
of iterations into one reply that stands for the frame; decoding then goes on
with the rest of the input from the initial state. -/
theorem parseLoop_frame (F : Frame) (h : F.canonical) :
    ∃ (k : Nat) (r : Reply), r.toFrame = F ∧ ∀ (f : Nat) (rest : Bytes),
      parseLoop (f + k) (encode F ++ rest) {} =
        Stream.send ⟨some r, none⟩ (parseLoop f rest {}) := by
  cases F with
  | simpleString text =>
    exact ⟨1, Reply.status text, rfl, fun f rest =>
      parseLoop_next_some f _ rest _ _ _ (parseIter_status text rest h.2)⟩
  | error text =>
    exact ⟨1, Reply.err text, rfl, fun f rest =>
      parseLoop_next_some f _ rest _ _ _ (parseIter_error text rest h.2)⟩
  | integer n =>
    exact ⟨1, Reply.int n, rfl, fun f rest =>
      parseLoop_next_some f _ rest _ _ _ (parseIter_integer n rest h.1 h.2)⟩
  | bulkString b =>
    exact ⟨2, Reply.bulk b, rfl, fun f rest => parseLoop_bulk f b rest h⟩
  | nullBulk =>
    exact ⟨1, Reply.nullBulk, rfl, fun f rest =>
      parseLoop_next_some f _ rest _ _ _ (parseIter_nullBulk rest)⟩
  | array elems =>
    cases elems with
    | nil =>
      exact ⟨1, Reply.emptyMultiBulk, rfl, fun f rest =>
        parseLoop_next_some f _ rest _ _ _ (parseIter_emptyArray rest)⟩
    | cons p t =>
      refine ⟨2 * (p :: t).length + 1, Reply.multiBulk (p :: t), rfl, fun f rest => ?_⟩
      have := parseLoop_array f (p :: t) rest (by simp) h.1 h.2
      rw [← this]
      congr 1
  | nullArray => exact absurd h (by simp [Frame.canonical])

/-! ### Claims on the decoder -/

/-- C1, as stated, fails: the wire form `$0\r\n\r\n` of the empty bulk string and
the wire form `*-1\r\n` of the null array are each answered by `ParseOne` with a
protocol error and no reply. -/
theorem roundTrip_fails_emptyBulk_nullArray :
    ParseOne (encode (Frame.bulkString [])) =
        some (none, some (protocolError [36, 48, 13, 10])) ∧
      ParseOne (encode Frame.nullArray) =
        some (none, some (protocolError [42, 45, 49, 13, 10])) := by
  decide

/-- C1, amended: for every frame that is a simple string or error without CR and
LF, a 64-bit integer, the null bulk, a bulk string that is not empty and does
not start with `$`, the empty array, or an array of fewer than 2^32 such bulk
strings, decoding its wire form yields exactly one reply, which stands for the
frame, followed only by the end-of-input payload; `ParseOne` returns that reply
and no error. -/
theorem roundTrip_canonical (F : Frame) (h : F.canonical) :
    ∃ r : Reply, r.toFrame = F ∧
      parse0 (encode F) = ⟨[⟨some r, none⟩, ⟨none, some Error.EOF⟩], Stop.closed⟩ ∧
      ParseOne (encode F) = some (some r, none) := by
  obtain ⟨k, r, hr, hk⟩ := parseLoop_frame F h
  have h1 : parseLoop (1 + k) (encode F) {} =
      ⟨[⟨some r, none⟩, ⟨none, some Error.EOF⟩], Stop.closed⟩ := by
    have := hk 1 []
    rw [List.append_nil] at this
    rw [this, parseLoop_halt 0 [] {} _ _ (parseIter_nil {} rfl)]
    rfl
  have h2 : parse0 (encode F) = ⟨[⟨some r, none⟩, ⟨none, some Error.EOF⟩], Stop.closed⟩ := by
    rw [parse0_eq_parseLoop (1 + k) (encode F) (by rw [h1]; exact Stop.noConfusion), h1]
  refine ⟨r, hr, h2, ?_⟩
  unfold ParseOne
  rw [h2]

/-- Witness for C1, amended: the array of the bulk strings "set", "k", "v". -/
theorem roundTrip_canonical_witness :
    (Frame.array [[115, 101, 116], [107], [118]]).canonical ∧
      ∃ r : Reply, r.toFrame = Frame.array [[115, 101, 116], [107], [118]] ∧
        parse0 (encode (Frame.array [[115, 101, 116], [107], [118]])) =
          ⟨[⟨some r, none⟩, ⟨none, some Error.EOF⟩], Stop.closed⟩ ∧
        ParseOne (encode (Frame.array [[115, 101, 116], [107], [118]])) = some (some r, none) :=
  ⟨by simp [Frame.canonical, bulkOk],
   roundTrip_canonical (Frame.array [[115, 101, 116], [107], [118]])
     (by simp [Frame.canonical, bulkOk])⟩

/-- C2 at the failing input: the bulk string with payload `$1` is sent as
`$2\r\n$1\r\n`; the decoder takes the payload for a length header, waits for
three more bytes and ends with the end-of-input error without ever sending a
bulk string. -/
theorem bulk_dollar_payload_lost :
    encode (Frame.bulkString [36, 49]) = [36, 50, 13, 10, 36, 49, 13, 10] ∧
      parse0 (encode (Frame.bulkString [36, 49])) =
        ⟨[⟨none, some Error.EOF⟩], Stop.closed⟩ := by
  decide

/-! ### Claims on the sorted set that meet the defect of `removeNode` -/

/-- C3 at the failing inputs.  After `Add("a", 1)`, `Add("b", 2)`, `Remove("a")`
the only member is "b", at position 0, yet `GetRank("b", false)` is 1 and
`Range(0, 1, false)` is the removed element.  After `Add("", 5)` with a node of
one level and `Add("b", 6)` with a node of two levels, `GetRank("", false)` is
-1 although the empty member is in the set at position 0. -/
theorem rank_inconsistent_after_remove :
    (∃ s, SortedSet.run [Op.add [97] 1 0, Op.add [98] 2 0, Op.remove [97]] Make = Res.ok s ∧
      s.Get [98] = some ⟨[98], 2⟩ ∧ s.Get [97] = none ∧ s.Len = 1 ∧
      s.GetRank [98] false = Res.ok 1 ∧ s.Range 0 1 false = Res.ok [⟨[97], 1⟩]) ∧
    (∃ s, SortedSet.run [Op.add [] 5 0, Op.add [98] 6 1] Make = Res.ok s ∧
      s.Get [] = some ⟨[], 5⟩ ∧ s.GetRank [] false = Res.ok (-1)) := by
  refine ⟨⟨_, rfl, ?_⟩, ⟨_, rfl, ?_⟩⟩ <;> decide

/-- C4 at the failing input: after `Add("a", 1)` and `Add("b", 2)`, the call
`Remove("a")` returns true, `Get("a")` reports missing and `Len()` is 1, but
`Range(0, Len(), false)` still lists the removed member and not "b". -/
theorem remove_leaves_member_in_range :
    ∃ s s1, SortedSet.run [Op.add [97] 1 0, Op.add [98] 2 0] Make = Res.ok s ∧
      s.Remove [97] = Res.ok (s1, true) ∧ s1.Get [97] = none ∧ s1.Len = 1 ∧
      s1.Range 0 s1.Len false = Res.ok [⟨[97], 1⟩] := by
  refine ⟨_, _, rfl, rfl, ?_⟩
  decide

/-- C5 at the failing input: after `Add("a", 1)`, the call `Add("a", 2)` returns
false and leaves `Len()` at 1, `Get("a")` has score 2, but
`Range(0, Len(), false)` lists "a" with the old score 1. -/
theorem readd_keeps_old_score_in_range :
    ∃ s s1, SortedSet.run [Op.add [97] 1 0] Make = Res.ok s ∧
      s.Add [97] 2 0 = Res.ok (s1, false) ∧ s1.Len = 1 ∧
      s1.Get [97] = some ⟨[97], 2⟩ ∧
      s1.Range 0 s1.Len false = Res.ok [⟨[97], 1⟩] := by
  refine ⟨_, _, rfl, rfl, ?_⟩
  decide

/-- C7 at the failing input: after `insert("a", 1)`, `insert("b", 2)` (one level
each) and `remove("a", 1)` the list has level 1 and length 1, but the spans
along the level-0 chain from the header add up to 2. -/
theorem span_sum_off_after_remove :
    ∃ s1 n1 s2 n2 s3, makeSkipList.insert [97] 1 1 = Res.ok (s1, n1) ∧
      s1.insert [98] 2 1 = Res.ok (s2, n2) ∧ s2.remove [97] 1 = Res.ok (s3, true) ∧
      s3.level = 1 ∧ s3.length = 1 ∧
      spanSum s3.nodes 0 (s3.nodes.length + 1) (some s3.header) = some 2 := by
  refine ⟨_, _, _, _, _, rfl, rfl, rfl, ?_⟩
  decide

/-! ### The log writer and linear replay -/

theorem framesBytes_append (a b : List CmdLine) :
    framesBytes (a ++ b) = framesBytes a ++ framesBytes b := by
  simp [framesBytes]

theorem framesBytes_cons (c : CmdLine) (l : List CmdLine) :
    framesBytes (c :: l) = cmdBytes c ++ framesBytes l := by
  simp [framesBytes]

theorem framesBytes_singleton (c : CmdLine) : framesBytes [c] = cmdBytes c := by
  simp [framesBytes]

theorem isSelect_selectCmd (i : Int) : isSelect (selectCmd i) = true := by
  simp only [isSelect, selectCmd, decide_eq_true_eq]
  decide

theorem selectArg_selectCmd (i : Int) (h : int64 i) : selectArg (selectCmd i) = some i := by
  simp only [selectArg, selectCmd, Atoi]
  exact ParseInt_Itoa i h.1 h.2

theorem linearReplay_append (a b : List CmdLine) :
    ∀ db : Int, linearReplay db (a ++ b) = linearReplay db a ++ linearReplay (finalDB db a) b := by
  induction a with
  | nil => intro db; rfl
  | cons f fs ih =>
    intro db
    simp only [List.cons_append, linearReplay, finalDB]
    by_cases hs : isSelect f = true
    · simp only [hs, if_true]
      cases selectArg f with
      | none => exact ih db
      | some i => exact ih i
    · simp only [hs, Bool.false_eq_true, if_false]
      exact congrArg _ (ih db)

theorem finalDB_append (a b : List CmdLine) :
    ∀ db : Int, finalDB db (a ++ b) = finalDB (finalDB db a) b := by
  induction a with
  | nil => intro db; rfl
  | cons f fs ih =>
    intro db
    simp only [List.cons_append, finalDB]
    by_cases hs : isSelect f = true
    · simp only [hs, if_true]
      cases selectArg f with
      | none => exact ih db
      | some i => exact ih i
    · simp only [hs, Bool.false_eq_true, if_false]
      exact ih db

theorem framesFrom_nil (db : Int) : framesFrom db [] = [] := rfl

theorem framesFrom_cons (db : Int) (p : payload) (ps : List payload) :
    framesFrom db (p :: ps) = (aofFrames db p).1 ++ framesFrom (aofFrames db p).2 ps := by
  unfold framesFrom aofFrames
  by_cases h : p.dbIndex ≠ db
  · simp [h]
  · have h2 : p.dbIndex = db := not_not.mp h
    simp [h2]

theorem handleRecords_file (ps : List payload) :
    ∀ h : Handler, (h.handleRecords ps).aofFile =
      h.aofFile ++ framesBytes (framesFrom h.currentDB ps) := by
  induction ps with
  | nil => intro h; simp [Handler.handleRecords, framesFrom_nil, framesBytes]
  | cons p ps ih =>
    intro h
    have hstep : h.handleRecords (p :: ps) = (h.handleRecord p).handleRecords ps := rfl
    rw [hstep, ih, framesFrom_cons, framesBytes_append]
    simp [Handler.handleRecord, List.append_assoc]

theorem handleRecords_currentDB (ps : List payload) :
    ∀ h : Handler, (h.handleRecords ps).currentDB =
      (ps.map payload.dbIndex).getLastD h.currentDB := by
  induction ps with
  | nil => intro h; rfl
  | cons p ps ih =>
    intro h
    have hstep : h.handleRecords (p :: ps) = (h.handleRecord p).handleRecords ps := rfl
    rw [hstep, ih]
    have hdb : (h.handleRecord p).currentDB = p.dbIndex := by
      unfold Handler.handleRecord aofFrames
      by_cases hne : p.dbIndex ≠ h.currentDB
      · simp [hne]
      · simp [not_not.mp hne]
    rw [hdb]
    cases ps with
    | nil => rfl
    | cons q qs => simp [List.getLastD]

theorem replay_framesFrom (ps : List payload) :
    ∀ db : Int, (∀ p ∈ ps, int64 p.dbIndex) → (∀ p ∈ ps, isSelect p.cmdLine = false) →
      linearReplay db (framesFrom db ps) = recordsRun ps ∧
      finalDB db (framesFrom db ps) = (ps.map payload.dbIndex).getLastD db := by
  induction ps with
  | nil => intro db _ _; exact ⟨rfl, rfl⟩
  | cons p ps ih =>
    intro db hint hns
    have hp := hint p (List.mem_cons_self _ _)
    have hq := hns p (List.mem_cons_self _ _)
    obtain ⟨ih1, ih2⟩ := ih p.dbIndex (fun q hq => hint q (List.mem_cons_of_mem _ hq))
      (fun q hq => hns q (List.mem_cons_of_mem _ hq))
    have hlast : ((p :: ps).map payload.dbIndex).getLastD db =
        (ps.map payload.dbIndex).getLastD p.dbIndex := by
      cases ps with
      | nil => rfl
      | cons q qs => simp [List.getLastD]
    rw [framesFrom_cons, hlast]
    by_cases hne : p.dbIndex ≠ db
    · have ha : aofFrames db p = ([selectCmd p.dbIndex, p.cmdLine], p.dbIndex) := by
        unfold aofFrames; rw [if_pos hne]
      simp only [ha, List.cons_append, List.nil_append, linearReplay, finalDB,
        isSelect_selectCmd, selectArg_selectCmd p.dbIndex hp, hq, Bool.false_eq_true, if_false,
        if_true]
      exact ⟨by rw [ih1]; rfl, ih2⟩
    · have he : p.dbIndex = db := not_not.mp hne
      have ha : aofFrames db p = ([p.cmdLine], db) := by
        unfold aofFrames; rw [if_neg hne]
      simp only [ha, List.cons_append, List.nil_append, linearReplay, finalDB, hq,
        Bool.false_eq_true, if_false]
      rw [← he]
      exact ⟨by rw [ih1]; rfl, ih2⟩

/-- C8: for every sequence of queued records in which every `dbIndex` is a Go
`int` and no command is itself a `select`, `handleAof` (every write succeeding)
appends to the log exactly the frames `framesFrom 0`: before each record a
`select` frame iff its `dbIndex` differs from the current database of the
writer, which starts at 0; a linear replay of these frames from database 0 runs
exactly the recorded commands, each in its recorded database, in order. -/
theorem handleAof_linear_replay (h : Handler) (ps : List payload)
    (hint : ∀ p ∈ ps, int64 p.dbIndex) (hns : ∀ p ∈ ps, isSelect p.cmdLine = false) :
    (h.handleAof ps).aofFile = h.aofFile ++ framesBytes (framesFrom 0 ps) ∧
      linearReplay 0 (framesFrom 0 ps) = recordsRun ps := by
  constructor
  · unfold Handler.handleAof
    rw [handleRecords_file]
  · exact (replay_framesFrom ps 0 hint hns).1

/-- Witness for C8: two records for database 1 and one for database 0. -/
theorem handleAof_linear_replay_witness :
    (∀ p ∈ [(⟨[[115, 101, 116], [107], [118]], 1⟩ : payload), ⟨[[100, 101, 108], [107]], 1⟩,
        ⟨[[100, 101, 108], [107]], 0⟩], int64 p.dbIndex) ∧
      ((NewAOFHandler []).handleAof [⟨[[115, 101, 116], [107], [118]], 1⟩,
          ⟨[[100, 101, 108], [107]], 1⟩, ⟨[[100, 101, 108], [107]], 0⟩]).aofFile =
        (NewAOFHandler []).aofFile ++ framesBytes (framesFrom 0
          [⟨[[115, 101, 116], [107], [118]], 1⟩, ⟨[[100, 101, 108], [107]], 1⟩,
           ⟨[[100, 101, 108], [107]], 0⟩]) ∧
      linearReplay 0 (framesFrom 0 [⟨[[115, 101, 116], [107], [118]], 1⟩,
          ⟨[[100, 101, 108], [107]], 1⟩, ⟨[[100, 101, 108], [107]], 0⟩]) =
        recordsRun [⟨[[115, 101, 116], [107], [118]], 1⟩, ⟨[[100, 101, 108], [107]], 1⟩,
          ⟨[[100, 101, 108], [107]], 0⟩] :=
  ⟨by simp [int64],
   handleAof_linear_replay (NewAOFHandler []) _ (by simp [int64]) (by decide)⟩

/-! ### Loading a prefix of the log and the rewrite -/

/-- C9 (the code at the failing input), a recorded size of 0: with an empty log
at `StartRewrite` and the record `set k v` appended afterwards, `LoadAof(0)` in
`DoRewrite` reads the whole file, not its first 0 bytes, and replays the
appended record into the snapshot; `FinishRewrite` copies the same record again
from offset 0, so the record is delivered twice. -/
theorem loadAof_zero_reads_appended :
    (NewAOFHandler []).StartRewrite.fileSize = 0 ∧
      ((NewAOFHandler []).handleRecords [⟨[[115, 101, 116], [107], [118]], 0⟩]).aofFile =
        cmdBytes [[115, 101, 116], [107], [118]] ∧
      loadReader (cmdBytes [[115, 101, 116], [107], [118]]) 0 ≠
        (cmdBytes [[115, 101, 116], [107], [118]]).take 0 ∧
      LoadAof (cmdBytes [[115, 101, 116], [107], [118]]) 0 = [[[115, 101, 116], [107], [118]]] ∧
      ((cmdBytes [[115, 101, 116], [107], [118]]).drop 0) =
        cmdBytes [[115, 101, 116], [107], [118]] := by
  decide

/-- The sibling case of a recorded size S > 0: for every such S and every log
content, `LoadAof(S)` feeds the decoder exactly the first S bytes of the log file
(the whole file when it is shorter), so that with S the size of the log at
`StartRewrite` nothing appended afterwards reaches the snapshot of `DoRewrite`. -/
theorem loadAof_reads_first_bytes (h : Handler) (later : Bytes) (S : Int) (databases : Nat)
    (snapshot : List CmdLine → Nat → List (Option CmdLine × Option CmdLine))
    (hS : 0 < S) (hne : h.aofFile ≠ []) :
    loadReader (h.aofFile ++ later) S = (h.aofFile ++ later).take S.toNat ∧
      loadReader (h.aofFile ++ later) h.StartRewrite.fileSize = h.aofFile ∧
      DoRewrite databases snapshot (h.aofFile ++ later) h.StartRewrite =
        DoRewrite databases snapshot h.aofFile h.StartRewrite := by
  have hpos : 0 < h.aofFile.length := List.length_pos.mpr hne
  have h1 : ∀ l : Bytes, loadReader (h.aofFile ++ l) h.StartRewrite.fileSize = h.aofFile := by
    intro l
    unfold loadReader Handler.StartRewrite
    simp only
    rw [if_pos (by omega)]
    simp
  refine ⟨?_, h1 later, ?_⟩
  · unfold loadReader
    rw [if_pos hS]
  · have h2 := h1 later
    have h3 := h1 []
    rw [List.append_nil] at h3
    unfold DoRewrite LoadAof
    rw [h2, h3]

/-- An instance with S > 0: a log holding `set k v` at `StartRewrite`, to which
`del k` is appended afterwards. -/
theorem loadAof_reads_first_bytes_witness :
    (0 : Int) < 5 ∧ (NewAOFHandler (cmdBytes [[115, 101, 116], [107], [118]])).aofFile ≠ [] ∧
      loadReader ((NewAOFHandler (cmdBytes [[115, 101, 116], [107], [118]])).aofFile ++
          cmdBytes [[100, 101, 108], [107]])
        (NewAOFHandler (cmdBytes [[115, 101, 116], [107], [118]])).StartRewrite.fileSize =
        (NewAOFHandler (cmdBytes [[115, 101, 116], [107], [118]])).aofFile :=
  ⟨by decide, by decide,
   (loadAof_reads_first_bytes (NewAOFHandler (cmdBytes [[115, 101, 116], [107], [118]]))
      (cmdBytes [[100, 101, 108], [107]]) 5 16 (fun _ _ => []) (by decide) (by decide)).2.1⟩

theorem linearReplay_select (db i : Int) (h : int64 i) :
    linearReplay db [selectCmd i] = [] ∧ finalDB db [selectCmd i] = i := by
  simp [linearReplay, finalDB, isSelect_selectCmd, selectArg_selectCmd i h]

theorem getLastD_int64 (l : List Int) (d : Int) (hd : int64 d) (hl : ∀ x ∈ l, int64 x) :
    int64 (l.getLastD d) := by
  induction l generalizing d with
  | nil => exact hd
  | cons a t ih =>
    have : (a :: t).getLastD d = t.getLastD a := by
      cases t <;> simp [List.getLastD]
    rw [this]
    exact ih a (hl a (List.mem_cons_self _ _)) (fun x hx => hl x (List.mem_cons_of_mem _ hx))

set_option maxRecDepth 100000 in
/-- C10 (the code at the failing input): a log left by an earlier run holds
`select 3`, `set a 1`; after the restart `handleAof` sets `currentDB` to 0,
`StartRewrite` records D = 0, and the writer appends the gap record `set b 2` of
database 0 without a `select`.  The new log has the stated form, with D = 0, and
its replay runs `set b 2` in database 0, while a linear replay of the old log
runs it in database 3: the command of the tail does not run in the database in
which it runs in the old log. -/
theorem rewrite_gap_db_differs :
    (NewAOFHandler (framesBytes [selectCmd 3, [[115, 101, 116], [97], [49]]])).StartRewrite.dbIdx = 0 ∧
      ((NewAOFHandler (framesBytes [selectCmd 3, [[115, 101, 116], [97], [49]]])).handleRecords
          [⟨[[115, 101, 116], [98], [50]], 0⟩]).aofFile =
        framesBytes [selectCmd 3, [[115, 101, 116], [97], [49]], [[115, 101, 116], [98], [50]]] ∧
      (((NewAOFHandler (framesBytes [selectCmd 3, [[115, 101, 116], [97], [49]]])).handleRecords
          [⟨[[115, 101, 116], [98], [50]], 0⟩]).FinishRewrite
        (DoRewrite 4 (fun _ i => if i = 3 then [(some [[115, 101, 116], [97], [49]], none)] else [])
          (framesBytes [selectCmd 3, [[115, 101, 116], [97], [49]]])
          (NewAOFHandler (framesBytes [selectCmd 3, [[115, 101, 116], [97], [49]]])).StartRewrite)).aofFile =
        framesBytes [selectCmd 0, selectCmd 1, selectCmd 2, selectCmd 3,
          [[115, 101, 116], [97], [49]], selectCmd 0, [[115, 101, 116], [98], [50]], selectCmd 0] ∧
      linearReplay 0 [selectCmd 3, [[115, 101, 116], [97], [49]], [[115, 101, 116], [98], [50]]] =
        [(3, [[115, 101, 116], [97], [49]]), (3, [[115, 101, 116], [98], [50]])] ∧
      linearReplay 0 [selectCmd 0, selectCmd 1, selectCmd 2, selectCmd 3,
          [[115, 101, 116], [97], [49]], selectCmd 0, [[115, 101, 116], [98], [50]], selectCmd 0] =
        [(3, [[115, 101, 116], [97], [49]]), (0, [[115, 101, 116], [98], [50]])] := by
  refine ⟨by decide, by decide, ?_, by decide, by decide⟩
  decide

/-- The rewrite on a log that the writer is in step with: let the old log up to
offset S hold the frames `old`, let a linear replay of `old` end in the database
D the writer is at when `StartRewrite` records it, and let the writer then
append the gap records (each `dbIndex` a Go `int`, no command itself a
`select`).  The new log produced by `DoRewrite` and `FinishRewrite` is
dump ++ [select D] ++ tail ++ [select current], where tail is the content of the
old log from offset S; in a linear replay of the new log every command of the
tail runs in its recorded database, the same in which it runs in a linear replay
of the old log, and the replay ends in the current database of the writer. -/
theorem finishRewrite_linear_replay (h0 : Handler) (old : List CmdLine) (gap : List payload)
    (databases : Nat)
    (snapshot : List CmdLine → Nat → List (Option CmdLine × Option CmdLine)) (live : Bytes)
    (hold : h0.aofFile = framesBytes old) (hD : finalDB 0 old = h0.currentDB)
    (hDint : int64 h0.currentDB) (hint : ∀ p ∈ gap, int64 p.dbIndex)
    (hns : ∀ p ∈ gap, isSelect p.cmdLine = false) :
    (h0.handleRecords gap).aofFile = framesBytes (old ++ framesFrom h0.currentDB gap) ∧
      (h0.handleRecords gap).aofFile.drop h0.StartRewrite.fileSize.toNat =
        framesBytes (framesFrom h0.currentDB gap) ∧
      ((h0.handleRecords gap).FinishRewrite
          (DoRewrite databases snapshot live h0.StartRewrite)).aofFile =
        framesBytes (dumpFrames databases snapshot (LoadAof live h0.StartRewrite.fileSize) ++
          [selectCmd h0.StartRewrite.dbIdx] ++ framesFrom h0.currentDB gap ++
          [selectCmd (h0.handleRecords gap).currentDB]) ∧
      linearReplay 0 (old ++ framesFrom h0.currentDB gap) = linearReplay 0 old ++ recordsRun gap ∧
      linearReplay 0
          (dumpFrames databases snapshot (LoadAof live h0.StartRewrite.fileSize) ++
            [selectCmd h0.StartRewrite.dbIdx] ++ framesFrom h0.currentDB gap ++
            [selectCmd (h0.handleRecords gap).currentDB]) =
        linearReplay 0 (dumpFrames databases snapshot (LoadAof live h0.StartRewrite.fileSize)) ++
          recordsRun gap ∧
      finalDB 0
          (dumpFrames databases snapshot (LoadAof live h0.StartRewrite.fileSize) ++
            [selectCmd h0.StartRewrite.dbIdx] ++ framesFrom h0.currentDB gap ++
            [selectCmd (h0.handleRecords gap).currentDB]) =
        (h0.handleRecords gap).currentDB := by
  have hfile := handleRecords_file gap h0
  have hcur := handleRecords_currentDB gap h0
  have hcurInt : int64 (h0.handleRecords gap).currentDB := by
    rw [hcur]
    exact getLastD_int64 _ _ hDint (by
      intro x hx
      obtain ⟨p, hp, rfl⟩ := List.mem_map.mp hx
      exact hint p hp)
  obtain ⟨hrep, _⟩ := replay_framesFrom gap h0.currentDB hint hns
  have hsize : h0.StartRewrite.fileSize.toNat = h0.aofFile.length := by
    simp [Handler.StartRewrite]
  have hidx : h0.StartRewrite.dbIdx = h0.currentDB := rfl
  refine ⟨?_, ?_, ?_, ?_, ?_, ?_⟩
  · rw [hfile, hold, framesBytes_append]
  · rw [hfile, hsize, List.drop_left]
  · unfold Handler.FinishRewrite DoRewrite
    simp only [hsize]
    rw [hfile, List.drop_left]
    simp [Handler.StartRewrite, framesBytes_append, framesBytes_singleton, framesBytes_cons,
      List.append_assoc]
    rfl
  · rw [linearReplay_append, hD, hrep]
  · rw [linearReplay_append, linearReplay_append, linearReplay_append, finalDB_append,
      finalDB_append, hidx, (linearReplay_select _ _ hDint).2, hrep,
      (linearReplay_select _ _ hDint).1, (linearReplay_select _ _ hcurInt).1]
    simp
  · rw [finalDB_append, (linearReplay_select _ _ hcurInt).2]

/-- An instance with the writer in step with the log: the writer of a fresh log
has written `set a 1` for database 3 before `StartRewrite` and appends `set b 2`
for database 0 during the rewrite. -/
theorem finishRewrite_linear_replay_witness :
    finalDB 0 [selectCmd 3, [[115, 101, 116], [97], [49]]] = 3 ∧
      int64 3 ∧
      linearReplay 0 ([selectCmd 3, [[115, 101, 116], [97], [49]]] ++
          framesFrom 3 [⟨[[115, 101, 116], [98], [50]], 0⟩]) =
        linearReplay 0 [selectCmd 3, [[115, 101, 116], [97], [49]]] ++
          recordsRun [⟨[[115, 101, 116], [98], [50]], 0⟩] :=
  ⟨by decide, by simp [int64],
   (finishRewrite_linear_replay
      ⟨framesBytes [selectCmd 3, [[115, 101, 116], [97], [49]]], 3⟩
      [selectCmd 3, [[115, 101, 116], [97], [49]]] [⟨[[115, 101, 116], [98], [50]], 0⟩]
      16 (fun _ _ => []) [] rfl (by decide) (by simp [int64]) (by simp [int64])
      (by decide)).2.2.2.1⟩

/-! ### Truncated input -/

theorem ReadBytes_none (l : Bytes) (h : 10 ∉ l) : ReadBytes 10 l = none := by
  induction l with
  | nil => rfl
  | cons a t ih =>
    have ha : a ≠ 10 := fun e => h (by simp [e])
    have ht : 10 ∉ t := fun e => h (by simp [e])
    simp [ReadBytes, ha, ih ht]

/-- A line cut before its LF ends the decoder with the end-of-input error. -/
theorem parseIter_cut_line (l : Bytes) (st : readState) (h : 10 ∉ l) (hb : st.bulkLen = 0) :
    parseIter l st = Iter.halt (some ⟨none, some Error.EOF⟩) Stop.closed := by
  unfold parseIter readLine
  rw [if_pos hb, ReadBytes_none l h]

/-- A bulk body cut before its end ends the decoder with an IO error. -/
theorem parseIter_cut_body (q : Bytes) (st : readState) (n : Nat) (hb : st.bulkLen = (n : Int))
    (hpos : 0 < n) (hlt : n + 2 < 2 ^ 63) (hq : q.length < n + 2) :
    ∃ e, (e = Error.EOF ∨ e = Error.ErrUnexpectedEOF) ∧
      parseIter q st = Iter.halt (some ⟨none, some e⟩) Stop.closed := by
  have hn : (st.bulkLen + 2).toNat = n + 2 := by rw [hb]; omega
  unfold parseIter readLine
  rw [if_neg (by omega)]
  simp only
  rw [if_neg (by rw [hb]; push_cast; omega), hn]
  unfold ReadFull
  rw [if_neg (by omega)]
  by_cases hq0 : q = []
  · rw [if_pos hq0]
    exact ⟨Error.EOF, Or.inl rfl, rfl⟩
  · rw [if_neg hq0]
    exact ⟨Error.ErrUnexpectedEOF, Or.inr rfl, rfl⟩

/-- A CRLF line without LF in its body has no LF before its last byte. -/
theorem no_lf_take (body : Bytes) (m : Nat) (h : 10 ∉ body) (hm : m < body.length + 2) :
    10 ∉ (body ++ CRLF).take m := by
  have e : body ++ CRLF = (body ++ [13]) ++ [10] := by simp [CRLF]
  rw [e, List.take_append_of_le_length (by simp; omega)]
  intro hmem
  have := List.mem_of_mem_take hmem
  simp at this
  exact h this

/-- A cut element of an array body ends the decoder with an IO error and
nothing else is sent. -/
theorem parseLoop_cut_elem (f n : Nat) (done : List Bytes) (p : Bytes) (m : Nat) (h : bulkOk p)
    (hn : done.length < n) (hm : m < (encodeBulk p).length) :
    ∃ e, (e = Error.EOF ∨ e = Error.ErrUnexpectedEOF) ∧
      parseLoop (f + 2) ((encodeBulk p).take m) (arrayState n done) =
        ⟨[⟨none, some e⟩], Stop.closed⟩ := by
  obtain ⟨hne, h36, hlen⟩ := h
  have hpos : 0 < p.length := List.length_pos.mpr hne
  have henc : encodeBulk p = ((36 :: decimal p.length) ++ CRLF) ++ (p ++ CRLF) := by
    simp [encodeBulk]
  have hlenc : (encodeBulk p).length = (36 :: decimal p.length).length + 2 + (p.length + 2) := by
    rw [henc]; simp [CRLF]; omega
  by_cases hcut : m < (36 :: decimal p.length).length + 2
  · have htake : (encodeBulk p).take m = ((36 :: decimal p.length) ++ CRLF).take m := by
      rw [henc, List.take_append_of_le_length (by simp [CRLF]; simp at hcut; omega)]
    have hno := no_lf_take (36 :: decimal p.length) m (by simp [decimal_no_lf]) hcut
    rw [htake, parseLoop_halt (f + 1) _ _ _ _ (parseIter_cut_line _ _ hno rfl)]
    exact ⟨Error.EOF, Or.inl rfl, rfl⟩
  · have hl1 : ((36 :: decimal p.length) ++ CRLF).length = (36 :: decimal p.length).length + 2 := by
      simp [CRLF]
    have htake : (encodeBulk p).take m =
        36 :: (decimal p.length ++ CRLF) ++
          (p ++ CRLF).take (m - ((36 :: decimal p.length).length + 2)) := by
      rw [henc, List.take_append_eq_append_take, List.take_of_length_le (by omega), hl1]
      simp
    have hfin : (arrayState n done).finished = false := by
      simp only [arrayState, readState.finished, decide_eq_false_iff_not]
      omega
    rw [htake, parseLoop_next_none (f + 1) _ _ _ _
      (parseIter_elemHeader p.length _ (arrayState n done) hpos (by omega) rfl rfl hfin)]
    obtain ⟨e, he, hit⟩ := parseIter_cut_body
      ((p ++ CRLF).take (m - ((36 :: decimal p.length).length + 2)))
      { arrayState n done with bulkLen := (p.length : Int) } p.length rfl hpos hlen
      (by
        rw [List.length_take]
        have : (p ++ CRLF).length = p.length + 2 := by simp [CRLF]
        omega)
    rw [parseLoop_halt f _ _ _ _ hit]
    exact ⟨e, he, rfl⟩

/-- A cut array body ends the decoder with an IO error and nothing else is
sent. -/
theorem parseLoop_cut_elems (f n : Nat) :
    ∀ (todo done : List Bytes) (m : Nat), done.length + todo.length = n →
      (∀ p ∈ todo, bulkOk p) → m < ((todo.map encodeBulk).flatten).length →
      ∃ e, (e = Error.EOF ∨ e = Error.ErrUnexpectedEOF) ∧
        parseLoop (f + 2 * todo.length) (((todo.map encodeBulk).flatten).take m)
            (arrayState n done) =
          ⟨[⟨none, some e⟩], Stop.closed⟩ := by
  intro todo
  induction todo with
  | nil => intro done m _ _ hm; simp at hm
  | cons p t ih =>
    intro done m hn hok hm
    have hp : bulkOk p := hok p (List.mem_cons_self _ _)
    have hflat : ((p :: t).map encodeBulk).flatten =
        encodeBulk p ++ (t.map encodeBulk).flatten := by
      simp
    have hfuel : f + 2 * (p :: t).length = (f + 2 * t.length) + 2 := by
      simp only [List.length_cons]; omega
    simp only [List.length_cons] at hn
    rw [hflat] at hm ⊢
    rw [hfuel]
    by_cases hcut : m < (encodeBulk p).length
    · rw [List.take_append_of_le_length (by omega)]
      exact parseLoop_cut_elem _ n done p m hp (by omega) hcut
    · rw [List.take_append_eq_append_take, List.take_of_length_le (by omega)]
      have hm2 : m - (encodeBulk p).length < ((t.map encodeBulk).flatten).length := by
        rw [List.length_append] at hm
        omega
      have ht : t ≠ [] := by
        intro e
        rw [e] at hm2
        simp at hm2
      have htl : 0 < t.length := List.length_pos.mpr ht
      rw [parseLoop_elem_more _ n done p _ hp (by omega)]
      exact ih (done ++ [p]) _ (by simp; omega)
        (fun x hx => hok x (List.mem_cons_of_mem _ hx)) hm2

/-- Every strict initial part of the wire form of a canonical array ends the
decoder with an IO error and nothing else is sent. -/
theorem parseLoop_cut_array (f : Nat) (elems : List Bytes) (m : Nat)
    (h : (Frame.array elems).canonical) (hm : m < (encode (Frame.array elems)).length) :
    ∃ e, (e = Error.EOF ∨ e = Error.ErrUnexpectedEOF) ∧
      parseLoop (f + 2 * elems.length + 1) ((encode (Frame.array elems)).take m) {} =
        ⟨[⟨none, some e⟩], Stop.closed⟩ := by
  obtain ⟨hlen, hok⟩ := h
  have henc : encode (Frame.array elems) =
      ((42 :: decimal elems.length) ++ CRLF) ++ (elems.map encodeBulk).flatten := by
    simp [encode]
  have hl1 : ((42 :: decimal elems.length) ++ CRLF).length =
      (42 :: decimal elems.length).length + 2 := by
    simp [CRLF]
  rw [henc] at hm ⊢
  by_cases hcut : m < (42 :: decimal elems.length).length + 2
  · rw [List.take_append_of_le_length (by omega)]
    have hno := no_lf_take (42 :: decimal elems.length) m (by simp [decimal_no_lf]) hcut
    rw [parseLoop_halt _ _ _ _ _ (parseIter_cut_line _ _ hno rfl)]
    exact ⟨Error.EOF, Or.inl rfl, rfl⟩
  · rw [List.take_append_eq_append_take, List.take_of_length_le (by omega), hl1]
    have hm2 : m - ((42 :: decimal elems.length).length + 2) <
        ((elems.map encodeBulk).flatten).length := by
      rw [List.length_append] at hm
      omega
    have hne : elems ≠ [] := by
      intro e
      rw [e] at hm2
      simp at hm2
    have hpos : 0 < elems.length := List.length_pos.mpr hne
    have hr : (42 :: decimal elems.length) ++ CRLF ++
        ((elems.map encodeBulk).flatten).take (m - ((42 :: decimal elems.length).length + 2)) =
        42 :: (decimal elems.length ++ CRLF) ++
          ((elems.map encodeBulk).flatten).take (m - ((42 :: decimal elems.length).length + 2)) := by
      simp
    rw [hr, parseLoop_next_none _ _ _ _ _ (parseIter_arrayHeader elems.length _ hpos hlen)]
    have := parseLoop_cut_elems f elems.length elems [] _ (by simp) hok hm2
    simpa [arrayState] using this

theorem Frame.toReply_toFrame (F : Frame) (h : F.canonical) : F.toReply.toFrame = F := by
  cases F with
  | array elems => cases elems <;> rfl
  | nullArray => exact absurd h (by simp [Frame.canonical])
  | _ => rfl

/-- Every canonical frame, followed by any input, is decoded into its reply. -/
theorem parseLoop_frame_reply (F : Frame) (h : F.canonical) :
    ∃ (k : Nat), ∀ (f : Nat) (rest : Bytes),
      parseLoop (f + k) (encode F ++ rest) {} =
        Stream.send ⟨some F.toReply, none⟩ (parseLoop f rest {}) := by
  cases F with
  | simpleString text =>
    exact ⟨1, fun f rest => parseLoop_next_some f _ rest _ _ _ (parseIter_status text rest h.2)⟩
  | error text =>
    exact ⟨1, fun f rest => parseLoop_next_some f _ rest _ _ _ (parseIter_error text rest h.2)⟩
  | integer n =>
    exact ⟨1, fun f rest =>
      parseLoop_next_some f _ rest _ _ _ (parseIter_integer n rest h.1 h.2)⟩
  | bulkString b => exact ⟨2, fun f rest => parseLoop_bulk f b rest h⟩
  | nullBulk =>
    exact ⟨1, fun f rest => parseLoop_next_some f _ rest _ _ _ (parseIter_nullBulk rest)⟩
  | array elems =>
    cases elems with
    | nil =>
      exact ⟨1, fun f rest => parseLoop_next_some f _ rest _ _ _ (parseIter_emptyArray rest)⟩
    | cons p t =>
      refine ⟨2 * (p :: t).length + 1, fun f rest => ?_⟩
      have := parseLoop_array f (p :: t) rest (by simp) h.1 h.2
      rw [Nat.add_assoc] at this
      exact this
  | nullArray => exact absurd h (by simp [Frame.canonical])

/-- A sequence of canonical frames, followed by any input, is decoded in a
bounded number of iterations into one reply for each frame, in order; decoding
then goes on with the rest of the input from the initial state. -/
theorem parseLoop_frames (Fs : List Frame) (h : ∀ F ∈ Fs, F.canonical) :
    ∃ (k : Nat), ∀ (f : Nat) (rest : Bytes),
      parseLoop (f + k) ((Fs.map encode).flatten ++ rest) {} =
        ⟨Fs.map (fun F => ⟨some F.toReply, none⟩) ++ (parseLoop f rest {}).payloads,
          (parseLoop f rest {}).stop⟩ := by
  induction Fs with
  | nil => exact ⟨0, fun f rest => rfl⟩
  | cons F t ih =>
    obtain ⟨k1, h1⟩ := parseLoop_frame_reply F (h F (List.mem_cons_self _ _))
    obtain ⟨k2, h2⟩ := ih (fun G hG => h G (List.mem_cons_of_mem _ hG))
    refine ⟨k2 + k1, fun f rest => ?_⟩
    have hflat : ((F :: t).map encode).flatten ++ rest =
        encode F ++ ((t.map encode).flatten ++ rest) := by
      simp
    rw [hflat, ← Nat.add_assoc, h1, h2]
    rfl

/-- The loader runs the commands of the decoded frames and nothing for a final
IO error. -/
theorem loadLoop_frames (e : Error) (Fs : List Frame) :
    loadLoop (Fs.map (fun F => (⟨some F.toReply, none⟩ : Payload)) ++ [⟨none, some e⟩]) =
      Fs.filterMap Frame.cmdLine? := by
  induction Fs with
  | nil =>
    simp only [List.map_nil, List.nil_append, List.filterMap_nil, loadLoop]
    split <;> rfl
  | cons F t ih =>
    have hstep : ∀ (r : Reply) (ps : List Payload),
        loadLoop ((⟨some r, none⟩ : Payload) :: ps) =
          match r with
          | Reply.multiBulk args => args :: loadLoop ps
          | _ => loadLoop ps := by
      intro r ps
      cases r <;> rfl
    rw [List.map_cons, List.cons_append, hstep, ih]
    cases F with
    | array elems => cases elems <;> rfl
    | _ => rfl

/-- C11: for every sequence of canonical array frames (elements non-empty bulk
strings that do not begin with `$`) and every strict initial part P of the wire
form of one further such frame, decoding the wire forms of the frames followed
by P sends one reply for each frame, in order, each standing for its frame, then
one IO error (`io.EOF` or `io.ErrUnexpectedEOF`) and nothing else, and closes the
channel; `LoadAof` on such a log runs exactly the commands of the complete
frames. -/
theorem replay_drops_cut_frame (Fs : List Frame) (g : List Bytes) (P : Bytes)
    (hFs : ∀ F ∈ Fs, F.canonical ∧ ∃ elems, F = Frame.array elems)
    (hg : (Frame.array g).canonical)
    (hP : P <+: encode (Frame.array g)) (hne : P ≠ encode (Frame.array g)) :
    ∃ (rs : List Reply) (e : Error), rs.map Reply.toFrame = Fs ∧
      (e = Error.EOF ∨ e = Error.ErrUnexpectedEOF) ∧
      parse0 ((Fs.map encode).flatten ++ P) =
        ⟨rs.map (fun r => ⟨some r, none⟩) ++ [⟨none, some e⟩], Stop.closed⟩ ∧
      LoadAof ((Fs.map encode).flatten ++ P) 0 = Fs.filterMap Frame.cmdLine? := by
  have hcan : ∀ F ∈ Fs, F.canonical := fun F hF => (hFs F hF).1
  have htake : P = (encode (Frame.array g)).take P.length := List.prefix_iff_eq_take.mp hP
  have hlt : P.length < (encode (Frame.array g)).length := by
    rcases Nat.lt_or_ge P.length (encode (Frame.array g)).length with h | h
    · exact h
    · exfalso
      apply hne
      rw [htake, List.take_of_length_le h]
  obtain ⟨e, he, hcut⟩ := parseLoop_cut_array 0 g P.length hg hlt
  rw [← htake] at hcut
  obtain ⟨k, hk⟩ := parseLoop_frames Fs hcan
  have hrun : parseLoop (0 + 2 * g.length + 1 + k) ((Fs.map encode).flatten ++ P) {} =
      ⟨Fs.map (fun F => ⟨some F.toReply, none⟩) ++ [⟨none, some e⟩], Stop.closed⟩ := by
    rw [hk, hcut]
  have hparse : parse0 ((Fs.map encode).flatten ++ P) =
      ⟨Fs.map (fun F => ⟨some F.toReply, none⟩) ++ [⟨none, some e⟩], Stop.closed⟩ := by
    rw [parse0_eq_parseLoop _ _ (by rw [hrun]; exact Stop.noConfusion), hrun]
  refine ⟨Fs.map Frame.toReply, e, ?_, he, ?_, ?_⟩
  · rw [List.map_map]
    conv => rhs; rw [← List.map_id Fs]
    exact List.map_congr_left (fun F hF => Frame.toReply_toFrame F (hcan F hF))
  · rw [hparse, List.map_map]
    rfl
  · unfold LoadAof loadReader
    rw [if_neg (by decide), hparse]
    exact loadLoop_frames e Fs

/-- Witness for C11: the log holds `set k v` in full and `del k` cut after the
header of its first element. -/
theorem replay_drops_cut_frame_witness :
    (∀ F ∈ [Frame.array [[115, 101, 116], [107], [118]]],
        F.canonical ∧ ∃ elems, F = Frame.array elems) ∧
      (Frame.array [[100, 101, 108], [107]]).canonical ∧
      [42, 50, 13, 10, 36, 51, 13, 10] <+: encode (Frame.array [[100, 101, 108], [107]]) ∧
      [42, 50, 13, 10, 36, 51, 13, 10] ≠ encode (Frame.array [[100, 101, 108], [107]]) ∧
      ∃ (rs : List Reply) (e : Error),
        rs.map Reply.toFrame = [Frame.array [[115, 101, 116], [107], [118]]] ∧
        (e = Error.EOF ∨ e = Error.ErrUnexpectedEOF) ∧
        parse0 (([Frame.array [[115, 101, 116], [107], [118]]].map encode).flatten ++
            [42, 50, 13, 10, 36, 51, 13, 10]) =
          ⟨rs.map (fun r => ⟨some r, none⟩) ++ [⟨none, some e⟩], Stop.closed⟩ ∧
        LoadAof (([Frame.array [[115, 101, 116], [107], [118]]].map encode).flatten ++
            [42, 50, 13, 10, 36, 51, 13, 10]) 0 =
          [Frame.array [[115, 101, 116], [107], [118]]].filterMap Frame.cmdLine? :=
  ⟨by
      intro F hF
      rw [List.mem_singleton.mp hF]
      exact ⟨by decide, _, rfl⟩,
    by decide, by decide, by decide,
    replay_drops_cut_frame [Frame.array [[115, 101, 116], [107], [118]]] [[100, 101, 108], [107]]
      [42, 50, 13, 10, 36, 51, 13, 10]
      (by
        intro F hF
        rw [List.mem_singleton.mp hF]
        exact ⟨by decide, _, rfl⟩)
      (by decide) (by decide) (by decide)⟩

/-! ### The decoder after a line that is answered at once -/

/-- What the decoder sends for a first part of the input that brings it back to
the empty state, it sends whatever the loop budget, followed by what it sends for
the rest. -/
theorem parse0_of_parseLoop (r rest : Bytes) (ps : List Payload) (k : Nat)
    (h : ∀ f, parseLoop (f + k) r {} =
      ⟨ps ++ (parseLoop f rest {}).payloads, (parseLoop f rest {}).stop⟩) :
    parse0 r = ⟨ps ++ (parse0 rest).payloads, (parse0 rest).stop⟩ := by
  have h1 := h (rest.length + 1)
  have h2 : (parseLoop (rest.length + 1 + k) r {}).stop ≠ Stop.outOfFuel := by
    rw [h1]
    exact parse0_total rest
  rw [parse0_eq_parseLoop (rest.length + 1 + k) r h2, h1]
  rfl

theorem parse0_step (r rest : Bytes) (p : Payload)
    (h : parseIter r {} = Iter.next (some p) rest {}) :
    parse0 r = Stream.send p (parse0 rest) := by
  have := parse0_of_parseLoop r rest [p] 1 (fun f => by
    rw [parseLoop_next_some f r rest {} {} p h]
    rfl)
  rw [this]
  rfl

theorem Itoa_no_lf (n : Int) : 10 ∉ Itoa n := by
  intro h
  have := Itoa_digits n 10 h
  omega

theorem parseIter_badArrayHeader (text rest : Bytes) (h10 : 10 ∉ text)
    (hbad : ParseUint text 32 = none) :
    parseIter (42 :: (text ++ CRLF) ++ rest) {} =
      Iter.next (some ⟨none, some (protocolError (42 :: (text ++ CRLF)))⟩) rest {} := by
  have hr : 42 :: (text ++ CRLF) ++ rest = (42 :: text) ++ CRLF ++ rest := by simp
  have hl := readLine_line (42 :: text) rest {} rfl (by simp [h10])
  unfold parseIter
  rw [hr, hl]
  simp only [List.cons_append, index_zero_cons]
  have hh : parseMultiBulkHeader (42 :: (text ++ CRLF)) {} = StepResult.error := by
    unfold parseMultiBulkHeader
    rw [slice_body, index_zero_cons]
    simp only [hbad]
  rw [hh]
  simp

theorem parseIter_badBulkHeader (text rest : Bytes) (h10 : 10 ∉ text)
    (hbad : ParseInt text 64 = none ∨ ∃ n, ParseInt text 64 = some n ∧ n ≠ -1 ∧ n ≤ 0) :
    parseIter (36 :: (text ++ CRLF) ++ rest) {} =
      Iter.next (some ⟨none, some (protocolError (36 :: (text ++ CRLF)))⟩) rest {} := by
  have hr : 36 :: (text ++ CRLF) ++ rest = (36 :: text) ++ CRLF ++ rest := by simp
  have hl := readLine_line (36 :: text) rest {} rfl (by simp [h10])
  unfold parseIter
  rw [hr, hl]
  simp only [List.cons_append, index_zero_cons]
  have hh : parseBulkHeader (36 :: (text ++ CRLF)) {} = StepResult.error := by
    unfold parseBulkHeader
    rw [slice_body, index_zero_cons]
    rcases hbad with hbad | ⟨n, hn, hn1, hn0⟩
    · simp only [hbad]
    · simp only [hn]
      rw [if_neg hn1, if_neg (by omega)]
  rw [hh]
  simp

theorem parseIter_badInt (text rest : Bytes) (h10 : 10 ∉ text)
    (hbad : ParseInt text 64 = none) :
    parseIter (58 :: (text ++ CRLF) ++ rest) {} =
      Iter.next (some ⟨none, some (protocolError (58 :: (text ++ CRLF)))⟩) rest {} := by
  have hr : 58 :: (text ++ CRLF) ++ rest = (58 :: text) ++ CRLF ++ rest := by simp
  have hl := readLine_line (58 :: text) rest {} rfl (by simp [h10])
  unfold parseIter
  rw [hr, hl]
  simp only [List.cons_append, index_zero_cons]
  have ht : TrimSuffix (58 :: (text ++ CRLF)) CRLF = 58 :: text := TrimSuffix_crlf (58 :: text)
  simp [parseSingleLineReply, index_zero_cons, ht, slice_tail_cast, hbad]

theorem parseIter_inline (body rest : Bytes) (h10 : 10 ∉ body)
    (hc : ∀ c, (body ++ CRLF).head? = some c →
      c ≠ 43 ∧ c ≠ 45 ∧ c ≠ 58 ∧ c ≠ 42 ∧ c ≠ 36) :
    parseIter (body ++ CRLF ++ rest) {} =
      Iter.next (some ⟨some (Reply.multiBulk (Split 32 body)), none⟩) rest {} := by
  have hl := readLine_line body rest {} rfl h10
  obtain ⟨c, t, hct⟩ : ∃ c t, body ++ CRLF = c :: t := by
    cases body with
    | nil => exact ⟨13, [10], rfl⟩
    | cons b bs => exact ⟨b, bs ++ CRLF, rfl⟩
  have hcc := hc c (by rw [hct]; rfl)
  have ht : TrimSuffix (c :: t) CRLF = body := by
    rw [← hct]; exact TrimSuffix_crlf body
  unfold parseIter
  rw [hl, hct]
  simp only [index_zero_cons]
  simp [parseSingleLineReply, index_zero_cons, ht, hcc.1, hcc.2.1, hcc.2.2.1, hcc.2.2.2.1,
    hcc.2.2.2.2]

theorem parseIter_badElem (text rest : Bytes) (n : Nat) (done : List Bytes) (h10 : 10 ∉ text)
    (hbad : ParseInt text 64 = none) :
    parseIter (36 :: (text ++ CRLF) ++ rest) (arrayState n done) =
      Iter.next (some ⟨none, some (protocolError (36 :: (text ++ CRLF)))⟩) rest {} := by
  have hr : 36 :: (text ++ CRLF) ++ rest = (36 :: text) ++ CRLF ++ rest := by simp
  have hl := readLine_line (36 :: text) rest (arrayState n done) rfl (by simp [h10])
  unfold parseIter
  rw [hr, hl]
  have hb : readBody (36 :: text ++ CRLF) (arrayState n done) = StepResult.error := by
    unfold readBody
    rw [slice_line]
    simp only [index_zero_cons, if_true]
    rw [slice_tail]
    simp only [hbad]
  simp [arrayState] at hb ⊢
  simp [hb]

theorem parseLoop_elems_part (f n : Nat) (rest : Bytes) :
    ∀ (todo done : List Bytes), done.length + todo.length < n → (∀ p ∈ todo, bulkOk p) →
      parseLoop (f + 2 * todo.length) ((todo.map encodeBulk).flatten ++ rest)
          (arrayState n done) =
        parseLoop f rest (arrayState n (done ++ todo)) := by
  intro todo
  induction todo with
  | nil => intro done _ _; simp
  | cons p t ih =>
    intro done hn hok
    simp only [List.length_cons] at hn
    have h1 := parseLoop_elem_more (f + 2 * t.length) n done p
      ((t.map encodeBulk).flatten ++ rest) (hok p (List.mem_cons_self _ _)) (by omega)
    have h2 := ih (done ++ [p]) (by simp; omega) (fun q hq => hok q (List.mem_cons_of_mem _ hq))
    have e1 : f + 2 * (p :: t).length = f + 2 * t.length + 2 := by
      simp only [List.length_cons]; omega
    have e2 : ((p :: t).map encodeBulk).flatten ++ rest =
        encodeBulk p ++ ((t.map encodeBulk).flatten ++ rest) := by simp
    rw [e1, e2, h1, h2]
    simp

/-! ### `strings.Split` on one byte -/

theorem Split_ne_nil (sep : Nat) : ∀ (s : Bytes), Split sep s ≠ [] := by
  intro s
  induction s with
  | nil => simp [Split]
  | cons b bs ih =>
    unfold Split
    by_cases hb : b = sep
    · simp [hb]
    · rw [if_neg hb]
      cases h : Split sep bs with
      | nil => simp
      | cons x xs => simp

theorem Split_no_sep (sep : Nat) : ∀ (s : Bytes), ∀ piece ∈ Split sep s, sep ∉ piece := by
  intro s
  induction s with
  | nil => intro piece h; simp [Split] at h; simp [h]
  | cons b bs ih =>
    intro piece h
    unfold Split at h
    by_cases hb : b = sep
    · rw [if_pos hb] at h
      rcases List.mem_cons.mp h with rfl | h
      · simp
      · exact ih piece h
    · rw [if_neg hb] at h
      cases hs : Split sep bs with
      | nil => exact absurd hs (Split_ne_nil sep bs)
      | cons x xs =>
        rw [hs] at h ih
        rcases List.mem_cons.mp h with rfl | h
        · intro hm
          rcases List.mem_cons.mp hm with e | e
          · exact hb e.symm
          · exact ih x (List.mem_cons_self _ _) e
        · exact ih piece (List.mem_cons_of_mem _ h)

theorem intercalate_cons_cons (sep x y : Bytes) (ys : List Bytes) :
    List.intercalate sep (x :: y :: ys) = x ++ sep ++ List.intercalate sep (y :: ys) := by
  simp [List.intercalate, List.intersperse]

theorem Split_join (sep : Nat) : ∀ (s : Bytes), List.intercalate [sep] (Split sep s) = s := by
  intro s
  induction s with
  | nil => simp [Split, List.intercalate]
  | cons b bs ih =>
    unfold Split
    cases hs : Split sep bs with
    | nil => exact absurd hs (Split_ne_nil sep bs)
    | cons x xs =>
      rw [hs] at ih
      by_cases hb : b = sep
      · rw [if_pos hb, intercalate_cons_cons, ih, hb]
        rfl
      · rw [if_neg hb]
        simp only
        cases xs with
        | nil =>
          simp only [List.intercalate, List.intersperse, List.flatten_cons, List.flatten_nil,
            List.append_nil] at ih ⊢
          rw [ih]
        | cons y ys =>
          rw [intercalate_cons_cons] at ih ⊢
          rw [List.cons_append, List.cons_append, ih]

/-! ### C25 to C29: headers the decoder rejects, the null bulk and inline commands -/

/-- C25 (amended): the decoder rejects an array header with a negative count,
`*-1` included: for every `n < 0` and every input `R` that follows, decoding
`*<n>CRLF` and `R` sends one protocol error with the text of the header line,
no reply for the header, and then what decoding `R` alone sends. -/
theorem negative_array_count_rejected (n : Int) (R : Bytes) (hn : n < 0) :
    parse0 (42 :: (Itoa n ++ CRLF) ++ R) =
      Stream.send ⟨none, some (protocolError (42 :: (Itoa n ++ CRLF)))⟩ (parse0 R) := by
  apply parse0_step
  apply parseIter_badArrayHeader _ _ (Itoa_no_lf n)
  simp [Itoa, hn, ParseUint, parseDigits, digitVal]

/-- C25 (amended), at `*-1CRLF` with nothing behind it. -/
theorem negative_array_count_rejected_witness :
    (-1 : Int) < 0 ∧
    parse0 (42 :: (Itoa (-1) ++ CRLF) ++ []) =
      Stream.send ⟨none, some (protocolError (42 :: (Itoa (-1) ++ CRLF)))⟩ (parse0 []) :=
  ⟨by decide, negative_array_count_rejected (-1) [] (by decide)⟩

/-- C25 (counterexample): decoding the wire form `*-1CRLF` of the null array
sends a protocol error and then the end of the input; no reply stands for a null
array. -/
theorem null_array_rejected :
    encode Frame.nullArray = [42, 45, 49, 13, 10] ∧
    parse0 [42, 45, 49, 13, 10] =
      ⟨[⟨none, some (protocolError [42, 45, 49, 13, 10])⟩, ⟨none, some Error.EOF⟩],
        Stop.closed⟩ := by
  decide

/-- C26 (amended): the decoder rejects a bulk header with a length `n ≤ 0` other
than -1, `$0` included: decoding `$<n>CRLF` and `R` sends one protocol error with
the text of the header line and then what decoding `R` alone sends, so the bytes
after the header are not read as a body. -/
theorem nonpositive_bulk_length_rejected (n : Int) (R : Bytes) (h1 : n ≤ 0) (h2 : n ≠ -1)
    (h3 : -(2 : Int) ^ 63 ≤ n) :
    parse0 (36 :: (Itoa n ++ CRLF) ++ R) =
      Stream.send ⟨none, some (protocolError (36 :: (Itoa n ++ CRLF)))⟩ (parse0 R) := by
  apply parse0_step
  apply parseIter_badBulkHeader _ _ (Itoa_no_lf n)
  exact Or.inr ⟨n, ParseInt_Itoa n h3 (by omega), h2, h1⟩

/-- C26 (amended), at `$0CRLF` followed by `CRLF`. -/
theorem nonpositive_bulk_length_rejected_witness :
    (0 : Int) ≤ 0 ∧ (0 : Int) ≠ -1 ∧ -(2 : Int) ^ 63 ≤ 0 ∧
    parse0 (36 :: (Itoa 0 ++ CRLF) ++ [13, 10]) =
      Stream.send ⟨none, some (protocolError (36 :: (Itoa 0 ++ CRLF)))⟩ (parse0 [13, 10]) :=
  ⟨by decide, by decide, by decide,
    nonpositive_bulk_length_rejected 0 [13, 10] (by decide) (by decide) (by decide)⟩

/-- C26 (counterexample): decoding `$0CRLF CRLF` sends a protocol error for the
header, then an array of one empty element for the line `CRLF`, then the end of
the input; no bulk string is sent. -/
theorem empty_bulk_rejected :
    parse0 [36, 48, 13, 10, 13, 10] =
      ⟨[⟨none, some (protocolError [36, 48, 13, 10])⟩, ⟨some (Reply.multiBulk [[]]), none⟩,
        ⟨none, some Error.EOF⟩], Stop.closed⟩ := by
  decide

/-- C27: for every input `R`, decoding `$-1CRLF` followed by `R` sends the null
bulk reply and then exactly what decoding `R` alone sends, and ends as decoding
`R` alone ends. -/
theorem null_bulk_reads_no_body (R : Bytes) :
    parse0 ([36, 45, 49, 13, 10] ++ R) =
      Stream.send ⟨some Reply.nullBulk, none⟩ (parse0 R) :=
  parse0_step _ R _ (parseIter_nullBulk R)

/-- C28: for every line `body CRLF` (no LF in `body`) whose first byte is none of
`+`, `-`, `:`, `*`, `$`, read where a header is expected, the decoder sends one
array reply whose elements are the pieces of `body` between its spaces, in order
(joined by spaces they give `body` back and none holds a space), and goes on with
the input after the line. -/
theorem inline_command (body R : Bytes) (h10 : 10 ∉ body)
    (hc : ∀ c ∈ [43, 45, 58, 42, 36], (body ++ CRLF).head? ≠ some c) :
    parse0 (body ++ CRLF ++ R) =
        Stream.send ⟨some (Reply.multiBulk (Split 32 body)), none⟩ (parse0 R) ∧
      List.intercalate [32] (Split 32 body) = body ∧
      (∀ piece ∈ Split 32 body, 32 ∉ piece) := by
  refine ⟨?_, Split_join 32 body, Split_no_sep 32 body⟩
  apply parse0_step
  apply parseIter_inline body R h10
  intro c h
  refine ⟨?_, ?_, ?_, ?_, ?_⟩ <;> intro e <;> subst e
  · exact hc 43 (by simp) h
  · exact hc 45 (by simp) h
  · exact hc 58 (by simp) h
  · exact hc 42 (by simp) h
  · exact hc 36 (by simp) h

/-- C28, on the line `get k`. -/
theorem inline_command_witness :
    10 ∉ ([103, 101, 116, 32, 107] : Bytes) ∧
    (∀ c ∈ [43, 45, 58, 42, 36], (([103, 101, 116, 32, 107] : Bytes) ++ CRLF).head? ≠ some c) ∧
    parse0 ([103, 101, 116, 32, 107] ++ CRLF ++ []) =
        Stream.send ⟨some (Reply.multiBulk (Split 32 [103, 101, 116, 32, 107])), none⟩
          (parse0 []) ∧
      List.intercalate [32] (Split 32 [103, 101, 116, 32, 107]) = [103, 101, 116, 32, 107] ∧
      (∀ piece ∈ Split 32 [103, 101, 116, 32, 107], 32 ∉ piece) :=
  ⟨by decide, by decide, inline_command [103, 101, 116, 32, 107] [] (by decide) (by decide)⟩

/-- C29 (amended): a line `c text CRLF` read where a header is expected, with `c`
one of `:`, `*`, `$` and `text` not accepted (for `:` no decimal int64, for `*`
no unsigned decimal of 32 bits, for `$` no decimal int64 or one that is neither
-1 nor positive), makes the decoder send one protocol error with the text of the
line and go on with the input `R` after it as from the start.  Inside the body of
an array the same holds for a line `$ text CRLF` whose `text` is no decimal
int64: the elements read so far are dropped. -/
theorem protocol_error_resets (c : Nat) (text R : Bytes) (h10 : 10 ∉ text)
    (hbad : (c = 58 ∧ ParseInt text 64 = none) ∨ (c = 42 ∧ ParseUint text 32 = none) ∨
      (c = 36 ∧ ∀ n, ParseInt text 64 = some n → n ≠ -1 ∧ n ≤ 0)) :
    parse0 (c :: (text ++ CRLF) ++ R) =
        Stream.send ⟨none, some (protocolError (c :: (text ++ CRLF)))⟩ (parse0 R) ∧
      ∀ (n : Nat) (done : List Bytes), done.length < n → n < 2 ^ 32 →
        (∀ p ∈ done, bulkOk p) → c = 36 → ParseInt text 64 = none →
        parse0 (42 :: (decimal n ++ CRLF) ++ ((done.map encodeBulk).flatten ++
            (36 :: (text ++ CRLF) ++ R))) =
          Stream.send ⟨none, some (protocolError (36 :: (text ++ CRLF)))⟩ (parse0 R) := by
  constructor
  · apply parse0_step
    rcases hbad with ⟨rfl, h⟩ | ⟨rfl, h⟩ | ⟨rfl, h⟩
    · exact parseIter_badInt text R h10 h
    · exact parseIter_badArrayHeader text R h10 h
    · apply parseIter_badBulkHeader text R h10
      cases hp : ParseInt text 64 with
      | none => exact Or.inl rfl
      | some n => exact Or.inr ⟨n, rfl, h n hp⟩
  · intro n done hdn hn hok _ hp
    have key := parse0_of_parseLoop
      (42 :: (decimal n ++ CRLF) ++ ((done.map encodeBulk).flatten ++
        (36 :: (text ++ CRLF) ++ R))) R
      [⟨none, some (protocolError (36 :: (text ++ CRLF)))⟩] (1 + 2 * done.length + 1)
      (fun f => by
        have e : f + (1 + 2 * done.length + 1) = (f + 1 + 2 * done.length) + 1 := by omega
        have hA : parseIter (42 :: (decimal n ++ CRLF) ++ ((done.map encodeBulk).flatten ++
            (36 :: (text ++ CRLF) ++ R))) {} =
            Iter.next none ((done.map encodeBulk).flatten ++ (36 :: (text ++ CRLF) ++ R))
              (arrayState n []) := parseIter_arrayHeader n _ (by omega) hn
        rw [e, parseLoop_next_none _ _ _ _ _ hA]
        have h2 := parseLoop_elems_part (f + 1) n (36 :: (text ++ CRLF) ++ R) done []
          (by simpa using hdn) hok
        simp only [List.nil_append] at h2
        rw [h2, parseLoop_next_some f _ _ _ _ _ (parseIter_badElem text R n done h10 hp)]
        rfl)
    rw [key]
    rfl

/-- C29 (amended), on the line `$abc` at the start and after the first element
of an array of two. -/
theorem protocol_error_resets_witness :
    10 ∉ ([97, 98, 99] : Bytes) ∧
    (((36 : Nat) = 58 ∧ ParseInt [97, 98, 99] 64 = none) ∨
      ((36 : Nat) = 42 ∧ ParseUint [97, 98, 99] 32 = none) ∨
      ((36 : Nat) = 36 ∧ ∀ n, ParseInt [97, 98, 99] 64 = some n → n ≠ -1 ∧ n ≤ 0)) ∧
    parse0 (36 :: ([97, 98, 99] ++ CRLF) ++ [43, 13, 10]) =
        Stream.send ⟨none, some (protocolError (36 :: ([97, 98, 99] ++ CRLF)))⟩
          (parse0 [43, 13, 10]) ∧
    parse0 (42 :: (decimal 2 ++ CRLF) ++ (([[107]].map encodeBulk).flatten ++
        (36 :: ([97, 98, 99] ++ CRLF) ++ [43, 13, 10]))) =
      Stream.send ⟨none, some (protocolError (36 :: ([97, 98, 99] ++ CRLF)))⟩
        (parse0 [43, 13, 10]) :=
  have h := protocol_error_resets 36 [97, 98, 99] [43, 13, 10] (by decide)
    (Or.inr (Or.inr ⟨rfl, fun _ hn =>
      Option.noConfusion ((by decide : ParseInt [97, 98, 99] 64 = none).symm.trans hn)⟩))
  ⟨by decide, Or.inr (Or.inr ⟨rfl, fun _ hn =>
      Option.noConfusion ((by decide : ParseInt [97, 98, 99] 64 = none).symm.trans hn)⟩), h.1,
    h.2 2 [[107]] (by decide) (by decide) (by decide) rfl (by decide)⟩

/-- C29 (counterexample): inside the body of an array the lines `:abc` and `$-5`,
which are rejected where a header is expected, raise no error: the first is
taken as an element and the second as an empty element. -/
theorem array_body_takes_bad_lines :
    parse0 [58, 97, 98, 99, 13, 10] =
      ⟨[⟨none, some (protocolError [58, 97, 98, 99, 13, 10])⟩, ⟨none, some Error.EOF⟩],
        Stop.closed⟩ ∧
    parse0 [42, 49, 13, 10, 58, 97, 98, 99, 13, 10] =
      ⟨[⟨some (Reply.multiBulk [[58, 97, 98, 99]]), none⟩, ⟨none, some Error.EOF⟩],
        Stop.closed⟩ ∧
    parse0 [36, 45, 53, 13, 10] =
      ⟨[⟨none, some (protocolError [36, 45, 53, 13, 10])⟩, ⟨none, some Error.EOF⟩],
        Stop.closed⟩ ∧
    parse0 [42, 49, 13, 10, 36, 45, 53, 13, 10] =
      ⟨[⟨some (Reply.multiBulk [[]]), none⟩, ⟨none, some Error.EOF⟩], Stop.closed⟩ := by
  decide

/-! ### The order on keys -/

theorem bytesLt_irrefl (a : Bytes) : bytesLt a a = false := by
  induction a with
  | nil => rfl
  | cons x xs ih => simp [bytesLt, ih]

theorem bytesLt_trans : ∀ (a b c : Bytes), bytesLt a b = true → bytesLt b c = true →
    bytesLt a c = true := by
  intro a
  induction a with
  | nil =>
    intro b c h1 h2
    cases b with
    | nil => simp [bytesLt] at h1
    | cons y ys =>
      cases c with
      | nil => simp [bytesLt] at h2
      | cons z zs => simp [bytesLt]
  | cons x xs ih =>
    intro b c h1 h2
    cases b with
    | nil => simp [bytesLt] at h1
    | cons y ys =>
      cases c with
      | nil => simp [bytesLt] at h2
      | cons z zs =>
        simp only [bytesLt, Bool.or_eq_true, Bool.and_eq_true, decide_eq_true_eq] at h1 h2 ⊢
        rcases h1 with h1 | ⟨h1, h1'⟩
        · rcases h2 with h2 | ⟨h2, _⟩
          · left; omega
          · left; omega
        · rcases h2 with h2 | ⟨h2, h2'⟩
          · left; omega
          · right; exact ⟨by omega, ih ys zs h1' h2'⟩

theorem bytesLt_total : ∀ (a b : Bytes), bytesLt a b = false → bytesLt b a = false → a = b := by
  intro a
  induction a with
  | nil =>
    intro b h1 h2
    cases b with
    | nil => rfl
    | cons y ys => simp [bytesLt] at h1
  | cons x xs ih =>
    intro b h1 h2
    cases b with
    | nil => simp [bytesLt] at h2
    | cons y ys =>
      simp only [bytesLt, Bool.or_eq_false_iff, Bool.and_eq_false_iff, decide_eq_false_iff_not]
        at h1 h2
      obtain ⟨h1a, h1b⟩ := h1
      obtain ⟨h2a, h2b⟩ := h2
      have hxy : x = y := by omega
      subst hxy
      have e1 : bytesLt xs ys = false := by
        rcases h1b with h | h
        · exact absurd rfl h
        · exact h
      have e2 : bytesLt ys xs = false := by
        rcases h2b with h | h
        · exact absurd rfl h
        · exact h
      rw [ih ys e1 e2]

theorem keyLess_eq_keyLt (n : node) (score : Int) (member : Bytes) :
    keyLess n score member = keyLt (n.Score, n.Member) (score, member) := rfl

theorem keyLt_irrefl (a : Key) : keyLt a a = false := by
  simp [keyLt, bytesLt_irrefl]

theorem keyLt_trans (a b c : Key) (h1 : keyLt a b = true) (h2 : keyLt b c = true) :
    keyLt a c = true := by
  simp only [keyLt, Bool.or_eq_true, Bool.and_eq_true, decide_eq_true_eq] at h1 h2 ⊢
  rcases h1 with h1 | ⟨h1, h1'⟩
  · rcases h2 with h2 | ⟨h2, _⟩
    · left; omega
    · left; omega
  · rcases h2 with h2 | ⟨h2, h2'⟩
    · left; omega
    · right; exact ⟨by omega, bytesLt_trans _ _ _ h1' h2'⟩

theorem keyLt_asymm (a b : Key) (h : keyLt a b = true) : keyLt b a = false := by
  cases hb : keyLt b a with
  | false => rfl
  | true =>
    have := keyLt_trans a b a h hb
    rw [keyLt_irrefl] at this
    exact absurd this (by decide)

theorem keyLt_total (a b : Key) (h1 : keyLt a b = false) (h2 : keyLt b a = false) : a = b := by
  simp only [keyLt, Bool.or_eq_false_iff, Bool.and_eq_false_iff, decide_eq_false_iff_not]
    at h1 h2
  obtain ⟨h1a, h1b⟩ := h1
  obtain ⟨h2a, h2b⟩ := h2
  have hs : a.1 = b.1 := by omega
  have e1 : bytesLt a.2 b.2 = false := by
    rcases h1b with h | h
    · exact absurd hs h
    · exact h
  have e2 : bytesLt b.2 a.2 = false := by
    rcases h2b with h | h
    · exact absurd hs.symm h
    · exact h
  exact Prod.ext hs (bytesLt_total _ _ e1 e2)

/-- If `x` is not above `y` and `y` is below `k`, then `x` is below `k`. -/
theorem keyLt_of_le_of_lt (x y k : Key) (h1 : keyLt y x = false) (h2 : keyLt y k = true) :
    keyLt x k = true := by
  cases hxy : keyLt x y with
  | true => exact keyLt_trans x y k hxy h2
  | false =>
    have := keyLt_total x y hxy h1
    rw [this]
    exact h2

/-! ### Lists of nodes and their levels -/

theorem nextAt_mem (ht : Nat → Nat) (i : Nat) :
    ∀ (L : List Nat) (y : Nat), nextAt ht i L = some y → y ∈ L ∧ i < ht y := by
  intro L
  induction L with
  | nil => intro y h; simp [nextAt] at h
  | cons a t ih =>
    intro y h
    unfold nextAt at h
    by_cases ha : i < ht a
    · rw [if_pos ha] at h
      simp only [Option.some.injEq] at h
      subst h
      exact ⟨List.mem_cons_self _ _, ha⟩
    · rw [if_neg ha] at h
      obtain ⟨h1, h2⟩ := ih y h
      exact ⟨List.mem_cons_of_mem _ h1, h2⟩

theorem nextAt_none (ht : Nat → Nat) (i : Nat) :
    ∀ (L : List Nat), nextAt ht i L = none → ∀ y ∈ L, ¬ i < ht y := by
  intro L
  induction L with
  | nil => intro _ y hy; simp at hy
  | cons a t ih =>
    intro h y hy
    unfold nextAt at h
    by_cases ha : i < ht a
    · rw [if_pos ha] at h; simp at h
    · rw [if_neg ha] at h
      rcases List.mem_cons.mp hy with rfl | hy
      · exact ha
      · exact ih h y hy

theorem nextAt_append_short (ht : Nat → Nat) (i : Nat) (R : List Nat) :
    ∀ (C : List Nat), (∀ y ∈ C, ¬ i < ht y) → nextAt ht i (C ++ R) = nextAt ht i R := by
  intro C
  induction C with
  | nil => intro _; rfl
  | cons a t ih =>
    intro h
    have ha := h a (List.mem_cons_self _ _)
    simp only [List.cons_append, nextAt, if_neg ha]
    exact ih (fun y hy => h y (List.mem_cons_of_mem _ hy))

theorem nextAt_append_tall (ht : Nat → Nat) (i : Nat) (R : List Nat) :
    ∀ (C : List Nat), (∃ y ∈ C, i < ht y) → nextAt ht i (C ++ R) = nextAt ht i C := by
  intro C
  induction C with
  | nil => intro h; obtain ⟨y, hy, _⟩ := h; simp at hy
  | cons a t ih =>
    intro h
    by_cases ha : i < ht a
    · simp only [List.cons_append, nextAt, if_pos ha]
    · simp only [List.cons_append, nextAt, if_neg ha]
      apply ih
      obtain ⟨y, hy, hty⟩ := h
      rcases List.mem_cons.mp hy with rfl | hy
      · exact absurd hty ha
      · exact ⟨y, hy, hty⟩

theorem nextAt_congr (ht ht2 : Nat → Nat) (i : Nat) :
    ∀ (L : List Nat), (∀ y ∈ L, ht2 y = ht y) → nextAt ht2 i L = nextAt ht i L := by
  intro L
  induction L with
  | nil => intro _; rfl
  | cons a t ih =>
    intro h
    simp only [nextAt, h a (List.mem_cons_self _ _)]
    rw [ih (fun y hy => h y (List.mem_cons_of_mem _ hy))]

theorem Linked_split (ht : Nat → Nat) (fwd : Nat → Nat → Option Nat) (x : Nat) (R : List Nat) :
    ∀ (A : List Nat), Linked ht fwd (A ++ x :: R) →
      (∀ i, i < ht x → fwd x i = nextAt ht i R) ∧ Linked ht fwd R := by
  intro A
  induction A with
  | nil => intro h; exact h
  | cons a t ih => intro h; exact ih h.2

theorem Linked_congr (ht ht2 : Nat → Nat) (fwd fwd2 : Nat → Nat → Option Nat) :
    ∀ (L : List Nat), (∀ y ∈ L, ht2 y = ht y) → (∀ y ∈ L, ∀ j, fwd2 y j = fwd y j) →
      Linked ht fwd L → Linked ht2 fwd2 L := by
  intro L
  induction L with
  | nil => intro _ _ _; trivial
  | cons a t ih =>
    intro h1 h2 h
    have h1t : ∀ y ∈ t, ht2 y = ht y := fun y hy => h1 y (List.mem_cons_of_mem _ hy)
    refine ⟨?_, ih h1t (fun y hy => h2 y (List.mem_cons_of_mem _ hy)) h.2⟩
    intro i hi
    rw [h1 a (List.mem_cons_self _ _)] at hi
    rw [h2 a (List.mem_cons_self _ _), nextAt_congr ht ht2 i t h1t]
    exact h.1 i hi

theorem lastTall_short (ht : Nat → Nat) (i : Nat) :
    ∀ (C : List Nat) (x : Nat), (∀ y ∈ C, ¬ i < ht y) → lastTall ht i x C = x := by
  intro C
  induction C with
  | nil => intro x _; rfl
  | cons a t ih =>
    intro x h
    simp only [lastTall, if_neg (h a (List.mem_cons_self _ _))]
    exact ih x (fun y hy => h y (List.mem_cons_of_mem _ hy))

theorem lastTall_tall (ht : Nat → Nat) (i : Nat) :
    ∀ (C : List Nat) (x : Nat), (∃ y ∈ C, i < ht y) → lastTall ht i x C ∈ C := by
  intro C
  induction C with
  | nil => intro x h; obtain ⟨y, hy, _⟩ := h; simp at hy
  | cons a t ih =>
    intro x h
    by_cases ha : i < ht a
    · simp only [lastTall, if_pos ha]
      by_cases ht2 : ∃ y ∈ t, i < ht y
      · exact List.mem_cons_of_mem _ (ih a ht2)
      · have : ∀ y ∈ t, ¬ i < ht y := fun y hy hty => ht2 ⟨y, hy, hty⟩
        rw [lastTall_short ht i t a this]
        exact List.mem_cons_self _ _
    · simp only [lastTall, if_neg ha]
      apply List.mem_cons_of_mem
      apply ih
      obtain ⟨y, hy, hty⟩ := h
      rcases List.mem_cons.mp hy with rfl | hy
      · exact absurd hty ha
      · exact ⟨y, hy, hty⟩

theorem lastTall_append (ht : Nat → Nat) (i x : Nat) (C : List Nat) (hx : i < ht x) :
    ∀ (A : List Nat) (a : Nat), lastTall ht i a (A ++ x :: C) = lastTall ht i x C := by
  intro A
  induction A with
  | nil => intro a; simp only [List.nil_append, lastTall, if_pos hx]
  | cons b t ih =>
    intro a
    simp only [List.cons_append, lastTall]
    split
    · exact ih b
    · exact ih a

theorem lastTall_split (ht : Nat → Nat) (i : Nat) :
    ∀ (C : List Nat) (x : Nat), i < ht x →
      ∃ A1 C1, x :: C = A1 ++ lastTall ht i x C :: C1 ∧ i < ht (lastTall ht i x C) ∧
        ∀ y ∈ C1, ¬ i < ht y := by
  intro C
  induction C with
  | nil => intro x hx; exact ⟨[], [], rfl, hx, by simp⟩
  | cons a t ih =>
    intro x hx
    by_cases ha : i < ht a
    · obtain ⟨A1, C1, h1, h2, h3⟩ := ih a ha
      refine ⟨x :: A1, C1, ?_, ?_, h3⟩
      · simp only [lastTall, if_pos ha, List.cons_append, h1]
      · simp only [lastTall, if_pos ha]; exact h2
    · obtain ⟨A1, C1, h1, h2, h3⟩ := ih x hx
      simp only [lastTall, if_neg ha]
      cases A1 with
      | nil =>
        simp only [List.nil_append, List.cons.injEq] at h1
        obtain ⟨h1a, h1b⟩ := h1
        refine ⟨[], a :: C1, ?_, h2, ?_⟩
        · show x :: a :: t = lastTall ht i x t :: a :: C1
          rw [← h1a, ← h1b]
        · intro y hy
          rcases List.mem_cons.mp hy with rfl | hy
          · exact ha
          · exact h3 y hy
      | cons b A2 =>
        simp only [List.cons_append, List.cons.injEq] at h1
        obtain ⟨h1a, h1b⟩ := h1
        refine ⟨x :: a :: A2, C1, ?_, h2, h3⟩
        exact congrArg (fun l => x :: a :: l) h1b

/-! ### Reading and writing the heap -/

theorem getLevel_lt (nodes : List node) (x i : Nat) (lv : Level)
    (h : getLevel nodes x i = some lv) : i < htOf nodes x ∧ x < nodes.length := by
  unfold getLevel at h
  unfold htOf
  cases hx : nodes[x]? with
  | none => rw [hx] at h; simp at h
  | some n =>
    rw [hx] at h
    simp only at h ⊢
    obtain ⟨hlt, _⟩ := List.getElem?_eq_some_iff.mp h
    obtain ⟨hlt2, _⟩ := List.getElem?_eq_some_iff.mp hx
    exact ⟨hlt, hlt2⟩

theorem getLevel_of_lt (nodes : List node) (x i : Nat) (h : i < htOf nodes x) :
    ∃ lv, getLevel nodes x i = some lv := by
  unfold htOf at h
  unfold getLevel
  cases hx : nodes[x]? with
  | none => rw [hx] at h; simp at h
  | some n =>
    rw [hx] at h
    simp only at h ⊢
    exact ⟨n.level[i], List.getElem?_eq_getElem h⟩

theorem fwdOf_of_getLevel (nodes : List node) (x i : Nat) (lv : Level)
    (h : getLevel nodes x i = some lv) : fwdOf nodes x i = lv.forward := by
  simp [fwdOf, h]

theorem htOf_pos_lt (nodes : List node) (x : Nat) (h : 0 < htOf nodes x) :
    ∃ n, nodes[x]? = some n := by
  unfold htOf at h
  cases hx : nodes[x]? with
  | none => rw [hx] at h; simp at h
  | some n => exact ⟨n, rfl⟩

theorem length_setLevel (nodes : List node) (u i : Nat) (lv : Level) :
    (setLevel nodes u i lv).length = nodes.length := by
  unfold setLevel
  cases nodes[u]? <;> simp

theorem getElem?_setLevel (nodes : List node) (u i : Nat) (lv : Level) (y : Nat) :
    (setLevel nodes u i lv)[y]? =
      if y = u then (nodes[u]?).map (fun n => { n with level := n.level.set i lv })
      else nodes[y]? := by
  unfold setLevel
  cases hu : nodes[u]? with
  | none =>
    by_cases hy : y = u
    · simp [hy, hu]
    · simp [hy]
  | some n =>
    have hlt : u < nodes.length := (List.getElem?_eq_some_iff.mp hu).1
    by_cases hy : y = u
    · subst hy
      simp [hlt, hu]
    · have hy2 : u ≠ y := fun e => hy e.symm
      simp [hy, List.getElem?_set_ne hy2]

theorem htOf_setLevel (nodes : List node) (u i : Nat) (lv : Level) (y : Nat) :
    htOf (setLevel nodes u i lv) y = htOf nodes y := by
  unfold htOf
  rw [getElem?_setLevel]
  by_cases hy : y = u
  · subst hy
    cases nodes[y]? <;> simp
  · simp [hy]

theorem keyAt_setLevel (nodes : List node) (u i : Nat) (lv : Level) (y : Nat) :
    keyAt (setLevel nodes u i lv) y = keyAt nodes y := by
  unfold keyAt
  rw [getElem?_setLevel]
  by_cases hy : y = u
  · subst hy
    cases nodes[y]? <;> simp
  · simp [hy]

theorem getLevel_setLevel (nodes : List node) (u i : Nat) (lv : Level) (y j : Nat) :
    getLevel (setLevel nodes u i lv) y j =
      if y = u ∧ j = i ∧ i < htOf nodes u then some lv else getLevel nodes y j := by
  unfold getLevel htOf
  rw [getElem?_setLevel]
  by_cases hy : y = u
  · subst hy
    cases hn : nodes[y]? with
    | none => simp
    | some n =>
      simp only [Option.map_some', true_and]
      by_cases hj : j = i
      · subst hj
        by_cases hlt : j < n.level.length
        · simp [hlt]
        · have h1 : (n.level.set j lv)[j]? = none :=
            List.getElem?_eq_none (by simp; omega)
          have h2 : n.level[j]? = none := List.getElem?_eq_none (by omega)
          simp [hlt, h1, h2]
      · have hj2 : i ≠ j := fun e => hj e.symm
        simp [hj, List.getElem?_set_ne hj2]
  · simp [hy]

theorem fwdOf_setLevel (nodes : List node) (u i : Nat) (lv : Level) (y j : Nat) :
    fwdOf (setLevel nodes u i lv) y j =
      if y = u ∧ j = i ∧ i < htOf nodes u then lv.forward else fwdOf nodes y j := by
  unfold fwdOf
  rw [getLevel_setLevel]
  by_cases h : y = u ∧ j = i ∧ i < htOf nodes u
  · rw [if_pos h, if_pos h]
  · rw [if_neg h, if_neg h]

theorem length_setBackward (nodes : List node) (u : Nat) (b : Option Nat) :
    (setBackward nodes u b).length = nodes.length := by
  unfold setBackward
  cases nodes[u]? <;> simp

theorem getElem?_setBackward (nodes : List node) (u : Nat) (b : Option Nat) (y : Nat) :
    (setBackward nodes u b)[y]? =
      if y = u then (nodes[u]?).map (fun n => { n with backward := b })
      else nodes[y]? := by
  unfold setBackward
  cases hu : nodes[u]? with
  | none =>
    by_cases hy : y = u
    · simp [hy, hu]
    · simp [hy]
  | some n =>
    have hlt : u < nodes.length := (List.getElem?_eq_some_iff.mp hu).1
    by_cases hy : y = u
    · subst hy
      simp [hlt, hu]
    · have hy2 : u ≠ y := fun e => hy e.symm
      simp [hy, List.getElem?_set_ne hy2]

theorem htOf_setBackward (nodes : List node) (u : Nat) (b : Option Nat) (y : Nat) :
    htOf (setBackward nodes u b) y = htOf nodes y := by
  unfold htOf
  rw [getElem?_setBackward]
  by_cases hy : y = u
  · subst hy
    cases nodes[y]? <;> simp
  · simp [hy]

theorem keyAt_setBackward (nodes : List node) (u : Nat) (b : Option Nat) (y : Nat) :
    keyAt (setBackward nodes u b) y = keyAt nodes y := by
  unfold keyAt
  rw [getElem?_setBackward]
  by_cases hy : y = u
  · subst hy
    cases nodes[y]? <;> simp
  · simp [hy]

theorem getLevel_setBackward (nodes : List node) (u : Nat) (b : Option Nat) (y j : Nat) :
    getLevel (setBackward nodes u b) y j = getLevel nodes y j := by
  unfold getLevel
  rw [getElem?_setBackward]
  by_cases hy : y = u
  · subst hy
    cases nodes[y]? <;> simp
  · simp [hy]

theorem fwdOf_setBackward (nodes : List node) (u : Nat) (b : Option Nat) (y j : Nat) :
    fwdOf (setBackward nodes u b) y j = fwdOf nodes y j := by
  unfold fwdOf
  rw [getLevel_setBackward]

theorem htOf_append (nodes : List node) (n : node) (y : Nat) :
    htOf (nodes ++ [n]) y = if y = nodes.length then n.level.length else htOf nodes y := by
  unfold htOf
  by_cases hy : y = nodes.length
  · subst hy
    simp
  · rw [if_neg hy]
    rcases Nat.lt_or_gt_of_ne hy with hlt | hgt
    · rw [List.getElem?_append_left hlt]
    · have h1 : (nodes ++ [n])[y]? = none := by
        apply List.getElem?_eq_none
        simp only [List.length_append, List.length_cons, List.length_nil]
        omega
      have h2 : nodes[y]? = none := List.getElem?_eq_none (by omega)
      rw [h1, h2]

theorem keyAt_append (nodes : List node) (n : node) (y : Nat) :
    keyAt (nodes ++ [n]) y =
      if y = nodes.length then some (n.Score, n.Member) else keyAt nodes y := by
  unfold keyAt
  by_cases hy : y = nodes.length
  · subst hy
    simp
  · rw [if_neg hy]
    rcases Nat.lt_or_gt_of_ne hy with hlt | hgt
    · rw [List.getElem?_append_left hlt]
    · have h1 : (nodes ++ [n])[y]? = none := by
        apply List.getElem?_eq_none
        simp only [List.length_append, List.length_cons, List.length_nil]
        omega
      have h2 : nodes[y]? = none := List.getElem?_eq_none (by omega)
      rw [h1, h2]

theorem fwdOf_append (nodes : List node) (n : node) (y j : Nat) :
    fwdOf (nodes ++ [n]) y j =
      if y = nodes.length then (match n.level[j]? with
        | some lv => lv.forward
        | none => none)
      else fwdOf nodes y j := by
  unfold fwdOf getLevel
  by_cases hy : y = nodes.length
  · subst hy
    simp
  · rw [if_neg hy]
    rcases Nat.lt_or_gt_of_ne hy with hlt | hgt
    · rw [List.getElem?_append_left hlt]
    · have h1 : (nodes ++ [n])[y]? = none := by
        apply List.getElem?_eq_none
        simp only [List.length_append, List.length_cons, List.length_nil]
        omega
      have h2 : nodes[y]? = none := List.getElem?_eq_none (by omega)
      rw [h1, h2]

/-! ### The search loops on a well-formed list -/

theorem walk_step_stop (nodes : List node) (i : Nat) (cond : Level → node → Int → Bool)
    (fuel x : Nat) (r : Int) (h : fwdOf nodes x i = none) (hx : i < htOf nodes x) :
    walk nodes i cond (fuel + 1) x r = Res.ok (x, r) := by
  obtain ⟨lv, hlv⟩ := getLevel_of_lt nodes x i hx
  have hf := fwdOf_of_getLevel nodes x i lv hlv
  rw [h] at hf
  unfold walk
  simp only [hlv, ← hf]

theorem walk_step (nodes : List node) (i : Nat) (P : node → Bool)
    (fuel x f : Nat) (r : Int) (nf : node) (h : fwdOf nodes x i = some f)
    (hf : nodes[f]? = some nf) :
    ∃ sp : Int, walk nodes i (fun _ n _ => P n) (fuel + 1) x r =
      if P nf then walk nodes i (fun _ n _ => P n) fuel f (r + sp) else Res.ok (x, r) := by
  cases hlv : getLevel nodes x i with
  | none => simp [fwdOf, hlv] at h
  | some lv =>
    have hfw := fwdOf_of_getLevel nodes x i lv hlv
    rw [h] at hfw
    refine ⟨lv.span, ?_⟩
    conv => lhs; unfold walk
    simp only [hlv, ← hfw, hf]

theorem walk_spec (nodes : List node) (i : Nat) (P : node → Bool) (post : List Nat)
    (hpost : ∀ y ∈ post, ∀ n, nodes[y]? = some n → P n = false) :
    ∀ (C : List Nat) (x : Nat) (r : Int) (fuel : Nat),
      i < htOf nodes x →
      fwdOf nodes x i = nextAt (htOf nodes) i (C ++ post) →
      Linked (htOf nodes) (fwdOf nodes) (C ++ post) →
      (∀ y ∈ C, ∀ n, nodes[y]? = some n → P n = true) →
      C.length < fuel →
      ∃ r1, walk nodes i (fun _ n _ => P n) fuel x r =
        Res.ok (lastTall (htOf nodes) i x C, r1) := by
  intro C
  induction C with
  | nil =>
    intro x r fuel hx hfwd _ _ hfuel
    obtain ⟨fuel1, rfl⟩ : ∃ k, fuel = k + 1 := ⟨fuel - 1, by omega⟩
    simp only [List.nil_append] at hfwd
    cases hn : nextAt (htOf nodes) i post with
    | none =>
      rw [hn] at hfwd
      exact ⟨r, walk_step_stop nodes i _ fuel1 x r hfwd hx⟩
    | some f =>
      rw [hn] at hfwd
      obtain ⟨hmem, htall⟩ := nextAt_mem _ _ _ _ hn
      obtain ⟨nf, hnf⟩ := htOf_pos_lt nodes f (by omega)
      obtain ⟨sp, hw⟩ := walk_step nodes i P fuel1 x f r nf hfwd hnf
      rw [hw, hpost f hmem nf hnf]
      exact ⟨r, rfl⟩
  | cons y C1 ih =>
    intro x r fuel hx hfwd hlink hC hfuel
    obtain ⟨fuel1, rfl⟩ : ∃ k, fuel = k + 1 := ⟨fuel - 1, by omega⟩
    simp only [List.length_cons] at hfuel
    simp only [List.cons_append] at hfwd hlink
    by_cases hy : i < htOf nodes y
    · simp only [nextAt, if_pos hy] at hfwd
      obtain ⟨ny, hny⟩ := htOf_pos_lt nodes y (by omega)
      obtain ⟨sp, hw⟩ := walk_step nodes i P fuel1 x y r ny hfwd hny
      rw [hw, hC y (List.mem_cons_self _ _) ny hny]
      simp only [if_true, lastTall, if_pos hy]
      exact ih y (r + sp) fuel1 hy (hlink.1 i hy) hlink.2
        (fun z hz => hC z (List.mem_cons_of_mem _ hz)) (by omega)
    · simp only [nextAt, if_neg hy] at hfwd
      simp only [lastTall, if_neg hy]
      exact ih x r (fuel1 + 1) hx hfwd hlink.2
        (fun z hz => hC z (List.mem_cons_of_mem _ hz)) (by omega)

theorem search_spec (nodes : List node) (P : node → Bool) (pre post : List Nat) (fuel : Nat)
    (hlink : Linked (htOf nodes) (fwdOf nodes) (0 :: pre ++ post))
    (hpre : ∀ y ∈ pre, ∀ n, nodes[y]? = some n → P n = true)
    (hpost : ∀ y ∈ post, ∀ n, nodes[y]? = some n → P n = false)
    (hfuel : pre.length < fuel) :
    ∀ (k : Nat) (A : List Nat) (x : Nat) (C : List Nat) (r : Int),
      0 :: pre = A ++ x :: C → k ≤ htOf nodes x →
      ∃ ur, search nodes (fun _ n _ => P n) fuel k x r = Res.ok ur ∧
        ur.map Prod.fst = (List.range k).map (fun j => lastTall (htOf nodes) j 0 pre) := by
  intro k
  induction k with
  | zero => intro A x C r _ _; exact ⟨[], rfl, rfl⟩
  | succ k ih =>
    intro A x C r hsplit hk
    have hxk : k < htOf nodes x := by omega
    have hl : Linked (htOf nodes) (fwdOf nodes) (A ++ x :: (C ++ post)) := by
      have : A ++ x :: (C ++ post) = 0 :: pre ++ post := by
        rw [show (0 :: pre ++ post) = (0 :: pre) ++ post from rfl, hsplit]
        simp
      rw [this]; exact hlink
    obtain ⟨hfx, hlC⟩ := Linked_split _ _ x (C ++ post) A hl
    have hCpre : ∀ y ∈ C, y ∈ pre := by
      intro y hy
      have : y ∈ 0 :: pre := by rw [hsplit]; simp [hy]
      rcases List.mem_cons.mp this with h0 | h
      · cases A with
        | nil =>
          simp only [List.nil_append, List.cons.injEq] at hsplit
          rw [hsplit.2]; exact hy
        | cons a A1 =>
          simp only [List.cons_append, List.cons.injEq] at hsplit
          rw [hsplit.2]; simp [hy]
      · exact h
    have hClen : C.length < fuel := by
      have : (0 :: pre).length = (A ++ x :: C).length := by rw [hsplit]
      simp only [List.length_cons, List.length_append] at this
      omega
    obtain ⟨r1, hw⟩ := walk_spec nodes k P post hpost C x r fuel hxk (hfx k hxk) hlC
      (fun y hy => hpre y (hCpre y hy)) hClen
    have htarget : lastTall (htOf nodes) k x C = lastTall (htOf nodes) k 0 pre := by
      cases A with
      | nil =>
        simp only [List.nil_append, List.cons.injEq] at hsplit
        rw [← hsplit.1, ← hsplit.2]
      | cons a A1 =>
        simp only [List.cons_append, List.cons.injEq] at hsplit
        rw [hsplit.2, lastTall_append _ _ _ _ hxk]
    obtain ⟨A1, C1, hs1, ht1, _⟩ := lastTall_split (htOf nodes) k C x hxk
    have hsplit2 : 0 :: pre = (A ++ A1) ++ lastTall (htOf nodes) k x C :: C1 := by
      rw [hsplit, hs1, List.append_assoc]
    obtain ⟨ur, hur, hmap⟩ := ih (A ++ A1) (lastTall (htOf nodes) k x C) C1 r1 hsplit2 (by omega)
    refine ⟨ur ++ [(lastTall (htOf nodes) k x C, r1)], ?_, ?_⟩
    · conv => lhs; unfold search
      simp only [hw, hur]
    · rw [List.map_append, hmap, List.range_succ, List.map_append, htarget]
      rfl

/-! ### The loops that write the heap -/

theorem SameShape.refl (a : List node) : SameShape a a :=
  ⟨rfl, fun _ => rfl, fun _ _ => rfl, fun _ => rfl⟩

theorem SameShape.trans {a b c : List node} (h1 : SameShape a b) (h2 : SameShape b c) :
    SameShape a c :=
  ⟨h1.1.trans h2.1, fun y => (h1.2.1 y).trans (h2.2.1 y),
   fun y j => (h1.2.2.1 y j).trans (h2.2.2.1 y j), fun y => (h1.2.2.2 y).trans (h2.2.2.2 y)⟩

theorem SameShape.htOf_eq {a b : List node} (h : SameShape a b) : htOf a = htOf b :=
  funext h.2.1

theorem SameShape.fwdOf_eq {a b : List node} (h : SameShape a b) : fwdOf a = fwdOf b :=
  funext (fun y => funext (h.2.2.1 y))

theorem SameShape.keyAt_eq {a b : List node} (h : SameShape a b) : keyAt a = keyAt b :=
  funext h.2.2.2

theorem sameShape_setLevel (nodes : List node) (u i : Nat) (lv0 lv : Level)
    (h0 : getLevel nodes u i = some lv0) (hf : lv.forward = lv0.forward) :
    SameShape (setLevel nodes u i lv) nodes := by
  refine ⟨length_setLevel _ _ _ _, htOf_setLevel _ _ _ _, ?_, keyAt_setLevel _ _ _ _⟩
  intro y j
  rw [fwdOf_setLevel]
  by_cases h : y = u ∧ j = i ∧ i < htOf nodes u
  · rw [if_pos h]
    obtain ⟨rfl, rfl, _⟩ := h
    rw [fwdOf_of_getLevel _ _ _ _ h0, hf]
  · rw [if_neg h]

theorem sameShape_setBackward (nodes : List node) (u : Nat) (b : Option Nat) :
    SameShape (setBackward nodes u b) nodes :=
  ⟨length_setBackward _ _ _, htOf_setBackward _ _ _, fwdOf_setBackward _ _ _,
   keyAt_setBackward _ _ _⟩

theorem extendLoop_spec (header : Nat) (length : Int) :
    ∀ (cnt i : Nat) (nodes : List node), i + cnt ≤ htOf nodes header →
      ∃ nodes1, extendLoop header length cnt i nodes = some nodes1 ∧ SameShape nodes1 nodes := by
  intro cnt
  induction cnt with
  | zero => intro i nodes _; exact ⟨nodes, rfl, SameShape.refl _⟩
  | succ cnt ih =>
    intro i nodes h
    obtain ⟨lv, hlv⟩ := getLevel_of_lt nodes header i (by omega)
    have hs := sameShape_setLevel nodes header i lv { lv with span := length } hlv rfl
    obtain ⟨nodes1, h1, h2⟩ := ih (i + 1) (setLevel nodes header i { lv with span := length })
      (by rw [hs.2.1]; omega)
    refine ⟨nodes1, ?_, h2.trans hs⟩
    conv => lhs; unfold extendLoop
    simp only [hlv, h1]

theorem bumpLoop_spec (update : List Nat) :
    ∀ (cnt i : Nat) (nodes : List node),
      (∀ j, i ≤ j → j < i + cnt → ∃ u, update[j]? = some u ∧ j < htOf nodes u) →
      ∃ nodes1, bumpLoop update cnt i nodes = some nodes1 ∧ SameShape nodes1 nodes := by
  intro cnt
  induction cnt with
  | zero => intro i nodes _; exact ⟨nodes, rfl, SameShape.refl _⟩
  | succ cnt ih =>
    intro i nodes h
    obtain ⟨u, hu, hlt⟩ := h i (le_refl _) (by omega)
    obtain ⟨lv, hlv⟩ := getLevel_of_lt nodes u i hlt
    have hs := sameShape_setLevel nodes u i lv { lv with span := lv.span + 1 } hlv rfl
    obtain ⟨nodes1, h1, h2⟩ := ih (i + 1) (setLevel nodes u i { lv with span := lv.span + 1 })
      (by
        intro j hj1 hj2
        obtain ⟨u2, hu2, hlt2⟩ := h j (by omega) (by omega)
        exact ⟨u2, hu2, by rw [hs.2.1]; exact hlt2⟩)
    refine ⟨nodes1, ?_, h2.trans hs⟩
    conv => lhs; unfold bumpLoop
    simp only [hu, hlv, h1]

theorem unlinkLoop_spec (x : Nat) (update : List Nat) :
    ∀ (cnt i : Nat) (nodes : List node),
      (∀ j, i ≤ j → j < i + cnt → ∃ u, update[j]? = some u ∧ j < htOf nodes u) →
      (∀ j u, update[j]? = some u → fwdOf nodes u j = some x → j < htOf nodes x) →
      ∃ nodes1, unlinkLoop x update cnt i nodes = some nodes1 ∧ SameShape nodes1 nodes := by
  intro cnt
  induction cnt with
  | zero => intro i nodes _ _; exact ⟨nodes, rfl, SameShape.refl _⟩
  | succ cnt ih =>
    intro i nodes h hx
    obtain ⟨u, hu, hlt⟩ := h i (le_refl _) (by omega)
    obtain ⟨lv, hlv⟩ := getLevel_of_lt nodes u i hlt
    have hnext : ∀ nodes2, SameShape nodes2 nodes →
        ∃ nodes1, unlinkLoop x update cnt (i + 1) nodes2 = some nodes1 ∧
          SameShape nodes1 nodes := by
      intro nodes2 hs
      obtain ⟨nodes1, h1, h2⟩ := ih (i + 1) nodes2
        (by
          intro j hj1 hj2
          obtain ⟨u2, hu2, hlt2⟩ := h j (by omega) (by omega)
          exact ⟨u2, hu2, by rw [hs.2.1]; exact hlt2⟩)
        (by
          intro j u2 hu2 hf
          rw [hs.2.2.1] at hf
          rw [hs.2.1]
          exact hx j u2 hu2 hf)
      exact ⟨nodes1, h1, h2.trans hs⟩
    by_cases hfx : lv.forward = some x
    · have hxi : i < htOf nodes x :=
        hx i u hu (by rw [fwdOf_of_getLevel _ _ _ _ hlv]; exact hfx)
      obtain ⟨lx, hlx⟩ := getLevel_of_lt nodes x i hxi
      obtain ⟨nodes1, h1, h2⟩ := hnext
        (setLevel nodes u i { forward := some x, span := lv.span + (lx.span - 1) })
        (sameShape_setLevel nodes u i lv _ hlv hfx.symm)
      refine ⟨nodes1, ?_, h2⟩
      conv => lhs; unfold unlinkLoop
      simp only [hu, hlv, hfx, if_true, hlx, h1]
    · obtain ⟨nodes1, h1, h2⟩ := hnext
        (setLevel nodes u i { lv with span := lv.span - 1 })
        (sameShape_setLevel nodes u i lv _ hlv rfl)
      refine ⟨nodes1, ?_, h2⟩
      conv => lhs; unfold unlinkLoop
      simp only [hu, hlv, hfx, if_false, h1]

theorem linkLoop_spec (x : Nat) (update : List Nat) (rank : List Int) (r0 : Int)
    (hr0 : rank[0]? = some r0) :
    ∀ (cnt i : Nat) (nodes : List node) (acc : List Level),
      (∀ j, i ≤ j → j < i + cnt → ∃ u, update[j]? = some u ∧ j < htOf nodes u) →
      (∀ j, i ≤ j → j < i + cnt → ∃ rj, rank[j]? = some rj) →
      ∃ nodes1 acc1, linkLoop x update rank cnt i nodes acc = some (nodes1, acc1) ∧
        nodes1.length = nodes.length ∧ (∀ y, htOf nodes1 y = htOf nodes y) ∧
        (∀ y, keyAt nodes1 y = keyAt nodes y) ∧
        (∀ y j, fwdOf nodes1 y j =
          if i ≤ j ∧ j < i + cnt ∧ update[j]? = some y then some x else fwdOf nodes y j) ∧
        acc1.length = acc.length + cnt ∧
        (∀ j, j < acc.length → acc1[j]? = acc[j]?) ∧
        (∀ j, i ≤ j → j < i + cnt → ∃ u lv, update[j]? = some u ∧
          acc1[acc.length + (j - i)]? = some lv ∧ lv.forward = fwdOf nodes u j) := by
  intro cnt
  induction cnt with
  | zero =>
    intro i nodes acc _ _
    refine ⟨nodes, acc, rfl, rfl, fun _ => rfl, fun _ => rfl, ?_, rfl, fun _ _ => rfl, ?_⟩
    · intro y j
      rw [if_neg (by omega)]
    · intro j h1 h2; omega
  | succ cnt ih =>
    intro i nodes acc h hr
    obtain ⟨u, hu, hlt⟩ := h i (le_refl _) (by omega)
    obtain ⟨ri, hri⟩ := hr i (le_refl _) (by omega)
    obtain ⟨lv, hlv⟩ := getLevel_of_lt nodes u i hlt
    obtain ⟨nodes1, acc1, h1, hlen, hht, hkey, hfwd, hacc, hpres, hent⟩ :=
      ih (i + 1) (setLevel nodes u i { forward := some x, span := (r0 - ri) + 1 })
        (acc ++ [{ forward := lv.forward, span := lv.span - (r0 - ri) }])
        (by
          intro j hj1 hj2
          obtain ⟨u2, hu2, hlt2⟩ := h j (by omega) (by omega)
          exact ⟨u2, hu2, by rw [htOf_setLevel]; exact hlt2⟩)
        (by intro j hj1 hj2; exact hr j (by omega) (by omega))
    have hlen2 : (acc ++ [({ forward := lv.forward, span := lv.span - (r0 - ri) } : Level)]).length
        = acc.length + 1 := by simp
    refine ⟨nodes1, acc1, ?_, ?_, ?_, ?_, ?_, ?_, ?_, ?_⟩
    · conv => lhs; unfold linkLoop
      simp only [hu, hri, hr0, hlv, h1]
    · rw [hlen, length_setLevel]
    · intro y; rw [hht, htOf_setLevel]
    · intro y; rw [hkey, keyAt_setLevel]
    · intro y j
      rw [hfwd, fwdOf_setLevel]
      by_cases hj : j = i
      · subst hj
        by_cases hy : y = u
        · subst hy
          rw [if_neg (by omega), if_pos ⟨rfl, rfl, hlt⟩, if_pos ⟨le_refl _, by omega, hu⟩]
        · have hne : ¬ update[j]? = some y := by
            rw [hu]; intro e; exact hy (Option.some.inj e).symm
          rw [if_neg (by omega), if_neg (by tauto), if_neg (by tauto)]
      · by_cases hc : i + 1 ≤ j ∧ j < i + 1 + cnt ∧ update[j]? = some y
        · rw [if_pos hc, if_pos ⟨by omega, by omega, hc.2.2⟩]
        · rw [if_neg hc, if_neg (by tauto)]
          by_cases hc2 : i ≤ j ∧ j < i + (cnt + 1) ∧ update[j]? = some y
          · exfalso
            apply hc
            exact ⟨by omega, by omega, hc2.2.2⟩
          · rw [if_neg hc2]
    · rw [hacc, hlen2]; omega
    · intro j hj
      rw [hpres j (by rw [hlen2]; omega)]
      exact List.getElem?_append_left hj
    · intro j hj1 hj2
      by_cases hj : j = i
      · subst hj
        refine ⟨u, { forward := lv.forward, span := lv.span - (r0 - ri) }, hu, ?_, ?_⟩
        · rw [Nat.sub_self, Nat.add_zero, hpres acc.length (by rw [hlen2]; omega)]
          simp
        · exact (fwdOf_of_getLevel _ _ _ _ hlv).symm
      · obtain ⟨u2, lv2, hu2, hl2, hf2⟩ := hent j (by omega) (by omega)
        refine ⟨u2, lv2, hu2, ?_, ?_⟩
        · rw [hlen2] at hl2
          have e : acc.length + (j - i) = acc.length + 1 + (j - (i + 1)) := by omega
          rw [e]; exact hl2
        · rw [hf2, fwdOf_setLevel, if_neg (by omega)]

/-! ### Linking a new node keeps the list linked -/

theorem lastTall_of_split (ht : Nat → Nat) (j first a : Nat) (pre A L : List Nat)
    (hs : first :: pre = A ++ a :: L) (ha : j < ht a) :
    lastTall ht j first pre = lastTall ht j a L := by
  cases A with
  | nil =>
    simp only [List.nil_append, List.cons.injEq] at hs
    rw [hs.1, hs.2]
  | cons b A1 =>
    simp only [List.cons_append, List.cons.injEq] at hs
    rw [hs.2, lastTall_append _ _ _ _ ha]

theorem lastTall_mem (ht : Nat → Nat) (i : Nat) :
    ∀ (C : List Nat) (x : Nat), lastTall ht i x C ∈ x :: C := by
  intro C
  induction C with
  | nil => intro x; simp [lastTall]
  | cons a t ih =>
    intro x
    simp only [lastTall]
    split
    · exact List.mem_cons_of_mem _ (ih a)
    · rcases List.mem_cons.mp (ih x) with h | h
      · rw [h]; exact List.mem_cons_self _ _
      · exact List.mem_cons_of_mem _ (List.mem_cons_of_mem _ h)

theorem Linked_insert (ht ht2 : Nat → Nat) (fwd fwd2 : Nat → Nat → Option Nat)
    (n level first : Nat) (pre post : List Nat)
    (hlink : Linked ht fwd (first :: pre ++ post))
    (hnodup : (first :: pre ++ post).Nodup)
    (hn : n ∉ first :: pre ++ post)
    (hht : ∀ y, y ≠ n → ht2 y = ht y) (hhtn : ht2 n = level)
    (hfwd : ∀ y, y ≠ n → ∀ j, fwd2 y j =
      if j < level ∧ y = lastTall ht j first pre then some n else fwd y j)
    (hfwdn : ∀ j, j < level → fwd2 n j = fwd (lastTall ht j first pre) j)
    (hfirst : ∀ j, j < level → j < ht first) :
    Linked ht2 fwd2 (first :: pre ++ n :: post) := by
  have hne : ∀ y ∈ first :: pre ++ post, y ≠ n := fun y hy e => hn (e ▸ hy)
  have hpostne : ∀ y ∈ post, y ≠ n := fun y hy =>
    hne y (by simp [hy])
  have hht_post : ∀ y ∈ post, ht2 y = ht y := fun y hy => hht y (hpostne y hy)
  have key : ∀ (L A : List Nat), first :: pre = A ++ L → Linked ht2 fwd2 (L ++ n :: post) := by
    intro L
    induction L with
    | nil =>
      intro A _
      simp only [List.nil_append]
      constructor
      · intro j hj
        rw [hhtn] at hj
        rw [hfwdn j hj, nextAt_congr ht ht2 j post hht_post]
        obtain ⟨A1, C1, hs1, _, hC1⟩ := lastTall_split ht j pre first (hfirst j hj)
        have hl : Linked ht fwd (A1 ++ lastTall ht j first pre :: (C1 ++ post)) := by
          have : A1 ++ lastTall ht j first pre :: (C1 ++ post) = first :: pre ++ post := by
            rw [show first :: pre ++ post = (first :: pre) ++ post from rfl, hs1]
            simp
          rw [this]; exact hlink
        obtain ⟨hf, _⟩ := Linked_split ht fwd _ _ A1 hl
        obtain ⟨_, _, _, htall, _⟩ := lastTall_split ht j pre first (hfirst j hj)
        rw [hf j htall, nextAt_append_short ht j post C1 hC1]
      · have hl : Linked ht fwd post := by
          cases pre with
          | nil => exact hlink.2
          | cons p ps =>
            have h2 := hlink.2
            have key2 : ∀ (M : List Nat), Linked ht fwd (M ++ post) → Linked ht fwd post := by
              intro M
              induction M with
              | nil => intro h; exact h
              | cons m ms ihm => intro h; exact ihm h.2
            exact key2 (p :: ps) h2
        apply Linked_congr ht ht2 fwd fwd2 post hht_post _ hl
        intro y hy j
        rw [hfwd y (hpostne y hy) j, if_neg]
        rintro ⟨_, e⟩
        have hm := lastTall_mem ht j pre first
        rw [← e] at hm
        have : (first :: pre ++ post).Nodup := hnodup
        rw [show first :: pre ++ post = (first :: pre) ++ post from rfl] at this
        exact (List.nodup_append.mp this).2.2 hm hy
    | cons a L1 ih =>
      intro A hs
      have ha_mem : a ∈ first :: pre ++ post := by
        rw [show first :: pre ++ post = (first :: pre) ++ post from rfl, hs]
        simp
      have han : a ≠ n := hne a ha_mem
      have hL1_mem : ∀ y ∈ L1, y ∈ first :: pre ++ post := by
        intro y hy
        rw [show first :: pre ++ post = (first :: pre) ++ post from rfl, hs]
        simp [hy]
      have hht_L1 : ∀ y ∈ L1, ht2 y = ht y := fun y hy => hht y (hne y (hL1_mem y hy))
      have hl : Linked ht fwd (A ++ a :: (L1 ++ post)) := by
        have : A ++ a :: (L1 ++ post) = first :: pre ++ post := by
          rw [show first :: pre ++ post = (first :: pre) ++ post from rfl, hs]
          simp
        rw [this]; exact hlink
      obtain ⟨hfa, _⟩ := Linked_split ht fwd a (L1 ++ post) A hl
      have ha_notin : a ∉ L1 := by
        have : (A ++ a :: L1).Nodup := by
          rw [← hs]
          have h := hnodup
          rw [show first :: pre ++ post = (first :: pre) ++ post from rfl] at h
          exact (List.nodup_append.mp h).1
        have h2 := (List.nodup_append.mp this).2.1
        exact (List.nodup_cons.mp h2).1
      refine ⟨?_, ?_⟩
      · intro j hj
        rw [hht a han] at hj
        rw [hfwd a han j]
        have hlt := lastTall_of_split ht j first a pre A L1 hs hj
        by_cases htall : ∃ y ∈ L1, j < ht y
        · have htall2 : ∃ y ∈ L1, j < ht2 y := by
            obtain ⟨y, hy, hty⟩ := htall
            exact ⟨y, hy, by rw [hht_L1 y hy]; exact hty⟩
          have hne2 : a ≠ lastTall ht j first pre := by
            rw [hlt]
            intro e
            exact ha_notin (e ▸ lastTall_tall ht j L1 a htall)
          rw [if_neg (by tauto)]
          show fwd a j = nextAt ht2 j (L1 ++ n :: post)
          rw [nextAt_append_tall ht2 j _ L1 htall2, nextAt_congr ht ht2 j L1 hht_L1,
            ← nextAt_append_tall ht j post L1 htall]
          exact hfa j hj
        · have hshort : ∀ y ∈ L1, ¬ j < ht y := fun y hy hty => htall ⟨y, hy, hty⟩
          have hshort2 : ∀ y ∈ L1, ¬ j < ht2 y := by
            intro y hy; rw [hht_L1 y hy]; exact hshort y hy
          have hself : lastTall ht j first pre = a := by
            rw [hlt, lastTall_short ht j L1 a hshort]
          show (if j < level ∧ a = lastTall ht j first pre then some n else fwd a j) =
            nextAt ht2 j (L1 ++ n :: post)
          rw [nextAt_append_short ht2 j _ L1 hshort2]
          simp only [nextAt, hhtn]
          by_cases hjl : j < level
          · rw [if_pos ⟨hjl, hself.symm⟩, if_pos hjl]
          · rw [if_neg (by tauto), if_neg hjl, nextAt_congr ht ht2 j post hht_post,
              hfa j hj, nextAt_append_short ht j post L1 hshort]
      · have := ih (A ++ [a]) (by rw [hs]; simp)
        exact this
  exact key (first :: pre) [] rfl

/-! ### `insert` keeps the skiplist well formed -/

theorem keyAt_of_getElem (nodes : List node) (y : Nat) (n : node) (h : nodes[y]? = some n) :
    keyAt nodes y = some (n.Score, n.Member) := by
  simp [keyAt, h]

theorem split_sorted (key : Nat → Option Key) (k : Key) :
    ∀ (order : List Nat), SortedKeys key order →
      ∃ pre post, order = pre ++ post ∧
        (∀ y ∈ pre, ∀ ky, key y = some ky → keyLt ky k = true) ∧
        (∀ y ∈ post, ∀ ky, key y = some ky → keyLt ky k = false) := by
  intro order
  induction order with
  | nil => intro _; exact ⟨[], [], rfl, by simp, by simp⟩
  | cons a t ih =>
    intro hs
    have hs2 := List.pairwise_cons.mp hs
    by_cases ha : ∀ ka, key a = some ka → keyLt ka k = true
    · obtain ⟨pre, post, h1, h2, h3⟩ := ih hs2.2
      refine ⟨a :: pre, post, by rw [h1]; rfl, ?_, h3⟩
      intro y hy
      rcases List.mem_cons.mp hy with rfl | hy
      · exact ha
      · exact h2 y hy
    · refine ⟨[], a :: t, rfl, by simp, ?_⟩
      push_neg at ha
      obtain ⟨ka, hka, hka2⟩ := ha
      have hka3 : keyLt ka k = false := by
        cases h : keyLt ka k with
        | true => exact absurd h hka2
        | false => rfl
      intro y hy ky hky
      rcases List.mem_cons.mp hy with rfl | hy
      · rw [hka] at hky
        rw [← Option.some.inj hky]; exact hka3
      · cases h : keyLt ky k with
        | false => rfl
        | true =>
          have hle := hs2.1 y hy ka ky hka hky
          have := keyLt_of_le_of_lt ka ky k hle h
          rw [hka3] at this
          exact absurd this (by decide)

/-- The nodes before and after the place of a key in a well-formed list. -/
theorem WF_split (s : skipList) (order : List Nat) (hwf : s.WF order) (score : Int)
    (member : Bytes) :
    ∃ pre post, order = pre ++ post ∧
      (∀ y ∈ pre, ∀ n, s.nodes[y]? = some n → keyLess n score member = true) ∧
      (∀ y ∈ post, ∀ n, s.nodes[y]? = some n → keyLess n score member = false) := by
  obtain ⟨pre, post, h1, h2, h3⟩ := split_sorted (keyAt s.nodes) (score, member) order hwf.sorted
  refine ⟨pre, post, h1, ?_, ?_⟩
  · intro y hy n hn
    rw [keyLess_eq_keyLt]
    exact h2 y hy _ (keyAt_of_getElem _ _ _ hn)
  · intro y hy n hn
    rw [keyLess_eq_keyLt]
    exact h3 y hy _ (keyAt_of_getElem _ _ _ hn)

theorem lastTall_tall_of (ht : Nat → Nat) (j x : Nat) (C : List Nat) (hx : j < ht x) :
    j < ht (lastTall ht j x C) := by
  obtain ⟨_, _, _, h, _⟩ := lastTall_split ht j C x hx
  exact h

/-- On a well-formed list the search of `insert` and `remove` ends and finds, at
every level, the last node before the place of the key. -/
theorem WF_search (s : skipList) (order pre post : List Nat) (hwf : s.WF order)
    (hsplit : order = pre ++ post) (P : node → Bool)
    (hpre : ∀ y ∈ pre, ∀ n, s.nodes[y]? = some n → P n = true)
    (hpost : ∀ y ∈ post, ∀ n, s.nodes[y]? = some n → P n = false) :
    ∃ ur, search s.nodes (fun _ n _ => P n) (s.nodes.length + 1) s.level s.header 0 = Res.ok ur ∧
      ur.length = s.level ∧
      ∀ j, j < s.level → (ur.map Prod.fst)[j]? = some (lastTall (htOf s.nodes) j 0 pre) := by
  have hlink : Linked (htOf s.nodes) (fwdOf s.nodes) (0 :: pre ++ post) := by
    have := hwf.linked
    rw [hsplit] at this
    exact this
  have hfuel : pre.length < s.nodes.length + 1 := by
    have := hwf.count
    rw [hsplit, List.length_append] at this
    omega
  obtain ⟨ur, h1, h2⟩ := search_spec s.nodes P pre post (s.nodes.length + 1) hlink hpre hpost
    hfuel s.level [] 0 pre 0 rfl (by rw [hwf.htHeader]; exact hwf.levelLe)
  have hlen : ur.length = s.level := by
    have := congrArg List.length h2
    simpa using this
  refine ⟨ur, by rw [hwf.header]; exact h1, hlen, ?_⟩
  intro j hj
  rw [h2]
  simp [hj]

theorem WF_insert_core (s s1 : skipList) (order pre post : List Nat) (hwf : s.WF order)
    (hsplit : order = pre ++ post) (score : Int) (member : Bytes) (level : Nat)
    (hl1 : 1 ≤ level) (hl2 : level ≤ maxLevel)
    (hpre : ∀ y ∈ pre, ∀ ky, keyAt s.nodes y = some ky → keyLt ky (score, member) = true)
    (hpost : ∀ y ∈ post, ∀ ky, keyAt s.nodes y = some ky → keyLt ky (score, member) = false)
    (hlen : s1.nodes.length = s.nodes.length + 1)
    (hht : ∀ y, htOf s1.nodes y = if y = s.nodes.length then level else htOf s.nodes y)
    (hkey : ∀ y, keyAt s1.nodes y =
      if y = s.nodes.length then some (score, member) else keyAt s.nodes y)
    (hfwd : ∀ y, y ≠ s.nodes.length → ∀ j, fwdOf s1.nodes y j =
      if j < level ∧ y = lastTall (htOf s.nodes) j 0 pre then some s.nodes.length
      else fwdOf s.nodes y j)
    (hfwdn : ∀ j, j < level → fwdOf s1.nodes s.nodes.length j =
      fwdOf s.nodes (lastTall (htOf s.nodes) j 0 pre) j)
    (hheader : s1.header = 0)
    (hlevel : s1.level = if s.level < level then level else s.level) :
    s1.WF (pre ++ s.nodes.length :: post) := by
  have hvalid : ∀ x ∈ pre ++ post, 0 < x ∧ x < s.nodes.length := by
    rw [← hsplit]; exact hwf.valid
  have hne : ∀ x ∈ pre ++ post, x ≠ s.nodes.length := fun x hx => by
    have := (hvalid x hx).2; omega
  have hnd : (pre ++ post).Nodup := by rw [← hsplit]; exact hwf.nodup
  have hnpos : 0 < s.nodes.length := by have := hwf.count; omega
  have hlev : s.level ≤ s1.level ∧ level ≤ s1.level ∧ s1.level ≤ maxLevel := by
    rw [hlevel]
    have := hwf.levelLe
    split <;> omega
  refine ⟨hheader, ?_, ?_, ?_, ?_, ?_, ?_, ?_, ?_, ?_⟩
  · rw [hlen, hwf.count, hsplit]
    simp only [List.length_append, List.length_cons]
    omega
  · rw [hht 0, if_neg (by omega)]; exact hwf.htHeader
  · have := hwf.levelPos; omega
  · exact hlev.2.2
  · intro x hx
    rw [hlen]
    rcases List.mem_append.mp hx with h | h
    · have := hvalid x (List.mem_append_left _ h); omega
    · rcases List.mem_cons.mp h with rfl | h
      · omega
      · have := hvalid x (List.mem_append_right _ h); omega
  · have hparts := List.nodup_append.mp hnd
    apply List.nodup_append.mpr
    refine ⟨hparts.1, ?_, ?_⟩
    · apply List.nodup_cons.mpr
      exact ⟨fun h => hne _ (List.mem_append_right _ h) rfl, hparts.2.1⟩
    · intro a ha1 ha2
      rcases List.mem_cons.mp ha2 with rfl | ha2
      · exact hne _ (List.mem_append_left _ ha1) rfl
      · exact hparts.2.2 ha1 ha2
  · intro x hx
    rw [hht x]
    have hold : x ∈ pre ++ post → 1 ≤ htOf s.nodes x ∧ htOf s.nodes x ≤ s.level := by
      intro h; rw [← hsplit] at h; exact hwf.ht x h
    rcases List.mem_append.mp hx with h | h
    · have h2 := List.mem_append_left post h
      rw [if_neg (hne x h2)]
      have := hold h2; omega
    · rcases List.mem_cons.mp h with rfl | h
      · rw [if_pos rfl]; omega
      · have h2 := List.mem_append_right pre h
        rw [if_neg (hne x h2)]
        have := hold h2; omega
  · have hlink : Linked (htOf s.nodes) (fwdOf s.nodes) (0 :: pre ++ post) := by
      have := hwf.linked
      rw [hsplit] at this
      exact this
    have hnodup0 : (0 :: pre ++ post).Nodup := by
      apply List.nodup_cons.mpr
      exact ⟨fun h => by have := (hvalid 0 h).1; omega, hnd⟩
    have hn0 : s.nodes.length ∉ 0 :: pre ++ post := by
      intro h
      rcases List.mem_cons.mp h with h | h
      · omega
      · exact hne _ h rfl
    exact Linked_insert (htOf s.nodes) (htOf s1.nodes) (fwdOf s.nodes) (fwdOf s1.nodes)
      s.nodes.length level 0 pre post hlink hnodup0 hn0
      (fun y hy => by rw [hht y, if_neg hy])
      (by rw [hht, if_pos rfl])
      hfwd hfwdn
      (fun j hj => by rw [hwf.htHeader]; omega)
  · have hsorted : SortedKeys (keyAt s.nodes) (pre ++ post) := by
      rw [← hsplit]; exact hwf.sorted
    have hparts := List.pairwise_append.mp hsorted
    have hkold : ∀ x ∈ pre ++ post, keyAt s1.nodes x = keyAt s.nodes x := by
      intro x hx; rw [hkey x, if_neg (hne x hx)]
    have hknew : keyAt s1.nodes s.nodes.length = some (score, member) := by
      rw [hkey, if_pos rfl]
    apply List.pairwise_append.mpr
    refine ⟨?_, ?_, ?_⟩
    · apply List.Pairwise.imp_of_mem _ hparts.1
      intro a b ha hb hab ka kb hka hkb
      rw [hkold a (List.mem_append_left _ ha)] at hka
      rw [hkold b (List.mem_append_left _ hb)] at hkb
      exact hab ka kb hka hkb
    · apply List.pairwise_cons.mpr
      constructor
      · intro b hb ka kb hka hkb
        rw [hknew] at hka
        rw [hkold b (List.mem_append_right _ hb)] at hkb
        rw [← Option.some.inj hka]
        exact hpost b hb kb hkb
      · apply List.Pairwise.imp_of_mem _ hparts.2.1
        intro a b ha hb hab ka kb hka hkb
        rw [hkold a (List.mem_append_right _ ha)] at hka
        rw [hkold b (List.mem_append_right _ hb)] at hkb
        exact hab ka kb hka hkb
    · intro a ha b hb ka kb hka hkb
      rw [hkold a (List.mem_append_left _ ha)] at hka
      rcases List.mem_cons.mp hb with rfl | hb
      · rw [hknew] at hkb
        rw [← Option.some.inj hkb]
        exact keyLt_asymm _ _ (hpre a ha ka hka)
      · rw [hkold b (List.mem_append_right _ hb)] at hkb
        exact hparts.2.2 a ha b hb ka kb hka hkb

/-- The invariant only looks at levels, forward pointers and keys. -/
theorem WF_of_sameShape (s s1 : skipList) (order : List Nat) (hwf : s.WF order)
    (hs : SameShape s1.nodes s.nodes) (hh : s1.header = s.header) (hl : s1.level = s.level) :
    s1.WF order := by
  have e1 := hs.htOf_eq
  have e2 := hs.fwdOf_eq
  have e3 := hs.keyAt_eq
  exact ⟨by rw [hh]; exact hwf.header, by rw [hs.1]; exact hwf.count,
    by rw [e1]; exact hwf.htHeader, by rw [hl]; exact hwf.levelPos,
    by rw [hl]; exact hwf.levelLe, by rw [hs.1]; exact hwf.valid, hwf.nodup,
    by rw [e1, hl]; exact hwf.ht, by rw [e1, e2]; exact hwf.linked,
    by rw [e3]; exact hwf.sorted⟩

/-- `insert` on a well-formed skiplist returns, without panic and within the
loop budget, a well-formed skiplist. -/
theorem insert_WF (s : skipList) (order : List Nat) (hwf : s.WF order) (member : Bytes)
    (score : Int) (level : Nat) (hl1 : 1 ≤ level) (hl2 : level ≤ maxLevel) :
    ∃ s1 x order1, s.insert member score level = Res.ok (s1, x) ∧ s1.WF order1 := by
  obtain ⟨pre, post, hsplit, hpre, hpost⟩ := WF_split s order hwf score member
  obtain ⟨ur, hsearch, hurlen, hur⟩ :=
    WF_search s order pre post hwf hsplit (fun n => keyLess n score member) hpre hpost
  have hlevelLe := hwf.levelLe
  have hlevelPos := hwf.levelPos
  have hpre_ht : ∀ y ∈ pre, htOf s.nodes y ≤ s.level := fun y hy =>
    (hwf.ht y (by rw [hsplit]; exact List.mem_append_left _ hy)).2
  have htall : ∀ j, j < maxLevel → j < htOf s.nodes (lastTall (htOf s.nodes) j 0 pre) :=
    fun j hj => lastTall_tall_of _ _ _ _ (by rw [hwf.htHeader]; exact hj)
  -- the arrays `update` and `rank`
  have hlen1 : (ur.map Prod.fst).length = s.level := by simp [hurlen]
  have hlen2 : (ur.map Prod.snd).length = s.level := by simp [hurlen]
  have hupd : ∀ j, j < s.level ∨ j < level →
      (ur.map Prod.fst ++ List.replicate (level - s.level) s.header)[j]? =
        some (lastTall (htOf s.nodes) j 0 pre) := by
    intro j hj
    by_cases hjs : j < s.level
    · rw [List.getElem?_append_left (by rw [hlen1]; exact hjs)]
      exact hur j hjs
    · rw [List.getElem?_append_right (by rw [hlen1]; omega), hlen1]
      have hj2 : j - s.level < level - s.level := by omega
      rw [List.getElem?_replicate, if_pos hj2, hwf.header]
      rw [lastTall_short (htOf s.nodes) j pre 0 (fun y hy => by
        have := hpre_ht y hy; omega)]
  have hrank : ∀ j, j < s.level ∨ j < level →
      ∃ rj, (ur.map Prod.snd ++ List.replicate (level - s.level) (0 : Int))[j]? = some rj := by
    intro j hj
    have hlt : j < (ur.map Prod.snd ++ List.replicate (level - s.level) (0 : Int)).length := by
      rw [List.length_append, hlen2, List.length_replicate]; omega
    exact ⟨_, List.getElem?_eq_getElem hlt⟩
  obtain ⟨r0, hr0⟩ := hrank 0 (Or.inl hlevelPos)
  -- the three loops
  obtain ⟨nodes1, hext, hs1⟩ := extendLoop_spec s.header s.length (level - s.level) s.level
    s.nodes (by rw [hwf.header, hwf.htHeader]; omega)
  obtain ⟨nodes2, lvs, hlink, hlen_2, hht_2, hkey_2, hfwd_2, hlvs_len, _, hlvs⟩ :=
    linkLoop_spec nodes1.length
      (ur.map Prod.fst ++ List.replicate (level - s.level) s.header)
      (ur.map Prod.snd ++ List.replicate (level - s.level) (0 : Int)) r0 hr0 level 0 nodes1 []
      (by
        intro j _ hj
        refine ⟨_, hupd j (Or.inr (by omega)), ?_⟩
        rw [hs1.2.1]
        exact htall j (by omega))
      (by intro j _ hj; exact hrank j (Or.inr (by omega)))
  obtain ⟨nodes3, hbump, hs3⟩ := bumpLoop_spec
    (ur.map Prod.fst ++ List.replicate (level - s.level) s.header)
    ((if s.level < level then level else s.level) - level) level nodes2
    (by
      intro j hj1 hj2
      have hjs : j < s.level := by
        split at hj2 <;> omega
      refine ⟨_, hupd j (Or.inl hjs), ?_⟩
      rw [hht_2, hs1.2.1]
      exact htall j (by omega))
  obtain ⟨u0, lv0, hu0, hlv0, hlv0f⟩ := hlvs 0 (le_refl _) (by omega)
  simp only [List.length_nil, Nat.sub_zero, Nat.zero_add] at hlv0 hlvs_len
  -- the heap before the backward pointers are set
  have hn : nodes1.length = s.nodes.length := hs1.1
  have hlen3 : nodes3.length = s.nodes.length := by rw [hs3.1, hlen_2, hn]
  have core : ∀ (s1 : skipList) (nn : node), nn.level = lvs → nn.Score = score →
      nn.Member = member → SameShape s1.nodes (nodes3 ++ [nn]) →
      s1.header = s.header → s1.level = (if s.level < level then level else s.level) →
      s1.WF (pre ++ s.nodes.length :: post) := by
    intro s1 nn hnl hns hnm hsame hh hl
    apply WF_insert_core s s1 order pre post hwf hsplit score member level hl1 hl2
    · intro y hy ky hky
      obtain ⟨ny, hny⟩ : ∃ ny, s.nodes[y]? = some ny := by
        unfold keyAt at hky
        cases h : s.nodes[y]? with
        | none => rw [h] at hky; simp at hky
        | some ny => exact ⟨ny, rfl⟩
      rw [keyAt_of_getElem _ _ _ hny] at hky
      rw [← Option.some.inj hky, ← keyLess_eq_keyLt]
      exact hpre y hy ny hny
    · intro y hy ky hky
      obtain ⟨ny, hny⟩ : ∃ ny, s.nodes[y]? = some ny := by
        unfold keyAt at hky
        cases h : s.nodes[y]? with
        | none => rw [h] at hky; simp at hky
        | some ny => exact ⟨ny, rfl⟩
      rw [keyAt_of_getElem _ _ _ hny] at hky
      rw [← Option.some.inj hky, ← keyLess_eq_keyLt]
      exact hpost y hy ny hny
    · rw [hsame.1, List.length_append, hlen3]; rfl
    · intro y
      rw [hsame.2.1, htOf_append, hlen3]
      by_cases hy : y = s.nodes.length
      · rw [if_pos hy, if_pos hy, hnl]; exact hlvs_len
      · rw [if_neg hy, if_neg hy, hs3.2.1, hht_2, hs1.2.1]
    · intro y
      rw [hsame.2.2.2, keyAt_append, hlen3]
      by_cases hy : y = s.nodes.length
      · rw [if_pos hy, if_pos hy, hns, hnm]
      · rw [if_neg hy, if_neg hy, hs3.2.2.2, hkey_2, hs1.2.2.2]
    · intro y hy j
      rw [hsame.2.2.1, fwdOf_append, hlen3, if_neg hy, hs3.2.2.1, hfwd_2, hs1.2.2.1, hn]
      by_cases hj : j < level
      · rw [hupd j (Or.inr hj)]
        by_cases hyu : y = lastTall (htOf s.nodes) j 0 pre
        · rw [if_pos ⟨Nat.zero_le _, by omega, by rw [hyu]⟩, if_pos ⟨hj, hyu⟩]
        · rw [if_neg, if_neg (by tauto)]
          rintro ⟨_, _, e⟩
          exact hyu (Option.some.inj e).symm
      · rw [if_neg (by omega), if_neg (by tauto)]
    · intro j hj
      rw [hsame.2.2.1, fwdOf_append, hlen3, if_pos rfl]
      obtain ⟨u, lv, hu, hlv, hlvf⟩ := hlvs j (Nat.zero_le _) (by omega)
      simp only [List.length_nil, Nat.sub_zero, Nat.zero_add] at hlv
      rw [hupd j (Or.inr hj)] at hu
      simp only [hnl, hlv, hlvf, ← Option.some.inj hu, hs1.2.2.1]
    · rw [hh]; exact hwf.header
    · exact hl
  -- the result of the call
  unfold skipList.insert
  simp only [hsearch, hext, hlink, hbump, hu0, hlv0]
  cases hf : lv0.forward with
  | none =>
    exact ⟨_, _, pre ++ s.nodes.length :: post, rfl,
      core _ _ rfl rfl rfl (SameShape.refl _) rfl rfl⟩
  | some f =>
    exact ⟨_, _, pre ++ s.nodes.length :: post, rfl,
      core _ _ rfl rfl rfl (sameShape_setBackward _ _ _) rfl rfl⟩

/-! ### `remove` keeps the skiplist well formed -/

theorem WF_of_sameShape_level (s s1 : skipList) (order : List Nat) (hwf : s.WF order)
    (hs : SameShape s1.nodes s.nodes) (hh : s1.header = s.header) (hl1 : 1 ≤ s1.level)
    (hl2 : s1.level ≤ s.level) (hht : ∀ x ∈ order, htOf s.nodes x ≤ s1.level) :
    s1.WF order := by
  have e1 := hs.htOf_eq
  have e2 := hs.fwdOf_eq
  have e3 := hs.keyAt_eq
  have := hwf.levelLe
  exact ⟨by rw [hh]; exact hwf.header, by rw [hs.1]; exact hwf.count,
    by rw [e1]; exact hwf.htHeader, hl1, by omega, by rw [hs.1]; exact hwf.valid, hwf.nodup,
    by rw [e1]; exact fun x hx => ⟨(hwf.ht x hx).1, hht x hx⟩,
    by rw [e1, e2]; exact hwf.linked, by rw [e3]; exact hwf.sorted⟩

theorem lowerLoop_spec (nodes : List node) (header : Nat) (order : List Nat)
    (hh : htOf nodes header = maxLevel)
    (hf : ∀ j, j < maxLevel → fwdOf nodes header j = nextAt (htOf nodes) j order) :
    ∀ lvl, 1 ≤ lvl → lvl ≤ maxLevel → (∀ x ∈ order, htOf nodes x ≤ lvl) →
      ∃ l2, lowerLoop nodes header lvl = some l2 ∧ 1 ≤ l2 ∧ l2 ≤ lvl ∧
        ∀ x ∈ order, htOf nodes x ≤ l2 := by
  intro lvl
  induction lvl with
  | zero => intro h; omega
  | succ k ih =>
    intro h1 h2 h3
    unfold lowerLoop
    by_cases hk : 1 < k + 1
    · rw [if_pos hk]
      obtain ⟨lv, hlv⟩ := getLevel_of_lt nodes header k (by rw [hh]; omega)
      simp only [hlv]
      by_cases hnone : lv.forward = none
      · rw [if_pos hnone]
        have hfk := hf k (by omega)
        rw [fwdOf_of_getLevel _ _ _ _ hlv, hnone] at hfk
        have hshort := nextAt_none (htOf nodes) k order hfk.symm
        obtain ⟨l2, e1, e2, e3, e4⟩ := ih (by omega) (by omega)
          (fun x hx => by have := hshort x hx; omega)
        exact ⟨l2, e1, e2, by omega, e4⟩
      · rw [if_neg hnone]
        exact ⟨k + 1, rfl, h1, le_refl _, h3⟩
    · rw [if_neg hk]
      exact ⟨k + 1, rfl, h1, le_refl _, h3⟩

/-- `removeNode` on a well-formed skiplist, with `update` entries that are nodes
of the list reaching their level, returns a well-formed skiplist with the same
chain of nodes. -/
theorem removeNode_WF (s : skipList) (order : List Nat) (hwf : s.WF order)
    (update : List Nat) (x : Nat)
    (hupd : ∀ j u, update[j]? = some u → u ∈ 0 :: order ∧ j < htOf s.nodes u)
    (hupdlen : s.level ≤ update.length)
    (hx : 0 < htOf s.nodes x) :
    ∃ s1, s.removeNode x update = Res.ok s1 ∧ s1.WF order ∧ SameShape s1.nodes s.nodes ∧
      s1.level ≤ s.level := by
  have hlevelLe := hwf.levelLe
  have hlevelPos := hwf.levelPos
  obtain ⟨nodes1, hunlink, hs1⟩ := unlinkLoop_spec x update s.level 0 s.nodes
    (by
      intro j _ hj
      have hjl : j < update.length := by omega
      have hu : update[j]? = some update[j] := List.getElem?_eq_getElem hjl
      exact ⟨_, hu, (hupd j _ hu).2⟩)
    (by
      intro j u hu hfu
      obtain ⟨hmem, htall⟩ := hupd j u hu
      obtain ⟨A, C, hA⟩ := List.append_of_mem hmem
      have hl := hwf.linked
      rw [hA] at hl
      obtain ⟨hf, _⟩ := Linked_split _ _ _ _ A hl
      rw [hf j htall] at hfu
      exact (nextAt_mem _ _ _ _ hfu).2)
  obtain ⟨nx, hnx⟩ := htOf_pos_lt nodes1 x (by rw [hs1.2.1]; exact hx)
  obtain ⟨lx0, hlx0⟩ := getLevel_of_lt nodes1 x 0 (by rw [hs1.2.1]; exact hx)
  have hfin : ∀ nodes2, SameShape nodes2 nodes1 → ∀ tail2 : Option Nat,
      ∃ s1, (match lowerLoop nodes2 s.header s.level with
        | none => Res.panic
        | some level2 =>
          Res.ok ({ nodes := nodes2, header := s.header, tail := tail2,
                    length := s.length - 1, level := level2 } : skipList)) = Res.ok s1 ∧
        s1.WF order ∧ SameShape s1.nodes s.nodes ∧ s1.level ≤ s.level := by
    intro nodes2 hs2 tail2
    have hs := hs2.trans hs1
    obtain ⟨l2, e1, e2, e3, e4⟩ := lowerLoop_spec nodes2 s.header order
      (by rw [hs.2.1, hwf.header]; exact hwf.htHeader)
      (by
        intro j hj
        rw [hs.2.2.1, hs.htOf_eq, hwf.header]
        exact hwf.linked.1 j (by rw [hwf.htHeader]; exact hj))
      s.level hlevelPos hlevelLe
      (by intro y hy; rw [hs.2.1]; exact (hwf.ht y hy).2)
    rw [e1]
    refine ⟨_, rfl, WF_of_sameShape_level s _ order hwf hs rfl e2 e3 ?_, hs, e3⟩
    intro y hy
    have := e4 y hy
    rw [hs.2.1] at this
    exact this
  unfold skipList.removeNode
  simp only [hunlink, hnx, hlx0]
  cases hf : lx0.forward with
  | none => exact hfin nodes1 (SameShape.refl _) _
  | some f => exact hfin _ (sameShape_setBackward _ _ _) _

/-- `remove` on a well-formed skiplist returns, without panic and within the
loop budget, a well-formed skiplist with the same chain of nodes. -/
theorem remove_WF (s : skipList) (order : List Nat) (hwf : s.WF order) (member : Bytes)
    (score : Int) :
    ∃ s1 b, s.remove member score = Res.ok (s1, b) ∧ s1.WF order := by
  obtain ⟨pre, post, hsplit, hpre, hpost⟩ := WF_split s order hwf score member
  obtain ⟨ur, hsearch, hurlen, hur⟩ :=
    WF_search s order pre post hwf hsplit (fun n => keyLess n score member) hpre hpost
  have hlevelLe := hwf.levelLe
  have hlevelPos := hwf.levelPos
  have hlink : Linked (htOf s.nodes) (fwdOf s.nodes) (0 :: pre ++ post) := by
    have := hwf.linked
    rw [hsplit] at this
    exact this
  have hu0 := hur 0 hlevelPos
  have h0 : 0 < htOf s.nodes 0 := by rw [hwf.htHeader]; decide
  have ht0 : 0 < htOf s.nodes (lastTall (htOf s.nodes) 0 0 pre) :=
    lastTall_tall_of _ _ _ _ h0
  obtain ⟨lv, hlv⟩ := getLevel_of_lt s.nodes _ 0 ht0
  unfold skipList.remove
  simp only [hsearch, hu0, Option.getD_some, hlv]
  cases hf : lv.forward with
  | none => exact ⟨s, false, rfl, hwf⟩
  | some x =>
    have hfx : fwdOf s.nodes (lastTall (htOf s.nodes) 0 0 pre) 0 = some x := by
      rw [fwdOf_of_getLevel _ _ _ _ hlv, hf]
    obtain ⟨A1, C1, hs1, ht1, _⟩ := lastTall_split (htOf s.nodes) 0 pre 0 h0
    have hl : Linked (htOf s.nodes) (fwdOf s.nodes)
        (A1 ++ lastTall (htOf s.nodes) 0 0 pre :: (C1 ++ post)) := by
      have : A1 ++ lastTall (htOf s.nodes) 0 0 pre :: (C1 ++ post) = 0 :: pre ++ post := by
        rw [show 0 :: pre ++ post = (0 :: pre) ++ post from rfl, hs1]
        simp
      rw [this]; exact hlink
    obtain ⟨hfl, _⟩ := Linked_split _ _ _ _ A1 hl
    rw [hfl 0 ht1] at hfx
    have hx := (nextAt_mem _ _ _ _ hfx).2
    obtain ⟨nx, hnx⟩ := htOf_pos_lt s.nodes x hx
    simp only [hnx]
    by_cases hc : score = nx.Score ∧ nx.Member = member
    · rw [if_pos hc]
      obtain ⟨s1, hrm, hwf1, _⟩ := removeNode_WF s order hwf (ur.map Prod.fst) x
        (by
          intro j u hu
          have hj : j < s.level := by
            have := (List.getElem?_eq_some_iff.mp hu).1
            simpa [hurlen] using this
          rw [hur j hj] at hu
          rw [← Option.some.inj hu]
          refine ⟨?_, lastTall_tall_of _ _ _ _ (by rw [hwf.htHeader]; omega)⟩
          have hm := lastTall_mem (htOf s.nodes) j pre 0
          rw [hsplit]
          rcases List.mem_cons.mp hm with h | h
          · rw [h]; exact List.mem_cons_self _ _
          · exact List.mem_cons_of_mem _ (List.mem_append_left _ h))
        (by simp [hurlen]) hx
      rw [hrm]
      exact ⟨s1, true, rfl, hwf1⟩
    · rw [if_neg hc]
      exact ⟨s, false, rfl, hwf⟩

/-! ### The range removals keep the skiplist well formed -/

theorem walk_step_any (nodes : List node) (i : Nat) (cond : Level → node → Int → Bool)
    (fuel x f : Nat) (r : Int) (nf : node) (h : fwdOf nodes x i = some f)
    (hf : nodes[f]? = some nf) :
    ∃ lv : Level, walk nodes i cond (fuel + 1) x r =
      if cond lv nf r then walk nodes i cond fuel f (r + lv.span) else Res.ok (x, r) := by
  cases hlv : getLevel nodes x i with
  | none => simp [fwdOf, hlv] at h
  | some lv =>
    have hfw := fwdOf_of_getLevel nodes x i lv hlv
    rw [h] at hfw
    refine ⟨lv, ?_⟩
    conv => lhs; unfold walk
    simp only [hlv, ← hfw, hf]

/-- Whatever the test of the loop, a walk along a linked list ends within the
loop budget at a node of the list that reaches the level walked. -/
theorem walk_any (nodes : List node) (i : Nat) (cond : Level → node → Int → Bool) :
    ∀ (C : List Nat) (x : Nat) (r : Int) (fuel : Nat),
      i < htOf nodes x →
      fwdOf nodes x i = nextAt (htOf nodes) i C →
      Linked (htOf nodes) (fwdOf nodes) C →
      C.length < fuel →
      ∃ x1 r1, walk nodes i cond fuel x r = Res.ok (x1, r1) ∧ x1 ∈ x :: C ∧
        i < htOf nodes x1 := by
  intro C
  induction C with
  | nil =>
    intro x r fuel hx hfwd _ hfuel
    obtain ⟨fuel1, rfl⟩ : ∃ k, fuel = k + 1 := ⟨fuel - 1, by omega⟩
    simp only [nextAt] at hfwd
    exact ⟨x, r, walk_step_stop nodes i _ fuel1 x r hfwd hx, List.mem_cons_self _ _, hx⟩
  | cons y C1 ih =>
    intro x r fuel hx hfwd hlink hfuel
    obtain ⟨fuel1, rfl⟩ : ∃ k, fuel = k + 1 := ⟨fuel - 1, by omega⟩
    simp only [List.length_cons] at hfuel
    by_cases hy : i < htOf nodes y
    · simp only [nextAt, if_pos hy] at hfwd
      obtain ⟨ny, hny⟩ := htOf_pos_lt nodes y (by omega)
      obtain ⟨lv, hw⟩ := walk_step_any nodes i cond fuel1 x y r ny hfwd hny
      rw [hw]
      by_cases hc : cond lv ny r = true
      · rw [if_pos hc]
        obtain ⟨x1, r1, h1, h2, h3⟩ :=
          ih y (r + lv.span) fuel1 hy (hlink.1 i hy) hlink.2 (by omega)
        exact ⟨x1, r1, h1, List.mem_cons_of_mem _ h2, h3⟩
      · rw [if_neg hc]
        exact ⟨x, r, rfl, List.mem_cons_self _ _, hx⟩
    · simp only [nextAt, if_neg hy] at hfwd
      obtain ⟨x1, r1, h1, h2, h3⟩ := ih x r (fuel1 + 1) hx hfwd hlink.2 (by omega)
      refine ⟨x1, r1, h1, ?_, h3⟩
      rcases List.mem_cons.mp h2 with h | h
      · rw [h]; exact List.mem_cons_self _ _
      · exact List.mem_cons_of_mem _ (List.mem_cons_of_mem _ h)

/-- Whatever the test of the loop, the search from a node of a linked list ends
within the loop budget, and every `update[j]` it records is a node of the list
with more than `j` levels. -/
theorem search_any (nodes : List node) (cond : Level → node → Int → Bool) (L : List Nat)
    (fuel : Nat) (hlink : Linked (htOf nodes) (fwdOf nodes) L) (hfuel : L.length < fuel) :
    ∀ (k x : Nat) (r : Int), x ∈ L → k ≤ htOf nodes x →
      ∃ ur, search nodes cond fuel k x r = Res.ok ur ∧ ur.length = k ∧
        ∀ j u, (ur.map Prod.fst)[j]? = some u → u ∈ L ∧ j < htOf nodes u := by
  intro k
  induction k with
  | zero =>
    intro x r _ _
    exact ⟨[], rfl, rfl, by intro j u h; simp at h⟩
  | succ k ih =>
    intro x r hx hk
    obtain ⟨A, C, hA⟩ := List.append_of_mem hx
    have hl := hlink
    rw [hA] at hl
    obtain ⟨hfx, hlC⟩ := Linked_split _ _ x C A hl
    have hClen : C.length < fuel := by
      have := congrArg List.length hA
      simp only [List.length_append, List.length_cons] at this
      omega
    obtain ⟨x1, r1, hw, hmem, ht1⟩ :=
      walk_any nodes k cond C x r fuel (by omega) (hfx k (by omega)) hlC hClen
    have hx1 : x1 ∈ L := by
      rw [hA]
      exact List.mem_append_right _ hmem
    obtain ⟨ur, hur, hlen, hall⟩ := ih x1 r1 hx1 (by omega)
    refine ⟨ur ++ [(x1, r1)], ?_, by simp [hlen], ?_⟩
    · conv => lhs; unfold search
      simp only [hw, hur]
    · intro j u hj
      rw [List.map_append] at hj
      by_cases hjk : j < k
      · rw [List.getElem?_append_left (by simp [hlen, hjk])] at hj
        exact hall j u hj
      · have hjlt := (List.getElem?_eq_some_iff.mp hj).1
        simp only [List.length_append, List.length_map, hlen, List.map_cons, List.map_nil,
          List.length_singleton] at hjlt
        have hjeq : j = k := by omega
        subst hjeq
        rw [List.getElem?_append_right (by simp [hlen])] at hj
        simp [hlen] at hj
        rw [← hj]
        exact ⟨hx1, ht1⟩

/-- The removing loop of the range removals, started at a node of the list (or
at nil), ends within the loop budget and without panic and leaves a well-formed
skiplist with the same chain of nodes. -/
theorem removeLoop_WF (order : List Nat) (update : List Nat) (go : node → Int → Bool) :
    ∀ (fuel : Nat) (s : skipList) (cur : Option Nat) (i : Int) (removed : List Element)
      (C : List Nat),
      s.WF order →
      (∀ j u, update[j]? = some u → u ∈ 0 :: order ∧ j < htOf s.nodes u) →
      s.level ≤ update.length →
      Linked (htOf s.nodes) (fwdOf s.nodes) C →
      (∀ y ∈ C, y ∈ order) →
      (∀ x, cur = some x → x ∈ C) →
      C.length < fuel →
      ∃ s1 removed1, removeLoop update go fuel s cur i removed = Res.ok (s1, removed1) ∧
        s1.WF order := by
  intro fuel
  induction fuel with
  | zero => intro s cur i removed C _ _ _ _ _ _ h; omega
  | succ fuel ih =>
    intro s cur i removed C hwf hupd hlen hlink hsub hcur hfuel
    cases cur with
    | none => exact ⟨s, removed, by simp [removeLoop], hwf⟩
    | some x =>
      have hxC := hcur x rfl
      have hxpos : 0 < htOf s.nodes x := (hwf.ht x (hsub x hxC)).1
      obtain ⟨nx, hnx⟩ := htOf_pos_lt s.nodes x hxpos
      obtain ⟨lv, hlv⟩ := getLevel_of_lt s.nodes x 0 hxpos
      have hlv2 : nx.level[0]? = some lv := by
        unfold getLevel at hlv
        simpa [hnx] using hlv
      by_cases hgo : go nx i = true
      · obtain ⟨s1, hrm, hwf1, hs1, hl1⟩ := removeNode_WF s order hwf update x hupd hlen hxpos
        obtain ⟨A, R, hA⟩ := List.append_of_mem hxC
        have hl := hlink
        rw [hA] at hl
        obtain ⟨hfx, hlR⟩ := Linked_split _ _ x R A hl
        have hRlen : R.length < fuel := by
          have := congrArg List.length hA
          simp only [List.length_append, List.length_cons] at this
          omega
        have hnext : ∀ z, lv.forward = some z → z ∈ R := by
          intro z hz
          have h0 := hfx 0 hxpos
          rw [fwdOf_of_getLevel _ _ _ _ hlv, hz] at h0
          exact (nextAt_mem _ _ _ _ h0.symm).1
        obtain ⟨s2, removed2, hloop, hwf2⟩ := ih s1 lv.forward (i + 1) (removed ++ [nx.Element]) R
          hwf1
          (by
            intro j u hu
            rw [hs1.htOf_eq]
            exact hupd j u hu)
          (by omega)
          (by rw [hs1.htOf_eq, hs1.fwdOf_eq]; exact hlR)
          (by
            intro y hy
            apply hsub
            rw [hA]
            exact List.mem_append_right _ (List.mem_cons_of_mem _ hy))
          hnext hRlen
        refine ⟨s2, removed2, ?_, hwf2⟩
        conv => lhs; unfold removeLoop
        simp only [hnx, hgo, if_true, hlv2, hrm, hloop]
      · refine ⟨s, removed, ?_, hwf⟩
        conv => lhs; unfold removeLoop
        simp only [hnx, hgo, Bool.false_eq_true, if_false]

/-- The search and the removing loop of a range removal, for any search test
and any loop test: both end within the loop budget and without panic, and the
skiplist stays well formed. -/
theorem removeRange_WF (s : skipList) (order : List Nat) (hwf : s.WF order)
    (cond : Level → node → Int → Bool) (go : node → Int → Bool) :
    ∃ ur lv, search s.nodes cond (s.nodes.length + 1) s.level s.header 0 = Res.ok ur ∧
      getLevel s.nodes (((ur.map Prod.fst)[0]?).getD s.header) 0 = some lv ∧
      ∀ (i : Int), ∃ s1 removed,
        removeLoop (ur.map Prod.fst) go (s.nodes.length + 1) s lv.forward i [] =
          Res.ok (s1, removed) ∧ s1.WF order := by
  have hlevelPos := hwf.levelPos
  have hcount := hwf.count
  obtain ⟨ur, hsearch, hurlen, hur⟩ := search_any s.nodes cond (0 :: order)
    (s.nodes.length + 1) hwf.linked (by simp only [List.length_cons]; omega)
    s.level 0 0 (List.mem_cons_self _ _) (by rw [hwf.htHeader]; exact hwf.levelLe)
  have h0lt : 0 < (ur.map Prod.fst).length := by simp [hurlen]; omega
  have hu0 : (ur.map Prod.fst)[0]? = some (ur.map Prod.fst)[0] := List.getElem?_eq_getElem h0lt
  obtain ⟨hmem, ht0⟩ := hur 0 _ hu0
  obtain ⟨lv, hlv⟩ := getLevel_of_lt s.nodes _ 0 ht0
  refine ⟨ur, lv, by rw [hwf.header]; exact hsearch, by rw [hu0]; exact hlv, ?_⟩
  intro i
  obtain ⟨A, C, hA⟩ := List.append_of_mem hmem
  have hl := hwf.linked
  rw [hA] at hl
  obtain ⟨hfx, hlC⟩ := Linked_split _ _ _ C A hl
  have hCsub : ∀ y ∈ C, y ∈ order := by
    intro y hy
    cases A with
    | nil =>
      simp only [List.nil_append, List.cons.injEq] at hA
      rw [hA.2]; exact hy
    | cons a A1 =>
      simp only [List.cons_append, List.cons.injEq] at hA
      rw [hA.2]
      exact List.mem_append_right _ (List.mem_cons_of_mem _ hy)
  have hClen : C.length < s.nodes.length + 1 := by
    have := congrArg List.length hA
    simp only [List.length_append, List.length_cons] at this
    omega
  exact removeLoop_WF order (ur.map Prod.fst) go (s.nodes.length + 1) s lv.forward i [] C hwf
    hur (by simp [hurlen]) hlC hCsub
    (by
      intro z hz
      have h0 := hfx 0 ht0
      rw [fwdOf_of_getLevel _ _ _ _ hlv, hz] at h0
      exact (nextAt_mem _ _ _ _ h0.symm).1)
    hClen

/-- `RemoveRangeByScore` on a well-formed skiplist returns, without panic and
within the loop budget, a well-formed skiplist with the same chain of nodes. -/
theorem RemoveRangeByScore_WF (s : skipList) (order : List Nat) (hwf : s.WF order)
    (min max : ScoreBorder) :
    ∃ s1 removed, s.RemoveRangeByScore min max = Res.ok (s1, removed) ∧ s1.WF order := by
  obtain ⟨ur, lv, h1, h2, h3⟩ := removeRange_WF s order hwf
    (fun _ nf _ => !min.less nf.Score) (fun n _ => max.greater n.Score)
  unfold skipList.RemoveRangeByScore
  simp only [h1, h2]
  exact h3 0

/-- `RemoveRangeByRank` on a well-formed skiplist returns, without panic and
within the loop budget, a well-formed skiplist with the same chain of nodes. -/
theorem RemoveRangeByRank_WF (s : skipList) (order : List Nat) (hwf : s.WF order)
    (start stop : Int) :
    ∃ s1 removed, s.RemoveRangeByRank start stop = Res.ok (s1, removed) ∧ s1.WF order := by
  obtain ⟨ur, lv, h1, h2, h3⟩ := removeRange_WF s order hwf
    (fun lv _ r => decide (r + lv.span < start)) (fun _ k => decide (k < stop))
  unfold skipList.RemoveRangeByRank
  simp only [h1, h2]
  exact h3 _

/-! ### The map of a sorted set -/

theorem dictGet_dictSet (d : List Element) (e : Element) :
    dictGet (dictSet d e) e.Member = some e := by
  simp [dictGet, dictSet]

theorem dictGet_dictDelete (d : List Element) (m : Bytes) : dictGet (dictDelete d m) m = none := by
  simp only [dictGet, dictDelete, List.find?_eq_none]
  intro e he
  have := (List.mem_filter.mp he).2
  simpa using this

theorem keys_dictDelete_sublist (d : List Element) (m : Bytes) :
    ((dictDelete d m).map Element.Member).Sublist (d.map Element.Member) :=
  List.Sublist.map _ (List.filter_sublist d)

theorem nodup_dictDelete (d : List Element) (m : Bytes)
    (h : (d.map Element.Member).Nodup) : ((dictDelete d m).map Element.Member).Nodup :=
  h.sublist (keys_dictDelete_sublist d m)

theorem nodup_dictSet (d : List Element) (e : Element)
    (h : (d.map Element.Member).Nodup) : ((dictSet d e).map Element.Member).Nodup := by
  simp only [dictSet, List.map_cons]
  apply List.nodup_cons.mpr
  refine ⟨?_, nodup_dictDelete d e.Member h⟩
  intro hm
  obtain ⟨x, hx, hxm⟩ := List.mem_map.mp hm
  have := (List.mem_filter.mp hx).2
  simp only [decide_eq_true_eq] at this
  exact this hxm

theorem length_dictDelete (m : Bytes) :
    ∀ (d : List Element), (d.map Element.Member).Nodup →
      (dictDelete d m).length + (if (dictGet d m).isSome then 1 else 0) = d.length := by
  intro d
  induction d with
  | nil => intro _; rfl
  | cons a t ih =>
    intro h
    simp only [List.map_cons] at h
    obtain ⟨h1, h2⟩ := List.nodup_cons.mp h
    by_cases ha : a.Member = m
    · have hnot : ∀ x ∈ t, x.Member ≠ m := by
        intro x hx e
        apply h1
        rw [ha, ← e]
        exact List.mem_map.mpr ⟨x, hx, rfl⟩
      have hfil : dictDelete t m = t := by
        unfold dictDelete
        apply List.filter_eq_self.mpr
        intro x hx
        simpa using hnot x hx
      have hdel : dictDelete (a :: t) m = dictDelete t m := by
        simp [dictDelete, ha]
      have hget : dictGet (a :: t) m = some a := by
        simp [dictGet, ha]
      rw [hdel, hfil, hget]
      simp
    · have hdel : dictDelete (a :: t) m = a :: dictDelete t m := by
        simp [dictDelete, ha]
      have hget : dictGet (a :: t) m = dictGet t m := by
        simp [dictGet, ha]
      rw [hdel, hget, List.length_cons, List.length_cons, ← ih h2]
      omega

theorem randomLevel_range (draws : Nat) :
    1 ≤ randomLevel draws ∧ randomLevel draws ≤ maxLevel := by
  unfold randomLevel maxLevel
  split <;> omega

/-! ### `Add` and `Remove` keep the sorted set well formed -/

theorem Make_Inv : Make.Inv := by
  refine ⟨⟨[], ?_⟩, List.nodup_nil⟩
  refine ⟨rfl, rfl, rfl, by decide, by decide, by simp, List.nodup_nil, by simp, ?_,
    List.Pairwise.nil⟩
  refine ⟨?_, trivial⟩
  intro i hi
  have hi16 : i < 16 := hi
  simp only [nextAt]
  have : ∀ k, k < 16 → fwdOf makeSkipList.nodes 0 k = none := by decide
  exact this i hi16

theorem Add_Inv (s : SortedSet) (hinv : s.Inv) (member : Bytes) (score : Int) (draws : Nat) :
    ∃ s1 b, s.Add member score draws = Res.ok (s1, b) ∧ s1.Inv ∧
      b = (dictGet s.dict member).isNone ∧ s1.dict = dictSet s.dict ⟨member, score⟩ := by
  obtain ⟨⟨order, hwf⟩, hnd⟩ := hinv
  obtain ⟨hr1, hr2⟩ := randomLevel_range draws
  have hnd1 := nodup_dictSet s.dict ⟨member, score⟩ hnd
  unfold SortedSet.Add
  cases hg : dictGet s.dict member with
  | none =>
    obtain ⟨sl1, x, order1, hins, hwf1⟩ := insert_WF s.skipList order hwf member score
      (randomLevel draws) hr1 hr2
    simp only [hins]
    exact ⟨_, _, rfl, ⟨⟨order1, hwf1⟩, hnd1⟩, rfl, rfl⟩
  | some element =>
    simp only
    by_cases hsc : score ≠ element.Score
    · rw [if_pos hsc]
      obtain ⟨sl1, b1, hrm, hwf1⟩ := remove_WF s.skipList order hwf member element.Score
      obtain ⟨sl2, x, order2, hins, hwf2⟩ := insert_WF sl1 order hwf1 member score
        (randomLevel draws) hr1 hr2
      simp only [hrm, hins]
      exact ⟨_, _, rfl, ⟨⟨order2, hwf2⟩, hnd1⟩, rfl, rfl⟩
    · rw [if_neg hsc]
      exact ⟨_, _, rfl, ⟨⟨order, hwf⟩, hnd1⟩, rfl, rfl⟩

theorem Remove_Inv (s : SortedSet) (hinv : s.Inv) (member : Bytes) :
    ∃ s1 b, s.Remove member = Res.ok (s1, b) ∧ s1.Inv := by
  obtain ⟨⟨order, hwf⟩, hnd⟩ := hinv
  unfold SortedSet.Remove
  cases hg : dictGet s.dict member with
  | none => exact ⟨s, false, rfl, ⟨⟨order, hwf⟩, hnd⟩⟩
  | some v =>
    obtain ⟨sl1, b1, hrm, hwf1⟩ := remove_WF s.skipList order hwf member v.Score
    simp only [hrm]
    exact ⟨_, _, rfl, ⟨⟨order, hwf1⟩, nodup_dictDelete s.dict member hnd⟩⟩

theorem nodup_foldl_dictDelete (removed : List Element) :
    ∀ (d : List Element), (d.map Element.Member).Nodup →
      ((removed.foldl (fun d e => dictDelete d e.Member) d).map Element.Member).Nodup := by
  induction removed with
  | nil => intro d h; exact h
  | cons e t ih =>
    intro d h
    exact ih (dictDelete d e.Member) (nodup_dictDelete d e.Member h)

theorem RemoveByScore_Inv (s : SortedSet) (hinv : s.Inv) (min max : ScoreBorder) :
    ∃ s1 n, s.RemoveByScore min max = Res.ok (s1, n) ∧ s1.Inv := by
  obtain ⟨⟨order, hwf⟩, hnd⟩ := hinv
  obtain ⟨sl1, removed, hrm, hwf1⟩ := RemoveRangeByScore_WF s.skipList order hwf min max
  unfold SortedSet.RemoveByScore
  simp only [hrm]
  exact ⟨_, _, rfl, ⟨⟨order, hwf1⟩, nodup_foldl_dictDelete removed s.dict hnd⟩⟩

theorem RemoveByRank_Inv (s : SortedSet) (hinv : s.Inv) (start stop : Int) :
    ∃ s1 n, s.RemoveByRank start stop = Res.ok (s1, n) ∧ s1.Inv := by
  obtain ⟨⟨order, hwf⟩, hnd⟩ := hinv
  obtain ⟨sl1, removed, hrm, hwf1⟩ :=
    RemoveRangeByRank_WF s.skipList order hwf (start + 1) (stop + 1)
  unfold SortedSet.RemoveByRank
  simp only [hrm]
  exact ⟨_, _, rfl, ⟨⟨order, hwf1⟩, nodup_foldl_dictDelete removed s.dict hnd⟩⟩

/-- Every sequence of calls of `Add`, `Remove`, `RemoveByScore` and
`RemoveByRank` runs without panic and within the loop budget, and keeps the
sorted set well formed. -/
theorem run_Inv (ops : List Op) :
    ∀ (s : SortedSet), s.Inv → ∃ s1, SortedSet.run ops s = Res.ok s1 ∧ s1.Inv := by
  induction ops with
  | nil => intro s h; exact ⟨s, rfl, h⟩
  | cons op ops ih =>
    intro s h
    cases op with
    | add member score draws =>
      obtain ⟨s1, b, h1, h2, _⟩ := Add_Inv s h member score draws
      obtain ⟨s2, h3, h4⟩ := ih s1 h2
      refine ⟨s2, ?_, h4⟩
      simp only [SortedSet.run, SortedSet.step, h1, h3]
    | remove member =>
      obtain ⟨s1, b, h1, h2⟩ := Remove_Inv s h member
      obtain ⟨s2, h3, h4⟩ := ih s1 h2
      refine ⟨s2, ?_, h4⟩
      simp only [SortedSet.run, SortedSet.step, h1, h3]
    | removeByScore min max =>
      obtain ⟨s1, b, h1, h2⟩ := RemoveByScore_Inv s h min max
      obtain ⟨s2, h3, h4⟩ := ih s1 h2
      refine ⟨s2, ?_, h4⟩
      simp only [SortedSet.run, SortedSet.step, h1, h3]
    | removeByRank start stop =>
      obtain ⟨s1, b, h1, h2⟩ := RemoveByRank_Inv s h start stop
      obtain ⟨s2, h3, h4⟩ := ih s1 h2
      refine ⟨s2, ?_, h4⟩
      simp only [SortedSet.run, SortedSet.step, h1, h3]

/-- C6: for every sorted set reached from `Make` by calls of `Add`, `Remove`,
`RemoveByScore` and `RemoveByRank` (whatever levels the random choice gives),
`Add(member, score)` returns, without panic, true iff `member` was not in the set before the call; in both cases
`Get(member)` afterwards returns the element `(member, score)`, and `Len()`
grows by one iff the result is true and is unchanged otherwise. -/
theorem add_contract (ops : List Op) (member : Bytes) (score : Int) (draws : Nat) :
    ∃ s s1 b, SortedSet.run ops Make = Res.ok s ∧
      s.Add member score draws = Res.ok (s1, b) ∧
      (b = true ↔ s.Get member = none) ∧
      s1.Get member = some ⟨member, score⟩ ∧
      (s1.Len = s.Len + 1 ↔ b = true) ∧
      (b = false → s1.Len = s.Len) := by
  obtain ⟨s, hrun, hinv⟩ := run_Inv ops Make Make_Inv
  obtain ⟨s1, b, hadd, _, hb, hd⟩ := Add_Inv s hinv member score draws
  have hlen := length_dictDelete member s.dict hinv.2
  have hlen1 : s1.dict.length = (dictDelete s.dict member).length + 1 := by
    rw [hd]; rfl
  refine ⟨s, s1, b, hrun, hadd, ?_, ?_, ?_, ?_⟩
  · rw [hb]
    unfold SortedSet.Get
    cases dictGet s.dict member <;> simp
  · unfold SortedSet.Get
    rw [hd]
    exact dictGet_dictSet s.dict ⟨member, score⟩
  · unfold SortedSet.Len
    rw [hb]
    cases hg : dictGet s.dict member with
    | none =>
      rw [hg] at hlen
      simp only [Option.isSome_none, Bool.false_eq_true, if_false] at hlen
      simp only [Option.isNone_none, iff_true]
      omega
    | some e =>
      rw [hg] at hlen
      simp only [Option.isSome_some, if_true] at hlen
      simp only [Option.isNone_some, Bool.false_eq_true, iff_false]
      omega
  · intro hbf
    unfold SortedSet.Len
    rw [hb] at hbf
    cases hg : dictGet s.dict member with
    | none => rw [hg] at hbf; simp at hbf
    | some e =>
      rw [hg] at hlen
      simp only [Option.isSome_some, if_true] at hlen
      omega

/-! ### Spans and backward pointers in the heap -/

theorem spanAt_of_getLevel (nodes : List node) (x i : Nat) (lv : Level)
    (h : getLevel nodes x i = some lv) : spanAt nodes x i = some lv.span := by
  simp [spanAt, h]

theorem spanAt_setLevel (nodes : List node) (u i : Nat) (lv : Level) (y j : Nat) :
    spanAt (setLevel nodes u i lv) y j =
      if y = u ∧ j = i ∧ i < htOf nodes u then some lv.span else spanAt nodes y j := by
  unfold spanAt
  rw [getLevel_setLevel]
  by_cases h : y = u ∧ j = i ∧ i < htOf nodes u
  · rw [if_pos h, if_pos h]
  · rw [if_neg h, if_neg h]

theorem spanAt_setBackward (nodes : List node) (u : Nat) (b : Option Nat) (y j : Nat) :
    spanAt (setBackward nodes u b) y j = spanAt nodes y j := by
  unfold spanAt
  rw [getLevel_setBackward]

theorem getLevel_append (nodes : List node) (n : node) (y j : Nat) :
    getLevel (nodes ++ [n]) y j =
      if y = nodes.length then n.level[j]? else getLevel nodes y j := by
  unfold getLevel
  by_cases hy : y = nodes.length
  · subst hy
    simp
  · rw [if_neg hy]
    by_cases hlt : y < nodes.length
    · rw [List.getElem?_append_left hlt]
    · rw [List.getElem?_eq_none (by simp; omega), List.getElem?_eq_none (by omega)]

theorem spanAt_append (nodes : List node) (n : node) (y j : Nat) :
    spanAt (nodes ++ [n]) y j =
      if y = nodes.length then (n.level[j]?).map Level.span else spanAt nodes y j := by
  unfold spanAt
  rw [getLevel_append]
  by_cases hy : y = nodes.length
  · rw [if_pos hy, if_pos hy]
    cases n.level[j]? <;> rfl
  · rw [if_neg hy, if_neg hy]

theorem bwdOf_setLevel (nodes : List node) (u i : Nat) (lv : Level) (y : Nat) :
    bwdOf (setLevel nodes u i lv) y = bwdOf nodes y := by
  unfold bwdOf
  rw [getElem?_setLevel]
  by_cases hy : y = u
  · subst hy
    cases nodes[y]? <;> simp
  · rw [if_neg hy]

theorem bwdOf_setBackward (nodes : List node) (u : Nat) (b : Option Nat) (y : Nat) :
    bwdOf (setBackward nodes u b) y =
      if y = u ∧ u < nodes.length then some b else bwdOf nodes y := by
  unfold bwdOf
  rw [getElem?_setBackward]
  by_cases hy : y = u
  · subst hy
    by_cases hl : y < nodes.length
    · rw [if_pos rfl, if_pos ⟨rfl, hl⟩, List.getElem?_eq_getElem hl]
      rfl
    · rw [if_pos rfl, if_neg (by tauto), List.getElem?_eq_none (by omega)]
      rfl
  · rw [if_neg hy, if_neg (by tauto)]

theorem bwdOf_append (nodes : List node) (n : node) (y : Nat) :
    bwdOf (nodes ++ [n]) y = if y = nodes.length then some n.backward else bwdOf nodes y := by
  unfold bwdOf
  by_cases hy : y = nodes.length
  · subst hy
    simp
  · rw [if_neg hy]
    by_cases hlt : y < nodes.length
    · rw [List.getElem?_append_left hlt]
    · rw [List.getElem?_eq_none (by simp; omega), List.getElem?_eq_none (by omega)]

theorem elemAt_setLevel (nodes : List node) (u i : Nat) (lv : Level) (y : Nat) :
    elemAt (setLevel nodes u i lv) y = elemAt nodes y := by
  unfold elemAt
  rw [getElem?_setLevel]
  by_cases hy : y = u
  · subst hy
    cases nodes[y]? <;> simp [node.Element]
  · rw [if_neg hy]

theorem elemAt_setBackward (nodes : List node) (u : Nat) (b : Option Nat) (y : Nat) :
    elemAt (setBackward nodes u b) y = elemAt nodes y := by
  unfold elemAt
  rw [getElem?_setBackward]
  by_cases hy : y = u
  · subst hy
    cases nodes[y]? <;> simp [node.Element]
  · rw [if_neg hy]

theorem elemAt_append (nodes : List node) (n : node) (y : Nat) :
    elemAt (nodes ++ [n]) y = if y = nodes.length then some n.Element else elemAt nodes y := by
  unfold elemAt
  by_cases hy : y = nodes.length
  · subst hy
    simp
  · rw [if_neg hy]
    by_cases hlt : y < nodes.length
    · rw [List.getElem?_append_left hlt]
    · rw [List.getElem?_eq_none (by simp; omega), List.getElem?_eq_none (by omega)]

theorem fwdOf_none_of_ht (nodes : List node) (y j : Nat) (h : htOf nodes y ≤ j) :
    fwdOf nodes y j = none := by
  unfold fwdOf
  cases hl : getLevel nodes y j with
  | none => rfl
  | some lv =>
    have := (getLevel_lt nodes y j lv hl).1
    omega

theorem fwdOf_some_lt (nodes : List node) (y j f : Nat) (h : fwdOf nodes y j = some f) :
    j < htOf nodes y ∧ y < nodes.length := by
  unfold fwdOf at h
  cases hl : getLevel nodes y j with
  | none => rw [hl] at h; exact Option.noConfusion h
  | some lv => exact getLevel_lt nodes y j lv hl

/-! ### The spans the loops of `insert` write -/

theorem extendLoop_span (header : Nat) (length : Int) :
    ∀ (cnt i : Nat) (nodes nodes1 : List node),
      extendLoop header length cnt i nodes = some nodes1 → i + cnt ≤ htOf nodes header →
      (∀ y j, spanAt nodes1 y j =
        if y = header ∧ i ≤ j ∧ j < i + cnt then some length else spanAt nodes y j) ∧
      (∀ y, bwdOf nodes1 y = bwdOf nodes y) ∧ (∀ y, elemAt nodes1 y = elemAt nodes y) := by
  intro cnt
  induction cnt with
  | zero =>
    intro i nodes nodes1 h _
    simp only [extendLoop, Option.some.injEq] at h
    subst h
    refine ⟨fun y j => by rw [if_neg (by omega)], fun _ => rfl, fun _ => rfl⟩
  | succ cnt ih =>
    intro i nodes nodes1 h hht
    obtain ⟨lv, hlv⟩ := getLevel_of_lt nodes header i (by omega)
    unfold extendLoop at h
    simp only [hlv] at h
    obtain ⟨h1, h2, h3⟩ := ih (i + 1) _ nodes1 h (by rw [htOf_setLevel]; omega)
    refine ⟨?_, ?_, ?_⟩
    · intro y j
      rw [h1, spanAt_setLevel]
      by_cases hc : y = header ∧ i + 1 ≤ j ∧ j < i + 1 + cnt
      · have hc3 : y = header ∧ i ≤ j ∧ j < i + (cnt + 1) := ⟨hc.1, by omega, by omega⟩
        rw [if_pos hc, if_pos hc3]
      · rw [if_neg hc]
        by_cases hc2 : y = header ∧ j = i ∧ i < htOf nodes header
        · have hc3 : y = header ∧ i ≤ j ∧ j < i + (cnt + 1) := ⟨hc2.1, by omega, by omega⟩
          rw [if_pos hc2, if_pos hc3]
        · have hc3 : ¬ (y = header ∧ i ≤ j ∧ j < i + (cnt + 1)) := by
            rintro ⟨e1, e2, e3⟩
            by_cases hji : j = i
            · exact hc2 ⟨e1, hji, by omega⟩
            · exact hc ⟨e1, by omega, by omega⟩
          rw [if_neg hc2, if_neg hc3]
    · intro y; rw [h2, bwdOf_setLevel]
    · intro y; rw [h3, elemAt_setLevel]

theorem bumpLoop_span (update : List Nat) :
    ∀ (cnt i : Nat) (nodes nodes1 : List node),
      bumpLoop update cnt i nodes = some nodes1 →
      (∀ j, i ≤ j → j < i + cnt → ∃ u, update[j]? = some u ∧ j < htOf nodes u) →
      (∀ y j, spanAt nodes1 y j =
        if i ≤ j ∧ j < i + cnt ∧ update[j]? = some y then (spanAt nodes y j).map (fun sp => sp + 1)
        else spanAt nodes y j) ∧
      (∀ y, bwdOf nodes1 y = bwdOf nodes y) ∧ (∀ y, elemAt nodes1 y = elemAt nodes y) := by
  intro cnt
  induction cnt with
  | zero =>
    intro i nodes nodes1 h _
    simp only [bumpLoop, Option.some.injEq] at h
    subst h
    refine ⟨fun y j => by rw [if_neg (by omega)], fun _ => rfl, fun _ => rfl⟩
  | succ cnt ih =>
    intro i nodes nodes1 h hupd
    obtain ⟨u, hu, hlt⟩ := hupd i (le_refl _) (by omega)
    obtain ⟨lv, hlv⟩ := getLevel_of_lt nodes u i hlt
    unfold bumpLoop at h
    simp only [hu, hlv] at h
    obtain ⟨h1, h2, h3⟩ := ih (i + 1) _ nodes1 h
      (by
        intro j hj1 hj2
        obtain ⟨u2, hu2, hlt2⟩ := hupd j (by omega) (by omega)
        exact ⟨u2, hu2, by rw [htOf_setLevel]; exact hlt2⟩)
    refine ⟨?_, ?_, ?_⟩
    · intro y j
      rw [h1, spanAt_setLevel]
      by_cases hj : j = i
      · subst hj
        rw [if_neg (by omega)]
        by_cases hy : y = u
        · subst hy
          rw [if_pos ⟨rfl, rfl, hlt⟩, if_pos ⟨le_refl _, by omega, hu⟩,
            spanAt_of_getLevel _ _ _ _ hlv]
          rfl
        · have hc3 : ¬ (y = u ∧ j = j ∧ j < htOf nodes u) := by tauto
          have hc4 : ¬ (j ≤ j ∧ j < j + (cnt + 1) ∧ update[j]? = some y) := by
            rintro ⟨_, _, e⟩
            rw [hu] at e
            exact hy (Option.some.inj e).symm
          rw [if_neg hc3, if_neg hc4]
      · by_cases hc : i + 1 ≤ j ∧ j < i + 1 + cnt ∧ update[j]? = some y
        · have hc2 : i ≤ j ∧ j < i + (cnt + 1) ∧ update[j]? = some y :=
            ⟨by omega, by omega, hc.2.2⟩
          have hc3 : ¬ (y = u ∧ j = i ∧ i < htOf nodes u) := by tauto
          rw [if_pos hc, if_pos hc2, if_neg hc3]
        · have hc2 : ¬ (i ≤ j ∧ j < i + (cnt + 1) ∧ update[j]? = some y) := by
            rintro ⟨e1, e2, e3⟩
            exact hc ⟨by omega, by omega, e3⟩
          have hc3 : ¬ (y = u ∧ j = i ∧ i < htOf nodes u) := by tauto
          rw [if_neg hc, if_neg hc2, if_neg hc3]
    · intro y; rw [h2, bwdOf_setLevel]
    · intro y; rw [h3, elemAt_setLevel]

theorem linkLoop_span (x : Nat) (update : List Nat) (rank : List Int) (r0 : Int)
    (hr0 : rank[0]? = some r0) :
    ∀ (cnt i : Nat) (nodes nodes1 : List node) (acc acc1 : List Level),
      linkLoop x update rank cnt i nodes acc = some (nodes1, acc1) →
      (∀ j, i ≤ j → j < i + cnt → ∃ u, update[j]? = some u ∧ j < htOf nodes u) →
      (∀ j, i ≤ j → j < i + cnt → ∃ rj, rank[j]? = some rj) →
      (∀ y j, spanAt nodes1 y j =
        if i ≤ j ∧ j < i + cnt ∧ update[j]? = some y then
          (rank[j]?).map (fun rj => r0 - rj + 1)
        else spanAt nodes y j) ∧
      (∀ y, bwdOf nodes1 y = bwdOf nodes y) ∧ (∀ y, elemAt nodes1 y = elemAt nodes y) ∧
      (∀ j, j < acc.length → acc1[j]? = acc[j]?) ∧
      (∀ j, i ≤ j → j < i + cnt → ∃ u rj lv sp, update[j]? = some u ∧ rank[j]? = some rj ∧
        acc1[acc.length + (j - i)]? = some lv ∧ spanAt nodes u j = some sp ∧
        lv.span = sp - (r0 - rj)) := by
  intro cnt
  induction cnt with
  | zero =>
    intro i nodes nodes1 acc acc1 h _ _
    simp only [linkLoop, Option.some.injEq, Prod.mk.injEq] at h
    obtain ⟨h1, h2⟩ := h
    subst h1 h2
    refine ⟨fun y j => by rw [if_neg (by omega)], fun _ => rfl, fun _ => rfl, fun _ _ => rfl, ?_⟩
    intro j h1 h2; omega
  | succ cnt ih =>
    intro i nodes nodes1 acc acc1 h hupd hrank
    obtain ⟨u, hu, hlt⟩ := hupd i (le_refl _) (by omega)
    obtain ⟨ri, hri⟩ := hrank i (le_refl _) (by omega)
    obtain ⟨lv, hlv⟩ := getLevel_of_lt nodes u i hlt
    unfold linkLoop at h
    simp only [hu, hri, hr0, hlv] at h
    have hlen2 : (acc ++ [({ forward := lv.forward, span := lv.span - (r0 - ri) } : Level)]).length
        = acc.length + 1 := by simp
    obtain ⟨h1, h2, h3, h4, h5⟩ := ih (i + 1) _ nodes1 _ acc1 h
      (by
        intro j hj1 hj2
        obtain ⟨u2, hu2, hlt2⟩ := hupd j (by omega) (by omega)
        exact ⟨u2, hu2, by rw [htOf_setLevel]; exact hlt2⟩)
      (by intro j hj1 hj2; exact hrank j (by omega) (by omega))
    refine ⟨?_, ?_, ?_, ?_, ?_⟩
    · intro y j
      rw [h1, spanAt_setLevel]
      by_cases hj : j = i
      · subst hj
        rw [if_neg (by omega)]
        by_cases hy : y = u
        · subst hy
          rw [if_pos ⟨rfl, rfl, hlt⟩, if_pos ⟨le_refl _, by omega, hu⟩, hri]
          rfl
        · have hc3 : ¬ (y = u ∧ j = j ∧ j < htOf nodes u) := by tauto
          have hc4 : ¬ (j ≤ j ∧ j < j + (cnt + 1) ∧ update[j]? = some y) := by
            rintro ⟨_, _, e⟩
            rw [hu] at e
            exact hy (Option.some.inj e).symm
          rw [if_neg hc3, if_neg hc4]
      · by_cases hc : i + 1 ≤ j ∧ j < i + 1 + cnt ∧ update[j]? = some y
        · have hc2 : i ≤ j ∧ j < i + (cnt + 1) ∧ update[j]? = some y :=
            ⟨by omega, by omega, hc.2.2⟩
          rw [if_pos hc, if_pos hc2]
        · have hc2 : ¬ (i ≤ j ∧ j < i + (cnt + 1) ∧ update[j]? = some y) := by
            rintro ⟨e1, e2, e3⟩
            exact hc ⟨by omega, by omega, e3⟩
          have hc3 : ¬ (y = u ∧ j = i ∧ i < htOf nodes u) := by tauto
          rw [if_neg hc, if_neg hc2, if_neg hc3]
    · intro y; rw [h2, bwdOf_setLevel]
    · intro y; rw [h3, elemAt_setLevel]
    · intro j hj
      rw [h4 j (by rw [hlen2]; omega)]
      exact List.getElem?_append_left hj
    · intro j hj1 hj2
      by_cases hj : j = i
      · subst hj
        refine ⟨u, ri, { forward := lv.forward, span := lv.span - (r0 - ri) }, lv.span, hu, hri,
          ?_, spanAt_of_getLevel _ _ _ _ hlv, rfl⟩
        rw [Nat.sub_self, Nat.add_zero, h4 acc.length (by rw [hlen2]; omega)]
        simp
      · obtain ⟨u2, rj, lv2, sp, hu2, hrj, hl2, hsp, hlsp⟩ := h5 j (by omega) (by omega)
        refine ⟨u2, rj, lv2, sp, hu2, hrj, ?_, ?_, hlsp⟩
        · rw [hlen2] at hl2
          have e : acc.length + (j - i) = acc.length + 1 + (j - (i + 1)) := by omega
          rw [e]; exact hl2
        · rw [spanAt_setLevel, if_neg (by omega)] at hsp
          exact hsp

/-! ### Ranks along the searches -/

theorem walk_rank (nodes : List node) (i : Nat) (cond : Level → node → Int → Bool)
    (rk : Nat → Int)
    (hsp : ∀ z y, fwdOf nodes z i = some y → spanAt nodes z i = some (rk y - rk z)) :
    ∀ (fuel x : Nat) (r : Int) (x1 : Nat) (r1 : Int),
      walk nodes i cond fuel x r = Res.ok (x1, r1) → r1 - rk x1 = r - rk x := by
  intro fuel
  induction fuel with
  | zero => intro x r x1 r1 h; simp [walk] at h
  | succ fuel ih =>
    intro x r x1 r1 h
    unfold walk at h
    cases hlv : getLevel nodes x i with
    | none => simp [hlv] at h
    | some lv =>
      simp only [hlv] at h
      cases hf : lv.forward with
      | none =>
        simp only [hf, Res.ok.injEq, Prod.mk.injEq] at h
        rw [← h.1, ← h.2]
      | some f =>
        simp only [hf] at h
        cases hnf : nodes[f]? with
        | none => simp [hnf] at h
        | some nf =>
          simp only [hnf] at h
          by_cases hc : cond lv nf r = true
          · rw [if_pos hc] at h
            have h1 := ih f (r + lv.span) x1 r1 h
            have h2 := hsp x f (by rw [fwdOf_of_getLevel _ _ _ _ hlv, hf])
            rw [spanAt_of_getLevel _ _ _ _ hlv] at h2
            have h3 := Option.some.inj h2
            omega
          · rw [if_neg hc] at h
            simp only [Res.ok.injEq, Prod.mk.injEq] at h
            rw [← h.1, ← h.2]

theorem search_rank (nodes : List node) (cond : Level → node → Int → Bool) (fuel : Nat)
    (rk : Nat → Int)
    (hsp : ∀ z j y, fwdOf nodes z j = some y → spanAt nodes z j = some (rk y - rk z)) :
    ∀ (k x : Nat) (r : Int) (ur : List (Nat × Int)),
      search nodes cond fuel k x r = Res.ok ur → ∀ p ∈ ur, p.2 - rk p.1 = r - rk x := by
  intro k
  induction k with
  | zero =>
    intro x r ur h p hp
    simp only [search, Res.ok.injEq] at h
    rw [← h] at hp
    simp at hp
  | succ k ih =>
    intro x r ur h p hp
    unfold search at h
    cases hw : walk nodes k cond fuel x r with
    | panic => simp [hw] at h
    | outOfFuel => simp [hw] at h
    | ok xr =>
      obtain ⟨x1, r1⟩ := xr
      simp only [hw] at h
      have h1 := walk_rank nodes k cond rk (fun z y => hsp z k y) fuel x r x1 r1 hw
      cases hs : search nodes cond fuel k x1 r1 with
      | panic => simp [hs] at h
      | outOfFuel => simp [hs] at h
      | ok rest =>
        simp only [hs, Res.ok.injEq] at h
        rw [← h] at hp
        rcases List.mem_append.mp hp with hp | hp
        · have := ih x1 r1 rest hs p hp
          omega
        · simp only [List.mem_singleton] at hp
          rw [hp]
          exact h1

/-! ### Positions in the list of nodes -/

theorem mem_of_nodup_lt (n : Nat) (L : List Nat) (hnd : L.Nodup) (hlt : ∀ x ∈ L, x < n)
    (hlen : L.length = n) : ∀ z, z < n → z ∈ L := by
  intro z hz
  have hsub : L.toFinset ⊆ Finset.range n := by
    intro a ha
    rw [List.mem_toFinset] at ha
    exact Finset.mem_range.mpr (hlt a ha)
  have hcard : (Finset.range n).card ≤ L.toFinset.card := by
    rw [List.toFinset_card_of_nodup hnd, Finset.card_range, hlen]
  have heq := Finset.eq_of_subset_of_card_le hsub hcard
  have : z ∈ L.toFinset := by rw [heq]; exact Finset.mem_range.mpr hz
  exact List.mem_toFinset.mp this

theorem skipList.WF.nodup0 {s : skipList} {order : List Nat} (hwf : s.WF order) :
    (0 :: order).Nodup := by
  apply List.nodup_cons.mpr
  exact ⟨fun h => by have := (hwf.valid 0 h).1; omega, hwf.nodup⟩

theorem skipList.WF.mem_of_lt {s : skipList} {order : List Nat} (hwf : s.WF order) (z : Nat)
    (hz : z < s.nodes.length) : z ∈ 0 :: order := by
  apply mem_of_nodup_lt s.nodes.length (0 :: order) hwf.nodup0 _ _ z hz
  · intro x hx
    rcases List.mem_cons.mp hx with rfl | hx
    · have := hwf.count; omega
    · exact (hwf.valid x hx).2
  · rw [List.length_cons, hwf.count]

theorem lastTall_zero (ht : Nat → Nat) :
    ∀ (C : List Nat) (x : Nat), (∀ y ∈ C, 0 < ht y) →
      (x :: C)[C.length]? = some (lastTall ht 0 x C) := by
  intro C
  induction C with
  | nil => intro x _; rfl
  | cons y ys ih =>
    intro x h
    have hy : 0 < ht y := h y (List.mem_cons_self _ _)
    simp only [lastTall, if_pos hy, List.length_cons, List.getElem?_cons_succ]
    exact ih y (fun z hz => h z (List.mem_cons_of_mem _ hz))

theorem rankOf_of_getElem (order : List Nat) (hnd : (0 :: order).Nodup) (k y : Nat)
    (h : (0 :: order)[k]? = some y) : rankOf order y = (k : Int) := by
  obtain ⟨hlt, hget⟩ := List.getElem?_eq_some_iff.mp h
  unfold rankOf
  rw [← hget, List.indexOf_getElem hnd]

theorem rankOf_header (order : List Nat) : rankOf order 0 = 0 := by
  simp [rankOf]

theorem rankOf_insert_pre (pre post : List Nat) (x y : Nat) (hy : y ∈ 0 :: pre) :
    rankOf (pre ++ x :: post) y = rankOf (pre ++ post) y := by
  unfold rankOf
  rw [show 0 :: (pre ++ x :: post) = (0 :: pre) ++ x :: post from rfl,
    show 0 :: (pre ++ post) = (0 :: pre) ++ post from rfl,
    List.indexOf_append_of_mem hy, List.indexOf_append_of_mem hy]

theorem rankOf_insert_new (pre post : List Nat) (x : Nat) (hx : x ∉ 0 :: pre) :
    rankOf (pre ++ x :: post) x = (pre.length : Int) + 1 := by
  unfold rankOf
  rw [show 0 :: (pre ++ x :: post) = (0 :: pre) ++ x :: post from rfl,
    List.indexOf_append_of_not_mem hx, List.indexOf_cons_self]
  simp

theorem rankOf_insert_post (pre post : List Nat) (x y : Nat) (hy : y ∉ 0 :: pre)
    (hyx : y ≠ x) :
    rankOf (pre ++ x :: post) y = rankOf (pre ++ post) y + 1 := by
  unfold rankOf
  rw [show 0 :: (pre ++ x :: post) = (0 :: pre) ++ x :: post from rfl,
    show 0 :: (pre ++ post) = (0 :: pre) ++ post from rfl,
    List.indexOf_append_of_not_mem hy, List.indexOf_append_of_not_mem hy,
    List.indexOf_cons_ne _ (Ne.symm hyx)]
  push_cast
  omega

/-! ### Forward pointers across the place of a key -/

theorem fwd_post_of_lastTall (ht : Nat → Nat) (fwd : Nat → Nat → Option Nat) (j : Nat)
    (pre post : List Nat) (hlink : Linked ht fwd (0 :: pre ++ post)) (h0 : j < ht 0) (y : Nat)
    (h : fwd (lastTall ht j 0 pre) j = some y) : y ∈ post := by
  obtain ⟨A1, C1, hs, htall, hshort⟩ := lastTall_split ht j pre 0 h0
  have hl : Linked ht fwd (A1 ++ lastTall ht j 0 pre :: (C1 ++ post)) := by
    have : A1 ++ lastTall ht j 0 pre :: (C1 ++ post) = 0 :: pre ++ post := by
      rw [show (0 :: pre ++ post) = (0 :: pre) ++ post from rfl, hs]
      simp
    rw [this]; exact hlink
  have hf := (Linked_split ht fwd _ _ A1 hl).1 j htall
  rw [nextAt_append_short ht j post C1 hshort, h] at hf
  exact (nextAt_mem ht j post y hf.symm).1

theorem fwd_of_post (ht : Nat → Nat) (fwd : Nat → Nat → Option Nat) (j : Nat)
    (pre post : List Nat) (hlink : Linked ht fwd (0 :: pre ++ post)) (z y : Nat)
    (hz : z ∈ post) (hj : j < ht z) (h : fwd z j = some y) : y ∈ post := by
  obtain ⟨A, B, hAB⟩ := List.append_of_mem hz
  have hl : Linked ht fwd ((0 :: pre ++ A) ++ z :: B) := by
    have : (0 :: pre ++ A) ++ z :: B = 0 :: pre ++ post := by
      rw [hAB]; simp
    rw [this]; exact hlink
  have hf := (Linked_split ht fwd _ _ _ hl).1 j hj
  rw [h] at hf
  have := (nextAt_mem ht j B y hf.symm).1
  rw [hAB]
  exact List.mem_append_right _ (List.mem_cons_of_mem _ this)

theorem lastTall_of_fwd_post (ht : Nat → Nat) (fwd : Nat → Nat → Option Nat) (j : Nat)
    (pre post : List Nat) (hlink : Linked ht fwd (0 :: pre ++ post))
    (hnd : (0 :: pre ++ post).Nodup) (z y : Nat)
    (hz : z ∈ 0 :: pre) (hj : j < ht z) (h : fwd z j = some y) (hy : y ∈ post) :
    z = lastTall ht j 0 pre := by
  obtain ⟨A, C, hAC⟩ := List.append_of_mem hz
  have hl : Linked ht fwd (A ++ z :: (C ++ post)) := by
    have : A ++ z :: (C ++ post) = 0 :: pre ++ post := by
      rw [show (0 :: pre ++ post) = (0 :: pre) ++ post from rfl, hAC]
      simp
    rw [this]; exact hlink
  have hf := (Linked_split ht fwd _ _ A hl).1 j hj
  rw [h] at hf
  have hyC : y ∉ C := by
    intro hyC
    have hnd2 : ((0 :: pre) ++ post).Nodup := hnd
    have := (List.nodup_append.mp hnd2).2.2
    exact this (by rw [hAC]; exact List.mem_append_right _ (List.mem_cons_of_mem _ hyC)) hy
  have hshort : ∀ c ∈ C, ¬ j < ht c := by
    by_contra hcon
    push_neg at hcon
    obtain ⟨c, hc, hct⟩ := hcon
    have := nextAt_append_tall ht j post C ⟨c, hc, hct⟩
    rw [this] at hf
    exact hyC (nextAt_mem ht j C y hf.symm).1
  rw [lastTall_of_split ht j 0 z pre A C hAC hj, lastTall_short ht j C z hshort]

/-! ### `insert` keeps the ranks -/

theorem idx_unique (L : List Nat) (h : L.Nodup) (a b y : Nat) (ha : L[a]? = some y)
    (hb : L[b]? = some y) : a = b := by
  obtain ⟨ha1, ha2⟩ := List.getElem?_eq_some_iff.mp ha
  obtain ⟨hb1, hb2⟩ := List.getElem?_eq_some_iff.mp hb
  exact (List.Nodup.getElem_inj_iff h).mp (ha2.trans hb2.symm)

theorem nextAt_zero (ht : Nat → Nat) (L : List Nat) (h : ∀ y ∈ L, 0 < ht y) :
    nextAt ht 0 L = L[0]? := by
  cases L with
  | nil => rfl
  | cons y ys => simp [nextAt, h y (List.mem_cons_self _ _)]

theorem getElem?_insert_mid (pre post : List Nat) (x k : Nat) :
    (pre ++ x :: post)[k]? =
      if k < pre.length then pre[k]? else if k = pre.length then some x
      else post[k - pre.length - 1]? := by
  rw [List.getElem?_append]
  by_cases h1 : k < pre.length
  · rw [if_pos h1, if_pos h1]
  · rw [if_neg h1, if_neg h1]
    by_cases h2 : k = pre.length
    · rw [if_pos h2, h2, Nat.sub_self]; simp
    · rw [if_neg h2]
      obtain ⟨m, hm⟩ : ∃ m, k - pre.length = m + 1 := ⟨k - pre.length - 1, by omega⟩
      rw [hm, List.getElem?_cons_succ]
      rfl

theorem skipList.WF.fwd_level {s : skipList} {order : List Nat} (hwf : s.WF order)
    (z j y : Nat) (h : fwdOf s.nodes z j = some y) :
    j < s.level ∧ y ∈ order ∧ z ∈ 0 :: order ∧ j < htOf s.nodes z := by
  obtain ⟨hj, hz⟩ := fwdOf_some_lt s.nodes z j y h
  have hzm := hwf.mem_of_lt z hz
  obtain ⟨A, B, hAB⟩ := List.append_of_mem hzm
  have hl : Linked (htOf s.nodes) (fwdOf s.nodes) (A ++ z :: B) := by
    rw [← hAB]; exact hwf.linked
  have hf := (Linked_split _ _ z B A hl).1 j hj
  rw [h] at hf
  obtain ⟨hyB, hyt⟩ := nextAt_mem _ j B y hf.symm
  have hyo : y ∈ order := by
    cases A with
    | nil =>
      simp only [List.nil_append, List.cons.injEq] at hAB
      rw [hAB.2]; exact hyB
    | cons a A1 =>
      simp only [List.cons_append, List.cons.injEq] at hAB
      rw [hAB.2]
      exact List.mem_append_right _ (List.mem_cons_of_mem _ hyB)
  have := (hwf.ht y hyo).2
  exact ⟨by omega, hyo, hzm, hj⟩

theorem Ranked_insert_core (s s1 : skipList) (pre post : List Nat)
    (hr : s.Ranked (pre ++ post)) (level : Nat) (hl2 : level ≤ maxLevel)
    (hwf1 : s1.WF (pre ++ s.nodes.length :: post))
    (hhtn : htOf s1.nodes s.nodes.length = level)
    (hfwd : ∀ y, y ≠ s.nodes.length → ∀ j, fwdOf s1.nodes y j =
      if j < level ∧ y = lastTall (htOf s.nodes) j 0 pre then some s.nodes.length
      else fwdOf s.nodes y j)
    (hfwdn : ∀ j, j < level → fwdOf s1.nodes s.nodes.length j =
      fwdOf s.nodes (lastTall (htOf s.nodes) j 0 pre) j)
    (hspan : ∀ y, y ≠ s.nodes.length → ∀ j, spanAt s1.nodes y j =
      if j < level ∧ y = lastTall (htOf s.nodes) j 0 pre then
        some ((pre.length : Int) - rankOf (pre ++ post) y + 1)
      else if level ≤ j ∧ j < s.level ∧ y = lastTall (htOf s.nodes) j 0 pre then
        (spanAt s.nodes y j).map (fun sp => sp + 1)
      else spanAt s.nodes y j)
    (hspann : ∀ j, j < level → j < s.level → spanAt s1.nodes s.nodes.length j =
      (spanAt s.nodes (lastTall (htOf s.nodes) j 0 pre) j).map
        (fun sp => sp - ((pre.length : Int) -
          rankOf (pre ++ post) (lastTall (htOf s.nodes) j 0 pre))))
    (hbwd : ∀ y, bwdOf s1.nodes y =
      if y = s.nodes.length then some (if pre.length = 0 then none else pre[pre.length - 1]?)
      else if post[0]? = some y then some (some s.nodes.length) else bwdOf s.nodes y)
    (htail : s1.tail = if post = [] then some s.nodes.length else s.tail) :
    s1.Ranked (pre ++ s.nodes.length :: post) := by
  have hwf := hr.wf
  have hnd0 := hwf.nodup0
  have hnd0b : ((0 :: pre) ++ post).Nodup := hnd0
  have hdisj := (List.nodup_append.mp hnd0b).2.2
  have hN : ∀ y ∈ 0 :: (pre ++ post), y ≠ s.nodes.length := by
    intro y hy
    rcases List.mem_cons.mp hy with rfl | hy
    · have := hwf.count; omega
    · have := (hwf.valid y hy).2; omega
  have hNpre : s.nodes.length ∉ 0 :: pre := fun h =>
    hN _ (by
      rcases List.mem_cons.mp h with h | h
      · rw [h]; exact List.mem_cons_self _ _
      · exact List.mem_cons_of_mem _ (List.mem_append_left _ h)) rfl
  have hpostN : ∀ y ∈ post, y ≠ s.nodes.length := fun y hy =>
    hN y (List.mem_cons_of_mem _ (List.mem_append_right _ hy))
  have hpost_npre : ∀ y ∈ post, y ∉ 0 :: pre := fun y hy hp => hdisj hp hy
  have hlink : Linked (htOf s.nodes) (fwdOf s.nodes) (0 :: pre ++ post) := hwf.linked
  have hu_mem : ∀ j, lastTall (htOf s.nodes) j 0 pre ∈ 0 :: pre := fun j => lastTall_mem _ _ _ _
  refine ⟨hwf1, ?_, ?_, ?_⟩
  · intro z j y hf
    by_cases hz : z = s.nodes.length
    · subst hz
      have hj : j < level := by
        have := (fwdOf_some_lt _ _ _ _ hf).1
        omega
      rw [hfwdn j hj] at hf
      obtain ⟨hjs, _, _, _⟩ := hwf.fwd_level _ _ _ hf
      have hy : y ∈ post := fwd_post_of_lastTall _ _ j pre post hlink
        (by rw [hwf.htHeader]; omega) y hf
      rw [hspann j hj hjs, hr.span _ _ _ hf, rankOf_insert_new pre post _ hNpre,
        rankOf_insert_post pre post _ y (hpost_npre y hy) (hpostN y hy)]
      simp only [Option.map_some']
      congr 1
      omega
    · rw [hfwd z hz j] at hf
      rw [hspan z hz j]
      by_cases hc : j < level ∧ z = lastTall (htOf s.nodes) j 0 pre
      · rw [if_pos hc] at hf
        rw [if_pos hc, ← Option.some.inj hf, rankOf_insert_new pre post _ hNpre,
          rankOf_insert_pre pre post _ z (by rw [hc.2]; exact hu_mem j)]
        congr 1
        omega
      · rw [if_neg hc] at hf
        rw [if_neg hc]
        obtain ⟨hjs, hyo, hzo, hjz⟩ := hwf.fwd_level _ _ _ hf
        by_cases hb : level ≤ j ∧ j < s.level ∧ z = lastTall (htOf s.nodes) j 0 pre
        · rw [if_pos hb, hr.span _ _ _ hf]
          have hy : y ∈ post := fwd_post_of_lastTall _ _ j pre post hlink
            (by rw [hwf.htHeader]; have := hwf.levelLe; omega) y (by rw [← hb.2.2]; exact hf)
          rw [rankOf_insert_post pre post _ y (hpost_npre y hy) (hpostN y hy),
            rankOf_insert_pre pre post _ z (by rw [hb.2.2]; exact hu_mem j)]
          simp only [Option.map_some']
          congr 1
          omega
        · rw [if_neg hb, hr.span _ _ _ hf]
          have hzu : z ≠ lastTall (htOf s.nodes) j 0 pre := by
            intro e
            by_cases hjl : j < level
            · exact hc ⟨hjl, e⟩
            · exact hb ⟨by omega, hjs, e⟩
          have hzo2 : z ∈ (0 :: pre) ++ post := hzo
          rcases List.mem_append.mp hzo2 with hzp | hzp
          · rcases List.mem_append.mp hyo with hyp | hyp
            · rw [rankOf_insert_pre pre post _ z hzp,
                rankOf_insert_pre pre post _ y (List.mem_cons_of_mem _ hyp)]
            · exact absurd (lastTall_of_fwd_post _ _ j pre post hlink hnd0 z y hzp hjz hf hyp) hzu
          · have hy : y ∈ post := fwd_of_post _ _ j pre post hlink z y hzp hjz hf
            rw [rankOf_insert_post pre post _ y (hpost_npre y hy) (hpostN y hy),
              rankOf_insert_post pre post _ z (hpost_npre z hzp) (hpostN z hzp)]
            congr 1
            omega
  · intro k y hk
    rw [getElem?_insert_mid] at hk
    rw [hbwd y]
    by_cases h1 : k < pre.length
    · rw [if_pos h1] at hk
      have hyp : y ∈ pre := List.mem_iff_getElem?.mpr ⟨k, hk⟩
      have hyN : y ≠ s.nodes.length :=
        hN y (List.mem_cons_of_mem _ (List.mem_append_left _ hyp))
      have hyh : ¬ post[0]? = some y := fun e =>
        hpost_npre y (List.mem_iff_getElem?.mpr ⟨0, e⟩) (List.mem_cons_of_mem _ hyp)
      rw [if_neg hyN, if_neg hyh,
        hr.back k y (by rw [List.getElem?_append, if_pos h1]; exact hk)]
      by_cases hk0 : k = 0
      · rw [if_pos hk0, if_pos hk0]
      · rw [if_neg hk0, if_neg hk0, getElem?_insert_mid, if_pos (by omega),
          List.getElem?_append, if_pos (by omega)]
    · rw [if_neg h1] at hk
      by_cases h2 : k = pre.length
      · rw [if_pos h2] at hk
        rw [← Option.some.inj hk, if_pos rfl, h2]
        by_cases hp0 : pre.length = 0
        · rw [if_pos hp0, if_pos hp0]
        · rw [if_neg hp0, if_neg hp0, getElem?_insert_mid, if_pos (by omega)]
      · rw [if_neg h2] at hk
        have hyp : y ∈ post := List.mem_iff_getElem?.mpr ⟨_, hk⟩
        rw [if_neg (hpostN y hyp), if_neg (by omega : ¬ k = 0)]
        by_cases h3 : k = pre.length + 1
        · have hk2 : post[0]? = some y := by
            rw [← hk]; congr 1; omega
          rw [if_pos hk2, getElem?_insert_mid, if_neg (by omega), if_pos (by omega)]
        · have hyh : ¬ post[0]? = some y := by
            intro e
            have := idx_unique post (List.nodup_append.mp hnd0b).2.1 _ _ y e hk
            omega
          rw [if_neg hyh, hr.back (k - 1) y (by
            rw [List.getElem?_append, if_neg (by omega), ← hk]; congr 1; omega),
            if_neg (by omega), getElem?_insert_mid, if_neg (by omega), if_neg (by omega),
            List.getElem?_append, if_neg (by omega)]
          congr 2
          omega
  · rw [htail]
    have htl := hr.tail
    by_cases hp : post = []
    · rw [if_pos hp, hp, getElem?_insert_mid]
      simp
    · rw [if_neg hp, htl, getElem?_insert_mid, List.getElem?_append]
      have hpl : 0 < post.length := List.length_pos.mpr hp
      simp only [List.length_append, List.length_cons]
      rw [if_neg (by omega), if_neg (by omega), if_neg (by omega)]
      congr 1
      omega

theorem fwd_lastTall_eq (ht : Nat → Nat) (fwd : Nat → Nat → Option Nat) (j : Nat)
    (pre post : List Nat) (hlink : Linked ht fwd (0 :: pre ++ post)) (h0 : j < ht 0) :
    fwd (lastTall ht j 0 pre) j = nextAt ht j post := by
  obtain ⟨A1, C1, hs, htall, hshort⟩ := lastTall_split ht j pre 0 h0
  have hl : Linked ht fwd (A1 ++ lastTall ht j 0 pre :: (C1 ++ post)) := by
    have : A1 ++ lastTall ht j 0 pre :: (C1 ++ post) = 0 :: pre ++ post := by
      rw [show (0 :: pre ++ post) = (0 :: pre) ++ post from rfl, hs]
      simp
    rw [this]; exact hlink
  have hf := (Linked_split ht fwd _ _ A1 hl).1 j htall
  rw [nextAt_append_short ht j post C1 hshort] at hf
  exact hf

/-- On a skiplist with ranks `insert` returns, without panic and within the loop
budget, the skiplist with the new node at the place of its key, and the ranks
are kept. -/
theorem insert_Ranked (s : skipList) (pre post : List Nat) (hr : s.Ranked (pre ++ post))
    (member : Bytes) (score : Int) (level : Nat) (hl1 : 1 ≤ level) (hl2 : level ≤ maxLevel)
    (hpre : ∀ y ∈ pre, ∀ n, s.nodes[y]? = some n → keyLess n score member = true)
    (hpost : ∀ y ∈ post, ∀ n, s.nodes[y]? = some n → keyLess n score member = false) :
    ∃ s1, s.insert member score level = Res.ok (s1, s.nodes.length) ∧
      s1.Ranked (pre ++ s.nodes.length :: post) ∧
      (∀ y, elemAt s1.nodes y =
        if y = s.nodes.length then some ⟨member, score⟩ else elemAt s.nodes y) ∧
      s1.length = s.length + 1 ∧ s1.nodes.length = s.nodes.length + 1 := by
  have hwf := hr.wf
  obtain ⟨ur, hsearch, hurlen, hur⟩ :=
    WF_search s (pre ++ post) pre post hwf rfl (fun n => keyLess n score member) hpre hpost
  have hlevelLe := hwf.levelLe
  have hlevelPos := hwf.levelPos
  have hpre_ht : ∀ y ∈ pre, htOf s.nodes y ≤ s.level := fun y hy =>
    (hwf.ht y (List.mem_append_left _ hy)).2
  have hpre_pos : ∀ y ∈ pre, 0 < htOf s.nodes y := fun y hy =>
    (hwf.ht y (List.mem_append_left _ hy)).1
  have hpost_pos : ∀ y ∈ post, 0 < htOf s.nodes y := fun y hy =>
    (hwf.ht y (List.mem_append_right _ hy)).1
  have htall : ∀ j, j < maxLevel → j < htOf s.nodes (lastTall (htOf s.nodes) j 0 pre) :=
    fun j hj => lastTall_tall_of _ _ _ _ (by rw [hwf.htHeader]; exact hj)
  have hlinked : Linked (htOf s.nodes) (fwdOf s.nodes) (0 :: pre ++ post) := hwf.linked
  have hnd0 := hwf.nodup0
  -- the arrays `update` and `rank`
  have hlen1 : (ur.map Prod.fst).length = s.level := by simp [hurlen]
  have hlen2 : (ur.map Prod.snd).length = s.level := by simp [hurlen]
  have hshortu : ∀ j, s.level ≤ j → lastTall (htOf s.nodes) j 0 pre = 0 := fun j hj =>
    lastTall_short (htOf s.nodes) j pre 0 (fun y hy => by have := hpre_ht y hy; omega)
  have hupd : ∀ j, j < s.level ∨ j < level →
      (ur.map Prod.fst ++ List.replicate (level - s.level) s.header)[j]? =
        some (lastTall (htOf s.nodes) j 0 pre) := by
    intro j hj
    by_cases hjs : j < s.level
    · rw [List.getElem?_append_left (by rw [hlen1]; exact hjs)]
      exact hur j hjs
    · rw [List.getElem?_append_right (by rw [hlen1]; omega), hlen1]
      have hj2 : j - s.level < level - s.level := by omega
      rw [List.getElem?_replicate, if_pos hj2, hwf.header, hshortu j (by omega)]
  have hsr := search_rank s.nodes (fun _ nf _ => keyLess nf score member) (s.nodes.length + 1)
    (rankOf (pre ++ post)) hr.span s.level s.header 0 ur hsearch
  have hrank : ∀ j, j < s.level ∨ j < level →
      (ur.map Prod.snd ++ List.replicate (level - s.level) (0 : Int))[j]? =
        some (rankOf (pre ++ post) (lastTall (htOf s.nodes) j 0 pre)) := by
    intro j hj
    by_cases hjs : j < s.level
    · rw [List.getElem?_append_left (by rw [hlen2]; exact hjs)]
      have hju : j < ur.length := by rw [hurlen]; exact hjs
      have h1 := hur j hjs
      rw [List.getElem?_map, List.getElem?_eq_getElem hju] at h1
      rw [List.getElem?_map, List.getElem?_eq_getElem hju]
      simp only [Option.map_some', Option.some.injEq] at h1 ⊢
      have h2 := hsr ur[j] (List.getElem_mem hju)
      rw [hwf.header, rankOf_header] at h2
      rw [← h1]
      omega
    · rw [List.getElem?_append_right (by rw [hlen2]; omega), hlen2]
      have hj2 : j - s.level < level - s.level := by omega
      rw [List.getElem?_replicate, if_pos hj2, hshortu j (by omega), rankOf_header]
  have hu0pos := lastTall_zero (htOf s.nodes) pre 0 hpre_pos
  have hr0v : rankOf (pre ++ post) (lastTall (htOf s.nodes) 0 0 pre) = (pre.length : Int) := by
    apply rankOf_of_getElem (pre ++ post) hnd0 pre.length
    rw [show 0 :: (pre ++ post) = (0 :: pre) ++ post from rfl,
      List.getElem?_append_left (by simp)]
    exact hu0pos
  have hr0 := hrank 0 (Or.inl hlevelPos)
  rw [hr0v] at hr0
  -- the three loops
  have hb1 : s.level + (level - s.level) ≤ htOf s.nodes s.header := by
    rw [hwf.header, hwf.htHeader]; omega
  obtain ⟨nodes1, hext, hs1⟩ := extendLoop_spec s.header s.length (level - s.level) s.level
    s.nodes hb1
  obtain ⟨x1s, x1b, x1e⟩ := extendLoop_span s.header s.length (level - s.level) s.level
    s.nodes nodes1 hext hb1
  have hb2 : ∀ j, 0 ≤ j → j < 0 + level →
      ∃ u, (ur.map Prod.fst ++ List.replicate (level - s.level) s.header)[j]? = some u ∧
        j < htOf nodes1 u := by
    intro j _ hj
    refine ⟨_, hupd j (Or.inr (by omega)), ?_⟩
    rw [hs1.2.1]
    exact htall j (by omega)
  have hb2r : ∀ j, 0 ≤ j → j < 0 + level →
      ∃ rj, (ur.map Prod.snd ++ List.replicate (level - s.level) (0 : Int))[j]? = some rj :=
    fun j _ hj => ⟨_, hrank j (Or.inr (by omega))⟩
  obtain ⟨nodes2, lvs, hlink, hlen_2, hht_2, hkey_2, hfwd_2, hlvs_len, _, hlvs⟩ :=
    linkLoop_spec nodes1.length
      (ur.map Prod.fst ++ List.replicate (level - s.level) s.header)
      (ur.map Prod.snd ++ List.replicate (level - s.level) (0 : Int)) (pre.length : Int) hr0
      level 0 nodes1 [] hb2 hb2r
  obtain ⟨x2s, x2b, x2e, _, x2l⟩ := linkLoop_span nodes1.length
      (ur.map Prod.fst ++ List.replicate (level - s.level) s.header)
      (ur.map Prod.snd ++ List.replicate (level - s.level) (0 : Int)) (pre.length : Int) hr0
      level 0 nodes1 nodes2 [] lvs hlink hb2 hb2r
  have hb3 : ∀ j, level ≤ j → j < level + ((if s.level < level then level else s.level) - level) →
      ∃ u, (ur.map Prod.fst ++ List.replicate (level - s.level) s.header)[j]? = some u ∧
        j < htOf nodes2 u := by
    intro j hj1 hj2
    have hjs : j < s.level := by
      split at hj2 <;> omega
    refine ⟨_, hupd j (Or.inl hjs), ?_⟩
    rw [hht_2, hs1.2.1]
    exact htall j (by omega)
  obtain ⟨nodes3, hbump, hs3⟩ := bumpLoop_spec
    (ur.map Prod.fst ++ List.replicate (level - s.level) s.header)
    ((if s.level < level then level else s.level) - level) level nodes2 hb3
  obtain ⟨x3s, x3b, x3e⟩ := bumpLoop_span
    (ur.map Prod.fst ++ List.replicate (level - s.level) s.header)
    ((if s.level < level then level else s.level) - level) level nodes2 nodes3 hbump hb3
  obtain ⟨u0, lv0, hu0, hlv0, hlv0f⟩ := hlvs 0 (le_refl _) (by omega)
  simp only [List.length_nil, Nat.sub_zero, Nat.zero_add] at hlv0 hlvs_len
  rw [hupd 0 (Or.inl hlevelPos)] at hu0
  have hu0e := Option.some.inj hu0
  subst hu0e
  have hlv0p : lv0.forward = post[0]? := by
    rw [hlv0f, hs1.2.2.1, fwd_lastTall_eq _ _ 0 pre post hlinked
      (by rw [hwf.htHeader]; decide), nextAt_zero _ _ hpost_pos]
  -- the heap before the backward pointers are set
  have hn : nodes1.length = s.nodes.length := hs1.1
  have hlen3 : nodes3.length = s.nodes.length := by rw [hs3.1, hlen_2, hn]
  have hN : ∀ y ∈ pre ++ post, y ≠ s.nodes.length := fun y hy => by
    have := (hwf.valid y hy).2; omega
  have core : ∀ (s1 : skipList) (nn : node), nn.level = lvs → nn.Score = score →
      nn.Member = member →
      nn.backward = (if lastTall (htOf s.nodes) 0 0 pre = s.header then none else some (lastTall (htOf s.nodes) 0 0 pre)) →
      SameShape s1.nodes (nodes3 ++ [nn]) →
      (∀ y j, spanAt s1.nodes y j = spanAt (nodes3 ++ [nn]) y j) →
      (∀ y, elemAt s1.nodes y = elemAt (nodes3 ++ [nn]) y) →
      (∀ y, bwdOf s1.nodes y =
        if post[0]? = some y then some (some s.nodes.length) else bwdOf (nodes3 ++ [nn]) y) →
      s1.tail = (if post = [] then some s.nodes.length else s.tail) →
      s1.header = s.header → s1.level = (if s.level < level then level else s.level) →
      s1.length = s.length + 1 →
      s1.Ranked (pre ++ s.nodes.length :: post) ∧
      (∀ y, elemAt s1.nodes y =
        if y = s.nodes.length then some ⟨member, score⟩ else elemAt s.nodes y) ∧
      s1.length = s.length + 1 ∧ s1.nodes.length = s.nodes.length + 1 := by
    intro s1 nn hnl hns hnm hnb hsame hspan1 helem1 hbwd1 htail1 hh hl hlength
    have hfwdA : ∀ y, y ≠ s.nodes.length → ∀ j, fwdOf s1.nodes y j =
        if j < level ∧ y = lastTall (htOf s.nodes) j 0 pre then some s.nodes.length
        else fwdOf s.nodes y j := by
      intro y hy j
      rw [hsame.2.2.1, fwdOf_append, hlen3, if_neg hy, hs3.2.2.1, hfwd_2, hs1.2.2.1, hn]
      by_cases hj : j < level
      · rw [hupd j (Or.inr hj)]
        by_cases hyu : y = lastTall (htOf s.nodes) j 0 pre
        · rw [if_pos ⟨Nat.zero_le _, by omega, by rw [hyu]⟩, if_pos ⟨hj, hyu⟩]
        · rw [if_neg, if_neg (by tauto)]
          rintro ⟨_, _, e⟩
          exact hyu (Option.some.inj e).symm
      · rw [if_neg (by omega), if_neg (by tauto)]
    have hfwdB : ∀ j, j < level → fwdOf s1.nodes s.nodes.length j =
        fwdOf s.nodes (lastTall (htOf s.nodes) j 0 pre) j := by
      intro j hj
      rw [hsame.2.2.1, fwdOf_append, hlen3, if_pos rfl]
      obtain ⟨u, lv, hu, hlv, hlvf⟩ := hlvs j (Nat.zero_le _) (by omega)
      simp only [List.length_nil, Nat.sub_zero, Nat.zero_add] at hlv
      rw [hupd j (Or.inr hj)] at hu
      simp only [hnl, hlv, hlvf, ← Option.some.inj hu, hs1.2.2.1]
    have hhtA : ∀ y, htOf s1.nodes y = if y = s.nodes.length then level else htOf s.nodes y := by
      intro y
      rw [hsame.2.1, htOf_append, hlen3]
      by_cases hy : y = s.nodes.length
      · rw [if_pos hy, if_pos hy, hnl]; exact hlvs_len
      · rw [if_neg hy, if_neg hy, hs3.2.1, hht_2, hs1.2.1]
    have hwf1 : s1.WF (pre ++ s.nodes.length :: post) := by
      apply WF_insert_core s s1 (pre ++ post) pre post hwf rfl score member level hl1 hl2
      · intro y hy ky hky
        obtain ⟨ny, hny⟩ : ∃ ny, s.nodes[y]? = some ny := by
          unfold keyAt at hky
          cases h : s.nodes[y]? with
          | none => rw [h] at hky; simp at hky
          | some ny => exact ⟨ny, rfl⟩
        rw [keyAt_of_getElem _ _ _ hny] at hky
        rw [← Option.some.inj hky, ← keyLess_eq_keyLt]
        exact hpre y hy ny hny
      · intro y hy ky hky
        obtain ⟨ny, hny⟩ : ∃ ny, s.nodes[y]? = some ny := by
          unfold keyAt at hky
          cases h : s.nodes[y]? with
          | none => rw [h] at hky; simp at hky
          | some ny => exact ⟨ny, rfl⟩
        rw [keyAt_of_getElem _ _ _ hny] at hky
        rw [← Option.some.inj hky, ← keyLess_eq_keyLt]
        exact hpost y hy ny hny
      · rw [hsame.1, List.length_append, hlen3]; rfl
      · exact hhtA
      · intro y
        rw [hsame.2.2.2, keyAt_append, hlen3]
        by_cases hy : y = s.nodes.length
        · rw [if_pos hy, if_pos hy, hns, hnm]
        · rw [if_neg hy, if_neg hy, hs3.2.2.2, hkey_2, hs1.2.2.2]
      · exact hfwdA
      · exact hfwdB
      · rw [hh]; exact hwf.header
      · exact hl
    refine ⟨?_, ?_, hlength, by rw [hsame.1, List.length_append, hlen3]; rfl⟩
    · apply Ranked_insert_core s s1 pre post hr level hl2 hwf1
        (by rw [hhtA, if_pos rfl]) hfwdA hfwdB
      · -- spans of the old nodes
        intro y hy j
        rw [hspan1, spanAt_append, hlen3, if_neg hy, x3s, x2s, x1s]
        by_cases ha : j < level ∧ y = lastTall (htOf s.nodes) j 0 pre
        · have c3 : ¬ (level ≤ j ∧
              j < level + ((if s.level < level then level else s.level) - level) ∧
              (ur.map Prod.fst ++ List.replicate (level - s.level) s.header)[j]? = some y) := by
            intro h; omega
          have c2 : 0 ≤ j ∧ j < 0 + level ∧
              (ur.map Prod.fst ++ List.replicate (level - s.level) s.header)[j]? = some y :=
            ⟨Nat.zero_le _, by omega, by rw [hupd j (Or.inr ha.1), ha.2]⟩
          rw [if_neg c3, if_pos c2, if_pos ha, hrank j (Or.inr ha.1), ← ha.2]
          rfl
        · rw [if_neg ha]
          have c2 : ¬ (0 ≤ j ∧ j < 0 + level ∧
              (ur.map Prod.fst ++ List.replicate (level - s.level) s.header)[j]? = some y) := by
            rintro ⟨_, h2, h3⟩
            have hj : j < level := by omega
            rw [hupd j (Or.inr hj)] at h3
            exact ha ⟨hj, (Option.some.inj h3).symm⟩
          have c1 : ¬ (y = s.header ∧ s.level ≤ j ∧ j < s.level + (level - s.level)) := by
            rintro ⟨h1, h2, h3⟩
            exact ha ⟨by omega, by rw [hshortu j h2, h1, hwf.header]⟩
          by_cases hb : level ≤ j ∧ j < s.level ∧ y = lastTall (htOf s.nodes) j 0 pre
          · have c3 : level ≤ j ∧
                j < level + ((if s.level < level then level else s.level) - level) ∧
                (ur.map Prod.fst ++ List.replicate (level - s.level) s.header)[j]? = some y := by
              refine ⟨hb.1, ?_, by rw [hupd j (Or.inl hb.2.1), hb.2.2]⟩
              rw [if_neg (by omega)]
              omega
            rw [if_pos c3, if_pos hb, if_neg c2, if_neg c1]
          · have c3 : ¬ (level ≤ j ∧
                j < level + ((if s.level < level then level else s.level) - level) ∧
                (ur.map Prod.fst ++ List.replicate (level - s.level) s.header)[j]? = some y) := by
              rintro ⟨h1, h2, h3⟩
              have hjs : j < s.level := by
                split at h2 <;> omega
              rw [hupd j (Or.inl hjs)] at h3
              exact hb ⟨h1, hjs, (Option.some.inj h3).symm⟩
            rw [if_neg c3, if_neg hb, if_neg c2, if_neg c1]
      · -- spans of the new node
        intro j hj hjs
        rw [hspan1, spanAt_append, hlen3, if_pos rfl, hnl]
        obtain ⟨u, rj, lv, sp, hu, hrj, hlv, hsp, hlsp⟩ := x2l j (Nat.zero_le _) (by omega)
        simp only [List.length_nil, Nat.sub_zero, Nat.zero_add] at hlv
        rw [hupd j (Or.inr hj)] at hu
        rw [hrank j (Or.inr hj)] at hrj
        have hu2 := Option.some.inj hu
        have hrj2 := Option.some.inj hrj
        rw [x1s, if_neg (by omega), ← hu2] at hsp
        rw [hlv, hsp]
        simp only [Option.map_some']
        rw [hlsp, ← hrj2]
      · -- backward pointers
        intro y
        rw [hbwd1]
        by_cases hy : y = s.nodes.length
        · have hnp : ¬ post[0]? = some y := by
            intro e
            exact hN y (List.mem_append_right _ (List.mem_iff_getElem?.mpr ⟨0, e⟩)) hy
          rw [if_neg hnp, if_pos hy, bwdOf_append, hlen3, if_pos hy, hnb]
          by_cases hp0 : pre.length = 0
          · rw [if_pos hp0]
            rw [hp0] at hu0pos
            simp only [List.getElem?_cons_zero, Option.some.injEq] at hu0pos
            rw [← hu0pos, if_pos hwf.header.symm]
          · rw [if_neg hp0]
            obtain ⟨m, hm⟩ : ∃ m, pre.length = m + 1 := ⟨pre.length - 1, by omega⟩
            rw [hm, List.getElem?_cons_succ] at hu0pos
            have hmem : lastTall (htOf s.nodes) 0 0 pre ∈ pre :=
              List.mem_iff_getElem?.mpr ⟨m, hu0pos⟩
            have hpos := (hwf.valid _ (List.mem_append_left _ hmem)).1
            rw [if_neg (by rw [hwf.header]; omega), hm, Nat.add_sub_cancel, hu0pos]
        · rw [if_neg hy, bwdOf_append, hlen3, if_neg hy, x3b, x2b, x1b]
      · exact htail1
    · intro y
      rw [helem1, elemAt_append, hlen3]
      by_cases hy : y = s.nodes.length
      · rw [if_pos hy, if_pos hy]
        simp only [node.Element, hns, hnm]
      · rw [if_neg hy, if_neg hy, x3e, x2e, x1e]
  -- the result of the call
  unfold skipList.insert
  simp only [hsearch, hext, hlink, hbump, hupd 0 (Or.inl hlevelPos), hlv0]
  cases hf : lv0.forward with
  | none =>
    rw [hf] at hlv0p
    have hpn : post = [] := by
      cases post with
      | nil => rfl
      | cons a t => simp at hlv0p
    refine ⟨_, by rw [hn], ?_⟩
    refine core _ ⟨member, score,
      if lastTall (htOf s.nodes) 0 0 pre = s.header then none
      else some (lastTall (htOf s.nodes) 0 0 pre), lvs⟩ ?_ ?_ ?_ ?_ ?_ ?_ ?_ ?_ ?_ ?_ ?_ ?_
    · rfl
    · rfl
    · rfl
    · rfl
    · exact SameShape.refl _
    · intro _ _; rfl
    · intro _; rfl
    · intro y
      rw [hpn]
      simp
    · simp only [hpn, if_true, hn]
    · rfl
    · rfl
    · rfl
  | some f =>
    rw [hf] at hlv0p
    have hpn : post ≠ [] := by
      intro e
      rw [e] at hlv0p
      simp at hlv0p
    have hfm : f ∈ post := List.mem_iff_getElem?.mpr ⟨0, hlv0p.symm⟩
    have hfv := (hwf.valid f (List.mem_append_right _ hfm)).2
    refine ⟨_, by rw [hn], ?_⟩
    have hflen : ∀ nn : node, f < (nodes3 ++ [nn]).length := fun nn => by
      rw [List.length_append, hlen3]; omega
    refine core _ ⟨member, score,
      if lastTall (htOf s.nodes) 0 0 pre = s.header then none
      else some (lastTall (htOf s.nodes) 0 0 pre), lvs⟩ ?_ ?_ ?_ ?_ ?_ ?_ ?_ ?_ ?_ ?_ ?_ ?_
    · rfl
    · rfl
    · rfl
    · rfl
    · exact sameShape_setBackward _ _ _
    · intro _ _; exact spanAt_setBackward _ _ _ _ _
    · intro _; exact elemAt_setBackward _ _ _ _
    · intro y
      rw [bwdOf_setBackward]
      simp only [hflen, and_true]
      by_cases hy : y = f
      · rw [if_pos hy, ← hlv0p, if_pos (by rw [hy])]
      · have c2 : ¬ (some f = some y) := fun e => hy (Option.some.inj e).symm
        rw [if_neg hy, ← hlv0p, if_neg c2]
    · simp only [if_neg hpn]
    · rfl
    · rfl
    · rfl

/-! ### `getByRank` on a skiplist with ranks -/

theorem walk_byRank (nodes : List node) (i : Nat) (rank : Int) :
    ∀ (fuel x : Nat) (r : Int) (x1 : Nat) (r1 : Int),
      walk nodes i (fun lv _ r => decide (r + lv.span ≤ rank)) fuel x r = Res.ok (x1, r1) →
      r ≤ rank →
      r1 ≤ rank ∧
        (fwdOf nodes x1 i = none ∨ ∃ sp, spanAt nodes x1 i = some sp ∧ rank < r1 + sp) := by
  intro fuel
  induction fuel with
  | zero => intro x r x1 r1 h; simp [walk] at h
  | succ fuel ih =>
    intro x r x1 r1 h hle
    unfold walk at h
    cases hlv : getLevel nodes x i with
    | none => simp [hlv] at h
    | some lv =>
      simp only [hlv] at h
      cases hf : lv.forward with
      | none =>
        simp only [hf, Res.ok.injEq, Prod.mk.injEq] at h
        rw [← h.1, ← h.2]
        exact ⟨hle, Or.inl (by rw [fwdOf_of_getLevel _ _ _ _ hlv, hf])⟩
      | some f =>
        simp only [hf] at h
        cases hnf : nodes[f]? with
        | none => simp [hnf] at h
        | some nf =>
          simp only [hnf] at h
          by_cases hc : r + lv.span ≤ rank
          · rw [if_pos (by simpa using hc)] at h
            exact ih f (r + lv.span) x1 r1 h hc
          · rw [if_neg (by simpa using hc)] at h
            simp only [Res.ok.injEq, Prod.mk.injEq] at h
            rw [← h.1, ← h.2]
            exact ⟨hle, Or.inr ⟨lv.span, spanAt_of_getLevel _ _ _ _ hlv, by omega⟩⟩

theorem split_at_pos (L : List Nat) (p x : Nat) (h : L[p]? = some x) :
    L = L.take p ++ x :: L.drop (p + 1) := by
  obtain ⟨hlt, hget⟩ := List.getElem?_eq_some_iff.mp h
  have := List.drop_eq_getElem_cons hlt
  rw [hget] at this
  rw [← this, List.take_append_drop]

theorem skipList.WF.ht_pos {s : skipList} {order : List Nat} (hwf : s.WF order) (x : Nat)
    (hx : x ∈ 0 :: order) : 0 < htOf s.nodes x := by
  rcases List.mem_cons.mp hx with rfl | hx
  · rw [hwf.htHeader]; decide
  · exact (hwf.ht x hx).1

/-- At level 0 every node points to the next node of the list. -/
theorem skipList.WF.next0 {s : skipList} {order : List Nat} (hwf : s.WF order) (p x : Nat)
    (h : (0 :: order)[p]? = some x) : fwdOf s.nodes x 0 = (0 :: order)[p + 1]? := by
  have hsplit := split_at_pos (0 :: order) p x h
  have hl : Linked (htOf s.nodes) (fwdOf s.nodes)
      ((0 :: order).take p ++ x :: (0 :: order).drop (p + 1)) := by
    rw [← hsplit]; exact hwf.linked
  have hx : x ∈ 0 :: order := List.mem_iff_getElem?.mpr ⟨p, h⟩
  have hf := (Linked_split _ _ x _ _ hl).1 0 (hwf.ht_pos x hx)
  rw [hf, nextAt_zero]
  · rw [List.getElem?_drop]
  · intro y hy
    exact hwf.ht_pos y (List.mem_of_mem_drop hy)

theorem rank_pos (order : List Nat) (x : Nat) (hx : x ∈ 0 :: order) :
    (0 :: order)[(0 :: order).indexOf x]? = some x := List.getElem?_indexOf hx

theorem getByRankLoop_spec (s : skipList) (order : List Nat) (hr : s.Ranked order) (r : Nat)
    (hr2 : r ≤ order.length) (target : Nat) (ht : (0 :: order)[r]? = some target) :
    ∀ (k n p : Nat), (0 :: order)[p]? = some n → p ≤ r → 1 ≤ k → k ≤ htOf s.nodes n →
      getByRankLoop s.nodes (r : Int) (s.nodes.length + 1) k n (p : Int) =
        Res.ok (some target) := by
  have hwf := hr.wf
  have hnd0 := hwf.nodup0
  intro k
  induction k with
  | zero => intro n p _ _ h1 _; omega
  | succ k ih =>
    intro n p hn hp _ hk
    have hsplit := split_at_pos (0 :: order) p n hn
    have hl : Linked (htOf s.nodes) (fwdOf s.nodes)
        ((0 :: order).take p ++ n :: (0 :: order).drop (p + 1)) := by
      rw [← hsplit]; exact hwf.linked
    obtain ⟨hfn, hlC⟩ := Linked_split _ _ n _ _ hl
    have hClen : ((0 :: order).drop (p + 1)).length < s.nodes.length + 1 := by
      rw [List.length_drop, List.length_cons, hwf.count]; omega
    obtain ⟨x1, r1, hw, hx1, hkx1⟩ := walk_any s.nodes k
      (fun lv _ q => decide (q + lv.span ≤ (r : Int))) ((0 :: order).drop (p + 1)) n (p : Int)
      (s.nodes.length + 1) (by omega) (hfn k (by omega)) hlC hClen
    have hx1m : x1 ∈ 0 :: order := by
      rcases List.mem_cons.mp hx1 with e | e
      · rw [e]; exact List.mem_iff_getElem?.mpr ⟨p, hn⟩
      · exact List.mem_of_mem_drop e
    have hrk := walk_rank s.nodes k _ (rankOf order) (fun z y => hr.span z k y)
      (s.nodes.length + 1) n (p : Int) x1 r1 hw
    rw [rankOf_of_getElem order hnd0 p n hn, sub_self] at hrk
    have hr1 : r1 = rankOf order x1 := by omega
    obtain ⟨hle, hstop⟩ := walk_byRank s.nodes k (r : Int) (s.nodes.length + 1) n (p : Int) x1 r1
      hw (by exact_mod_cast hp)
    have hpos := rank_pos order x1 hx1m
    unfold getByRankLoop
    simp only [hw]
    by_cases he : r1 = (r : Int)
    · rw [if_pos he]
      have : (0 :: order).indexOf x1 = r := by
        have h2 : ((0 :: order).indexOf x1 : Int) = (r : Int) := by
          rw [← he, hr1]; rfl
        exact_mod_cast h2
      rw [this, ht] at hpos
      rw [Option.some.inj hpos]
    · rw [if_neg he]
      have hr1b : r1 = (((0 :: order).indexOf x1 : Nat) : Int) := hr1
      have hlt : (0 :: order).indexOf x1 < r := by
        have : (((0 :: order).indexOf x1 : Nat) : Int) < (r : Int) := by omega
        exact_mod_cast this
      rw [hr1b]
      by_cases hk0 : k = 0
      · exfalso
        subst hk0
        have hnext := hwf.next0 _ x1 hpos
        rcases hstop with hnone | ⟨sp, hsp, hgt⟩
        · rw [hnext] at hnone
          have := List.getElem?_eq_none_iff.mp hnone
          simp only [List.length_cons] at this
          omega
        · cases hf : fwdOf s.nodes x1 0 with
          | none =>
            rw [hnext] at hf
            have := List.getElem?_eq_none_iff.mp hf
            simp only [List.length_cons] at this
            omega
          | some f =>
            have hs2 := hr.span x1 0 f hf
            rw [hsp] at hs2
            rw [hnext] at hf
            have hrf := rankOf_of_getElem order hnd0 _ f hf
            have hs3 := Option.some.inj hs2
            rw [hrf, ← hr1] at hs3
            push_cast at hs3
            omega
      · exact ih x1 _ hpos (by omega) (by omega) (by omega)

/-- On a skiplist with ranks `getByRank` returns the node at the rank. -/
theorem getByRank_spec (s : skipList) (order : List Nat) (hr : s.Ranked order) (r : Nat)
    (hr2 : r ≤ order.length) : s.getByRank (r : Int) = Res.ok ((0 :: order)[r]?) := by
  have hwf := hr.wf
  have hlt : r < (0 :: order).length := by simp only [List.length_cons]; omega
  have ht : (0 :: order)[r]? = some ((0 :: order)[r]) := List.getElem?_eq_getElem hlt
  rw [ht]
  unfold skipList.getByRank
  rw [hwf.header]
  exact getByRankLoop_spec s order hr r hr2 _ ht s.level 0 0 (by simp) (Nat.zero_le _) hwf.levelPos
    (by rw [hwf.htHeader]; exact hwf.levelLe)

/-! ### `Range` on a skiplist with ranks -/

theorem els_at (nodes : List node) (order : List Nat) (els : List Element)
    (hel : order.map (elemAt nodes) = els.map some) (k y : Nat) (h : order[k]? = some y) :
    ∃ n, nodes[y]? = some n ∧ els[k]? = some n.Element := by
  have h1 : (order.map (elemAt nodes))[k]? = some (elemAt nodes y) := by
    rw [List.getElem?_map, h]; rfl
  rw [hel, List.getElem?_map] at h1
  cases he : els[k]? with
  | none => rw [he] at h1; simp at h1
  | some e =>
    rw [he] at h1
    simp only [Option.map_some', Option.some.injEq] at h1
    unfold elemAt at h1
    cases hn : nodes[y]? with
    | none => rw [hn] at h1; simp at h1
    | some n =>
      rw [hn] at h1
      simp only [Option.some.injEq] at h1
      exact ⟨n, rfl, by rw [h1]⟩

theorem els_length (nodes : List node) (order : List Nat) (els : List Element)
    (hel : order.map (elemAt nodes) = els.map some) : els.length = order.length := by
  have := congrArg List.length hel
  simpa using this.symm

theorem forEachLoop_asc (s : skipList) (order : List Nat) (els : List Element)
    (hwf : s.WF order) (hel : order.map (elemAt s.nodes) = els.map some) :
    ∀ (cnt : Nat) (cur : Option Nat) (p : Nat), p + cnt ≤ order.length →
      (0 < cnt → cur = order[p]?) →
      forEachLoop s.nodes false cnt cur = some ((els.drop p).take cnt) := by
  intro cnt
  induction cnt with
  | zero => intro cur p _ _; simp [forEachLoop]
  | succ cnt ih =>
    intro cur p hp hcur
    have hplt : p < order.length := by omega
    have hx : order[p]? = some order[p] := List.getElem?_eq_getElem hplt
    obtain ⟨n, hn, he⟩ := els_at s.nodes order els hel p _ hx
    have hxm : order[p] ∈ 0 :: order := List.mem_cons_of_mem _ (List.getElem_mem hplt)
    obtain ⟨lv, hlv⟩ := getLevel_of_lt s.nodes order[p] 0 (hwf.ht_pos _ hxm)
    have hfw := fwdOf_of_getLevel _ _ _ _ hlv
    rw [hwf.next0 (p + 1) order[p] (by rw [List.getElem?_cons_succ]; exact hx)] at hfw
    rw [List.getElem?_cons_succ] at hfw
    unfold getLevel at hlv
    simp only [hn] at hlv
    have hrec := ih lv.forward (p + 1) (by omega) (fun _ => hfw.symm)
    rw [hcur (by omega), hx]
    unfold forEachLoop
    simp only [hn, hlv, Bool.false_eq_true, if_false, hrec]
    have hpl : p < els.length := by rw [els_length _ _ _ hel]; exact hplt
    rw [List.drop_eq_getElem_cons hpl, List.take_succ_cons]
    rw [List.getElem?_eq_getElem hpl] at he
    rw [Option.some.inj he]

theorem forEachLoop_desc (s : skipList) (order : List Nat) (els : List Element)
    (hr : s.Ranked order) (hel : order.map (elemAt s.nodes) = els.map some) :
    ∀ (cnt : Nat) (cur : Option Nat) (p : Nat), cnt ≤ p → p ≤ order.length →
      (0 < p → cur = order[p - 1]?) →
      forEachLoop s.nodes true cnt cur = some (((els.take p).reverse).take cnt) := by
  intro cnt
  induction cnt with
  | zero => intro cur p _ _ _; simp [forEachLoop]
  | succ cnt ih =>
    intro cur p hp hpl hcur
    obtain ⟨q, rfl⟩ : ∃ q, p = q + 1 := ⟨p - 1, by omega⟩
    have hqlt : q < order.length := by omega
    have hx : order[q]? = some order[q] := List.getElem?_eq_getElem hqlt
    obtain ⟨n, hn, he⟩ := els_at s.nodes order els hel q _ hx
    have hb := hr.back q _ hx
    unfold bwdOf at hb
    simp only [hn, Option.some.injEq] at hb
    have hrec := ih n.backward q (by omega) (by omega) (by
      intro hq
      rw [hb, if_neg (by omega)])
    rw [hcur (by omega), Nat.add_sub_cancel, hx]
    unfold forEachLoop
    simp only [hn, if_true, hrec]
    have hql : q < els.length := by rw [els_length _ _ _ hel]; exact hqlt
    rw [List.getElem?_eq_getElem hql] at he
    have htk : List.take (q + 1) els = List.take q els ++ [els[q]] := by
      rw [List.take_succ, List.getElem?_eq_getElem hql]
      rfl
    rw [htk, List.reverse_append, List.reverse_singleton, List.singleton_append,
      List.take_succ_cons, Option.some.inj he]

/-- On a sorted set whose skiplist has ranks, `Range` with `0 ≤ start < Len` and
`start ≤ stop ≤ Len` returns the elements of ranks `start` to `stop - 1`, from the
lowest when `desc` is false and from the highest when it is true. -/
theorem Range_ranked (s : SortedSet) (order : List Nat) (els : List Element)
    (hr : s.skipList.Ranked order)
    (hel : order.map (elemAt s.skipList.nodes) = els.map some)
    (hlen : s.dict.length = order.length) (start stop : Nat) (h1 : start < order.length)
    (h2 : start ≤ stop) (h3 : stop ≤ order.length) :
    s.Range (start : Int) (stop : Int) false = Res.ok ((els.drop start).take (stop - start)) ∧
    s.Range (start : Int) (stop : Int) true =
      Res.ok ((els.reverse.drop start).take (stop - start)) := by
  have hwf := hr.wf
  have c1 : ¬ ((stop : Int) - (start : Int) < 0) := by omega
  have c2 : ¬ ((start : Int) < 0 ∨ ((s.dict.length : Nat) : Int) ≤ (start : Int)) := by
    rw [hlen]; omega
  have c3 : ¬ ((stop : Int) < (start : Int) ∨ ((s.dict.length : Nat) : Int) < (stop : Int)) := by
    rw [hlen]; omega
  have hcnt : ((stop : Int) - (start : Int)).toNat = stop - start := by omega
  have hell := els_length _ _ _ hel
  constructor
  · have hfirst : (if 0 < (start : Int) then s.skipList.getByRank ((start : Int) + 1)
        else
          match getLevel s.skipList.nodes s.skipList.header 0 with
          | none => Res.panic
          | some lv => Res.ok lv.forward) = Res.ok (order[start]?) := by
      by_cases h0 : 0 < start
      · rw [if_pos (by omega)]
        have := getByRank_spec s.skipList order hr (start + 1) (by omega)
        rw [List.getElem?_cons_succ] at this
        rw [← this]
        congr 1
      · have hs0 : start = 0 := by omega
        subst hs0
        rw [if_neg (by simp)]
        obtain ⟨lv, hlv⟩ := getLevel_of_lt s.skipList.nodes s.skipList.header 0
          (by rw [hwf.header, hwf.htHeader]; decide)
        have hfw := fwdOf_of_getLevel _ _ _ _ hlv
        rw [hwf.header, hwf.next0 0 0 (by simp), List.getElem?_cons_succ] at hfw
        simp only [hlv, hfw]
    unfold SortedSet.Range
    simp only [if_neg c1, SortedSet.Len, if_neg c2, if_neg c3, Bool.false_eq_true, if_false,
      hfirst, hcnt]
    rw [forEachLoop_asc s.skipList order els hwf hel (stop - start) _ start (by omega)
      (fun _ => rfl)]
  · have hfirst : (if 0 < (start : Int) then
          s.skipList.getByRank (((s.dict.length : Nat) : Int) - (start : Int))
        else Res.ok s.skipList.tail) = Res.ok (order[order.length - start - 1]?) := by
      by_cases h0 : 0 < start
      · rw [if_pos (by omega)]
        have := getByRank_spec s.skipList order hr (order.length - start) (by omega)
        obtain ⟨m, hm⟩ : ∃ m, order.length - start = m + 1 := ⟨order.length - start - 1, by omega⟩
        rw [hm, List.getElem?_cons_succ] at this
        rw [hm, Nat.add_sub_cancel, ← this, hlen]
        congr 1
        omega
      · have hs0 : start = 0 := by omega
        subst hs0
        rw [if_neg (by simp), hr.tail]
        rfl
    unfold SortedSet.Range
    simp only [if_neg c1, SortedSet.Len, if_neg c2, if_neg c3, if_true, hfirst, hcnt]
    rw [forEachLoop_desc s.skipList order els hr hel (stop - start) _ (order.length - start)
      (by omega) (by omega) (fun _ => rfl)]
    rw [List.reverse_take, hell]
    have : order.length - (order.length - start) = start := by omega
    rw [this]

/-! ### Sorted sets filled by `Add` calls with distinct members -/

theorem Make_Built : Make.Built [] [] := by
  obtain ⟨⟨order, hwf⟩, _⟩ := Make_Inv
  have ho : order = [] := by
    have := hwf.count
    have h1 : Make.skipList.nodes.length = 1 := rfl
    rw [h1] at this
    exact List.length_eq_zero.mp (by omega)
  subst ho
  refine ⟨⟨hwf, ?_, ?_, rfl⟩, rfl, List.Perm.refl _, List.Pairwise.nil⟩
  · intro z j y h
    exfalso
    obtain ⟨_, hy, _, _⟩ := hwf.fwd_level z j y h
    simp at hy
  · intro k y h
    simp at h

theorem dictGet_none_of_not_mem (d : List Element) (member : Bytes)
    (h : member ∉ d.map Element.Member) : dictGet d member = none := by
  unfold dictGet
  apply List.find?_eq_none.mpr
  intro e he
  simp only [decide_eq_true_eq]
  intro hm
  exact h (List.mem_map.mpr ⟨e, he, hm⟩)

theorem dictSet_of_not_mem (d : List Element) (e : Element)
    (h : e.Member ∉ d.map Element.Member) : dictSet d e = e :: d := by
  unfold dictSet dictDelete
  congr 1
  apply List.filter_eq_self.mpr
  intro a ha
  simp only [ne_eq, decide_not, Bool.not_eq_true', decide_eq_false_iff_not]
  intro hm
  exact h (List.mem_map.mpr ⟨a, ha, hm⟩)

/-- `Add` of a new member puts its element at the place of its key. -/
theorem Add_Built (s : SortedSet) (order : List Nat) (els : List Element)
    (hb : s.Built order els) (member : Bytes) (score : Int) (draws : Nat)
    (hnew : member ∉ s.dict.map Element.Member) :
    ∃ s1 order1 els1, s.Add member score draws = Res.ok (s1, true) ∧ s1.Built order1 els1 ∧
      s1.dict = ⟨member, score⟩ :: s.dict := by
  obtain ⟨hr1, hr2⟩ := randomLevel_range draws
  obtain ⟨pre, post, hsplit, hpre, hpost⟩ :=
    WF_split s.skipList order hb.ranked.wf score member
  subst hsplit
  obtain ⟨sl1, hins, hrk1, hel1, _, _⟩ := insert_Ranked s.skipList pre post hb.ranked member
    score (randomLevel draws) hr1 hr2 hpre hpost
  have hwf := hb.ranked.wf
  have hN : ∀ y ∈ pre ++ post, y ≠ s.skipList.nodes.length := fun y hy => by
    have := (hwf.valid y hy).2; omega
  have hel := hb.elems
  rw [List.map_append] at hel
  have hpre_map : pre.map (elemAt s.skipList.nodes) = (els.take pre.length).map some := by
    have := congrArg (List.take pre.length) hel
    rw [List.take_left' (by simp), ← List.map_take] at this
    exact this
  have hpost_map : post.map (elemAt s.skipList.nodes) = (els.drop pre.length).map some := by
    have := congrArg (List.drop pre.length) hel
    rw [List.drop_left' (by simp), ← List.map_drop] at this
    exact this
  have hels : els = els.take pre.length ++ els.drop pre.length :=
    (List.take_append_drop _ _).symm
  have hsorted := hb.sorted
  rw [hels] at hsorted
  obtain ⟨hs1, hs2, hs3⟩ := List.pairwise_append.mp hsorted
  have hlt_pre : ∀ a ∈ els.take pre.length, elemLt a ⟨member, score⟩ := by
    intro a ha
    have : some a ∈ pre.map (elemAt s.skipList.nodes) := by
      rw [hpre_map]; exact List.mem_map.mpr ⟨a, ha, rfl⟩
    obtain ⟨y, hy, hya⟩ := List.mem_map.mp this
    unfold elemAt at hya
    cases hn : s.skipList.nodes[y]? with
    | none => rw [hn] at hya; simp at hya
    | some n =>
      rw [hn] at hya
      simp only [Option.some.injEq] at hya
      have := hpre y hy n hn
      rw [keyLess_eq_keyLt] at this
      rw [← hya]
      exact this
  have hlt_post : ∀ b ∈ els.drop pre.length, elemLt ⟨member, score⟩ b := by
    intro b hb2
    have : some b ∈ post.map (elemAt s.skipList.nodes) := by
      rw [hpost_map]; exact List.mem_map.mpr ⟨b, hb2, rfl⟩
    obtain ⟨y, hy, hyb⟩ := List.mem_map.mp this
    unfold elemAt at hyb
    cases hn : s.skipList.nodes[y]? with
    | none => rw [hn] at hyb; simp at hyb
    | some n =>
      rw [hn] at hyb
      simp only [Option.some.injEq] at hyb
      have h1 := hpost y hy n hn
      rw [keyLess_eq_keyLt] at h1
      have hbm : b.Member ≠ member := by
        intro e
        apply hnew
        rw [← e]
        exact List.mem_map.mpr ⟨b, hb.perm.subset (List.mem_of_mem_drop hb2), rfl⟩
      unfold elemLt
      cases h2 : keyLt ((⟨member, score⟩ : Element).Score, (⟨member, score⟩ : Element).Member)
          (b.Score, b.Member) with
      | true => rfl
      | false =>
        exfalso
        rw [← hyb] at h2 hbm
        have := keyLt_total _ _ h1 h2
        simp only [node.Element, Prod.mk.injEq] at this hbm
        exact hbm this.2
  refine ⟨⟨dictSet s.dict ⟨member, score⟩, sl1⟩, pre ++ s.skipList.nodes.length :: post,
    els.take pre.length ++ ⟨member, score⟩ :: els.drop pre.length, ?_, ⟨hrk1, ?_, ?_, ?_⟩, ?_⟩
  · unfold SortedSet.Add
    simp only [dictGet_none_of_not_mem _ _ hnew, hins]
  · rw [List.map_append, List.map_cons, List.map_append, List.map_cons, hel1, if_pos rfl,
      ← hpre_map, ← hpost_map]
    congr 1
    · apply List.map_congr_left
      intro y hy
      rw [hel1, if_neg (hN y (List.mem_append_left _ hy))]
    · congr 1
      apply List.map_congr_left
      intro y hy
      rw [hel1, if_neg (hN y (List.mem_append_right _ hy))]
  · rw [dictSet_of_not_mem _ ⟨member, score⟩ hnew]
    refine List.perm_middle.trans (List.Perm.cons _ ?_)
    rw [List.take_append_drop]
    exact hb.perm
  · apply List.pairwise_append.mpr
    refine ⟨hs1, List.pairwise_cons.mpr ⟨hlt_post, hs2⟩, ?_⟩
    intro a ha b hb2
    rcases List.mem_cons.mp hb2 with rfl | hb2
    · exact hlt_pre a ha
    · exact hs3 a ha b hb2
  · exact dictSet_of_not_mem _ ⟨member, score⟩ hnew

theorem run_Built (adds : List (Bytes × Int × Nat)) :
    ∀ (s : SortedSet) (order : List Nat) (els : List Element), s.Built order els →
      (adds.map Prod.fst).Nodup → (∀ a ∈ adds, a.1 ∉ s.dict.map Element.Member) →
      ∃ s1 order1 els1, SortedSet.run (addOps adds) s = Res.ok s1 ∧ s1.Built order1 els1 ∧
        s1.dict = (addElems adds).reverse ++ s.dict := by
  induction adds with
  | nil =>
    intro s order els hb _ _
    exact ⟨s, order, els, rfl, hb, rfl⟩
  | cons a rest ih =>
    intro s order els hb hnd hnew
    simp only [List.map_cons, List.nodup_cons] at hnd
    obtain ⟨s1, order1, els1, hadd, hb1, hd1⟩ :=
      Add_Built s order els hb a.1 a.2.1 a.2.2 (hnew a (List.mem_cons_self _ _))
    obtain ⟨s2, order2, els2, hrun, hb2, hd2⟩ := ih s1 order1 els1 hb1 hnd.2 (by
      intro b hbm
      rw [hd1, List.map_cons, List.mem_cons]
      rintro (e | e)
      · have e2 : b.1 = a.1 := e
        exact hnd.1 (by rw [← e2]; exact List.mem_map.mpr ⟨b, hbm, rfl⟩)
      · exact hnew b (List.mem_cons_of_mem _ hbm) e)
    refine ⟨s2, order2, els2, ?_, hb2, ?_⟩
    · simp only [addOps, List.map_cons, SortedSet.run, SortedSet.step, hadd]
      exact hrun
    · rw [hd2, hd1]
      simp [addElems]

/-! ### Scores that are not NaN: the two forms of the searches agree -/

theorem f64lt_of_not_nan (a b : Int) (ha : isNaN a = false) (hb : isNaN b = false) :
    f64lt a b = decide (a < b) := by
  simp [f64lt, ha, hb]

theorem f64le_of_not_nan (a b : Int) (ha : isNaN a = false) (hb : isNaN b = false) :
    f64le a b = decide (a ≤ b) := by
  simp [f64le, ha, hb]

theorem f64eq_of_not_nan (a b : Int) (ha : isNaN a = false) (hb : isNaN b = false) :
    f64eq a b = decide (a = b) := by
  simp [f64eq, ha, hb]

theorem keyLessF_eq (n : node) (score : Int) (member : Bytes) (hn : isNaN n.Score = false)
    (hs : isNaN score = false) : keyLessF n score member = keyLess n score member := by
  unfold keyLessF keyLess
  rw [f64lt_of_not_nan _ _ hn hs, f64eq_of_not_nan _ _ hn hs]

/-- Two tests that agree on the nodes of the heap give the same walk. -/
theorem walk_congr (nodes : List node) (i : Nat) (c1 c2 : Level → node → Int → Bool)
    (h : ∀ lv n r, n ∈ nodes → c1 lv n r = c2 lv n r) :
    ∀ (fuel x : Nat) (r : Int), walk nodes i c1 fuel x r = walk nodes i c2 fuel x r := by
  intro fuel
  induction fuel with
  | zero => intro x r; rfl
  | succ fuel ih =>
    intro x r
    unfold walk
    cases getLevel nodes x i with
    | none => rfl
    | some lv =>
      simp only []
      cases lv.forward with
      | none => rfl
      | some f =>
        simp only []
        cases hf : nodes[f]? with
        | none => rfl
        | some nf =>
          simp only []
          rw [h lv nf r (List.getElem?_mem hf), ih]

theorem search_congr (nodes : List node) (c1 c2 : Level → node → Int → Bool) (fuel : Nat)
    (h : ∀ lv n r, n ∈ nodes → c1 lv n r = c2 lv n r) :
    ∀ (k x : Nat) (r : Int), search nodes c1 fuel k x r = search nodes c2 fuel k x r := by
  intro k
  induction k with
  | zero => intro x r; rfl
  | succ k ih =>
    intro x r
    unfold search
    rw [walk_congr nodes k c1 c2 h]
    cases walk nodes k c2 fuel x r with
    | panic => rfl
    | outOfFuel => rfl
    | ok p =>
      simp only []
      rw [ih]

/-- On a heap without NaN and for a score that is not NaN, `insertF` is
`insert`. -/
theorem insertF_eq (s : skipList) (member : Bytes) (score : Int) (level : Nat)
    (hh : ∀ n ∈ s.nodes, isNaN n.Score = false) (hs : isNaN score = false) :
    s.insertF member score level = s.insert member score level := by
  unfold skipList.insertF skipList.insert
  rw [search_congr s.nodes (fun _ nf _ => keyLessF nf score member)
    (fun _ nf _ => keyLess nf score member) (s.nodes.length + 1)
    (fun _ n _ hn => keyLessF_eq n score member (hh n hn) hs)]

theorem setLevel_scores (Q : Int → Prop) (nodes : List node) (x i : Nat) (lv : Level)
    (h : ∀ n ∈ nodes, Q n.Score) : ∀ n ∈ setLevel nodes x i lv, Q n.Score := by
  unfold setLevel
  cases hx : nodes[x]? with
  | none => exact h
  | some nx =>
    intro n hn
    rcases List.mem_or_eq_of_mem_set hn with h1 | h1
    · exact h n h1
    · rw [h1]
      exact h nx (List.getElem?_mem hx)

theorem setBackward_scores (Q : Int → Prop) (nodes : List node) (x : Nat) (b : Option Nat)
    (h : ∀ n ∈ nodes, Q n.Score) : ∀ n ∈ setBackward nodes x b, Q n.Score := by
  unfold setBackward
  cases hx : nodes[x]? with
  | none => exact h
  | some nx =>
    intro n hn
    rcases List.mem_or_eq_of_mem_set hn with h1 | h1
    · exact h n h1
    · rw [h1]
      exact h nx (List.getElem?_mem hx)

theorem extendLoop_scores (Q : Int → Prop) (header : Nat) (length : Int) :
    ∀ (cnt i : Nat) (nodes nodes1 : List node), extendLoop header length cnt i nodes = some nodes1 →
      (∀ n ∈ nodes, Q n.Score) → ∀ n ∈ nodes1, Q n.Score := by
  intro cnt
  induction cnt with
  | zero =>
    intro i nodes nodes1 h hq
    have : nodes = nodes1 := Option.some.inj h
    rw [← this]
    exact hq
  | succ cnt ih =>
    intro i nodes nodes1 h hq
    unfold extendLoop at h
    cases hl : getLevel nodes header i with
    | none => rw [hl] at h; exact Option.noConfusion h
    | some lv =>
      rw [hl] at h
      exact ih _ _ _ h (setLevel_scores Q nodes header i _ hq)

theorem linkLoop_scores (Q : Int → Prop) (x : Nat) (update : List Nat) (rank : List Int) :
    ∀ (cnt i : Nat) (nodes : List node) (acc : List Level) (nodes1 : List node)
      (acc1 : List Level), linkLoop x update rank cnt i nodes acc = some (nodes1, acc1) →
      (∀ n ∈ nodes, Q n.Score) → ∀ n ∈ nodes1, Q n.Score := by
  intro cnt
  induction cnt with
  | zero =>
    intro i nodes acc nodes1 acc1 h hq
    have : (nodes, acc) = (nodes1, acc1) := Option.some.inj h
    have h1 : nodes = nodes1 := congrArg Prod.fst this
    rw [← h1]
    exact hq
  | succ cnt ih =>
    intro i nodes acc nodes1 acc1 h hq
    unfold linkLoop at h
    split at h
    · split at h
      · exact Option.noConfusion h
      · exact ih _ _ _ _ _ h (setLevel_scores Q nodes _ i _ hq)
    · exact Option.noConfusion h

theorem bumpLoop_scores (Q : Int → Prop) (update : List Nat) :
    ∀ (cnt i : Nat) (nodes nodes1 : List node), bumpLoop update cnt i nodes = some nodes1 →
      (∀ n ∈ nodes, Q n.Score) → ∀ n ∈ nodes1, Q n.Score := by
  intro cnt
  induction cnt with
  | zero =>
    intro i nodes nodes1 h hq
    have : nodes = nodes1 := Option.some.inj h
    rw [← this]
    exact hq
  | succ cnt ih =>
    intro i nodes nodes1 h hq
    unfold bumpLoop at h
    split at h
    · exact Option.noConfusion h
    · split at h
      · exact Option.noConfusion h
      · exact ih _ _ _ h (setLevel_scores Q nodes _ i _ hq)

/-- The scores of the heap after `insert` are those before and the new one. -/
theorem insert_scores (Q : Int → Prop) (s s1 : skipList) (member : Bytes) (score : Int)
    (level x : Nat) (h : s.insert member score level = Res.ok (s1, x))
    (hq : ∀ n ∈ s.nodes, Q n.Score) (hs : Q score) : ∀ n ∈ s1.nodes, Q n.Score := by
  unfold skipList.insert at h
  split at h
  · exact Res.noConfusion h
  · exact Res.noConfusion h
  · rename_i ur _
    simp only [] at h
    split at h
    · exact Res.noConfusion h
    · rename_i nodes1 h1
      have q1 := extendLoop_scores Q _ _ _ _ _ _ h1 hq
      split at h
      · exact Res.noConfusion h
      · rename_i nodes2 lvs h2
        have q2 := linkLoop_scores Q _ _ _ _ _ _ _ _ _ h2 q1
        split at h
        · exact Res.noConfusion h
        · rename_i nodes3 h3
          have q3 := bumpLoop_scores Q _ _ _ _ _ h3 q2
          split at h
          · rename_i u0 lv0 _ _
            have q4 : ∀ nn : node, nn.Score = score → ∀ n ∈ nodes3 ++ [nn], Q n.Score := by
              intro nn hnn n hn
              rcases List.mem_append.mp hn with hn1 | hn1
              · exact q3 n hn1
              · rw [List.mem_singleton.mp hn1, hnn]
                exact hs
            split at h
            · have e := congrArg Prod.fst (Res.ok.inj h)
              simp only [] at e
              rw [← e]
              exact setBackward_scores Q _ _ _ (q4 _ rfl)
            · have e := congrArg Prod.fst (Res.ok.inj h)
              simp only [] at e
              rw [← e]
              exact q4 _ rfl
          · exact Res.noConfusion h

/-- `Add` of a new member keeps a heap without NaN when the score is not NaN. -/
theorem Add_scores (s s1 : SortedSet) (member : Bytes) (score : Int) (draws : Nat) (b : Bool)
    (hnew : member ∉ s.dict.map Element.Member)
    (h : s.Add member score draws = Res.ok (s1, b))
    (hh : ∀ n ∈ s.skipList.nodes, isNaN n.Score = false) (hs : isNaN score = false) :
    ∀ n ∈ s1.skipList.nodes, isNaN n.Score = false := by
  unfold SortedSet.Add at h
  rw [dictGet_none_of_not_mem s.dict member hnew] at h
  simp only [] at h
  cases hi : s.skipList.insert member score (randomLevel draws) with
  | panic => rw [hi] at h; exact Res.noConfusion h
  | outOfFuel => rw [hi] at h; exact Res.noConfusion h
  | ok p =>
    rw [hi] at h
    simp only [] at h
    have e := congrArg Prod.fst (Res.ok.inj h)
    simp only [] at e
    rw [← e]
    exact insert_scores (fun x => isNaN x = false) s.skipList p.1 member score
      (randomLevel draws) p.2 hi hh hs

/-- On a heap without NaN, `AddF` of a new member with a score that is not NaN
is `Add`. -/
theorem AddF_eq (s : SortedSet) (member : Bytes) (score : Int) (draws : Nat)
    (hnew : member ∉ s.dict.map Element.Member)
    (hh : ∀ n ∈ s.skipList.nodes, isNaN n.Score = false) (hs : isNaN score = false) :
    s.AddF member score draws = s.Add member score draws := by
  unfold SortedSet.AddF SortedSet.Add
  rw [dictGet_none_of_not_mem s.dict member hnew, insertF_eq s.skipList member score _ hh hs]

theorem Make_scores : ∀ n ∈ Make.skipList.nodes, isNaN n.Score = false := by
  intro n hn
  have : n = makeNode maxLevel 0 [] := by
    simpa [Make, makeSkipList] using hn
  rw [this]
  decide

/-- A list of `Add` calls with distinct new members and scores that are not NaN:
the calls on any scores (`addAllF`) are the calls of the model without NaN, they
return, and the set they build has the invariant of sets filled by `Add`. -/
theorem addAllF_Built (adds : List (Bytes × Int × Nat)) :
    ∀ (s : SortedSet) (order : List Nat) (els : List Element), s.Built order els →
      (∀ n ∈ s.skipList.nodes, isNaN n.Score = false) →
      (adds.map Prod.fst).Nodup → (∀ a ∈ adds, a.1 ∉ s.dict.map Element.Member) →
      (∀ a ∈ adds, isNaN a.2.1 = false) →
      ∃ s1 order1 els1, SortedSet.addAllF adds s = Res.ok s1 ∧
        SortedSet.run (addOps adds) s = Res.ok s1 ∧ s1.Built order1 els1 ∧
        s1.dict = (addElems adds).reverse ++ s.dict ∧
        ∀ n ∈ s1.skipList.nodes, isNaN n.Score = false := by
  induction adds with
  | nil =>
    intro s order els hb hh _ _ _
    exact ⟨s, order, els, rfl, rfl, hb, rfl, hh⟩
  | cons a rest ih =>
    intro s order els hb hh hnd hnew hnan
    simp only [List.map_cons, List.nodup_cons] at hnd
    have hnewa := hnew a (List.mem_cons_self _ _)
    have hnana := hnan a (List.mem_cons_self _ _)
    obtain ⟨s1, order1, els1, hadd, hb1, hd1⟩ := Add_Built s order els hb a.1 a.2.1 a.2.2 hnewa
    have hh1 := Add_scores s s1 a.1 a.2.1 a.2.2 true hnewa hadd hh hnana
    obtain ⟨s2, order2, els2, hF, hrun, hb2, hd2, hh2⟩ := ih s1 order1 els1 hb1 hh1 hnd.2 (by
      intro b hbm
      rw [hd1, List.map_cons, List.mem_cons]
      rintro (e | e)
      · have e2 : b.1 = a.1 := e
        exact hnd.1 (by rw [← e2]; exact List.mem_map.mpr ⟨b, hbm, rfl⟩)
      · exact hnew b (List.mem_cons_of_mem _ hbm) e)
      (fun b hb => hnan b (List.mem_cons_of_mem _ hb))
    refine ⟨s2, order2, els2, ?_, ?_, hb2, ?_, hh2⟩
    · rw [SortedSet.addAllF, AddF_eq s a.1 a.2.1 a.2.2 hnewa hh hnana, hadd]
      exact hF
    · simp only [addOps, List.map_cons, SortedSet.run, SortedSet.step, hadd]
      exact hrun
    · rw [hd2, hd1]
      simp [addElems]

/-- The sets filled from the empty set by `Add` calls with distinct members and
scores that are not NaN. -/
theorem addAllF_Make (adds : List (Bytes × Int × Nat)) (hd : (adds.map Prod.fst).Nodup)
    (hn : ∀ a ∈ adds, isNaN a.2.1 = false) :
    ∃ s order els, SortedSet.addAllF adds Make = Res.ok s ∧ s.Built order els ∧
      els.Perm (addElems adds) ∧ s.dict.length = els.length ∧ els.length = order.length ∧
      ∀ n ∈ s.skipList.nodes, isNaN n.Score = false := by
  obtain ⟨s, order, els, hF, -, hb, hdict, hh⟩ := addAllF_Built adds Make [] [] Make_Built
    Make_scores hd (fun a _ h => by simp [Make] at h) hn
  have hperm : els.Perm (addElems adds) := by
    have h1 := hb.perm
    rw [hdict] at h1
    have h2 : Make.dict = [] := rfl
    rw [h2, List.append_nil] at h1
    exact h1.trans (List.reverse_perm _)
  exact ⟨s, order, els, hF, hb, hperm, hb.perm.length_eq.symm, els_length _ _ _ hb.elems, hh⟩
/-! ### C19: `Range` by rank -/

/-- C19 (amended): on a sorted set filled by `Add` calls with pairwise distinct
members and scores that are not NaN, for every `start` and `stop` with
`0 ≤ start < Len()` and `start ≤ stop ≤ Len()`, `Range(start, stop, desc)`
returns without panic and within the loop budget exactly `stop - start`
elements: with `els` the members in ascending (score, member) order, the
elements of ranks `start` to `stop - 1` of `els` when `desc` is false and of the
reverse of `els` when `desc` is true. -/
theorem range_by_rank (adds : List (Bytes × Int × Nat)) (hd : (adds.map Prod.fst).Nodup)
    (hn : ∀ a ∈ adds, isNaN a.2.1 = false) :
    ∃ (s : SortedSet) (els : List Element), SortedSet.addAllF adds Make = Res.ok s ∧
      els.Perm (addElems adds) ∧ els.Pairwise elemLt ∧ s.Len = (els.length : Int) ∧
      ∀ start stop : Int, 0 ≤ start → start < s.Len → start ≤ stop → stop ≤ s.Len →
        s.Range start stop false = Res.ok ((els.drop start.toNat).take (stop - start).toNat) ∧
        s.Range start stop true =
          Res.ok ((els.reverse.drop start.toNat).take (stop - start).toNat) ∧
        ((els.drop start.toNat).take (stop - start).toNat).length = (stop - start).toNat ∧
        ((els.reverse.drop start.toNat).take (stop - start).toNat).length =
          (stop - start).toNat := by
  obtain ⟨s, order, els, hrun, hb, hperm, hlen1, hlen2, -⟩ := addAllF_Make adds hd hn
  refine ⟨s, els, hrun, hperm, hb.sorted, by unfold SortedSet.Len; rw [hlen1], ?_⟩
  intro start stop h0 h1 h2 h3
  unfold SortedSet.Len at h1 h3
  rw [hlen1, hlen2] at h1 h3
  obtain ⟨a, rfl⟩ := Int.eq_ofNat_of_zero_le h0
  obtain ⟨b, rfl⟩ := Int.eq_ofNat_of_zero_le (le_trans h0 h2)
  have ha : a < order.length := by exact_mod_cast h1
  have hab : a ≤ b := by exact_mod_cast h2
  have hbl : b ≤ order.length := by exact_mod_cast h3
  obtain ⟨r1, r2⟩ := Range_ranked s order els hb.ranked hb.elems (by rw [hlen1, hlen2]) a b ha hab hbl
  have hcnt : ((b : Int) - (a : Int)).toNat = b - a := by omega
  rw [hcnt, Int.toNat_ofNat]
  refine ⟨r1, r2, ?_, ?_⟩
  · rw [List.length_take, List.length_drop]; omega
  · rw [List.length_take, List.length_drop, List.length_reverse]; omega

set_option maxRecDepth 100000 in
/-- C19 (amended), on the calls `Add("b", 2)`, `Add("a", 1)`, `Add("c", 2)`. -/
theorem range_by_rank_witness :
    (([([98], 2, 0), ([97], 1, 1), ([99], 2, 0)] : List (Bytes × Int × Nat)).map Prod.fst).Nodup ∧
    (∀ a ∈ ([([98], 2, 0), ([97], 1, 1), ([99], 2, 0)] : List (Bytes × Int × Nat)),
      isNaN a.2.1 = false) ∧
    ∃ (s : SortedSet) (els : List Element),
      SortedSet.addAllF [([98], 2, 0), ([97], 1, 1), ([99], 2, 0)] Make = Res.ok s ∧
      els.Perm (addElems [([98], 2, 0), ([97], 1, 1), ([99], 2, 0)]) ∧
      els.Pairwise elemLt ∧ s.Len = (els.length : Int) ∧
      ∀ start stop : Int, 0 ≤ start → start < s.Len → start ≤ stop → stop ≤ s.Len →
        s.Range start stop false = Res.ok ((els.drop start.toNat).take (stop - start).toNat) ∧
        s.Range start stop true =
          Res.ok ((els.reverse.drop start.toNat).take (stop - start).toNat) ∧
        ((els.drop start.toNat).take (stop - start).toNat).length = (stop - start).toNat ∧
        ((els.reverse.drop start.toNat).take (stop - start).toNat).length =
          (stop - start).toNat :=
  ⟨by decide, by decide,
   range_by_rank [([98], 2, 0), ([97], 1, 1), ([99], 2, 0)] (by decide) (by decide)⟩

set_option maxRecDepth 100000 in
/-- C19 (counterexample).  With `start = stop = Len()` the test
`start < 0 || start >= size` of `ForEach` panics: `Range(0, 0, desc)` on the
empty set and `Range(1, 1, desc)` on a set with one member do not return, while
`Range(0, 1, desc)` on that set returns its member.  With a NaN score the order
is lost: after `Add("b", 1)`, `Add("a", NaN)`, `Add("c", 0)`, `Add("d", 2)`
the call `Range(0, 4, false)` returns c, d, a, b, with the score 2 before the
score 1. -/
theorem range_fails_at_len_and_with_nan :
    Make.Len = 0 ∧ Make.Range 0 0 false = Res.panic ∧ Make.Range 0 0 true = Res.panic ∧
    (∃ s, SortedSet.addAllF [([97], 1, 0)] Make = Res.ok s ∧ s.Len = 1 ∧
      s.Range 1 1 false = Res.panic ∧ s.Range 1 1 true = Res.panic ∧
      s.Range 0 1 false = Res.ok [⟨[97], 1⟩] ∧ s.Range 0 1 true = Res.ok [⟨[97], 1⟩]) ∧
    isNaN (infScore + 1) = true ∧
    ∃ s, SortedSet.addAllF
        [([98], 1, 0), ([97], infScore + 1, 0), ([99], 0, 0), ([100], 2, 0)] Make = Res.ok s ∧
      s.Len = 4 ∧
      s.Range 0 4 false =
        Res.ok [⟨[99], 0⟩, ⟨[100], 2⟩, ⟨[97], infScore + 1⟩, ⟨[98], 1⟩] := by
  refine ⟨rfl, by decide, by decide, ⟨_, rfl, ?_⟩, by decide, ⟨_, rfl, ?_⟩⟩
  · decide
  · decide

/-! ### Ranges by score -/

/-- C20 at the failing input: in the set with "a" at score 1 and "b" at score 2
the only member with a score in [1, 1] is "a"; with offset 1 nothing is left of
it, yet `RangeByScore(min, max, 1, -1, false)` returns "b", whose score 2 is not
within the border. -/
theorem rangeByScore_offset_leaves_border :
    ∃ s, SortedSet.run [Op.add [97] 1 0, Op.add [98] 2 0] Make = Res.ok s ∧
      s.RangeByScore ⟨1, false⟩ ⟨1, false⟩ 0 (-1) false = Res.ok [⟨[97], 1⟩] ∧
      s.RangeByScore ⟨1, false⟩ ⟨1, false⟩ 1 (-1) false = Res.ok [⟨[98], 2⟩] ∧
      ScoreBorder.greater ⟨1, false⟩ 2 = false := by
  refine ⟨_, rfl, ?_⟩
  decide

/-! ### `RangeByScore` on a set filled by `Add` calls -/

theorem less_mono (b : ScoreBorder) (x y : Int) (hy : isNaN y = false) (hxy : x ≤ y)
    (h : b.less x = true) : b.less y = true := by
  unfold ScoreBorder.less f64lt f64le at *
  rw [hy]
  cases hE : b.Exclude <;> rw [hE] at h <;>
    simp only [Bool.false_eq_true, if_false, if_true, Bool.and_eq_true, Bool.not_eq_true',
      decide_eq_true_eq] at h ⊢ <;>
    exact ⟨⟨h.1.1, trivial⟩, by omega⟩

theorem greater_anti (b : ScoreBorder) (x y : Int) (hx : isNaN x = false) (hxy : x ≤ y)
    (h : b.greater y = true) : b.greater x = true := by
  unfold ScoreBorder.greater f64lt f64le at *
  rw [hx]
  cases hE : b.Exclude <;> rw [hE] at h <;>
    simp only [Bool.false_eq_true, if_false, if_true, Bool.and_eq_true, Bool.not_eq_true',
      decide_eq_true_eq] at h ⊢ <;>
    exact ⟨⟨trivial, h.1.2⟩, by omega⟩

theorem less_greater_le (min max : ScoreBorder) (x : Int) (h1 : min.less x = true)
    (h2 : max.greater x = true) :
    isNaN min.Value = false ∧ isNaN max.Value = false ∧ min.Value ≤ max.Value ∧
      ((min.Exclude = true ∨ max.Exclude = true) → min.Value < max.Value) := by
  unfold ScoreBorder.less f64lt f64le at h1
  unfold ScoreBorder.greater f64lt f64le at h2
  split at h1 <;> split at h2 <;>
    simp only [Bool.and_eq_true, Bool.not_eq_true', decide_eq_true_eq] at h1 h2 <;>
    refine ⟨h1.1.1, h2.1.2, by omega, ?_⟩ <;> intro hh <;> first | omega | simp_all

theorem filter_eq_takeWhile {α : Type} (G : α → Bool) :
    ∀ (l : List α), l.Pairwise (fun a b => G b = true → G a = true) →
      l.filter G = l.takeWhile G := by
  intro l
  induction l with
  | nil => intro _; rfl
  | cons a t ih =>
    intro h
    rw [List.pairwise_cons] at h
    by_cases ha : G a = true
    · rw [List.filter_cons_of_pos ha, List.takeWhile_cons_of_pos ha, ih h.2]
    · rw [List.filter_cons_of_neg ha, List.takeWhile_cons_of_neg ha, List.filter_eq_nil_iff]
      intro b hb hgb
      exact ha (h.1 b hb hgb)

theorem split_mono {α : Type} (L : α → Bool) :
    ∀ (l : List α), l.Pairwise (fun a b => L a = true → L b = true) →
      ∃ k, k ≤ l.length ∧ (∀ e ∈ l.take k, L e = false) ∧ (∀ e ∈ l.drop k, L e = true) := by
  intro l
  induction l with
  | nil => intro _; exact ⟨0, Nat.le_refl _, by simp, by simp⟩
  | cons a t ih =>
    intro h
    rw [List.pairwise_cons] at h
    by_cases ha : L a = true
    · refine ⟨0, Nat.zero_le _, by simp, ?_⟩
      intro e he
      rw [List.drop_zero, List.mem_cons] at he
      rcases he with rfl | he
      · exact ha
      · exact h.1 e he ha
    · obtain ⟨k, hk, h1, h2⟩ := ih h.2
      refine ⟨k + 1, by simp only [List.length_cons]; omega, ?_, ?_⟩
      · intro e he
        rw [List.take_succ_cons, List.mem_cons] at he
        rcases he with rfl | he
        · simpa using ha
        · exact h1 e he
      · intro e he
        rw [List.drop_succ_cons] at he
        exact h2 e he

theorem mem_els_of_mem (nodes : List node) (o : List Nat) (l : List Element)
    (h : o.map (elemAt nodes) = l.map some) (y : Nat) (hy : y ∈ o) (n : node)
    (hn : nodes[y]? = some n) : n.Element ∈ l := by
  have hm : elemAt nodes y ∈ o.map (elemAt nodes) := List.mem_map_of_mem _ hy
  rw [h] at hm
  unfold elemAt at hm
  rw [hn] at hm
  simpa using hm

theorem elemLt_score_le (a b : Element) (h : elemLt a b) : a.Score ≤ b.Score := by
  unfold elemLt keyLt at h
  simp only [Bool.or_eq_true, Bool.and_eq_true, decide_eq_true_eq] at h
  rcases h with h | h
  · exact le_of_lt h
  · exact le_of_eq h.1

theorem byScoreLoop_asc (s : skipList) (order : List Nat) (els : List Element)
    (hwf : s.WF order) (hel : order.map (elemAt s.nodes) = els.map some)
    (min max : ScoreBorder) (limit : Int) (hl : limit < 0) :
    ∀ (fuel p x : Nat) (i : Int) (acc : List Element), order[p]? = some x →
      order.length < p + fuel →
      ∃ e, els[p]? = some e ∧
        byScoreLoop s.nodes min max limit false fuel (some x) i acc =
          Res.ok (acc ++ e :: (els.drop (p + 1)).takeWhile
            (fun e => min.less e.Score && max.greater e.Score)) := by
  intro fuel
  induction fuel with
  | zero =>
    intro p x i acc hx hf
    have := (List.getElem?_eq_some.mp hx).1
    omega
  | succ fuel ih =>
    intro p x i acc hx hf
    obtain ⟨n, hn, he⟩ := els_at s.nodes order els hel p x hx
    refine ⟨n.Element, he, ?_⟩
    have hxm : x ∈ 0 :: order := List.mem_cons_of_mem _ (List.getElem?_mem hx)
    obtain ⟨lv, hlv⟩ := getLevel_of_lt s.nodes x 0 (hwf.ht_pos _ hxm)
    have hfw := fwdOf_of_getLevel _ _ _ _ hlv
    rw [hwf.next0 (p + 1) x (by rw [List.getElem?_cons_succ]; exact hx)] at hfw
    rw [List.getElem?_cons_succ] at hfw
    unfold getLevel at hlv
    simp only [hn] at hlv
    have hstep : stepNode s.nodes false x = some lv.forward := by
      unfold stepNode
      simp only [hn, hlv, Bool.false_eq_true, if_false]
    unfold byScoreLoop
    simp only [hl, or_true, if_true, hn, hstep]
    cases hy : order[p + 1]? with
    | none =>
      rw [hy] at hfw
      rw [← hfw]
      have hlen : els.length ≤ p + 1 := by
        rw [els_length _ _ _ hel]; exact List.getElem?_eq_none_iff.mp hy
      rw [List.drop_eq_nil_of_le hlen, List.takeWhile_nil]
    | some y =>
      rw [hy] at hfw
      rw [← hfw]
      have hpl : p + 1 < order.length := (List.getElem?_eq_some.mp hy).1
      obtain ⟨e2, he2, hrec⟩ := ih (p + 1) y (i + 1) (acc ++ [n.Element]) hy (by omega)
      obtain ⟨ny, hny, hey⟩ := els_at s.nodes order els hel (p + 1) y hy
      rw [hey] at he2
      have he2 : e2 = ny.Element := (Option.some.inj he2).symm
      subst he2
      have hpl2 : p + 1 < els.length := by rw [els_length _ _ _ hel]; exact hpl
      have hd : els.drop (p + 1) = ny.Element :: els.drop (p + 1 + 1) := by
        rw [List.drop_eq_getElem_cons hpl2]
        rw [List.getElem?_eq_getElem hpl2] at hey
        rw [Option.some.inj hey]
      simp only [hny]
      rw [hd, List.takeWhile_cons]
      by_cases hc : (!min.less ny.Score) = true ∨ (!max.greater ny.Score) = true
      · rw [if_pos hc]
        have hf : ¬ ((min.less ny.Element.Score && max.greater ny.Element.Score) = true) := by
          have e1 : ny.Element.Score = ny.Score := rfl
          rw [e1]
          rcases hc with hc | hc
          · simp only [Bool.not_eq_true'] at hc; simp [hc]
          · simp only [Bool.not_eq_true'] at hc; simp [hc]
        rw [if_neg hf]
      · rw [if_neg hc]
        have hf : (min.less ny.Element.Score && max.greater ny.Element.Score) = true := by
          have e1 : ny.Element.Score = ny.Score := rfl
          rw [e1]
          simp only [Bool.not_eq_true', not_or, Bool.not_eq_false] at hc
          simp [hc.1, hc.2]
        rw [if_pos hf, hrec, List.append_assoc]
        rfl

theorem hasInRange_built (s : SortedSet) (order : List Nat) (els : List Element)
    (hb : s.Built order els) (hnan : ∀ e ∈ els, isNaN e.Score = false)
    (min max : ScoreBorder) :
    (s.skipList.hasInRange min max = some false ∧
      els.filter (fun e => min.less e.Score && max.greater e.Score) = []) ∨
    (s.skipList.hasInRange min max = some true ∧ ∃ e ∈ els, min.less e.Score = true) := by
  have hwf := hb.ranked.wf
  have hlen := els_length _ _ _ hb.elems
  have hsc : ∀ (i j : Nat) (hi : i < els.length) (hj : j < els.length), i ≤ j →
      els[i].Score ≤ els[j].Score := by
    intro i j hi hj hij
    rcases Nat.lt_or_eq_of_le hij with h | h
    · exact elemLt_score_le _ _ (List.pairwise_iff_getElem.mp hb.sorted i j hi hj h)
    · subst h; exact le_refl _
  unfold skipList.hasInRange
  by_cases h1 : f64lt max.Value min.Value = true ∨
      (f64eq min.Value max.Value = true ∧ (min.Exclude = true ∨ max.Exclude = true))
  · left
    rw [if_pos h1]
    refine ⟨rfl, ?_⟩
    rw [List.filter_eq_nil_iff]
    intro e _ he
    simp only [Bool.and_eq_true] at he
    obtain ⟨n1, n2, hle, hlt⟩ := less_greater_le min max e.Score he.1 he.2
    rw [f64lt_of_not_nan _ _ n2 n1, f64eq_of_not_nan _ _ n1 n2] at h1
    simp only [decide_eq_true_eq] at h1
    rcases h1 with h1 | ⟨h1, h2⟩
    · omega
    · have := hlt h2; omega
  · rw [if_neg h1, hb.ranked.tail]
    cases ho : order[order.length - 1]? with
    | none =>
      left
      refine ⟨rfl, ?_⟩
      have h0 : order.length = 0 := by
        have := List.getElem?_eq_none_iff.mp ho; omega
      have : els = [] := List.length_eq_zero.mp (by rw [hlen, h0])
      rw [this]; rfl
    | some t =>
      have hpos : order.length - 1 < order.length := (List.getElem?_eq_some.mp ho).1
      obtain ⟨nt, hnt, het⟩ := els_at _ _ _ hb.elems _ _ ho
      have hlt : order.length - 1 < els.length := by rw [hlen]; exact hpos
      rw [List.getElem?_eq_getElem hlt] at het
      have het := Option.some.inj het
      simp only [hnt]
      by_cases h2 : (!min.less nt.Score) = true
      · left
        rw [if_pos h2]
        refine ⟨rfl, ?_⟩
        rw [List.filter_eq_nil_iff]
        intro e he hin
        simp only [Bool.and_eq_true] at hin
        obtain ⟨i, hi, rfl⟩ := List.mem_iff_getElem.mp he
        have hle := hsc i (order.length - 1) hi hlt (by omega)
        rw [het] at hle
        have := less_mono min _ _ (hnan _ (by rw [← het]; exact List.getElem_mem hlt)) hle hin.1
        have e1 : nt.Element.Score = nt.Score := rfl
        rw [e1] at this
        rw [this] at h2
        exact absurd h2 (by decide)
      · rw [if_neg h2]
        have hLt : min.less nt.Element.Score = true := by
          have e1 : nt.Element.Score = nt.Score := rfl
          rw [e1]
          simpa using h2
        have hex : ∃ e ∈ els, min.less e.Score = true :=
          ⟨nt.Element, by rw [← het]; exact List.getElem_mem hlt, hLt⟩
        obtain ⟨lv, hlv⟩ := getLevel_of_lt s.skipList.nodes 0 0
          (hwf.ht_pos 0 (List.mem_cons_self _ _))
        have hfw := fwdOf_of_getLevel _ _ _ _ hlv
        rw [hwf.next0 0 0 (List.getElem?_cons_zero)] at hfw
        simp only [Nat.zero_add, List.getElem?_cons_succ] at hfw
        rw [hwf.header]
        simp only [hlv]
        have h0 : 0 < order.length := by omega
        have ho0 : order[0]? = some order[0] := List.getElem?_eq_getElem h0
        rw [ho0] at hfw
        rw [← hfw]
        obtain ⟨nf, hnf, hef⟩ := els_at _ _ _ hb.elems _ _ ho0
        have h0e : 0 < els.length := by rw [hlen]; exact h0
        rw [List.getElem?_eq_getElem h0e] at hef
        have hef := Option.some.inj hef
        simp only [hnf]
        by_cases h3 : (!max.greater nf.Score) = true
        · left
          rw [if_pos h3]
          refine ⟨rfl, ?_⟩
          rw [List.filter_eq_nil_iff]
          intro e he hin
          simp only [Bool.and_eq_true] at hin
          obtain ⟨i, hi, rfl⟩ := List.mem_iff_getElem.mp he
          have hle := hsc 0 i h0e hi (Nat.zero_le _)
          rw [hef] at hle
          have := greater_anti max _ _ (hnan _ (by rw [← hef]; exact List.getElem_mem h0e))
            hle hin.2
          have e1 : nf.Element.Score = nf.Score := rfl
          rw [e1] at this
          rw [this] at h3
          exact absurd h3 (by decide)
        · right
          rw [if_neg h3]
          exact ⟨rfl, hex⟩

theorem RangeByScore_built (s : SortedSet) (order : List Nat) (els : List Element)
    (hb : s.Built order els) (hnan : ∀ e ∈ els, isNaN e.Score = false)
    (min max : ScoreBorder) (limit : Int) (hl : limit < 0) :
    s.RangeByScore min max 0 limit false =
      Res.ok (els.filter (fun e => min.less e.Score && max.greater e.Score)) := by
  have hwf := hb.ranked.wf
  have hlen := els_length _ _ _ hb.elems
  have hl0 : ¬ (limit = 0 ∨ (0 : Int) < 0) := by omega
  unfold SortedSet.RangeByScore
  rw [if_neg hl0]
  simp only [Bool.false_eq_true, if_false]
  unfold skipList.getFirstInScoreRange
  rcases hasInRange_built s order els hb hnan min max with ⟨hh, hf⟩ | ⟨hh, e0, he0, hL0⟩
  · simp only [hh]
    rw [hf]
    unfold offsetLoop byScoreLoop
    rfl
  · simp only [hh]
    -- the scores along the list
    have hmono : els.Pairwise (fun a b => min.less a.Score = true → min.less b.Score = true) := by
      refine (List.Pairwise.and_mem.mp hb.sorted).imp ?_
      intro a b hab
      exact less_mono min _ _ (hnan _ hab.2.1) (elemLt_score_le _ _ hab.2.2)
    obtain ⟨k, hk, hpreL, hpostL⟩ := split_mono (fun e => min.less e.Score) els hmono
    have hklt : k < els.length := by
      rcases Nat.lt_or_eq_of_le hk with h | h
      · exact h
      · exfalso
        rw [h, List.take_length] at hpreL
        have := hpreL e0 he0
        simp only at this
        rw [hL0] at this
        exact absurd this (by decide)
    have hko : k < order.length := by rw [← hlen]; exact hklt
    have hpre : ∀ y ∈ order.take k, ∀ n, s.skipList.nodes[y]? = some n →
        (fun n : node => !min.less n.Score) n = true := by
      intro y hy n hn
      have hm := mem_els_of_mem s.skipList.nodes (order.take k) (els.take k)
        (by rw [List.map_take, List.map_take, hb.elems]) y hy n hn
      have := hpreL _ hm
      have e1 : n.Element.Score = n.Score := rfl
      simp only [e1] at this
      simp [this]
    have hpost : ∀ y ∈ order.drop k, ∀ n, s.skipList.nodes[y]? = some n →
        (fun n : node => !min.less n.Score) n = false := by
      intro y hy n hn
      have hm := mem_els_of_mem s.skipList.nodes (order.drop k) (els.drop k)
        (by rw [List.map_drop, List.map_drop, hb.elems]) y hy n hn
      have := hpostL _ hm
      have e1 : n.Element.Score = n.Score := rfl
      simp only [e1] at this
      simp [this]
    obtain ⟨ur, hsearch, -, hur⟩ := WF_search s.skipList order (order.take k) (order.drop k) hwf
      (List.take_append_drop k order).symm (fun n => !min.less n.Score) hpre hpost
    have hur0 := hur 0 hwf.levelPos
    simp only [hsearch, hur0, Option.getD_some]
    have hprelen : (order.take k).length = k := by
      rw [List.length_take]; omega
    have hu := lastTall_zero (htOf s.skipList.nodes) (order.take k) 0
      (fun y hy => hwf.ht_pos y (List.mem_cons_of_mem _ (List.mem_of_mem_take hy)))
    rw [hprelen] at hu
    have hu2 : (0 :: order)[k]? = some (lastTall (htOf s.skipList.nodes) 0 0 (order.take k)) := by
      rw [← hu]
      have : (0 :: order) = (0 :: order.take k) ++ order.drop k := by
        rw [List.cons_append, List.take_append_drop]
      rw [this]
      exact List.getElem?_append_left (by simp only [List.length_cons, hprelen]; omega)
    obtain ⟨lv, hlv⟩ := getLevel_of_lt s.skipList.nodes _ 0
      (hwf.ht_pos _ (List.getElem?_mem hu2))
    have hfw := fwdOf_of_getLevel _ _ _ _ hlv
    rw [hwf.next0 k _ hu2, List.getElem?_cons_succ] at hfw
    have hok : order[k]? = some order[k] := List.getElem?_eq_getElem hko
    rw [hok] at hfw
    simp only [hlv, ← hfw]
    obtain ⟨nf, hnf, hef⟩ := els_at _ _ _ hb.elems _ _ hok
    rw [List.getElem?_eq_getElem hklt] at hef
    have hef := Option.some.inj hef
    simp only [hnf]
    have hsplit : els.filter (fun e => min.less e.Score && max.greater e.Score) =
        (els.drop k).takeWhile (fun e => min.less e.Score && max.greater e.Score) := by
      conv_lhs => rw [← List.take_append_drop k els]
      rw [List.filter_append]
      have h1 : (els.take k).filter (fun e => min.less e.Score && max.greater e.Score) = [] := by
        rw [List.filter_eq_nil_iff]
        intro e he hin
        have := hpreL e he
        simp only at this
        simp [this] at hin
      rw [h1, List.nil_append]
      apply filter_eq_takeWhile
      have hs2 : (els.drop k).Pairwise elemLt := hb.sorted.sublist (List.drop_sublist _ _)
      refine (List.Pairwise.and_mem.mp hs2).imp ?_
      intro a b hab hin
      simp only [Bool.and_eq_true] at hin ⊢
      refine ⟨hpostL a hab.1, ?_⟩
      exact greater_anti max _ _ (hnan _ (List.mem_of_mem_drop hab.1))
        (elemLt_score_le _ _ hab.2.2) hin.2
    rw [hsplit, List.drop_eq_getElem_cons hklt, List.takeWhile_cons, hef]
    have e1 : nf.Element.Score = nf.Score := rfl
    have hLf : min.less nf.Score = true := by
      have := hpostL nf.Element (by
        rw [← hef, List.drop_eq_getElem_cons hklt]; exact List.mem_cons_self _ _)
      simpa [e1] using this
    by_cases h3 : (!max.greater nf.Score) = true
    · rw [if_pos h3]
      have hf : ¬ ((min.less nf.Element.Score && max.greater nf.Element.Score) = true) := by
        rw [e1]
        simp only [Bool.not_eq_true'] at h3
        simp [h3]
      rw [if_neg hf]
      unfold offsetLoop byScoreLoop
      rfl
    · rw [if_neg h3]
      have hf : (min.less nf.Element.Score && max.greater nf.Element.Score) = true := by
        rw [e1]
        simp only [Bool.not_eq_true', Bool.not_eq_false] at h3
        simp [h3, hLf]
      rw [if_pos hf]
      have hoff : offsetLoop s.skipList.nodes false (s.skipList.nodes.length + 1)
          (some order[k]) 0 = Res.ok (some order[k]) := by
        unfold offsetLoop
        simp
      simp only [hoff]
      obtain ⟨e, he, hrun⟩ := byScoreLoop_asc s.skipList order els hwf hb.elems min max limit hl
        (s.skipList.nodes.length + 1) k order[k] 0 [] hok (by rw [hwf.count]; omega)
      rw [List.getElem?_eq_getElem hklt, hef] at he
      rw [hrun, ← Option.some.inj he, List.nil_append]

/-! ### C21: `RangeByScore` with a negative limit -/

set_option maxRecDepth 100000 in
/-- C21 (counterexample).  After `Add("b", 1)`, `Add("a", NaN)`, `Add("c", 0)`,
`Add("d", 2)` the level-0 chain is c, d, a, b, and the member b with score 1 is
in the set.  With the inclusive borders 1 and 1 the score 1 is within the border,
but `RangeByScore(min, max, 0, -1, false)` returns the empty list: the search of
`getFirstInScoreRange` stops before d, whose score 2 is above `max`.  With the
inclusive borders 0 and 2 it returns c and d only: the loop of `ForEachByScore`
breaks at the NaN score of a, before b. -/
theorem rangeByScore_misses_after_nan :
    isNaN (infScore + 1) = true ∧
    ∃ s, SortedSet.addAllF
        [([98], 1, 0), ([97], infScore + 1, 0), ([99], 0, 0), ([100], 2, 0)] Make = Res.ok s ∧
      (⟨[98], 1⟩ : Element) ∈ s.dict ∧
      ScoreBorder.less ⟨1, false⟩ 1 = true ∧ ScoreBorder.greater ⟨1, false⟩ 1 = true ∧
      s.RangeByScore ⟨1, false⟩ ⟨1, false⟩ 0 (-1) false = Res.ok [] ∧
      ScoreBorder.less ⟨0, false⟩ 1 = true ∧ ScoreBorder.greater ⟨2, false⟩ 1 = true ∧
      s.RangeByScore ⟨0, false⟩ ⟨2, false⟩ 0 (-1) false = Res.ok [⟨[99], 0⟩, ⟨[100], 2⟩] := by
  refine ⟨by decide, ⟨_, rfl, ?_⟩⟩
  decide

/-- C21 (amended): on a sorted set filled by `Add` calls with pairwise distinct
members and scores that are not NaN, for all borders `min` and `max` and every
`limit < 0`, `RangeByScore(min, max, 0, limit, false)` returns without panic and
within the loop budget the members whose score is within the border
(`min.less(score) && max.greater(score)`), in ascending (score, member) order:
with `els` the members in ascending order, the elements of `els` that pass the
test, in the order of `els`.  With `limit == 0` the result is the empty list on
every set. -/
theorem rangeByScore_no_limit (adds : List (Bytes × Int × Nat))
    (hd : (adds.map Prod.fst).Nodup) (hn : ∀ a ∈ adds, isNaN a.2.1 = false) :
    (∃ (s : SortedSet) (els : List Element), SortedSet.addAllF adds Make = Res.ok s ∧
      els.Perm (addElems adds) ∧ els.Pairwise elemLt ∧
      ∀ (min max : ScoreBorder) (limit : Int), limit < 0 →
        s.RangeByScore min max 0 limit false =
          Res.ok (els.filter (fun e => min.less e.Score && max.greater e.Score))) ∧
    ∀ (t : SortedSet) (min max : ScoreBorder) (offset : Int) (desc : Bool),
      t.RangeByScore min max offset 0 desc = Res.ok [] := by
  constructor
  · obtain ⟨s, order, els, hrun, hb, hperm, -, -, -⟩ := addAllF_Make adds hd hn
    refine ⟨s, els, hrun, hperm, hb.sorted, ?_⟩
    intro min max limit hl
    refine RangeByScore_built s order els hb ?_ min max limit hl
    intro e he
    have hm := hperm.mem_iff.mp he
    unfold addElems at hm
    rw [List.mem_map] at hm
    obtain ⟨a, ha, rfl⟩ := hm
    exact hn a ha
  · intro t min max offset desc
    simp [SortedSet.RangeByScore]

set_option maxRecDepth 100000 in
/-- C21 (amended), on the calls `Add("b", 2)`, `Add("a", 1)`, `Add("c", 2)`. -/
theorem rangeByScore_no_limit_witness :
    (([([98], 2, 0), ([97], 1, 1), ([99], 2, 0)] : List (Bytes × Int × Nat)).map Prod.fst).Nodup ∧
    (∀ a ∈ ([([98], 2, 0), ([97], 1, 1), ([99], 2, 0)] : List (Bytes × Int × Nat)),
      isNaN a.2.1 = false) ∧
    (∃ (s : SortedSet) (els : List Element),
      SortedSet.addAllF [([98], 2, 0), ([97], 1, 1), ([99], 2, 0)] Make = Res.ok s ∧
      els.Perm (addElems [([98], 2, 0), ([97], 1, 1), ([99], 2, 0)]) ∧ els.Pairwise elemLt ∧
      ∀ (min max : ScoreBorder) (limit : Int), limit < 0 →
        s.RangeByScore min max 0 limit false =
          Res.ok (els.filter (fun e => min.less e.Score && max.greater e.Score))) ∧
    ∀ (t : SortedSet) (min max : ScoreBorder) (offset : Int) (desc : Bool),
      t.RangeByScore min max offset 0 desc = Res.ok [] :=
  ⟨by decide, by decide,
   rangeByScore_no_limit [([98], 2, 0), ([97], 1, 1), ([99], 2, 0)] (by decide) (by decide)⟩

/-! ### C22 to C24: `Count` and range removals -/

set_option maxRecDepth 100000 in
/-- C22 at the failing input: on the empty set `Count(min, max)` panics for every
pair of borders, because it calls `ForEach(0, Len(), ...)` and `ForEach` panics
when `start >= size`; on a set of three members it returns the number of members
within the border. -/
theorem count_empty_set_panics :
    (∀ (min max : ScoreBorder), Make.Count min max = Res.panic) ∧ Make.Len = 0 ∧
    ∃ s, SortedSet.run [Op.add [97] 1 0, Op.add [98] 2 0, Op.add [99] 3 0] Make = Res.ok s ∧
      s.Count ⟨2, false⟩ ⟨3, false⟩ = Res.ok 2 ∧
      s.Count ⟨-infScore, false⟩ ⟨infScore, false⟩ = Res.ok 3 ∧
      s.Count ⟨5, false⟩ ⟨9, false⟩ = Res.ok 0 := by
  refine ⟨fun min max => rfl, rfl, _, rfl, ?_⟩
  decide

set_option maxRecDepth 100000 in
/-- C23 at the failing input: after `Add("a", 1)`, `Add("b", 2)` the call
`RemoveByRank(0, 1)` returns 1, `Get("a")` reports the member missing and `Len()`
is 1, but `Range(0, Len(), false)` returns the removed member `("a", 1)` and not
`("b", 2)`. -/
theorem removeByRank_leaves_member_in_range :
    ∃ s s1, SortedSet.run [Op.add [97] 1 0, Op.add [98] 2 0] Make = Res.ok s ∧
      s.RemoveByRank 0 1 = Res.ok (s1, 1) ∧
      s1.Get [97] = none ∧ s1.Get [98] = some ⟨[98], 2⟩ ∧ s1.Len = 1 ∧
      s1.Range 0 s1.Len false = Res.ok [⟨[97], 1⟩] := by
  refine ⟨_, _, rfl, rfl, ?_⟩
  decide

set_option maxRecDepth 100000 in
/-- C24 at the failing inputs: after `Add("a", 1)`, `Add("b", 2)` the call
`RemoveByScore` with the inclusive borders 1 and 1 returns 1 and `Get("a")`
reports the member missing, but `Range(0, Len(), false)` returns the removed
member `("a", 1)` and not `("b", 2)`; after `Add("a", 1)`, `Remove("a")` the set
is empty and the same call returns 1. -/
theorem removeByScore_leaves_member_in_range :
    (∃ s s1, SortedSet.run [Op.add [97] 1 0, Op.add [98] 2 0] Make = Res.ok s ∧
      s.RemoveByScore ⟨1, false⟩ ⟨1, false⟩ = Res.ok (s1, 1) ∧
      s1.Get [97] = none ∧ s1.Get [98] = some ⟨[98], 2⟩ ∧ s1.Len = 1 ∧
      s1.Range 0 s1.Len false = Res.ok [⟨[97], 1⟩]) ∧
    ∃ s s1, SortedSet.run [Op.add [97] 1 0, Op.remove [97]] Make = Res.ok s ∧
      s.Len = 0 ∧ s.Get [97] = none ∧
      s.RemoveByScore ⟨1, false⟩ ⟨1, false⟩ = Res.ok (s1, 1) := by
  refine ⟨⟨_, _, rfl, rfl, ?_⟩, ⟨_, _, rfl, ?_, ?_, rfl⟩⟩
  · decide
  · decide
  · decide

/-! ### C30: the keys `RENAME` locks -/

/-- C30 at the failing input: for every `src` and `dest`, `prepareRename` returns
`dest` as the only key to lock for writing and `src` as a key to lock for
reading; for `src = "a"` and `dest = "b"` the write keys do not contain `src`. -/
theorem prepareRename_src_not_write_key :
    (∀ (src dest : Bytes) (rest : List Bytes),
      prepareRename (src :: dest :: rest) = some ([dest], [src])) ∧
    prepareRename [[97], [98]] = some ([[98]], [[97]]) ∧
    ([97] : Bytes) ∉ ([[98]] : List Bytes) ∧
    writeFirstKey [[97], [98]] = ([[97]], []) ∧ readFirstKey [[97], [98]] = ([], [[97]]) := by
  refine ⟨fun _ _ _ => by simp [prepareRename], by decide, by decide, rfl, rfl⟩

/-! ### The linked list: equality of values and the heap -/

namespace utils

theorem bytesEqualsLoop_eq : ∀ (a b : Bytes), a.length = b.length →
    bytesEqualsLoop a b = decide (a = b) := by
  intro a
  induction a with
  | nil =>
    intro b h
    cases b with
    | nil => rfl
    | cons y t => simp at h
  | cons x s ih =>
    intro b h
    cases b with
    | nil => simp at h
    | cons y t =>
      simp only [List.length_cons, Nat.add_right_cancel_iff] at h
      unfold bytesEqualsLoop
      by_cases hxy : x = y
      · subst hxy
        simp [ih t h]
      · simp [hxy]

/-- `utils.Equals` is the equality of the values. -/
theorem Equals_eq (a b : Val) : Equals a b = decide (a = b) := by
  cases a with
  | bytes sa =>
    cases b with
    | bytes sb =>
      show BytesEquals sa sb = _
      unfold BytesEquals
      cases sa with
      | none => cases sb <;> simp [bytesEqualsLoop]
      | some x =>
        cases sb with
        | none => simp
        | some y =>
          by_cases hl : x.length = y.length
          · simp [hl, bytesEqualsLoop_eq x y hl]
          · have hne : x ≠ y := fun e => hl (by rw [e])
            simp [hl, hne]
    | nil => rfl
    | int i => rfl
  | nil => cases b <;> rfl
  | int i => cases b <;> rfl

end utils

namespace list

open utils

theorem length_setNext (nodes : List node) (x : Nat) (b : Option Nat) :
    (setNext nodes x b).length = nodes.length := by
  unfold setNext
  split <;> simp

theorem length_setPrev (nodes : List node) (x : Nat) (b : Option Nat) :
    (setPrev nodes x b).length = nodes.length := by
  unfold setPrev
  split <;> simp

theorem length_setVal (nodes : List node) (x : Nat) (v : Val) :
    (setVal nodes x v).length = nodes.length := by
  unfold setVal
  split <;> simp

theorem getElem?_setNext (nodes : List node) (x : Nat) (b : Option Nat) (y : Nat) :
    (setNext nodes x b)[y]? =
      if y = x then (nodes[x]?).map (fun n => { n with next := b }) else nodes[y]? := by
  unfold setNext
  cases h : nodes[x]? with
  | none =>
    by_cases hy : y = x
    · simp [hy, h]
    · simp [hy]
  | some n =>
    have hx : x < nodes.length := (List.getElem?_eq_some_iff.mp h).1
    by_cases hy : y = x
    · subst hy
      simp [List.getElem?_set, hx]
    · have hy2 : x ≠ y := fun e => hy e.symm
      simp [List.getElem?_set, hy, hy2]

theorem getElem?_setPrev (nodes : List node) (x : Nat) (b : Option Nat) (y : Nat) :
    (setPrev nodes x b)[y]? =
      if y = x then (nodes[x]?).map (fun n => { n with prev := b }) else nodes[y]? := by
  unfold setPrev
  cases h : nodes[x]? with
  | none =>
    by_cases hy : y = x
    · simp [hy, h]
    · simp [hy]
  | some n =>
    have hx : x < nodes.length := (List.getElem?_eq_some_iff.mp h).1
    by_cases hy : y = x
    · subst hy
      simp [List.getElem?_set, hx]
    · have hy2 : x ≠ y := fun e => hy e.symm
      simp [List.getElem?_set, hy, hy2]

theorem getElem?_setVal (nodes : List node) (x : Nat) (v : Val) (y : Nat) :
    (setVal nodes x v)[y]? =
      if y = x then (nodes[x]?).map (fun n => { n with val := v }) else nodes[y]? := by
  unfold setVal
  cases h : nodes[x]? with
  | none =>
    by_cases hy : y = x
    · simp [hy, h]
    · simp [hy]
  | some n =>
    have hx : x < nodes.length := (List.getElem?_eq_some_iff.mp h).1
    by_cases hy : y = x
    · subst hy
      simp [List.getElem?_set, hx]
    · have hy2 : x ≠ y := fun e => hy e.symm
      simp [List.getElem?_set, hy, hy2]

/-- In a list without repetition a value has one position. -/
theorem nodup_idx (ids : List Nat) (h : ids.Nodup) (a b y : Nat) (ha : ids[a]? = some y)
    (hb : ids[b]? = some y) : a = b := by
  obtain ⟨ha1, ha2⟩ := List.getElem?_eq_some_iff.mp ha
  obtain ⟨hb1, hb2⟩ := List.getElem?_eq_some_iff.mp hb
  exact (List.Nodup.getElem_inj_iff h).mp (ha2.trans hb2.symm)

theorem LinkedList.Holds.valid {l : LinkedList} {ids : List Nat} {xs : List Val} (h : l.Holds ids xs)
    (x : Nat) (hx : x ∈ ids) : x < l.nodes.length := by
  obtain ⟨k, hk⟩ := List.getElem?_of_mem hx
  obtain ⟨n, hn, _⟩ := h.node k x hk
  exact (List.getElem?_eq_some_iff.mp hn).1

/-- The empty list is well formed. -/
theorem Holds_empty : ({} : LinkedList).Holds [] [] :=
  ⟨List.nodup_nil, rfl, rfl, rfl, rfl, by intro k x h; simp at h⟩

/-! ### The linked list: walks on a well-formed list -/

theorem LinkedList.Holds.get {l : LinkedList} {ids : List Nat} {xs : List Val} (h : l.Holds ids xs)
    (k : Nat) (hk : k < ids.length) :
    ∃ x n v, ids[k]? = some x ∧ xs[k]? = some v ∧ l.nodes[x]? = some n ∧ n.val = v ∧
      n.next = ids[k + 1]? ∧ n.prev = if k = 0 then none else ids[k - 1]? := by
  have hx : ids[k]? = some ids[k] := List.getElem?_eq_getElem hk
  obtain ⟨n, hn, hv, hnext, hprev⟩ := h.node k _ hx
  exact ⟨ids[k], n, n.val, hx, hv.symm, hn, rfl, hnext, hprev⟩

theorem stepNext_spec {l : LinkedList} {ids : List Nat} {xs : List Val} (h : l.Holds ids xs) :
    ∀ (k j : Nat), j + k ≤ ids.length → stepNext l.nodes k ids[j]? = some ids[j + k]? := by
  intro k
  induction k with
  | zero => intro j _; rfl
  | succ k ih =>
    intro j hj
    obtain ⟨x, n, v, hx, _, hn, _, hnext, _⟩ := h.get j (by omega)
    rw [hx]
    unfold stepNext
    simp only [hn, hnext]
    rw [ih (j + 1) (by omega)]
    have e : j + 1 + k = j + (k + 1) := by omega
    rw [e]

theorem stepPrev_spec {l : LinkedList} {ids : List Nat} {xs : List Val} (h : l.Holds ids xs) :
    ∀ (k j : Nat), k ≤ j → j < ids.length → stepPrev l.nodes k ids[j]? = some ids[j - k]? := by
  intro k
  induction k with
  | zero => intro j _ _; rfl
  | succ k ih =>
    intro j hk hj
    obtain ⟨x, n, v, hx, _, hn, _, _, hprev⟩ := h.get j hj
    rw [hx]
    unfold stepPrev
    simp only [hn, hprev]
    rw [if_neg (by omega), ih (j - 1) (by omega) (by omega)]
    have e : j - 1 - k = j - (k + 1) := by omega
    rw [e]

/-- On a well-formed list `find` reaches the node at the index, and so do the
walk from the head and the walk from the tail. -/
theorem find_spec {l : LinkedList} {ids : List Nat} {xs : List Val} (h : l.Holds ids xs)
    (i : Int) (h0 : 0 ≤ i) (h1 : i < l.size) :
    l.find i = some ids[i.toNat]? ∧
      stepNext l.nodes i.toNat l.first = some ids[i.toNat]? ∧
      stepPrev l.nodes (l.size - 1 - i).toNat l.last = some ids[i.toNat]? := by
  have hsize := h.size
  have hf : stepNext l.nodes i.toNat l.first = some ids[i.toNat]? := by
    rw [h.first]
    have := stepNext_spec h i.toNat 0 (by omega)
    simpa using this
  have hb : stepPrev l.nodes (l.size - 1 - i).toNat l.last = some ids[i.toNat]? := by
    rw [h.last]
    have := stepPrev_spec h (l.size - 1 - i).toNat (ids.length - 1) (by omega) (by omega)
    rw [this]
    have e : ids.length - 1 - (l.size - 1 - i).toNat = i.toNat := by omega
    rw [e]
  refine ⟨?_, hf, hb⟩
  unfold LinkedList.find
  split
  · exact hf
  · exact hb

/-- On a well-formed list `Get` returns the value at the index. -/
theorem Get_spec {l : LinkedList} {ids : List Nat} {xs : List Val} (h : l.Holds ids xs)
    (i : Int) (h0 : 0 ≤ i) (h1 : i < l.size) :
    ∃ v, xs[i.toNat]? = some v ∧ l.Get i = Res.ok v := by
  have hsize := h.size
  obtain ⟨x, n, v, hx, hv, hn, hnv, _, _⟩ := h.get i.toNat (by omega)
  refine ⟨v, hv, ?_⟩
  unfold LinkedList.Get
  rw [if_neg (by omega), (find_spec h i h0 h1).1, hx]
  simp only [hn, hnv]

theorem forEachLoop_collect {l : LinkedList} {ids : List Nat} {xs : List Val}
    (h : l.Holds ids xs) :
    ∀ (m j fuel : Nat) (i : Int) (acc : List Val), j + m = ids.length → m < fuel →
      forEachLoop (fun _ v acc => (acc ++ [v], true)) l.nodes fuel ids[j]? i acc =
        Res.ok (acc ++ xs.drop j) := by
  intro m
  induction m with
  | zero =>
    intro j fuel i acc hj hf
    obtain ⟨f1, rfl⟩ : ∃ k, fuel = k + 1 := ⟨fuel - 1, by omega⟩
    have hnone : ids[j]? = none := List.getElem?_eq_none (by omega)
    have hd : xs.drop j = [] := List.drop_eq_nil_of_le (by rw [h.len]; omega)
    rw [hnone, hd]
    simp [forEachLoop]
  | succ m ih =>
    intro j fuel i acc hj hf
    obtain ⟨f1, rfl⟩ : ∃ k, fuel = k + 1 := ⟨fuel - 1, by omega⟩
    obtain ⟨x, n, v, hx, hv, hn, hnv, hnext, _⟩ := h.get j (by omega)
    rw [hx]
    unfold forEachLoop
    simp only [hn, if_true, hnext, hnv]
    rw [ih (j + 1) f1 (i + 1) (acc ++ [v]) (by omega) (by omega)]
    have hjx : j < xs.length := by rw [h.len]; omega
    have hd : xs.drop j = v :: xs.drop (j + 1) := by
      rw [List.drop_eq_getElem_cons hjx]
      congr 1
      have := List.getElem?_eq_getElem hjx
      rw [hv] at this
      exact (Option.some.inj this).symm
    rw [hd]
    simp

/-- On a well-formed list `ForEach` meets the values in order. -/
theorem toList_spec {l : LinkedList} {ids : List Nat} {xs : List Val} (h : l.Holds ids xs) :
    l.toList = Res.ok xs := by
  unfold LinkedList.toList LinkedList.ForEach
  rw [h.first]
  have hlen : ids.length ≤ l.nodes.length := by
    have hsub : ∀ x ∈ ids, x ∈ List.range l.nodes.length := by
      intro x hx
      exact List.mem_range.mpr (h.valid x hx)
    have := (List.subperm_of_subset h.nodup hsub).length_le
    simpa using this
  have := forEachLoop_collect h ids.length 0 (l.nodes.length + 1) 0 [] (by omega) (by omega)
  simpa using this

theorem LinkedList.Holds.length_le {l : LinkedList} {ids : List Nat} {xs : List Val} (h : l.Holds ids xs) :
    ids.length ≤ l.nodes.length := by
  have hsub : ∀ x ∈ ids, x ∈ List.range l.nodes.length := by
    intro x hx
    exact List.mem_range.mpr (h.valid x hx)
  have := (List.subperm_of_subset h.nodup hsub).length_le
  simpa using this

theorem backLoop_spec {l : LinkedList} {ids : List Nat} {xs : List Val} (h : l.Holds ids xs) :
    ∀ (m fuel : Nat) (acc : List Val), m ≤ ids.length → m < fuel →
      backLoop l.nodes fuel (if m = 0 then none else ids[m - 1]?) acc =
        Res.ok (acc ++ (xs.take m).reverse) := by
  intro m
  induction m with
  | zero =>
    intro fuel acc _ hf
    obtain ⟨f1, rfl⟩ : ∃ k, fuel = k + 1 := ⟨fuel - 1, by omega⟩
    simp [backLoop]
  | succ m ih =>
    intro fuel acc hm hf
    obtain ⟨f1, rfl⟩ : ∃ k, fuel = k + 1 := ⟨fuel - 1, by omega⟩
    obtain ⟨x, n, v, hx, hv, hn, hnv, _, hprev⟩ := h.get m (by omega)
    rw [if_neg (by omega)]
    simp only [Nat.add_sub_cancel, hx]
    unfold backLoop
    simp only [hn, hprev, hnv]
    rw [ih f1 (acc ++ [v]) (by omega) (by omega)]
    have hmx : m < xs.length := by rw [h.len]; omega
    have ht : xs.take (m + 1) = xs.take m ++ [v] := by
      rw [List.take_succ, hv]
      rfl
    rw [ht]
    simp

/-- On a well-formed list the walk backward from the tail meets the values in
reverse order. -/
theorem toListBack_spec {l : LinkedList} {ids : List Nat} {xs : List Val}
    (h : l.Holds ids xs) : l.toListBack = Res.ok xs.reverse := by
  unfold LinkedList.toListBack
  have hlen := h.length_le
  have := backLoop_spec h ids.length (l.nodes.length + 1) [] (le_refl _) (by omega)
  rw [h.last]
  by_cases h0 : ids.length = 0
  · rw [if_pos h0] at this
    have hnone : ids[ids.length - 1]? = none := List.getElem?_eq_none (by omega)
    rw [hnone, this]
    have : xs.take ids.length = xs := List.take_of_length_le (by rw [h.len])
    rw [this]
    simp
  · rw [if_neg h0] at this
    rw [this]
    have : xs.take ids.length = xs := List.take_of_length_le (by rw [h.len])
    rw [this]
    simp

theorem rangeLoop_spec {l : LinkedList} {ids : List Nat} {xs : List Val} (h : l.Holds ids xs)
    (s e : Nat) :
    ∀ (m j fuel : Nat) (acc : List Val), j + m = ids.length → m < fuel →
      rangeLoop (s : Int) (e : Int) l.nodes fuel ids[j]? (j : Int) acc =
        Res.ok (acc ++ (xs.drop (max j s)).take (e - max j s)) := by
  intro m
  induction m with
  | zero =>
    intro j fuel acc hj hf
    obtain ⟨f1, rfl⟩ : ∃ k, fuel = k + 1 := ⟨fuel - 1, by omega⟩
    have hnone : ids[j]? = none := List.getElem?_eq_none (by omega)
    have hd : xs.drop (max j s) = [] := List.drop_eq_nil_of_le (by rw [h.len]; omega)
    rw [hnone, hd]
    simp [rangeLoop]
  | succ m ih =>
    intro j fuel acc hj hf
    obtain ⟨f1, rfl⟩ : ∃ k, fuel = k + 1 := ⟨fuel - 1, by omega⟩
    obtain ⟨x, n, v, hx, hv, hn, hnv, hnext, _⟩ := h.get j (by omega)
    have hjx : j < xs.length := by rw [h.len]; omega
    have hd : xs.drop j = v :: xs.drop (j + 1) := by
      rw [List.drop_eq_getElem_cons hjx]
      congr 1
      have := List.getElem?_eq_getElem hjx
      rw [hv] at this
      exact (Option.some.inj this).symm
    rw [hx]
    unfold rangeLoop
    simp only [hn, hnext, hnv]
    have hcast : ((j : Int) + 1) = ((j + 1 : Nat) : Int) := by push_cast; rfl
    by_cases hin : (s : Int) ≤ (j : Int) ∧ (j : Int) < (e : Int)
    · rw [if_pos hin, hcast, ih (j + 1) f1 (acc ++ [v]) (by omega) (by omega)]
      have e1 : max j s = j := by omega
      have e2 : max (j + 1) s = j + 1 := by omega
      have e3 : e - j = (e - (j + 1)) + 1 := by omega
      rw [e1, e2, hd, e3, List.take_succ_cons]
      simp
    · rw [if_neg hin]
      by_cases hend : (e : Int) ≤ (j : Int)
      · rw [if_pos hend]
        have e1 : e - max j s = 0 := by omega
        rw [e1]
        simp
      · rw [if_neg hend, hcast, ih (j + 1) f1 acc (by omega) (by omega)]
        have e1 : max (j + 1) s = max j s := by omega
        rw [e1]

/-- On a well-formed list `Range(start, end)` returns the values at the indices
from `start` up to `end`. -/
theorem Range_spec {l : LinkedList} {ids : List Nat} {xs : List Val} (h : l.Holds ids xs)
    (start end_ : Int) (h0 : 0 ≤ start) (h1 : start < l.size) (h2 : start ≤ end_)
    (h3 : end_ ≤ l.size) :
    l.Range start end_ = Res.ok ((xs.drop start.toNat).take (end_.toNat - start.toNat)) := by
  have hsize := h.size
  have hlen := h.length_le
  unfold LinkedList.Range
  rw [if_neg (by omega), if_neg (by omega)]
  have hs : start = ((start.toNat : Nat) : Int) := by omega
  have he : end_ = ((end_.toNat : Nat) : Int) := by omega
  have := rangeLoop_spec h start.toNat end_.toNat ids.length 0 (l.nodes.length + 1) []
    (by omega) (by omega)
  rw [← hs, ← he, ← h.first] at this
  simp only [Nat.cast_zero, List.nil_append] at this
  rw [this]
  simp only [Nat.zero_max]
  have hl : ((xs.drop start.toNat).take (end_.toNat - start.toNat)).length =
      end_.toNat - start.toNat := by
    rw [List.length_take, List.length_drop, h.len]
    omega
  rw [hl]
  have e0 : (end_ - start).toNat - (end_.toNat - start.toNat) = 0 := by omega
  rw [e0]
  simp

/-! ### The linked list: the methods keep the list well formed -/

theorem LinkedList.Holds.empty_of_last {l : LinkedList} {ids : List Nat} {xs : List Val}
    (h : l.Holds ids xs) (hl : l.last = none) : ids = [] ∧ xs = [] := by
  have h1 := h.last
  rw [hl] at h1
  have h0 : ids.length = 0 := by
    by_contra hne
    have : ids[ids.length - 1]? = some ids[ids.length - 1] :=
      List.getElem?_eq_getElem (by omega)
    rw [this] at h1
    exact Option.noConfusion h1
  have h2 := h.len
  rw [h0] at h2
  exact ⟨List.length_eq_zero.mp h0, List.length_eq_zero.mp h2⟩

/-- `Add` puts the value at the tail of a well-formed list. -/
theorem Add_Holds {l : LinkedList} {ids : List Nat} {xs : List Val} (h : l.Holds ids xs)
    (v : Val) : (l.Add v).Holds (ids ++ [l.nodes.length]) (xs ++ [v]) := by
  have hnew : l.nodes.length ∉ ids := fun hm => Nat.lt_irrefl _ (h.valid _ hm)
  have hnd : (ids ++ [l.nodes.length]).Nodup := by
    rw [List.nodup_append]
    refine ⟨h.nodup, List.nodup_singleton _, ?_⟩
    intro a ha hb
    rw [List.mem_singleton] at hb
    rw [hb] at ha
    exact hnew ha
  have hlen := h.len
  have hsize := h.size
  cases hl : l.last with
  | none =>
    obtain ⟨hi, hx⟩ := h.empty_of_last hl
    subst hi hx
    unfold LinkedList.Add
    simp only [hl]
    refine ⟨hnd, rfl, by simp [hsize], rfl, rfl, ?_⟩
    intro k x hk
    have hk0 : k = 0 := by
      have := (List.getElem?_eq_some_iff.mp hk).1
      simpa using this
    subst hk0
    simp only [List.nil_append, List.getElem?_cons_zero, Option.some.injEq] at hk
    subst hk
    refine ⟨{ val := v, prev := none, next := none }, ?_, rfl, rfl, rfl⟩
    show (l.nodes ++ [_])[l.nodes.length]? = _
    rw [List.getElem?_append_right (le_refl _)]
    simp
  | some t =>
    have hne : ids.length ≠ 0 := by
      intro h0
      have h1 := h.last
      rw [hl, List.getElem?_eq_none (by omega)] at h1
      exact Option.noConfusion h1
    have ht : ids[ids.length - 1]? = some t := by rw [← h.last, hl]
    have htn : t ≠ l.nodes.length := by
      intro e
      apply hnew
      rw [← e]
      exact List.mem_iff_getElem?.mpr ⟨_, ht⟩
    unfold LinkedList.Add
    simp only [hl]
    refine ⟨hnd, by simp [hlen], by simp [hsize], ?_, ?_, ?_⟩
    · show l.first = _
      rw [h.first, List.getElem?_append_left (by omega)]
    · show some l.nodes.length = _
      rw [List.getElem?_append_right (by simp)]
      simp
    · intro k x hk
      show ∃ n, (setNext (l.nodes ++ [_]) t (some l.nodes.length))[x]? = some n ∧ _
      rw [getElem?_setNext]
      by_cases hkl : k < ids.length
      · rw [List.getElem?_append_left hkl] at hk
        obtain ⟨n, hn, hv, hnext, hprev⟩ := h.node k x hk
        have hxl : x < l.nodes.length := (List.getElem?_eq_some_iff.mp hn).1
        have hvx : (xs ++ [v])[k]? = xs[k]? := List.getElem?_append_left (by omega)
        have hpx : (if k = 0 then none else (ids ++ [l.nodes.length])[k - 1]?) =
            (if k = 0 then none else ids[k - 1]?) := by
          split
          · rfl
          · rw [List.getElem?_append_left (by omega)]
        by_cases hxt : x = t
        · have hk1 : k = ids.length - 1 := nodup_idx ids h.nodup _ _ t (hxt ▸ hk) ht
          have hnt : (l.nodes ++ [({ val := v, prev := some t, next := none } : node)])[t]? =
              some n := by
            rw [List.getElem?_append_left (hxt ▸ hxl), ← hxt, hn]
          rw [if_pos hxt, hnt]
          refine ⟨_, rfl, ?_, ?_, ?_⟩
          · rw [hvx]; exact hv
          · show some l.nodes.length = _
            rw [List.getElem?_append_right (by omega)]
            have : k + 1 - ids.length = 0 := by omega
            rw [this]
            rfl
          · rw [hpx]; exact hprev
        · rw [if_neg hxt, List.getElem?_append_left hxl, hn]
          refine ⟨n, rfl, by rw [hvx]; exact hv, ?_, by rw [hpx]; exact hprev⟩
          have hk1 : k + 1 < ids.length := by
            by_contra hc
            have hk2 : k = ids.length - 1 := by omega
            rw [hk2, ht] at hk
            exact hxt (Option.some.inj hk).symm
          rw [hnext, List.getElem?_append_left hk1]
      · have hk1 : k = ids.length := by
          have := (List.getElem?_eq_some_iff.mp hk).1
          simp at this
          omega
        subst hk1
        rw [List.getElem?_append_right (le_refl _)] at hk
        simp only [Nat.sub_self, List.getElem?_cons_zero, Option.some.injEq] at hk
        subst hk
        rw [if_neg (fun e => htn e.symm), List.getElem?_append_right (le_refl _)]
        simp only [Nat.sub_self, List.getElem?_cons_zero]
        refine ⟨_, rfl, ?_, ?_, ?_⟩
        · rw [List.getElem?_append_right (by omega)]
          have : ids.length - xs.length = 0 := by omega
          rw [this]
          rfl
        · show none = _
          rw [List.getElem?_eq_none (by simp)]
        · show some t = _
          rw [if_neg hne, List.getElem?_append_left (by omega), ht]

/-- `Set` replaces the value at the index of a well-formed list. -/
theorem Set_Holds {l : LinkedList} {ids : List Nat} {xs : List Val} (h : l.Holds ids xs)
    (i : Int) (v : Val) (h0 : 0 ≤ i) (h1 : i < l.size) :
    ∃ l1, l.Set i v = Res.ok l1 ∧ l1.Holds ids (xs.set i.toNat v) := by
  have hsize := h.size
  obtain ⟨y, ny, vy, hy, _, hny, _, _, _⟩ := h.get i.toNat (by omega)
  refine ⟨{ l with nodes := setVal l.nodes y v }, ?_, ?_⟩
  · unfold LinkedList.Set
    rw [if_neg (by omega), (find_spec h i h0 h1).1, hy]
    simp only [hny]
  · refine ⟨h.nodup, by rw [List.length_set]; exact h.len, h.size, h.first, h.last, ?_⟩
    intro k x hk
    obtain ⟨n, hn, hv, hnext, hprev⟩ := h.node k x hk
    show ∃ n, (setVal l.nodes y v)[x]? = some n ∧ _
    rw [getElem?_setVal]
    by_cases hxy : x = y
    · have hki : k = i.toNat := nodup_idx ids h.nodup _ _ y (hxy ▸ hk) hy
      rw [if_pos hxy, hny]
      refine ⟨_, rfl, ?_, ?_, ?_⟩
      · show some v = _
        rw [hki, List.getElem?_set_self]
        have : i.toNat < xs.length := by rw [h.len]; omega
        simp [this]
      · rw [hxy, hny] at hn
        rw [← hnext, ← Option.some.inj hn]
      · rw [hxy, hny] at hn
        rw [← hprev, ← Option.some.inj hn]
    · rw [if_neg hxy, hn]
      refine ⟨n, rfl, ?_, hnext, hprev⟩
      have hki : i.toNat ≠ k := by
        intro e
        rw [← e, hy] at hk
        exact hxy (Option.some.inj hk).symm
      rw [List.getElem?_set_ne hki]
      exact hv

/-- The heap, `first`, `last` and `size` after `removeNode` of a node whose
neighbours `P` and `N` are other nodes of the heap. -/
theorem removeNode_eq (l : LinkedList) (x : Nat) (n : node) (P N : Option Nat)
    (hn : l.nodes[x]? = some n) (hP : n.prev = P) (hN : n.next = N)
    (hp : ∀ p, P = some p → p ≠ x ∧ p < l.nodes.length)
    (hq : ∀ q, N = some q → q ≠ x ∧ q < l.nodes.length) :
    ∃ l1, l.removeNode x = some l1 ∧
      l1.first = (if P = none then N else l.first) ∧
      l1.last = (if N = none then P else l.last) ∧
      l1.size = l.size - 1 ∧
      ∀ y, l1.nodes[y]? = (l.nodes[y]?).map (fun m =>
        ({ val := m.val,
           next := if y = x then none else if P = some y then N else m.next,
           prev := if y = x then none else if N = some y then P else m.prev } : node)) := by
  have hfin : ∀ (nodes2 : List node),
      (∀ y, nodes2[y]? = (l.nodes[y]?).map (fun m =>
        ({ val := m.val,
           next := if P = some y then N else m.next,
           prev := if N = some y then P else m.prev } : node))) →
      ∀ y, (setNext (setPrev nodes2 x none) x none)[y]? = (l.nodes[y]?).map (fun m =>
        ({ val := m.val,
           next := if y = x then none else if P = some y then N else m.next,
           prev := if y = x then none else if N = some y then P else m.prev } : node)) := by
    intro nodes2 h2 y
    simp only [getElem?_setNext, getElem?_setPrev]
    by_cases hy : y = x
    · subst hy
      simp only [if_true, h2 y, hn, Option.map_some']
    · simp only [if_neg hy, h2 y]
  unfold LinkedList.removeNode
  simp only [hn, hP]
  cases P with
  | none =>
    simp only
    rw [hn]
    simp only [hN, hP]
    cases N with
    | none =>
      refine ⟨_, rfl, by simp, by simp, rfl, ?_⟩
      apply hfin l.nodes
      intro y
      cases l.nodes[y]? with
      | none => rfl
      | some m => simp
    | some q =>
      obtain ⟨hqx, hql⟩ := hq q rfl
      obtain ⟨nq, hnq⟩ : ∃ nq, l.nodes[q]? = some nq := ⟨_, List.getElem?_eq_getElem hql⟩
      simp only [hnq]
      refine ⟨_, rfl, by simp, by simp, rfl, ?_⟩
      apply hfin (setPrev l.nodes q none)
      intro y
      rw [getElem?_setPrev]
      by_cases hy : y = q
      · subst hy
        simp [hnq]
      · have hy2 : q ≠ y := fun e => hy e.symm
        rw [if_neg hy]
        cases l.nodes[y]? with
        | none => rfl
        | some m => simp [hy2]
  | some p =>
    obtain ⟨hpx, hpl⟩ := hp p rfl
    obtain ⟨np, hnp⟩ : ∃ np, l.nodes[p]? = some np := ⟨_, List.getElem?_eq_getElem hpl⟩
    have hx1 : (setNext l.nodes p N)[x]? = some n := by
      rw [getElem?_setNext, if_neg (fun e => hpx e.symm), hn]
    simp only [hnp, hN, hx1, hP]
    cases N with
    | none =>
      refine ⟨_, rfl, by simp, by simp, rfl, ?_⟩
      apply hfin (setNext l.nodes p none)
      intro y
      rw [getElem?_setNext]
      by_cases hy : y = p
      · subst hy
        simp [hnp]
      · have hy2 : p ≠ y := fun e => hy e.symm
        rw [if_neg hy]
        cases l.nodes[y]? with
        | none => rfl
        | some m => simp [hy2]
    | some q =>
      obtain ⟨hqx, hql⟩ := hq q rfl
      have hq1 : ∃ nq, (setNext l.nodes p (some q))[q]? = some nq := by
        refine ⟨_, List.getElem?_eq_getElem ?_⟩
        rw [length_setNext]
        exact hql
      obtain ⟨nq, hnq⟩ := hq1
      simp only [hnq]
      refine ⟨_, rfl, by simp, by simp, rfl, ?_⟩
      apply hfin (setPrev (setNext l.nodes p (some q)) q (some p))
      intro y
      simp only [getElem?_setPrev, getElem?_setNext]
      by_cases hyq : y = q
      · by_cases hyp : y = p
        · subst hyq
          subst hyp
          simp [hnp]
        · subst hyq
          have hp2 : p ≠ y := fun e => hyp e.symm
          simp only [if_true, if_neg hyp]
          cases l.nodes[y]? with
          | none => rfl
          | some m => simp [hp2]
      · have hq2 : q ≠ y := fun e => hyq e.symm
        rw [if_neg hyq]
        by_cases hyp : y = p
        · subst hyp
          simp [hnp, hq2]
        · have hp2 : p ≠ y := fun e => hyp e.symm
          rw [if_neg hyp]
          cases l.nodes[y]? with
          | none => rfl
          | some m => simp [hp2, hq2]

/-- `removeNode` of the node at position `i` of a well-formed list takes the
node out of the chain and keeps its value. -/
theorem removeNode_Holds {l : LinkedList} {ids : List Nat} {xs : List Val} (h : l.Holds ids xs)
    (i x : Nat) (hx : ids[i]? = some x) :
    ∃ l1 n1, l.removeNode x = some l1 ∧ l1.Holds (ids.eraseIdx i) (xs.eraseIdx i) ∧
      l1.nodes[x]? = some n1 ∧ xs[i]? = some n1.val ∧ l1.nodes.length = l.nodes.length := by
  have hi : i < ids.length := (List.getElem?_eq_some_iff.mp hx).1
  have hlen := h.len
  have hsize := h.size
  obtain ⟨n, hn, hv, hnext, hprev⟩ := h.node i x hx
  have hpos : ∀ (j y : Nat), ids[j]? = some y → j ≠ i → y ≠ x ∧ y < l.nodes.length := by
    intro j y hj hji
    refine ⟨?_, h.valid y (List.mem_iff_getElem?.mpr ⟨j, hj⟩)⟩
    intro e
    exact hji (nodup_idx ids h.nodup j i x (e ▸ hj) hx)
  obtain ⟨l1, hrm, hfirst, hlast, hsz, hnodes⟩ := removeNode_eq l x n
    (if i = 0 then none else ids[i - 1]?) ids[i + 1]? hn hprev hnext
    (by
      intro p hp
      by_cases h0 : i = 0
      · rw [if_pos h0] at hp; exact Option.noConfusion hp
      · rw [if_neg h0] at hp; exact hpos (i - 1) p hp (by omega))
    (by
      intro q hq
      exact hpos (i + 1) q hq (by omega))
  have hx1 : l1.nodes[x]? = some { val := n.val, next := none, prev := none } := by
    rw [hnodes x, hn]
    simp
  have hlen1 : l1.nodes.length = l.nodes.length := by
    rcases Nat.lt_trichotomy l1.nodes.length l.nodes.length with hlt | heq | hgt
    · have h1 := hnodes l1.nodes.length
      rw [List.getElem?_eq_none (le_refl _), List.getElem?_eq_getElem hlt] at h1
      simp at h1
    · exact heq
    · have h1 := hnodes l.nodes.length
      rw [List.getElem?_eq_none (le_refl l.nodes.length), List.getElem?_eq_getElem hgt] at h1
      simp at h1
  refine ⟨l1, _, hrm, ?_, hx1, hv.symm, hlen1⟩
  refine ⟨List.Nodup.sublist (List.eraseIdx_sublist ids i) h.nodup, ?_, ?_, ?_, ?_, ?_⟩
  · rw [List.length_eraseIdx, List.length_eraseIdx, hlen]
  · rw [hsz, hsize, List.length_eraseIdx, if_pos hi]
    omega
  · rw [hfirst, List.getElem?_eraseIdx]
    by_cases h0 : i = 0
    · subst h0
      simp
    · have hsome : ids[i - 1]? = some ids[i - 1] := List.getElem?_eq_getElem (by omega)
      rw [if_neg h0, hsome, if_neg (by simp), h.first, if_pos (by omega)]
  · rw [hlast, List.getElem?_eraseIdx, List.length_eraseIdx, if_pos hi]
    by_cases hl : i + 1 < ids.length
    · have hsome : ids[i + 1]? = some ids[i + 1] := List.getElem?_eq_getElem hl
      rw [hsome, if_neg (by simp), h.last, if_neg (by omega)]
      have e : ids.length - 1 - 1 + 1 = ids.length - 1 := by omega
      rw [e]
    · have hnone : ids[i + 1]? = none := List.getElem?_eq_none (by omega)
      rw [hnone, if_pos rfl]
      by_cases h0 : i = 0
      · rw [if_pos h0]
        have hl1 : ids.length = 1 := by omega
        rw [hl1]
        simp only [Nat.sub_self]
        rw [if_neg (by omega), List.getElem?_eq_none (by omega)]
      · rw [if_neg h0, if_pos (by omega)]
        have e : ids.length - 1 - 1 = i - 1 := by omega
        rw [e]
  · intro k y hk
    rw [List.getElem?_eraseIdx] at hk
    have hxs : (xs.eraseIdx i)[k]? = if k < i then xs[k]? else xs[k + 1]? :=
      List.getElem?_eraseIdx xs i k
    have hP : ∀ (k0 : Nat), ids[k0]? = some y →
        ((if i = 0 then none else ids[i - 1]?) = some y ↔ (i ≠ 0 ∧ k0 = i - 1)) := by
      intro k0 hk0
      constructor
      · intro hp
        by_cases h0 : i = 0
        · rw [if_pos h0] at hp; exact Option.noConfusion hp
        · rw [if_neg h0] at hp
          exact ⟨h0, nodup_idx ids h.nodup _ _ y hk0 hp⟩
      · rintro ⟨h0, e⟩
        rw [if_neg h0, ← e, hk0]
    have hN : ∀ (k0 : Nat), ids[k0]? = some y → (ids[i + 1]? = some y ↔ k0 = i + 1) := by
      intro k0 hk0
      constructor
      · intro hq
        exact nodup_idx ids h.nodup _ _ y hk0 hq
      · intro e
        rw [← e, hk0]
    by_cases hki : k < i
    · rw [if_pos hki] at hk
      obtain ⟨m, hm, hmv, hmnext, hmprev⟩ := h.node k y hk
      obtain ⟨hyx, _⟩ := hpos k y hk (by omega)
      refine ⟨_, by rw [hnodes y, hm]; rfl, ?_, ?_, ?_⟩
      · rw [hxs, if_pos hki]
        exact hmv
      · show (if y = x then none else if _ = some y then _ else m.next) = _
        rw [if_neg hyx, List.getElem?_eraseIdx]
        by_cases hk1 : k + 1 = i
        · rw [if_pos ((hP k hk).mpr ⟨by omega, by omega⟩), if_neg (by omega), ← hk1]
        · rw [if_neg (fun e => hk1 (by have := ((hP k hk).mp e).2; omega)), hmnext,
            if_pos (by omega)]
      · show (if y = x then none else if _ = some y then _ else m.prev) = _
        rw [if_neg hyx, if_neg (fun e => by have := (hN k hk).mp e; omega), hmprev]
        by_cases hk0 : k = 0
        · rw [if_pos hk0, if_pos hk0]
        · rw [if_neg hk0, if_neg hk0, List.getElem?_eraseIdx, if_pos (by omega)]
    · rw [if_neg hki] at hk
      obtain ⟨m, hm, hmv, hmnext, hmprev⟩ := h.node (k + 1) y hk
      obtain ⟨hyx, _⟩ := hpos (k + 1) y hk (by omega)
      refine ⟨_, by rw [hnodes y, hm]; rfl, ?_, ?_, ?_⟩
      · rw [hxs, if_neg hki]
        exact hmv
      · show (if y = x then none else if _ = some y then _ else m.next) = _
        rw [if_neg hyx, if_neg (fun e => by obtain ⟨hz1, hz2⟩ := (hP (k + 1) hk).mp e; omega), hmnext,
          List.getElem?_eraseIdx, if_neg (by omega)]
      · show (if y = x then none else if _ = some y then _ else m.prev) = _
        rw [if_neg hyx]
        by_cases hk1 : k = i
        · rw [if_pos ((hN (k + 1) hk).mpr (by omega))]
          by_cases h0 : i = 0
          · rw [if_pos h0, if_pos (by omega)]
          · rw [if_neg h0, if_neg (by omega), List.getElem?_eraseIdx, if_pos (by omega), hk1]
        · rw [if_neg (fun e => hk1 (by have := (hN (k + 1) hk).mp e; omega)), hmprev,
            if_neg (by omega), if_neg (by omega), List.getElem?_eraseIdx, if_neg (by omega)]
          have e1 : k + 1 - 1 = k - 1 + 1 := by omega
          rw [e1]

theorem getElem?_insertAt {α : Type} (L : List α) (a : α) (i k : Nat) (hi : i ≤ L.length) :
    (L.take i ++ a :: L.drop i)[k]? =
      if k < i then L[k]? else if k = i then some a else L[k - 1]? := by
  have hl : (L.take i).length = i := by rw [List.length_take]; omega
  by_cases h1 : k < i
  · rw [if_pos h1, List.getElem?_append_left (by omega), List.getElem?_take, if_pos h1]
  · rw [if_neg h1, List.getElem?_append_right (by omega), hl]
    by_cases h2 : k = i
    · rw [if_pos h2, h2]
      simp
    · rw [if_neg h2]
      obtain ⟨d, hd⟩ : ∃ d, k - i = d + 1 := ⟨k - i - 1, by omega⟩
      rw [hd, List.getElem?_cons_succ, List.getElem?_drop]
      have e : i + d = k - 1 := by omega
      rw [e]

/-- The heap, `first`, `last` and `size` after `Insert` before the node `pivot`
found at the index. -/
theorem Insert_eq (l : LinkedList) (i : Int) (v : Val) (pivot : Nat) (pn : node)
    (P : Option Nat) (h0 : 0 ≤ i) (h1 : i < l.size)
    (hfind : l.find i = some (some pivot)) (hpn : l.nodes[pivot]? = some pn)
    (hP : pn.prev = P) (hp : ∀ q, P = some q → q ≠ pivot ∧ q < l.nodes.length)
    (hpl : pivot < l.nodes.length) :
    ∃ l1, l.Insert i v = Res.ok l1 ∧
      l1.first = (if P = none then some l.nodes.length else l.first) ∧
      l1.last = l.last ∧ l1.size = l.size + 1 ∧
      ∀ y, l1.nodes[y]? =
        if y = l.nodes.length then some { val := v, prev := P, next := some pivot }
        else (l.nodes[y]?).map (fun m =>
          ({ val := m.val,
             next := if P = some y then some l.nodes.length else m.next,
             prev := if y = pivot then some l.nodes.length else m.prev } : node)) := by
  have happ : ∀ (nd : node) (y : Nat), (l.nodes ++ [nd])[y]? =
      if y = l.nodes.length then some nd else l.nodes[y]? := by
    intro nd y
    by_cases hy : y = l.nodes.length
    · rw [if_pos hy, hy, List.getElem?_append_right (le_refl _)]
      simp
    · rw [if_neg hy]
      by_cases hlt : y < l.nodes.length
      · rw [List.getElem?_append_left hlt]
      · rw [List.getElem?_eq_none (by simp; omega), List.getElem?_eq_none (by omega)]
  have hpne : pivot ≠ l.nodes.length := by omega
  unfold LinkedList.Insert
  rw [if_neg (by omega), if_neg (by omega), hfind]
  simp only [hpn, hP]
  cases P with
  | none =>
    refine ⟨_, rfl, by simp, rfl, rfl, ?_⟩
    intro y
    show (setPrev (l.nodes ++ [_]) pivot (some l.nodes.length))[y]? = _
    rw [getElem?_setPrev, happ, happ, if_neg hpne, hpn]
    by_cases hy : y = pivot
    · subst hy
      rw [if_pos rfl, if_neg hpne]
      simp [hpn]
    · rw [if_neg hy]
      by_cases hy2 : y = l.nodes.length
      · rw [if_pos hy2, if_pos hy2]
      · rw [if_neg hy2, if_neg hy2]
        cases l.nodes[y]? with
        | none => rfl
        | some m => simp [hy]
  | some q =>
    obtain ⟨hqp, hql⟩ := hp q rfl
    have hqne : q ≠ l.nodes.length := by omega
    obtain ⟨nq, hnq⟩ : ∃ nq, l.nodes[q]? = some nq := ⟨_, List.getElem?_eq_getElem hql⟩
    have hq1 : (l.nodes ++ [({ val := v, prev := some q, next := some pivot } : node)])[q]? =
        some nq := by
      rw [happ, if_neg hqne, hnq]
    simp only [hq1]
    refine ⟨_, rfl, by simp, rfl, rfl, ?_⟩
    intro y
    show (setPrev (setNext (l.nodes ++ [_]) q (some l.nodes.length)) pivot
      (some l.nodes.length))[y]? = _
    simp only [getElem?_setPrev, getElem?_setNext, happ, if_neg hpne, if_neg hqne,
      if_neg (fun e : pivot = q => hqp e.symm), hpn, hnq]
    by_cases hy : y = pivot
    · subst hy
      have hqy : q ≠ y := hqp
      rw [if_pos rfl, if_neg hpne]
      simp [hpn, hqy]
    · rw [if_neg hy]
      by_cases hyq : y = q
      · subst hyq
        rw [if_pos rfl, if_neg hqne]
        simp [hnq, hy]
      · have hqy : q ≠ y := fun e => hyq e.symm
        rw [if_neg hyq]
        by_cases hy2 : y = l.nodes.length
        · rw [if_pos hy2, if_pos hy2]
        · rw [if_neg hy2, if_neg hy2]
          cases l.nodes[y]? with
          | none => rfl
          | some m => simp [hy, hqy]

/-- `Insert` puts the value at the index of a well-formed list. -/
theorem Insert_Holds {l : LinkedList} {ids : List Nat} {xs : List Val} (h : l.Holds ids xs)
    (i : Int) (v : Val) (h0 : 0 ≤ i) (h1 : i ≤ l.size) :
    ∃ l1, l.Insert i v = Res.ok l1 ∧
      l1.Holds (ids.take i.toNat ++ l.nodes.length :: ids.drop i.toNat)
        (xs.take i.toNat ++ v :: xs.drop i.toNat) := by
  have hlen := h.len
  have hsize := h.size
  by_cases hend : i = l.size
  · refine ⟨l.Add v, ?_, ?_⟩
    · unfold LinkedList.Insert
      rw [if_neg (by omega), if_pos hend]
    · have e1 : ids.take i.toNat = ids := List.take_of_length_le (by omega)
      have e2 : ids.drop i.toNat = [] := List.drop_eq_nil_of_le (by omega)
      have e3 : xs.take i.toNat = xs := List.take_of_length_le (by omega)
      have e4 : xs.drop i.toNat = [] := List.drop_eq_nil_of_le (by omega)
      rw [e1, e2, e3, e4]
      exact Add_Holds h v
  · have hi : i.toNat < ids.length := by omega
    obtain ⟨pivot, pn, pv, hpiv, hpv, hpn, _, hpnext, hpprev⟩ := h.get i.toNat hi
    have hpos : ∀ (j y : Nat), ids[j]? = some y → y < l.nodes.length := by
      intro j y hj
      exact h.valid y (List.mem_iff_getElem?.mpr ⟨j, hj⟩)
    have hfind : l.find i = some (some pivot) := by
      rw [(find_spec h i h0 (by omega)).1, hpiv]
    obtain ⟨l1, hins, hfirst, hlast, hsz, hnodes⟩ := Insert_eq l i v pivot pn
      (if i.toNat = 0 then none else ids[i.toNat - 1]?) h0 (by omega) hfind hpn hpprev
      (by
        intro q hq
        by_cases hz : i.toNat = 0
        · rw [if_pos hz] at hq; exact Option.noConfusion hq
        · rw [if_neg hz] at hq
          refine ⟨?_, hpos _ q hq⟩
          intro e
          have := nodup_idx ids h.nodup _ _ pivot (e ▸ hq) hpiv
          omega)
      (hpos _ pivot hpiv)
    have hids : ∀ k, (ids.take i.toNat ++ l.nodes.length :: ids.drop i.toNat)[k]? =
        if k < i.toNat then ids[k]? else if k = i.toNat then some l.nodes.length
        else ids[k - 1]? :=
      fun k => getElem?_insertAt ids _ i.toNat k (by omega)
    have hxs : ∀ k, (xs.take i.toNat ++ v :: xs.drop i.toNat)[k]? =
        if k < i.toNat then xs[k]? else if k = i.toNat then some v else xs[k - 1]? :=
      fun k => getElem?_insertAt xs _ i.toNat k (by omega)
    have hnew : l.nodes.length ∉ ids := fun hm => Nat.lt_irrefl _ (h.valid _ hm)
    have hP : ∀ (k0 y : Nat), ids[k0]? = some y →
        ((if i.toNat = 0 then none else ids[i.toNat - 1]?) = some y ↔
          (i.toNat ≠ 0 ∧ k0 = i.toNat - 1)) := by
      intro k0 y hk0
      constructor
      · intro hp
        by_cases hz : i.toNat = 0
        · rw [if_pos hz] at hp; exact Option.noConfusion hp
        · rw [if_neg hz] at hp
          exact ⟨hz, nodup_idx ids h.nodup _ _ y hk0 hp⟩
      · rintro ⟨hz, e⟩
        rw [if_neg hz, ← e, hk0]
    have hpivot : ∀ (k0 y : Nat), ids[k0]? = some y → (y = pivot ↔ k0 = i.toNat) := by
      intro k0 y hk0
      constructor
      · intro e
        exact nodup_idx ids h.nodup _ _ pivot (e ▸ hk0) hpiv
      · intro e
        rw [e, hpiv] at hk0
        exact (Option.some.inj hk0).symm
    refine ⟨l1, hins, ?_⟩
    refine ⟨?_, ?_, ?_, ?_, ?_, ?_⟩
    · have hperm : (ids.take i.toNat ++ l.nodes.length :: ids.drop i.toNat).Perm
          (l.nodes.length :: ids) := by
        have : (ids.take i.toNat ++ l.nodes.length :: ids.drop i.toNat).Perm
            (l.nodes.length :: (ids.take i.toNat ++ ids.drop i.toNat)) := List.perm_middle
        rwa [List.take_append_drop] at this
      exact hperm.nodup_iff.mpr (List.nodup_cons.mpr ⟨hnew, h.nodup⟩)
    · simp only [List.length_append, List.length_cons, List.length_take, List.length_drop]
      omega
    · rw [hsz, hsize]
      simp only [List.length_append, List.length_cons, List.length_take, List.length_drop]
      omega
    · rw [hfirst, hids]
      by_cases hz : i.toNat = 0
      · rw [if_pos hz, if_pos rfl, if_neg (by omega), if_pos hz.symm]
      · have hsome : ids[i.toNat - 1]? = some ids[i.toNat - 1] :=
          List.getElem?_eq_getElem (by omega)
        rw [if_neg hz, hsome, if_neg (by simp), h.first, if_pos (by omega)]
    · rw [hlast, hids, h.last]
      simp only [List.length_append, List.length_cons, List.length_take, List.length_drop]
      rw [if_neg (by omega), if_neg (by omega)]
      have e : min i.toNat ids.length + (ids.length - i.toNat + 1) - 1 - 1 = ids.length - 1 := by
        omega
      rw [e]
    · intro k y hk
      rw [hids] at hk
      rw [hnodes y, hxs, hids]
      by_cases hk1 : k < i.toNat
      · rw [if_pos hk1] at hk
        obtain ⟨m, hm, hmv, hmnext, hmprev⟩ := h.node k y hk
        have hyl := hpos k y hk
        rw [if_neg (by omega), hm]
        refine ⟨_, rfl, ?_, ?_, ?_⟩
        · rw [if_pos hk1]; exact hmv
        · show (if _ = some y then some l.nodes.length else m.next) = _
          by_cases hk2 : k + 1 = i.toNat
          · rw [if_pos ((hP k y hk).mpr ⟨by omega, by omega⟩), if_neg (by omega), if_pos hk2]
          · rw [if_neg (fun e => hk2 (by have := ((hP k y hk).mp e).2; omega)), hmnext,
              if_pos (by omega)]
        · show (if y = pivot then some l.nodes.length else m.prev) = _
          rw [if_neg (fun e => by have := (hpivot k y hk).mp e; omega), hmprev]
          by_cases hz : k = 0
          · rw [if_pos hz, if_pos hz]
          · rw [if_neg hz, if_neg hz, hids, if_pos (by omega)]
      · rw [if_neg hk1] at hk
        by_cases hk2 : k = i.toNat
        · rw [if_pos hk2] at hk
          have hy : y = l.nodes.length := (Option.some.inj hk).symm
          rw [if_pos hy]
          refine ⟨_, rfl, ?_, ?_, ?_⟩
          · rw [if_neg hk1, if_pos hk2]
          · show some pivot = _
            rw [if_neg (by omega), if_neg (by omega), hk2, Nat.add_sub_cancel, hpiv]
          · show (if i.toNat = 0 then none else ids[i.toNat - 1]?) = _
            rw [hk2]
            by_cases hz : i.toNat = 0
            · rw [if_pos hz, if_pos hz]
            · rw [if_neg hz, if_neg hz, hids, if_pos (by omega)]
        · rw [if_neg hk2] at hk
          obtain ⟨m, hm, hmv, hmnext, hmprev⟩ := h.node (k - 1) y hk
          have hyl := hpos (k - 1) y hk
          rw [if_neg (by omega), hm]
          refine ⟨_, rfl, ?_, ?_, ?_⟩
          · rw [if_neg hk1, if_neg hk2]; exact hmv
          · show (if _ = some y then some l.nodes.length else m.next) = _
            rw [if_neg (fun e => by obtain ⟨hz1, hz2⟩ := (hP (k - 1) y hk).mp e; omega), hmnext,
              if_neg (by omega), if_neg (by omega)]
            have e : k - 1 + 1 = k + 1 - 1 := by omega
            rw [e]
          · show (if y = pivot then some l.nodes.length else m.prev) = _
            by_cases hk3 : k = i.toNat + 1
            · rw [if_pos ((hpivot (k - 1) y hk).mpr (by omega)), if_neg (by omega), hids,
                if_neg (by omega), if_pos (by omega)]
            · rw [if_neg (fun e => hk3 (by have := (hpivot (k - 1) y hk).mp e; omega)), hmprev,
                if_neg (by omega), if_neg (by omega), hids, if_neg (by omega), if_neg (by omega)]

/-- `Remove` takes the node at the index out of a well-formed list and returns
its value. -/
theorem Remove_Holds {l : LinkedList} {ids : List Nat} {xs : List Val} (h : l.Holds ids xs)
    (i : Int) (h0 : 0 ≤ i) (h1 : i < l.size) :
    ∃ l1 v, l.Remove i = Res.ok (l1, v) ∧ xs[i.toNat]? = some v ∧
      l1.Holds (ids.eraseIdx i.toNat) (xs.eraseIdx i.toNat) := by
  have hsize := h.size
  obtain ⟨x, n, v, hx, _, _, _, _, _⟩ := h.get i.toNat (by omega)
  obtain ⟨l1, n1, hrm, hholds, hn1, hv1, _⟩ := removeNode_Holds h i.toNat x hx
  refine ⟨l1, n1.val, ?_, hv1, hholds⟩
  unfold LinkedList.Remove
  rw [if_neg (by omega), (find_spec h i h0 h1).1, hx]
  simp only [hrm, hn1]

/-- `RemoveLast` takes the last node out of a well-formed list; an empty list
is left as it is. -/
theorem RemoveLast_Holds {l : LinkedList} {ids : List Nat} {xs : List Val}
    (h : l.Holds ids xs) :
    ∃ l1 v, l.RemoveLast = Res.ok (l1, v) ∧
      l1.Holds (ids.eraseIdx (ids.length - 1)) (xs.eraseIdx (ids.length - 1)) ∧
      (ids = [] → l1 = l ∧ v = Val.nil) := by
  cases hl : l.last with
  | none =>
    obtain ⟨hi, hx⟩ := h.empty_of_last hl
    refine ⟨l, Val.nil, ?_, ?_, fun _ => ⟨rfl, rfl⟩⟩
    · unfold LinkedList.RemoveLast
      simp only [hl]
    · subst hi hx
      exact h
  | some x =>
    have hx : ids[ids.length - 1]? = some x := by rw [← h.last, hl]
    obtain ⟨l1, n1, hrm, hholds, hn1, _, _⟩ := removeNode_Holds h (ids.length - 1) x hx
    refine ⟨l1, n1.val, ?_, hholds, ?_⟩
    · unfold LinkedList.RemoveLast
      simp only [hl, hrm, hn1]
    · intro he
      rw [he] at hx
      simp at hx

theorem drop_cons_of_getElem? {α : Type} (xs : List α) (j : Nat) (w : α)
    (h : xs[j]? = some w) : xs.drop j = w :: xs.drop (j + 1) := by
  obtain ⟨hj, hw⟩ := List.getElem?_eq_some_iff.mp h
  rw [List.drop_eq_getElem_cons hj, hw]

theorem take_eraseIdx_self {α : Type} (xs : List α) (j : Nat) :
    (xs.eraseIdx j).take j = xs.take j := by
  induction xs generalizing j with
  | nil => simp
  | cons a t ih =>
    cases j with
    | zero => simp
    | succ j => simp [ih]

theorem drop_eraseIdx_self {α : Type} (xs : List α) (j : Nat) :
    (xs.eraseIdx j).drop j = xs.drop (j + 1) := by
  induction xs generalizing j with
  | nil => simp
  | cons a t ih =>
    cases j with
    | zero => simp
    | succ j => simp [ih]

theorem eraseIdx_eq_take_drop {α : Type} (xs : List α) (j : Nat) :
    xs.eraseIdx j = xs.take j ++ xs.drop (j + 1) := by
  induction xs generalizing j with
  | nil => simp
  | cons a t ih =>
    cases j with
    | zero => simp
    | succ j => simp [ih]

/-- The loop of `RemoveAllByVal` from position `j` of a well-formed list: every
later node whose value equals `val` is removed and counted. -/
theorem removeAllLoop_spec (val : Val) :
    ∀ (m : Nat) (l : LinkedList) (ids : List Nat) (xs : List Val) (j fuel : Nat) (removed : Int),
      l.Holds ids xs → j + m = ids.length → m < fuel →
      ∃ l1 ids1, removeAllLoop val fuel l ids[j]? removed =
          Res.ok (l1, removed + ((xs.drop j).count val : Nat)) ∧
        l1.Holds ids1 (xs.take j ++ (xs.drop j).filter (fun w => decide (w ≠ val))) := by
  intro m
  induction m with
  | zero =>
    intro l ids xs j fuel removed h hj hf
    obtain ⟨f1, rfl⟩ : ∃ k, fuel = k + 1 := ⟨fuel - 1, by omega⟩
    have hnone : ids[j]? = none := List.getElem?_eq_none (by omega)
    have hd : xs.drop j = [] := List.drop_eq_nil_of_le (by rw [h.len]; omega)
    have ht : xs.take j = xs := List.take_of_length_le (by rw [h.len]; omega)
    rw [hnone, hd, ht]
    refine ⟨l, ids, by simp [removeAllLoop], by simpa using h⟩
  | succ m ih =>
    intro l ids xs j fuel removed h hj hf
    obtain ⟨f1, rfl⟩ : ∃ k, fuel = k + 1 := ⟨fuel - 1, by omega⟩
    obtain ⟨x, n, w, hx, hw, hn, hnw, hnext, _⟩ := h.get j (by omega)
    have hd := drop_cons_of_getElem? xs j w hw
    rw [hx]
    unfold removeAllLoop
    simp only [hn, hnw, Equals_eq]
    by_cases heq : w = val
    · obtain ⟨l1, n1, hrm, hholds, _, _, _⟩ := removeNode_Holds h j x hx
      have hnext1 : n.next = (ids.eraseIdx j)[j]? := by
        rw [hnext, List.getElem?_eraseIdx, if_neg (by omega)]
      obtain ⟨l2, ids2, hloop, hholds2⟩ := ih l1 (ids.eraseIdx j) (xs.eraseIdx j) j f1
        (removed + 1) hholds (by rw [List.length_eraseIdx, if_pos (by omega)]; omega) (by omega)
      rw [← hnext1] at hloop
      refine ⟨l2, ids2, ?_, ?_⟩
      · simp only [heq, decide_True, if_true, hrm, hloop]
        rw [drop_eraseIdx_self, hd, heq]
        simp only [List.count_cons_self]
        push_cast
        congr 2
        omega
      · rw [take_eraseIdx_self, drop_eraseIdx_self] at hholds2
        rw [hd]
        simpa [heq] using hholds2
    · obtain ⟨l2, ids2, hloop, hholds2⟩ := ih l ids xs (j + 1) f1 removed h (by omega) (by omega)
      rw [← hnext] at hloop
      refine ⟨l2, ids2, ?_, ?_⟩
      · simp only [heq, decide_False, Bool.false_eq_true, if_false, hloop]
        rw [hd, List.count_cons_of_ne (fun e => heq e.symm)]
      · have ht : xs.take (j + 1) = xs.take j ++ [w] := by
          rw [List.take_succ, hw]
          rfl
        rw [ht] at hholds2
        rw [hd]
        simpa [heq] using hholds2

/-- `RemoveAllByVal` on a well-formed list removes every element equal to the
value and returns their number. -/
theorem RemoveAllByVal_spec {l : LinkedList} {ids : List Nat} {xs : List Val}
    (h : l.Holds ids xs) (val : Val) :
    ∃ l1 ids1, l.RemoveAllByVal val = Res.ok (l1, ((xs.count val : Nat) : Int)) ∧
      l1.Holds ids1 (xs.filter (fun w => decide (w ≠ val))) := by
  have hlen := h.length_le
  obtain ⟨l1, ids1, h1, h2⟩ := removeAllLoop_spec val ids.length l ids xs 0
    (l.nodes.length + 1) 0 h (by omega) (by omega)
  refine ⟨l1, ids1, ?_, by simpa using h2⟩
  unfold LinkedList.RemoveAllByVal
  rw [h.first, h1]
  simp

/-- The loop of `RemoveByVal`, whatever the count, ends within the loop budget
and without panic on a well-formed list and leaves a well-formed list. -/
theorem removeByValLoop_Holds (val : Val) (count : Int) :
    ∀ (m : Nat) (l : LinkedList) (ids : List Nat) (xs : List Val) (j fuel : Nat) (removed : Int),
      l.Holds ids xs → j + m = ids.length → m < fuel →
      ∃ l1 r ids1 xs1, removeByValLoop val count fuel l ids[j]? removed = Res.ok (l1, r) ∧
        l1.Holds ids1 xs1 := by
  intro m
  induction m with
  | zero =>
    intro l ids xs j fuel removed h hj hf
    obtain ⟨f1, rfl⟩ : ∃ k, fuel = k + 1 := ⟨fuel - 1, by omega⟩
    have hnone : ids[j]? = none := List.getElem?_eq_none (by omega)
    rw [hnone]
    exact ⟨l, removed, ids, xs, by simp [removeByValLoop], h⟩
  | succ m ih =>
    intro l ids xs j fuel removed h hj hf
    obtain ⟨f1, rfl⟩ : ∃ k, fuel = k + 1 := ⟨fuel - 1, by omega⟩
    obtain ⟨x, n, w, hx, hw, hn, hnw, hnext, _⟩ := h.get j (by omega)
    rw [hx]
    unfold removeByValLoop
    simp only [hn]
    by_cases heq : Equals n.val val = true
    · obtain ⟨l1, n1, hrm, hholds, _, _, _⟩ := removeNode_Holds h j x hx
      have hnext1 : n.next = (ids.eraseIdx j)[j]? := by
        rw [hnext, List.getElem?_eraseIdx, if_neg (by omega)]
      simp only [heq, if_true, hrm]
      by_cases hc : removed + 1 = count
      · rw [if_pos hc]
        exact ⟨l1, _, _, _, rfl, hholds⟩
      · rw [if_neg hc, hnext1]
        exact ih l1 (ids.eraseIdx j) (xs.eraseIdx j) j f1 (removed + 1) hholds
          (by rw [List.length_eraseIdx, if_pos (by omega)]; omega) (by omega)
    · simp only [heq, Bool.false_eq_true, if_false]
      by_cases hc : removed = count
      · rw [if_pos hc]
        exact ⟨l, _, _, _, rfl, h⟩
      · rw [if_neg hc, hnext]
        exact ih l ids xs (j + 1) f1 removed h (by omega) (by omega)

/-- The loop of `RemoveByVal` with a positive count, from position `j` of a
well-formed list with fewer than `count` nodes removed so far: the first nodes
with the value are removed until `count` is reached. -/
theorem removeByValLoop_spec (val : Val) (count : Int) :
    ∀ (m : Nat) (l : LinkedList) (ids : List Nat) (xs : List Val) (j fuel : Nat) (removed : Int),
      l.Holds ids xs → j + m = ids.length → m < fuel → 0 ≤ removed → removed < count →
      ∃ l1 ids1, removeByValLoop val count fuel l ids[j]? removed =
          Res.ok (l1, removed + min (count - removed) (((xs.drop j).count val : Nat) : Int)) ∧
        l1.Holds ids1 (xs.take j ++ eraseFirstN val (count - removed).toNat (xs.drop j)) := by
  intro m
  induction m with
  | zero =>
    intro l ids xs j fuel removed h hj hf hr0 hrc
    obtain ⟨f1, rfl⟩ : ∃ k, fuel = k + 1 := ⟨fuel - 1, by omega⟩
    have hnone : ids[j]? = none := List.getElem?_eq_none (by omega)
    have hd : xs.drop j = [] := List.drop_eq_nil_of_le (by rw [h.len]; omega)
    have ht : xs.take j = xs := List.take_of_length_le (by rw [h.len]; omega)
    obtain ⟨c, hc⟩ : ∃ c, (count - removed).toNat = c + 1 :=
      ⟨(count - removed).toNat - 1, by omega⟩
    rw [hnone, hd, ht, hc]
    refine ⟨l, ids, ?_, by simpa [eraseFirstN] using h⟩
    simp only [removeByValLoop, List.count_nil, Nat.cast_zero]
    congr 2
    omega
  | succ m ih =>
    intro l ids xs j fuel removed h hj hf hr0 hrc
    obtain ⟨f1, rfl⟩ : ∃ k, fuel = k + 1 := ⟨fuel - 1, by omega⟩
    obtain ⟨x, n, w, hx, hw, hn, hnw, hnext, _⟩ := h.get j (by omega)
    have hd := drop_cons_of_getElem? xs j w hw
    obtain ⟨c, hc⟩ : ∃ c, (count - removed).toNat = c + 1 :=
      ⟨(count - removed).toNat - 1, by omega⟩
    rw [hx]
    unfold removeByValLoop
    simp only [hn, hnw, Equals_eq]
    by_cases heq : w = val
    · obtain ⟨l1, n1, hrm, hholds, _, _, _⟩ := removeNode_Holds h j x hx
      have hnext1 : n.next = (ids.eraseIdx j)[j]? := by
        rw [hnext, List.getElem?_eraseIdx, if_neg (by omega)]
      simp only [heq, decide_True, if_true, hrm]
      have hcnt : (((xs.drop j).count val : Nat) : Int) =
          (((xs.drop (j + 1)).count val : Nat) : Int) + 1 := by
        rw [hd, heq, List.count_cons_self]
        push_cast
        rfl
      by_cases hcc : removed + 1 = count
      · rw [if_pos hcc]
        refine ⟨l1, ids.eraseIdx j, ?_, ?_⟩
        · congr 2
          rw [hcnt]
          omega
        · have hc0 : c = 0 := by omega
          rw [hd, hc, hc0, heq]
          simp only [eraseFirstN, if_true]
          rw [← eraseIdx_eq_take_drop]
          exact hholds
      · rw [if_neg hcc, hnext1]
        obtain ⟨l2, ids2, hloop, hholds2⟩ := ih l1 (ids.eraseIdx j) (xs.eraseIdx j) j f1
          (removed + 1) hholds (by rw [List.length_eraseIdx, if_pos (by omega)]; omega)
          (by omega) (by omega) (by omega)
        refine ⟨l2, ids2, ?_, ?_⟩
        · rw [hloop, drop_eraseIdx_self, hcnt]
          congr 2
          omega
        · rw [take_eraseIdx_self, drop_eraseIdx_self] at hholds2
          have hc1 : (count - (removed + 1)).toNat = c := by omega
          rw [hc1] at hholds2
          rw [hd, hc, heq]
          simp only [eraseFirstN, if_true]
          exact hholds2
    · simp only [heq, decide_False, Bool.false_eq_true, if_false]
      rw [if_neg (by omega), hnext]
      obtain ⟨l2, ids2, hloop, hholds2⟩ := ih l ids xs (j + 1) f1 removed h (by omega)
        (by omega) hr0 hrc
      refine ⟨l2, ids2, ?_, ?_⟩
      · rw [hloop, hd, List.count_cons_of_ne (fun e => heq e.symm)]
      · have ht : xs.take (j + 1) = xs.take j ++ [w] := by
          rw [List.take_succ, hw]
          rfl
        rw [ht, hc] at hholds2
        rw [hd, hc]
        simp only [eraseFirstN, heq, if_false]
        simpa using hholds2

/-- Every sequence of calls of the methods that change a list, when it runs
without panic, leaves a well-formed list. -/
theorem run_Holds (ops : List Op) :
    ∀ (l l1 : LinkedList) (ids : List Nat) (xs : List Val), l.Holds ids xs →
      LinkedList.run ops l = Res.ok l1 → ∃ ids1 xs1, l1.Holds ids1 xs1 := by
  induction ops with
  | nil =>
    intro l l1 ids xs h hrun
    simp only [LinkedList.run, Res.ok.injEq] at hrun
    subst hrun
    exact ⟨ids, xs, h⟩
  | cons op ops ih =>
    intro l l1 ids xs h hrun
    have hstep : ∃ l2 ids2 xs2, l.step op = Res.ok l2 ∧ l2.Holds ids2 xs2 := by
      cases hs : l.step op with
      | ok l2 =>
        refine ⟨l2, ?_⟩
        cases op with
        | add val =>
          simp only [LinkedList.step, Res.ok.injEq] at hs
          subst hs
          exact ⟨_, _, rfl, Add_Holds h val⟩
        | set index val =>
          simp only [LinkedList.step] at hs
          by_cases hr : index < 0 ∨ l.size ≤ index
          · simp [LinkedList.Set, hr] at hs
          · obtain ⟨l3, h3, hh3⟩ := Set_Holds h index val (by omega) (by omega)
            rw [h3] at hs
            simp only [Res.ok.injEq] at hs
            subst hs
            exact ⟨_, _, rfl, hh3⟩
        | insert index val =>
          simp only [LinkedList.step] at hs
          by_cases hr : index < 0 ∨ l.size < index
          · simp [LinkedList.Insert, hr] at hs
          · obtain ⟨l3, h3, hh3⟩ := Insert_Holds h index val (by omega) (by omega)
            rw [h3] at hs
            simp only [Res.ok.injEq] at hs
            subst hs
            exact ⟨_, _, rfl, hh3⟩
        | remove index =>
          simp only [LinkedList.step] at hs
          by_cases hr : index < 0 ∨ l.size ≤ index
          · simp [LinkedList.Remove, hr] at hs
          · obtain ⟨l3, v, h3, _, hh3⟩ := Remove_Holds h index (by omega) (by omega)
            rw [h3] at hs
            simp only [Res.ok.injEq] at hs
            subst hs
            exact ⟨_, _, rfl, hh3⟩
        | removeLast =>
          simp only [LinkedList.step] at hs
          obtain ⟨l3, v, h3, hh3, _⟩ := RemoveLast_Holds h
          rw [h3] at hs
          simp only [Res.ok.injEq] at hs
          subst hs
          exact ⟨_, _, rfl, hh3⟩
        | removeAllByVal val =>
          simp only [LinkedList.step] at hs
          obtain ⟨l3, ids3, h3, hh3⟩ := RemoveAllByVal_spec h val
          rw [h3] at hs
          simp only [Res.ok.injEq] at hs
          subst hs
          exact ⟨_, _, rfl, hh3⟩
        | removeByVal val count =>
          simp only [LinkedList.step] at hs
          have hlen := h.length_le
          obtain ⟨l3, r, ids3, xs3, h3, hh3⟩ := removeByValLoop_Holds val count ids.length l ids xs
            0 (l.nodes.length + 1) 0 h (by omega) (by omega)
          rw [← h.first] at h3
          unfold LinkedList.RemoveByVal at hs
          rw [h3] at hs
          simp only [Res.ok.injEq] at hs
          subst hs
          exact ⟨_, _, rfl, hh3⟩
      | panic => simp [LinkedList.run, hs] at hrun
      | outOfFuel => simp [LinkedList.run, hs] at hrun
    obtain ⟨l2, ids2, xs2, hs2, hh2⟩ := hstep
    simp only [LinkedList.run, hs2] at hrun
    exact ih l2 l1 ids2 xs2 hh2 hrun

/-! ### The linked list: claims -/

/-- A list reached from the empty list that holds `xs` is well formed with the
values `xs`. -/
theorem reach_Holds (ops : List Op) (l : LinkedList) (xs : List Val)
    (hrun : LinkedList.run ops {} = Res.ok l) (hxs : l.toList = Res.ok xs) :
    ∃ ids, l.Holds ids xs := by
  obtain ⟨ids, xs1, h⟩ := run_Holds ops {} l [] [] Holds_empty hrun
  have := toList_spec h
  rw [hxs] at this
  simp only [Res.ok.injEq] at this
  subst this
  exact ⟨ids, h⟩

theorem Make_Holds_aux (vals : List Val) :
    ∀ (l : LinkedList) (ids : List Nat) (xs : List Val), l.Holds ids xs →
      ∃ ids1, (vals.foldl LinkedList.Add l).Holds ids1 (xs ++ vals) := by
  induction vals with
  | nil => intro l ids xs h; exact ⟨ids, by simpa using h⟩
  | cons v t ih =>
    intro l ids xs h
    obtain ⟨ids1, h1⟩ := ih (l.Add v) _ _ (Add_Holds h v)
    exact ⟨ids1, by simpa using h1⟩

theorem eraseFirstN_nil (v : Val) (c : Nat) : eraseFirstN v c [] = [] := by
  cases c <;> rfl

theorem eraseFirstN_min (v : Val) :
    ∀ (xs : List Val) (c : Nat), eraseFirstN v c xs = eraseFirstN v (min c (xs.count v)) xs := by
  intro xs
  induction xs with
  | nil => intro c; rw [eraseFirstN_nil, eraseFirstN_nil]
  | cons x t ih =>
    intro c
    cases c with
    | zero => simp
    | succ c =>
      by_cases hx : x = v
      · subst hx
        have e : min (c + 1) ((x :: t).count x) = min c (t.count x) + 1 := by
          rw [List.count_cons_self]
          omega
        rw [e]
        simp only [eraseFirstN, if_true]
        exact ih c
      · have e : (x :: t).count v = t.count v := List.count_cons_of_ne (fun e => hx e.symm) t
        rw [e]
        cases hm : min (c + 1) (t.count v) with
        | zero =>
          have h0 : t.count v = 0 := by omega
          have := ih (c + 1)
          rw [h0] at this
          simp only [eraseFirstN, hx, if_false]
          rw [this]
          simp [eraseFirstN]
        | succ d =>
          simp only [eraseFirstN, hx, if_false]
          rw [ih (c + 1), hm]

theorem eraseFirstN_sublist (v : Val) :
    ∀ (xs : List Val) (c : Nat), (eraseFirstN v c xs).Sublist xs := by
  intro xs
  induction xs with
  | nil => intro c; rw [eraseFirstN_nil]
  | cons x t ih =>
    intro c
    cases c with
    | zero => exact List.Sublist.refl _
    | succ c =>
      simp only [eraseFirstN]
      split
      · exact List.Sublist.cons _ (ih c)
      · exact List.Sublist.cons₂ _ (ih (c + 1))

theorem eraseFirstN_count (v : Val) :
    ∀ (xs : List Val) (c : Nat), (eraseFirstN v c xs).count v = xs.count v - c ∧
      (eraseFirstN v c xs).filter (fun w => decide (w ≠ v)) =
        xs.filter (fun w => decide (w ≠ v)) := by
  intro xs
  induction xs with
  | nil => intro c; rw [eraseFirstN_nil]; simp
  | cons x t ih =>
    intro c
    cases c with
    | zero => simp [eraseFirstN]
    | succ c =>
      by_cases hx : x = v
      · subst hx
        simp only [eraseFirstN, if_true]
        obtain ⟨h1, h2⟩ := ih c
        refine ⟨?_, ?_⟩
        · rw [h1, List.count_cons_self]; omega
        · rw [h2]; simp
      · simp only [eraseFirstN, hx, if_false]
        obtain ⟨h1, h2⟩ := ih (c + 1)
        refine ⟨?_, ?_⟩
        · rw [List.count_cons_of_ne (fun e => hx e.symm), List.count_cons_of_ne (fun e => hx e.symm),
            h1]
        · simp only [List.filter_cons, ne_eq, hx, not_false_eq_true, decide_True, if_true, h2]

/-- C12: for every list reached from the empty list by the methods of the
package, holding `xs`, and every index `0 <= i < Len()`, `find(i)` reaches the
node that the naive walk of `i` steps from the head reaches, and that the walk of
`Len() - 1 - i` steps back from the tail reaches; `Get(i)` returns its value,
which is `xs[i]`. -/
theorem get_two_way (ops : List Op) (l : LinkedList) (xs : List Val) (i : Int)
    (hrun : LinkedList.run ops {} = Res.ok l) (hxs : l.toList = Res.ok xs)
    (h0 : 0 ≤ i) (h1 : i < l.Len) :
    ∃ x n, l.find i = some (some x) ∧ l.findNaive i = some (some x) ∧
      stepPrev l.nodes (l.size - 1 - i).toNat l.last = some (some x) ∧
      l.nodes[x]? = some n ∧ xs[i.toNat]? = some n.val ∧ l.Get i = Res.ok n.val ∧
      l.Len = (xs.length : Int) := by
  obtain ⟨ids, h⟩ := reach_Holds ops l xs hrun hxs
  have hsize := h.size
  have hlen := h.len
  have h1s : i < l.size := h1
  obtain ⟨x, n, v, hx, hv, hn, hnv, _, _⟩ := h.get i.toNat (by omega)
  obtain ⟨hf, hfw, hbw⟩ := find_spec h i h0 h1s
  obtain ⟨v2, hv2, hget⟩ := Get_spec h i h0 h1s
  rw [hv] at hv2
  rw [hx] at hf hfw hbw
  refine ⟨x, n, hf, hfw, hbw, hn, by rw [hnv]; exact hv, ?_, ?_⟩
  · rw [hget, hnv, Option.some.inj hv2]
  · show l.size = _
    rw [hsize, hlen]

/-- Witness for C12: the list built by `Add(1)`, `Add(2)`, `Add(3)`, at index
2. -/
theorem get_two_way_witness :
    LinkedList.run [Op.add (Val.int 1), Op.add (Val.int 2), Op.add (Val.int 3)] {} =
        Res.ok (Make [Val.int 1, Val.int 2, Val.int 3]) ∧
      (Make [Val.int 1, Val.int 2, Val.int 3]).toList =
        Res.ok [Val.int 1, Val.int 2, Val.int 3] ∧
      (0 : Int) ≤ 2 ∧ 2 < (Make [Val.int 1, Val.int 2, Val.int 3]).Len ∧
      ∃ x, (Make [Val.int 1, Val.int 2, Val.int 3]).find 2 = some (some x) ∧
        (Make [Val.int 1, Val.int 2, Val.int 3]).findNaive 2 = some (some x) :=
  ⟨by decide, by decide, by decide, by decide,
    (get_two_way [Op.add (Val.int 1), Op.add (Val.int 2), Op.add (Val.int 3)]
      (Make [Val.int 1, Val.int 2, Val.int 3]) [Val.int 1, Val.int 2, Val.int 3] 2
      (by decide) (by decide) (by decide) (by decide)).imp
      (fun _ hx => hx.elim (fun _ hn => ⟨hn.1, hn.2.1⟩))⟩

/-- C13: for every list reached from the empty list by the methods of the
package, holding `xs`, and every index `0 <= i <= Len()`, `Insert(i, v)` returns
without panic; afterwards `ForEach` meets `xs[0..i) ++ [v] ++ xs[i..)`, the walk
back from the tail meets the same values in reverse, `Len()` is one more, and
`Get(k)` returns the value at `k` of that sequence for every index `k`. -/
theorem insert_at (ops : List Op) (l : LinkedList) (xs : List Val) (i : Int) (v : Val)
    (hrun : LinkedList.run ops {} = Res.ok l) (hxs : l.toList = Res.ok xs)
    (h0 : 0 ≤ i) (h1 : i ≤ l.Len) :
    ∃ l1, l.Insert i v = Res.ok l1 ∧
      l1.toList = Res.ok (xs.take i.toNat ++ [v] ++ xs.drop i.toNat) ∧
      l1.toListBack = Res.ok (xs.take i.toNat ++ [v] ++ xs.drop i.toNat).reverse ∧
      l1.Len = l.Len + 1 ∧
      ∀ k : Int, 0 ≤ k → k < l1.Len →
        ∃ w, (xs.take i.toNat ++ [v] ++ xs.drop i.toNat)[k.toNat]? = some w ∧
          l1.Get k = Res.ok w := by
  obtain ⟨ids, h⟩ := reach_Holds ops l xs hrun hxs
  obtain ⟨l1, hins, hh1⟩ := Insert_Holds h i v h0 h1
  have e : xs.take i.toNat ++ [v] ++ xs.drop i.toNat = xs.take i.toNat ++ v :: xs.drop i.toNat := by
    simp
  rw [e]
  have hsz : l1.Len = l.Len + 1 := by
    show l1.size = l.size + 1
    have hl := h.len
    have hs := h.size
    have h1s : i ≤ l.size := h1
    rw [hh1.size, hs]
    simp only [List.length_append, List.length_cons, List.length_take, List.length_drop]
    omega
  exact ⟨l1, hins, toList_spec hh1, toListBack_spec hh1, hsz,
    fun k hk0 hk1 => Get_spec hh1 k hk0 hk1⟩

/-- Witness for C13: `Insert(1, 9)` into the list 1, 2. -/
theorem insert_at_witness :
    LinkedList.run [Op.add (Val.int 1), Op.add (Val.int 2)] {} =
        Res.ok (Make [Val.int 1, Val.int 2]) ∧
      (Make [Val.int 1, Val.int 2]).toList = Res.ok [Val.int 1, Val.int 2] ∧
      (0 : Int) ≤ 1 ∧ 1 ≤ (Make [Val.int 1, Val.int 2]).Len ∧
      ∃ l1, (Make [Val.int 1, Val.int 2]).Insert 1 (Val.int 9) = Res.ok l1 ∧
        l1.toList = Res.ok [Val.int 1, Val.int 9, Val.int 2] :=
  ⟨by decide, by decide, by decide, by decide,
    (insert_at [Op.add (Val.int 1), Op.add (Val.int 2)] (Make [Val.int 1, Val.int 2])
      [Val.int 1, Val.int 2] 1 (Val.int 9) (by decide) (by decide) (by decide) (by decide)).imp
      (fun _ hl => ⟨hl.1, hl.2.1⟩)⟩

/-- C14: for every list reached from the empty list by the methods of the
package, holding `xs`, and every index `0 <= i < Len()`, `Remove(i)` returns
`xs[i]` without panic; afterwards `ForEach` meets `xs[0..i) ++ xs[i+1..)`, the
walk back from the tail meets the same values in reverse, and `Len()` is one
less. -/
theorem remove_at (ops : List Op) (l : LinkedList) (xs : List Val) (i : Int)
    (hrun : LinkedList.run ops {} = Res.ok l) (hxs : l.toList = Res.ok xs)
    (h0 : 0 ≤ i) (h1 : i < l.Len) :
    ∃ l1 w, l.Remove i = Res.ok (l1, w) ∧ xs[i.toNat]? = some w ∧
      l1.toList = Res.ok (xs.take i.toNat ++ xs.drop (i.toNat + 1)) ∧
      l1.toListBack = Res.ok (xs.take i.toNat ++ xs.drop (i.toNat + 1)).reverse ∧
      l1.Len = l.Len - 1 := by
  obtain ⟨ids, h⟩ := reach_Holds ops l xs hrun hxs
  obtain ⟨l1, w, hrm, hw, hh1⟩ := Remove_Holds h i h0 h1
  rw [eraseIdx_eq_take_drop xs] at hh1
  have hsz : l1.Len = l.Len - 1 := by
    show l1.size = l.size - 1
    have hs := h.size
    have h1s : i < l.size := h1
    rw [hh1.size, hs, List.length_eraseIdx, if_pos (by omega)]
    omega
  exact ⟨l1, w, hrm, hw, toList_spec hh1, toListBack_spec hh1, hsz⟩

/-- Witness for C14: `Remove(1)` on the list 1, 2, 3. -/
theorem remove_at_witness :
    LinkedList.run [Op.add (Val.int 1), Op.add (Val.int 2), Op.add (Val.int 3)] {} =
        Res.ok (Make [Val.int 1, Val.int 2, Val.int 3]) ∧
      (Make [Val.int 1, Val.int 2, Val.int 3]).toList =
        Res.ok [Val.int 1, Val.int 2, Val.int 3] ∧
      (0 : Int) ≤ 1 ∧ 1 < (Make [Val.int 1, Val.int 2, Val.int 3]).Len ∧
      ∃ l1 w, (Make [Val.int 1, Val.int 2, Val.int 3]).Remove 1 = Res.ok (l1, w) ∧
        [Val.int 1, Val.int 2, Val.int 3][(1 : Int).toNat]? = some w ∧
        l1.toList = Res.ok [Val.int 1, Val.int 3] :=
  ⟨by decide, by decide, by decide, by decide,
    (remove_at [Op.add (Val.int 1), Op.add (Val.int 2), Op.add (Val.int 3)]
      (Make [Val.int 1, Val.int 2, Val.int 3]) [Val.int 1, Val.int 2, Val.int 3] 1
      (by decide) (by decide) (by decide) (by decide)).imp
      (fun _ hl => hl.imp (fun _ hw => ⟨hw.1, hw.2.1, hw.2.2.1⟩))⟩

/-- C15: for every list reached from the empty list by the methods of the
package, holding `xs`, every value `v` and every `count > 0`,
`RemoveByVal(v, count)` returns, without panic, the smaller of `count` and the
number k of elements equal to `v`; afterwards the list holds `xs` without its
first min(count, k) elements equal to `v`: a sublist of `xs` with the other
elements untouched and k - min(count, k) elements equal to `v` left. -/
theorem removeByVal_positive (ops : List Op) (l : LinkedList) (xs : List Val) (v : Val)
    (count : Int) (hrun : LinkedList.run ops {} = Res.ok l) (hxs : l.toList = Res.ok xs)
    (hc : 0 < count) :
    ∃ l1, l.RemoveByVal v count = Res.ok (l1, min count ((xs.count v : Nat) : Int)) ∧
      l1.toList = Res.ok (eraseFirstN v (min count.toNat (xs.count v)) xs) ∧
      (eraseFirstN v (min count.toNat (xs.count v)) xs).Sublist xs ∧
      (eraseFirstN v (min count.toNat (xs.count v)) xs).count v =
        xs.count v - min count.toNat (xs.count v) ∧
      (eraseFirstN v (min count.toNat (xs.count v)) xs).filter (fun w => decide (w ≠ v)) =
        xs.filter (fun w => decide (w ≠ v)) := by
  obtain ⟨ids, h⟩ := reach_Holds ops l xs hrun hxs
  have hlen := h.length_le
  obtain ⟨l1, ids1, hloop, hh1⟩ := removeByValLoop_spec v count ids.length l ids xs 0
    (l.nodes.length + 1) 0 h (by omega) (by omega) (le_refl _) hc
  simp only [List.drop_zero, List.take_zero, List.nil_append, sub_zero, zero_add] at hloop hh1
  rw [eraseFirstN_min] at hh1
  refine ⟨l1, ?_, toList_spec hh1, eraseFirstN_sublist v xs _, (eraseFirstN_count v xs _).1,
    (eraseFirstN_count v xs _).2⟩
  unfold LinkedList.RemoveByVal
  rw [h.first, hloop]

/-- Witness for C15: `RemoveByVal(2, 2)` on the list 2, 1, 2, 2. -/
theorem removeByVal_positive_witness :
    LinkedList.run [Op.add (Val.int 2), Op.add (Val.int 1), Op.add (Val.int 2),
        Op.add (Val.int 2)] {} =
        Res.ok (Make [Val.int 2, Val.int 1, Val.int 2, Val.int 2]) ∧
      (Make [Val.int 2, Val.int 1, Val.int 2, Val.int 2]).toList =
        Res.ok [Val.int 2, Val.int 1, Val.int 2, Val.int 2] ∧
      (0 : Int) < 2 ∧
      ∃ l1, (Make [Val.int 2, Val.int 1, Val.int 2, Val.int 2]).RemoveByVal (Val.int 2) 2 =
          Res.ok (l1, min 2 (([Val.int 2, Val.int 1, Val.int 2, Val.int 2].count (Val.int 2) :
            Nat) : Int)) ∧
        l1.toList = Res.ok (eraseFirstN (Val.int 2)
          (min (2 : Int).toNat ([Val.int 2, Val.int 1, Val.int 2, Val.int 2].count (Val.int 2)))
          [Val.int 2, Val.int 1, Val.int 2, Val.int 2]) :=
  ⟨by decide, by decide, by decide,
    (removeByVal_positive [Op.add (Val.int 2), Op.add (Val.int 1), Op.add (Val.int 2),
        Op.add (Val.int 2)] (Make [Val.int 2, Val.int 1, Val.int 2, Val.int 2])
      [Val.int 2, Val.int 1, Val.int 2, Val.int 2] (Val.int 2) 2 (by decide) (by decide)
      (by decide)).imp (fun _ hl => ⟨hl.1, hl.2.1⟩)⟩

/-- With a negative count the loop of `RemoveByVal` runs as the loop of
`RemoveAllByVal`, on every heap. -/
theorem removeByValLoop_negative (val : Val) (count : Int) (hc : count < 0) :
    ∀ (fuel : Nat) (l : LinkedList) (cur : Option Nat) (removed : Int), 0 ≤ removed →
      removeByValLoop val count fuel l cur removed = removeAllLoop val fuel l cur removed := by
  intro fuel
  induction fuel with
  | zero => intro l cur removed _; rfl
  | succ fuel ih =>
    intro l cur removed hr
    cases cur with
    | none => rfl
    | some x =>
      unfold removeByValLoop removeAllLoop
      cases l.nodes[x]? with
      | none => rfl
      | some n =>
        simp only
        split
        · cases l.removeNode x with
          | none => rfl
          | some l1 =>
            simp only
            rw [if_neg (by omega)]
            exact ih l1 n.next (removed + 1) (by omega)
        · rw [if_neg (by omega)]
          exact ih l n.next removed hr

/-- C16 at the failing input: on the list 1, 2 the call `RemoveByVal(2, 0)`
removes nothing and returns 0, while `RemoveAllByVal(2)` removes the element 2
and returns 1; on the list 2, 1, 2, whose head equals the value,
`RemoveByVal(2, 0)` removes both elements 2. -/
theorem removeByVal_zero_differs :
    (Make [Val.int 1, Val.int 2]).RemoveByVal (Val.int 2) 0 =
        Res.ok (Make [Val.int 1, Val.int 2], 0) ∧
      (Make [Val.int 1, Val.int 2]).toList = Res.ok [Val.int 1, Val.int 2] ∧
      (∃ l1, (Make [Val.int 1, Val.int 2]).RemoveAllByVal (Val.int 2) = Res.ok (l1, 1) ∧
        l1.toList = Res.ok [Val.int 1]) ∧
      (∃ l2, (Make [Val.int 2, Val.int 1, Val.int 2]).RemoveByVal (Val.int 2) 0 =
          Res.ok (l2, 2) ∧ l2.toList = Res.ok [Val.int 1]) := by
  refine ⟨by decide, by decide, ⟨_, rfl, by decide⟩, ⟨_, rfl, by decide⟩⟩

/-- C17: for every list reached from the empty list by the methods of the
package, holding `xs`, after `Add(v)` the list holds `xs ++ [v]`, `Len()` is one
more, `Get(Len() - 1)` is `v` and `Get(k)` is as before for every earlier index
`k`; and `Make(vals...)` holds exactly `vals`, in order. -/
theorem add_at_tail (ops : List Op) (l : LinkedList) (xs : List Val) (v : Val)
    (hrun : LinkedList.run ops {} = Res.ok l) (hxs : l.toList = Res.ok xs) :
    (l.Add v).toList = Res.ok (xs ++ [v]) ∧ (l.Add v).Len = l.Len + 1 ∧
      (l.Add v).Get ((l.Add v).Len - 1) = Res.ok v ∧
      (∀ k : Int, 0 ≤ k → k < l.Len → ∃ w, xs[k.toNat]? = some w ∧
        l.Get k = Res.ok w ∧ (l.Add v).Get k = Res.ok w) ∧
      ∀ vals : List Val, (Make vals).toList = Res.ok vals ∧
        (Make vals).Len = (vals.length : Int) := by
  obtain ⟨ids, h⟩ := reach_Holds ops l xs hrun hxs
  have ha := Add_Holds h v
  have hl := h.len
  have hs := h.size
  have hsz : (l.Add v).Len = l.Len + 1 := by
    show (l.Add v).size = l.size + 1
    rw [ha.size, hs]
    simp
  refine ⟨toList_spec ha, hsz, ?_, ?_, ?_⟩
  · have hsz2 : (l.Add v).size = l.size + 1 := hsz
    obtain ⟨w, hw, hget⟩ := Get_spec ha ((l.Add v).Len - 1)
      (by show 0 ≤ (l.Add v).size - 1; omega) (by show (l.Add v).size - 1 < (l.Add v).size; omega)
    rw [hget]
    have e : ((l.Add v).Len - 1).toNat = xs.length := by
      show ((l.Add v).size - 1).toNat = _
      omega
    rw [e, List.getElem?_append_right (le_refl _)] at hw
    simp at hw
    rw [hw]
  · intro k hk0 hk1
    have hk1s : k < l.size := hk1
    obtain ⟨w, hw, hget⟩ := Get_spec h k hk0 hk1s
    obtain ⟨w2, hw2, hget2⟩ := Get_spec ha k hk0 (by show k < (l.Add v).size; rw [ha.size]; simp; omega)
    rw [List.getElem?_append_left (by omega), hw] at hw2
    refine ⟨w, hw, hget, ?_⟩
    rw [hget2, Option.some.inj hw2]
  · intro vals
    obtain ⟨ids1, h1⟩ := Make_Holds_aux vals {} [] [] Holds_empty
    simp only [List.nil_append] at h1
    refine ⟨toList_spec h1, ?_⟩
    show (vals.foldl LinkedList.Add {}).size = _
    rw [h1.size, h1.len]

/-- Witness for C17: `Add(3)` on the list 1, 2. -/
theorem add_at_tail_witness :
    LinkedList.run [Op.add (Val.int 1), Op.add (Val.int 2)] {} =
        Res.ok (Make [Val.int 1, Val.int 2]) ∧
      (Make [Val.int 1, Val.int 2]).toList = Res.ok [Val.int 1, Val.int 2] ∧
      ((Make [Val.int 1, Val.int 2]).Add (Val.int 3)).toList =
        Res.ok ([Val.int 1, Val.int 2] ++ [Val.int 3]) :=
  ⟨by decide, by decide,
    (add_at_tail [Op.add (Val.int 1), Op.add (Val.int 2)] (Make [Val.int 1, Val.int 2])
      [Val.int 1, Val.int 2] (Val.int 3) (by decide) (by decide)).1⟩

/-- C18: for every list reached from the empty list by the methods of the
package, holding `xs`, and every `0 <= start < Len()`, `start <= end <= Len()`,
`Range(start, end)` returns, without panic, the `end - start` values of `xs` from
index `start` up to index `end`, in order. -/
theorem range_slice (ops : List Op) (l : LinkedList) (xs : List Val) (start end_ : Int)
    (hrun : LinkedList.run ops {} = Res.ok l) (hxs : l.toList = Res.ok xs)
    (h0 : 0 ≤ start) (h1 : start < l.Len) (h2 : start ≤ end_) (h3 : end_ ≤ l.Len) :
    l.Range start end_ = Res.ok ((xs.drop start.toNat).take (end_.toNat - start.toNat)) ∧
      (((xs.drop start.toNat).take (end_.toNat - start.toNat)).length : Int) = end_ - start ∧
      ∀ k, k < end_.toNat - start.toNat →
        ((xs.drop start.toNat).take (end_.toNat - start.toNat))[k]? = xs[start.toNat + k]? := by
  obtain ⟨ids, h⟩ := reach_Holds ops l xs hrun hxs
  have hl := h.len
  have hs := h.size
  have h1s : start < l.size := h1
  have h3s : end_ ≤ l.size := h3
  refine ⟨Range_spec h start end_ h0 h1s h2 h3s, ?_, ?_⟩
  · rw [List.length_take, List.length_drop]
    omega
  · intro k hk
    rw [List.getElem?_take, if_pos hk, List.getElem?_drop]

/-- Witness for C18: `Range(1, 3)` on the list 1, 2, 3, 4. -/
theorem range_slice_witness :
    LinkedList.run [Op.add (Val.int 1), Op.add (Val.int 2), Op.add (Val.int 3),
        Op.add (Val.int 4)] {} = Res.ok (Make [Val.int 1, Val.int 2, Val.int 3, Val.int 4]) ∧
      (Make [Val.int 1, Val.int 2, Val.int 3, Val.int 4]).toList =
        Res.ok [Val.int 1, Val.int 2, Val.int 3, Val.int 4] ∧
      (0 : Int) ≤ 1 ∧ 1 < (Make [Val.int 1, Val.int 2, Val.int 3, Val.int 4]).Len ∧
      (1 : Int) ≤ 3 ∧ 3 ≤ (Make [Val.int 1, Val.int 2, Val.int 3, Val.int 4]).Len ∧
      (Make [Val.int 1, Val.int 2, Val.int 3, Val.int 4]).Range 1 3 =
        Res.ok (([Val.int 1, Val.int 2, Val.int 3, Val.int 4].drop (1 : Int).toNat).take
          ((3 : Int).toNat - (1 : Int).toNat)) :=
  ⟨by decide, by decide, by decide, by decide, by decide, by decide,
    (range_slice [Op.add (Val.int 1), Op.add (Val.int 2), Op.add (Val.int 3),
        Op.add (Val.int 4)] (Make [Val.int 1, Val.int 2, Val.int 3, Val.int 4])
      [Val.int 1, Val.int 2, Val.int 3, Val.int 4] 1 3 (by decide) (by decide) (by decide)
      (by decide) (by decide) (by decide)).1⟩
end list

/-! ### The restricted round trip, followed by more input -/

theorem ParseUint_decimal_big (n bitSize : Nat) (h : 2 ^ bitSize ≤ n) :
    ParseUint (decimal n) bitSize = none := by
  unfold ParseUint
  have hne := decimal_ne_nil n
  cases hd : decimal n with
  | nil => exact absurd hd hne
  | cons c cs =>
    simp only []
    rw [← hd, parseDigits_decimal]
    simp only []
    rw [if_neg (by omega)]

/-- An array of 2^32 or more elements: its header is answered with a protocol
error, and the decoder goes on with the elements as fresh input. -/
theorem parse0_array_too_long (elems : List Bytes) (h : 2 ^ 32 ≤ elems.length) :
    parse0 (encode (Frame.array elems)) =
      Stream.send ⟨none, some (protocolError (42 :: (decimal elems.length ++ CRLF)))⟩
        (parse0 (elems.map encodeBulk).flatten) := by
  have he : encode (Frame.array elems) =
      42 :: (decimal elems.length ++ CRLF) ++ (elems.map encodeBulk).flatten := by
    simp [encode]
  rw [he]
  exact parse0_step _ _ _ (parseIter_badArrayHeader _ _ (decimal_no_lf _)
    (ParseUint_decimal_big _ 32 h))

/-- C34, as stated, fails: the array of 2^32 bulk strings "a" (each non-empty
and not starting with `$`) is written with the header `*4294967296`, which the
decoder, reading the count with `ParseUint(.., 10, 32)`, answers with a protocol
error as its first payload. -/
theorem array_of_two_pow_32_rejected :
    (parse0 (encode (Frame.array (List.replicate 4294967296 [97])))).payloads.head? =
      some ⟨none, some (protocolError [42, 52, 50, 57, 52, 57, 54, 55, 50, 57, 54, 13, 10])⟩ := by
  rw [parse0_array_too_long _ (by rw [List.length_replicate]; decide), List.length_replicate]
  have hd : decimal 4294967296 = [52, 50, 57, 52, 57, 54, 55, 50, 57, 54] := by decide
  rw [hd]
  rfl

/-- C34, amended: for every frame that is a simple string or error without CR
and LF, a 64-bit integer, or an array of fewer than 2^32 bulk strings each
non-empty and not starting with `$` (also the null bulk, a single such bulk
string and the empty array), and for every further input `R`, decoding the wire
form of the frame followed by `R` sends first the reply that stands for the
frame, with no error, and then exactly what decoding `R` alone sends. -/
theorem roundTrip_then_rest (F : Frame) (R : Bytes) (h : F.canonical) :
    ∃ r : Reply, r.toFrame = F ∧
      parse0 (encode F ++ R) = Stream.send ⟨some r, none⟩ (parse0 R) := by
  obtain ⟨k, hk⟩ := parseLoop_frame_reply F h
  refine ⟨F.toReply, Frame.toReply_toFrame F h, ?_⟩
  have := parse0_of_parseLoop (encode F ++ R) R [⟨some F.toReply, none⟩] k (fun f => by
    rw [hk f R]
    rfl)
  rw [this]
  rfl

/-- Witness for C34, amended: the array of the bulk strings "set", "k", "v",
followed by the frame `+OK`. -/
theorem roundTrip_then_rest_witness :
    (Frame.array [[115, 101, 116], [107], [118]]).canonical ∧
      ∃ r : Reply, r.toFrame = Frame.array [[115, 101, 116], [107], [118]] ∧
        parse0 (encode (Frame.array [[115, 101, 116], [107], [118]]) ++ [43, 79, 75, 13, 10]) =
          Stream.send ⟨some r, none⟩ (parse0 [43, 79, 75, 13, 10]) :=
  ⟨by simp [Frame.canonical, bulkOk],
   roundTrip_then_rest (Frame.array [[115, 101, 116], [107], [118]]) [43, 79, 75, 13, 10]
     (by simp [Frame.canonical, bulkOk])⟩

/-! ### C35: iteration in the order of (score, member) -/

set_option maxRecDepth 100000 in
/-- C35, as stated, fails.  On the empty sequence of calls the set is empty,
`Len()` is 0, and `Range(0, Len(), desc)` panics at the test
`start < 0 || start >= size` of `ForEach` instead of returning no element.  With
a NaN score the order is lost: after `Add("b", 1)`, `Add("a", NaN)`,
`Add("c", 0)`, `Add("d", 2)` the call `Range(0, Len(), false)` returns c, d, a,
b, with the score 2 before the score 1, and `Range(0, Len(), true)` the
reverse. -/
theorem range_all_fails_on_empty_and_with_nan :
    SortedSet.addAllF [] Make = Res.ok Make ∧
      Make.Range 0 Make.Len false = Res.panic ∧ Make.Range 0 Make.Len true = Res.panic ∧
    isNaN (infScore + 1) = true ∧
    ∃ s, SortedSet.addAllF
        [([98], 1, 0), ([97], infScore + 1, 0), ([99], 0, 0), ([100], 2, 0)] Make = Res.ok s ∧
      s.Range 0 s.Len false =
        Res.ok [⟨[99], 0⟩, ⟨[100], 2⟩, ⟨[97], infScore + 1⟩, ⟨[98], 1⟩] ∧
      s.Range 0 s.Len true =
        Res.ok [⟨[98], 1⟩, ⟨[97], infScore + 1⟩, ⟨[100], 2⟩, ⟨[99], 0⟩] := by
  refine ⟨rfl, by decide, by decide, by decide, ⟨_, rfl, ?_, ?_⟩⟩
  · decide
  · decide

/-- C35, amended: for every non-empty sequence of `Add` calls with pairwise
distinct members and scores that are not NaN, whatever levels are drawn, the
calls return a set `s`, and `Range(0, Len(), false)` returns a list `els` that
is a permutation of the added (member, score) pairs (each once) and strictly
increasing in the order by score first and, for equal scores, by member;
`Range(0, Len(), true)` returns the reverse of `els`. -/
theorem range_all_sorted (adds : List (Bytes × Int × Nat)) (hne : adds ≠ [])
    (hd : (adds.map Prod.fst).Nodup) (hn : ∀ a ∈ adds, isNaN a.2.1 = false) :
    ∃ (s : SortedSet) (els : List Element), SortedSet.addAllF adds Make = Res.ok s ∧
      s.Range 0 s.Len false = Res.ok els ∧ s.Range 0 s.Len true = Res.ok els.reverse ∧
      els.Perm (addElems adds) ∧
      els.Pairwise (fun a b => a.Score < b.Score ∨
        (a.Score = b.Score ∧ bytesLt a.Member b.Member = true)) := by
  obtain ⟨s, order, els, hrun, hb, hperm, hlen1, hlen2, -⟩ := addAllF_Make adds hd hn
  have hpos : 0 < order.length := by
    rw [← hlen2, hperm.length_eq]
    unfold addElems
    rw [List.length_map]
    exact List.length_pos.mpr hne
  obtain ⟨r1, r2⟩ := Range_ranked s order els hb.ranked hb.elems (by rw [hlen1, hlen2])
    0 order.length hpos (Nat.zero_le _) (Nat.le_refl _)
  have hL : s.Len = (order.length : Int) := by unfold SortedSet.Len; rw [hlen1, hlen2]
  have e1 : (els.drop 0).take (order.length - 0) = els := by
    rw [List.drop_zero, Nat.sub_zero, ← hlen2, List.take_length]
  have e2 : (els.reverse.drop 0).take (order.length - 0) = els.reverse := by
    rw [List.drop_zero, Nat.sub_zero, ← hlen2, ← List.length_reverse, List.take_length]
  rw [e1] at r1
  rw [e2] at r2
  refine ⟨s, els, hrun, ?_, ?_, hperm, ?_⟩
  · rw [hL]; exact r1
  · rw [hL]; exact r2
  · refine hb.sorted.imp ?_
    intro a b hab
    unfold elemLt keyLt at hab
    simp only [Bool.or_eq_true, Bool.and_eq_true, decide_eq_true_eq] at hab
    exact hab

set_option maxRecDepth 100000 in
/-- C35, amended, on the calls `Add("b", 2)`, `Add("a", 1)`, `Add("c", 2)`,
`Add("aa", 2)`: the ascending order is a, aa, b, c with scores 1, 2, 2, 2. -/
theorem range_all_sorted_witness :
    ([([98], 2, 0), ([97], 1, 1), ([99], 2, 0), ([97, 97], 2, 3)] :
        List (Bytes × Int × Nat)) ≠ [] ∧
    (([([98], 2, 0), ([97], 1, 1), ([99], 2, 0), ([97, 97], 2, 3)] :
        List (Bytes × Int × Nat)).map Prod.fst).Nodup ∧
    (∀ a ∈ ([([98], 2, 0), ([97], 1, 1), ([99], 2, 0), ([97, 97], 2, 3)] :
        List (Bytes × Int × Nat)), isNaN a.2.1 = false) ∧
    ∃ (s : SortedSet) (els : List Element),
      SortedSet.addAllF [([98], 2, 0), ([97], 1, 1), ([99], 2, 0), ([97, 97], 2, 3)] Make =
        Res.ok s ∧
      s.Range 0 s.Len false = Res.ok els ∧ s.Range 0 s.Len true = Res.ok els.reverse ∧
      els.Perm (addElems [([98], 2, 0), ([97], 1, 1), ([99], 2, 0), ([97, 97], 2, 3)]) ∧
      els.Pairwise (fun a b => a.Score < b.Score ∨
        (a.Score = b.Score ∧ bytesLt a.Member b.Member = true)) :=
  ⟨by decide, by decide, by decide,
   range_all_sorted [([98], 2, 0), ([97], 1, 1), ([99], 2, 0), ([97, 97], 2, 3)]
     (by decide) (by decide) (by decide)⟩

/-! ### The decoder on lines without CR, the two sizes of a sorted set, SELECT -/

set_option maxRecDepth 100000 in
/-- C36 (the code at the failing inputs).  The input that is the single byte LF
makes `readLine` index `msg[len(msg)-2]` at -1: the decoder panics and emits no
payload at all.  An empty line inside an array body (after the element header
`$0`, and also as the first element line) makes `readBody` index `line[0]` on
an empty slice, with the same end.  After a first reply a lone LF line ends the
decoding the same way, so decoding does not continue.  A longer line that ends
in LF without CR is reported as a protocol error and decoding continues. -/
theorem lone_lf_line_panics :
    parse0 [10] = ⟨[], Stop.panicked⟩ ∧
    parse0 [42, 50, 13, 10, 36, 48, 13, 10, 13, 10] = ⟨[], Stop.panicked⟩ ∧
    parse0 [42, 49, 13, 10, 13, 10] = ⟨[], Stop.panicked⟩ ∧
    parse0 [43, 79, 75, 13, 10, 10, 43, 79, 75, 13, 10] =
      ⟨[⟨some (Reply.status [79, 75]), none⟩], Stop.panicked⟩ ∧
    parse0 [120, 10, 43, 79, 75, 13, 10] =
      ⟨[⟨none, some (protocolError [120, 10])⟩, ⟨some (Reply.status [79, 75]), none⟩,
        ⟨none, some Error.EOF⟩], Stop.closed⟩ := by
  refine ⟨by decide, by decide, by decide, by decide, by decide⟩

set_option maxRecDepth 100000 in
/-- C37 (the code at the failing input).  After `Add a 1` and `Remove a` the
member map is empty and the length field is 0, but the node of `a` is still
reachable from the header along the level-0 forward pointers (one node).  A
following `RemoveByScore [1, 1]` meets that node again, reports one removed
member and leaves the length field at -1, while `Len()` is 0. -/
theorem length_field_goes_negative :
    (∃ s, SortedSet.run [Op.add [97] 1 0, Op.remove [97]] Make = Res.ok s ∧
      s.Len = 0 ∧ s.skipList.length = 0 ∧ s.skipList.reachable = some 1) ∧
    (∃ s, SortedSet.run [Op.add [97] 1 0, Op.remove [97],
        Op.removeByScore ⟨1, false⟩ ⟨1, false⟩] Make = Res.ok s ∧
      s.Len = 0 ∧ s.skipList.length = -1 ∧ s.skipList.reachable = some 1) := by
  refine ⟨⟨_, rfl, by decide, by decide, by decide⟩, ⟨_, rfl, by decide, by decide, by decide⟩⟩

/-- C39 (the code at the failing input).  With 16 keyspaces, `SELECT -1` on a
connection whose DB index is 0 replies OK and sets the DB index to -1: the only
test on the parsed index is `dbIndex >= len(mdb.dbSet)`.  The indices 0 and 15
are selected, 16 and a text that is not a number are refused and leave the
index unchanged. -/
theorem select_accepts_negative_index :
    execSelect 0 16 [[45, 49]] = Res.ok (-1, okReply) ∧
    execSelect 3 16 [[48]] = Res.ok (0, okReply) ∧
    execSelect 3 16 [[49, 53]] = Res.ok (15, okReply) ∧
    execSelect 3 16 [[49, 54]] = Res.ok (3, Reply.err dbIndexOutOfRange) ∧
    execSelect 3 16 [[120]] = Res.ok (3, Reply.err invalidDBIndex) := by
  refine ⟨by decide, by decide, by decide, by decide, by decide⟩

/-! ### C38: the index tests of the linked list -/

namespace list

open utils

/-- C38: on every list `l` reached by calls from the empty list, with the
contents `xs` (so `Len()` is the length `n` of `xs`), `Get(i)`, `Set(i, v)` and
`Remove(i)` panic iff `i < 0` or `i >= n`, `Insert(i, v)` panics iff `i < 0` or
`i > n`, and `Range(start, end)` panics iff `start < 0`, `start >= n`,
`end < start` or `end > n`; no call runs out of the loop budget, so every other
call returns.  The panic is that of the test at the entry of the method, before
any assignment to the list.  `RemoveLast` on an empty list returns the nil value
and the list as it is. -/
theorem index_panics (ops : List Op) (l : LinkedList) (xs : List Val) (i start end_ : Int)
    (v : Val) (hrun : LinkedList.run ops {} = Res.ok l) (hxs : l.toList = Res.ok xs) :
    l.Len = (xs.length : Int) ∧
    (l.Get i = Res.panic ↔ (i < 0 ∨ l.Len ≤ i)) ∧ l.Get i ≠ Res.outOfFuel ∧
    (l.Set i v = Res.panic ↔ (i < 0 ∨ l.Len ≤ i)) ∧ l.Set i v ≠ Res.outOfFuel ∧
    (l.Remove i = Res.panic ↔ (i < 0 ∨ l.Len ≤ i)) ∧ l.Remove i ≠ Res.outOfFuel ∧
    (l.Insert i v = Res.panic ↔ (i < 0 ∨ l.Len < i)) ∧ l.Insert i v ≠ Res.outOfFuel ∧
    (l.Range start end_ = Res.panic ↔
      (start < 0 ∨ l.Len ≤ start ∨ end_ < start ∨ l.Len < end_)) ∧
    l.Range start end_ ≠ Res.outOfFuel ∧
    (xs = [] → l.RemoveLast = Res.ok (l, Val.nil)) := by
  obtain ⟨ids, h⟩ := reach_Holds ops l xs hrun hxs
  have hlen : l.Len = (xs.length : Int) := by
    unfold LinkedList.Len
    rw [h.size, h.len]
  refine ⟨hlen, ?_, ?_, ?_, ?_, ?_, ?_, ?_, ?_, ?_, ?_, ?_⟩
  · by_cases hc : i < 0 ∨ l.size ≤ i
    · simp [LinkedList.Get, LinkedList.Len, hc]
    · obtain ⟨w, -, hw⟩ := Get_spec h i (by omega) (by omega)
      simp [hw, LinkedList.Len, hc]
  · by_cases hc : i < 0 ∨ l.size ≤ i
    · simp [LinkedList.Get, hc]
    · obtain ⟨w, -, hw⟩ := Get_spec h i (by omega) (by omega)
      simp [hw]
  · by_cases hc : i < 0 ∨ l.size ≤ i
    · simp [LinkedList.Set, LinkedList.Len, hc]
    · obtain ⟨w, hw, -⟩ := Set_Holds h i v (by omega) (by omega)
      simp [hw, LinkedList.Len, hc]
  · by_cases hc : i < 0 ∨ l.size ≤ i
    · simp [LinkedList.Set, hc]
    · obtain ⟨w, hw, -⟩ := Set_Holds h i v (by omega) (by omega)
      simp [hw]
  · by_cases hc : i < 0 ∨ l.size ≤ i
    · simp [LinkedList.Remove, LinkedList.Len, hc]
    · obtain ⟨w, u, hw, -⟩ := Remove_Holds h i (by omega) (by omega)
      simp [hw, LinkedList.Len, hc]
  · by_cases hc : i < 0 ∨ l.size ≤ i
    · simp [LinkedList.Remove, hc]
    · obtain ⟨w, u, hw, -⟩ := Remove_Holds h i (by omega) (by omega)
      simp [hw]
  · by_cases hc : i < 0 ∨ l.size < i
    · simp [LinkedList.Insert, LinkedList.Len, hc]
    · obtain ⟨w, hw, -⟩ := Insert_Holds h i v (by omega) (by omega)
      simp [hw, LinkedList.Len, hc]
  · by_cases hc : i < 0 ∨ l.size < i
    · simp [LinkedList.Insert, hc]
    · obtain ⟨w, hw, -⟩ := Insert_Holds h i v (by omega) (by omega)
      simp [hw]
  · by_cases hc : start < 0 ∨ l.size ≤ start
    · have hc2 : start < 0 ∨ l.size ≤ start ∨ end_ < start ∨ l.size < end_ := by omega
      simp [LinkedList.Range, LinkedList.Len, hc, hc2]
    · by_cases hd : end_ < start ∨ l.size < end_
      · have hc2 : start < 0 ∨ l.size ≤ start ∨ end_ < start ∨ l.size < end_ := by omega
        simp [LinkedList.Range, LinkedList.Len, hc, hd, hc2]
      · have hw := Range_spec h start end_ (by omega) (by omega) (by omega) (by omega)
        have hc2 : ¬ (start < 0 ∨ l.size ≤ start ∨ end_ < start ∨ l.size < end_) := by omega
        simp [hw, LinkedList.Len, hc2]
  · by_cases hc : start < 0 ∨ l.size ≤ start
    · simp [LinkedList.Range, hc]
    · by_cases hd : end_ < start ∨ l.size < end_
      · simp [LinkedList.Range, hc, hd]
      · have hw := Range_spec h start end_ (by omega) (by omega) (by omega) (by omega)
        simp [hw]
  · intro hnil
    obtain ⟨l1, u, hw, -, he⟩ := RemoveLast_Holds h
    have hids : ids = [] := by
      have := h.len
      rw [hnil] at this
      exact List.length_eq_zero.mp this.symm
    obtain ⟨e1, e2⟩ := he hids
    rw [hw, e1, e2]

/-- Witness for C38: the list 1, 2, 3 with the index 3, which is `Len()`: `Get`,
`Set` and `Remove` panic, `Insert` at 3 returns. -/
theorem index_panics_witness :
    LinkedList.run [Op.add (Val.int 1), Op.add (Val.int 2), Op.add (Val.int 3)] {} =
        Res.ok (Make [Val.int 1, Val.int 2, Val.int 3]) ∧
      (Make [Val.int 1, Val.int 2, Val.int 3]).toList =
        Res.ok [Val.int 1, Val.int 2, Val.int 3] ∧
      ((Make [Val.int 1, Val.int 2, Val.int 3]).Get 3 = Res.panic ↔
        ((3 : Int) < 0 ∨ (Make [Val.int 1, Val.int 2, Val.int 3]).Len ≤ 3)) ∧
      ((Make [Val.int 1, Val.int 2, Val.int 3]).Insert 3 (Val.int 9) = Res.panic ↔
        ((3 : Int) < 0 ∨ (Make [Val.int 1, Val.int 2, Val.int 3]).Len < 3)) :=
  ⟨by decide, by decide,
   (index_panics [Op.add (Val.int 1), Op.add (Val.int 2), Op.add (Val.int 3)]
      (Make [Val.int 1, Val.int 2, Val.int 3]) [Val.int 1, Val.int 2, Val.int 3] 3 0 1
      (Val.int 9) (by decide) (by decide)).2.1,
   (index_panics [Op.add (Val.int 1), Op.add (Val.int 2), Op.add (Val.int 3)]
      (Make [Val.int 1, Val.int 2, Val.int 3]) [Val.int 1, Val.int 2, Val.int 3] 3 0 1
      (Val.int 9) (by decide) (by decide)).2.2.2.2.2.2.2.1⟩

end list

/-! ### The keyspace: expiry, rename and the undo log -/

theorem wrap64_of_int64 (i : Int) (h1 : -(2 : Int) ^ 63 ≤ i) (h2 : i < (2 : Int) ^ 63) :
    wrap64 i = i := by
  unfold wrap64
  norm_num at h1 h2 ⊢
  omega

theorem wrap64_bounds (i : Int) : -(2 : Int) ^ 63 ≤ wrap64 i ∧ wrap64 i < (2 : Int) ^ 63 := by
  unfold wrap64
  norm_num
  omega

theorem putKey_same {α : Type} (m : Bytes → Option α) (key : Bytes) (v : Option α) :
    putKey m key v key = v := by
  simp [putKey]

theorem putKey_other {α : Type} (m : Bytes → Option α) (key k : Bytes) (v : Option α)
    (h : k ≠ key) : putKey m key v k = m k := by
  simp [putKey, h]

/-- A key that `GetEntity` finds is in the map, is not expired, and the keyspace
is left as it is. -/
theorem GetEntity_some (db : DB) (now : Int) (key : Bytes) (e : Data)
    (h : (db.GetEntity now key).2 = some e) :
    db.GetEntity now key = (db, some e) ∧ db.data key = some e ∧
      db.IsExpired now key = false := by
  unfold DB.GetEntity at h ⊢
  cases hd : db.data key with
  | none => rw [hd] at h; simp at h
  | some e1 =>
    rw [hd] at h
    simp only [] at h ⊢
    cases hx : db.IsExpired now key with
    | true => rw [hx] at h; simp at h
    | false =>
      rw [hx] at h
      simp at h
      simp [h]

/-- A key without an entry is not found and the keyspace is left as it is. -/
theorem GetEntity_absent (db : DB) (now : Int) (key : Bytes) (h : db.data key = none) :
    db.GetEntity now key = (db, none) := by
  unfold DB.GetEntity
  rw [h]

theorem abs_mul_bound (x c b : Int) (hc : 0 < c) (h : |x| * c < b) :
    -b < x * c ∧ x * c < b := by
  rcases abs_cases x with ⟨e, _⟩ | ⟨e, _⟩
  · rw [e] at h
    constructor <;> nlinarith
  · rw [e] at h
    constructor <;> nlinarith

/-- C40: for every key that `GetEntity` finds and every argument that parses as
the integer `ms` with `|ms| * 10^6 < 2^63`, the instant `time.Unix(0, ms * 10^6)`
is `ms` milliseconds after the epoch and `UnixNano() / 10^6` of it is `ms` again;
`PEXPIREAT key ms` replies 1, sets the expiration of the key to that instant,
leaves the values alone and logs exactly `[pexpireat, key, decimal(ms)]`.
Likewise, for an argument that parses as `s` with `|s| * 10^9 < 2^63` (the same
range, with `ms = 1000 * s`), `EXPIREAT key s` sets the expiration to `s`
seconds after the epoch and logs `[pexpireat, key, decimal(1000 * s)]`. -/
theorem expiry_logged_as_set (now : Int) (db : DB) (key a1 a2 : Bytes) (ms s : Int) (e : Data)
    (hkey : (db.GetEntity now key).2 = some e)
    (hp1 : ParseInt a1 64 = some ms) (hms : |ms| * 1000000 < 2 ^ 63)
    (hp2 : ParseInt a2 64 = some s) (hs : |s| * 1000000000 < 2 ^ 63) :
    Unix 0 (wrap64 (ms * 1000000)) = ms * 1000000 ∧
    Int.tdiv (UnixNano (Unix 0 (wrap64 (ms * 1000000)))) 1000000 = ms ∧
    (∃ db1, execPExpireAt now db [key, a1] = Res.ok (db1, Reply.int 1) ∧
      db1.ttlMap key = some (ms * 1000000) ∧ db1.data = db.data ∧
      db1.aof = db.aof ++ [[pExpireAtBytes, key, Itoa ms]]) ∧
    (∃ db2, execExpireAt now db [key, a2] = Res.ok (db2, Reply.int 1) ∧
      db2.ttlMap key = some (s * 1000000000) ∧ db2.data = db.data ∧
      db2.aof = db.aof ++ [[pExpireAtBytes, key, Itoa (1000 * s)]]) := by
  obtain ⟨hg, -, -⟩ := GetEntity_some db now key e hkey
  obtain ⟨b1, b2⟩ := abs_mul_bound ms 1000000 (2 ^ 63) (by norm_num) hms
  obtain ⟨c1, c2⟩ := abs_mul_bound s 1000000000 (2 ^ 63) (by norm_num) hs
  have hw : wrap64 (ms * 1000000) = ms * 1000000 := wrap64_of_int64 _ (le_of_lt b1) b2
  have hu : Unix 0 (wrap64 (ms * 1000000)) = ms * 1000000 := by
    unfold Unix
    rw [hw]
    ring
  have hn : UnixNano (ms * 1000000) = ms * 1000000 := by
    unfold UnixNano
    exact hw
  have hd : Int.tdiv (ms * 1000000) 1000000 = ms := Int.mul_tdiv_cancel ms (by norm_num)
  have hu2 : Unix s 0 = s * 1000000000 := by
    unfold Unix
    ring
  have hn2 : UnixNano (s * 1000000000) = s * 1000000000 := by
    unfold UnixNano
    exact wrap64_of_int64 _ (le_of_lt c1) c2
  have hd2 : Int.tdiv (s * 1000000000) 1000000 = 1000 * s := by
    have : s * 1000000000 = (1000 * s) * 1000000 := by ring
    rw [this]
    exact Int.mul_tdiv_cancel _ (by norm_num)
  refine ⟨hu, by rw [hu, hn, hd], ?_, ?_⟩
  · refine ⟨(db.Expire key (ms * 1000000)).addAof (MakeExpireCmd key (ms * 1000000)), ?_, ?_,
      rfl, ?_⟩
    · simp only [execPExpireAt, List.getElem?_cons_zero, List.getElem?_cons_succ, hp1, hu, hg]
    · simp [DB.addAof, DB.Expire, putKey]
    · simp only [DB.addAof, DB.Expire, MakeExpireCmd, hn, hd]
  · refine ⟨(db.Expire key (s * 1000000000)).addAof (MakeExpireCmd key (s * 1000000000)), ?_, ?_,
      rfl, ?_⟩
    · simp only [execExpireAt, List.getElem?_cons_zero, List.getElem?_cons_succ, hp2, hu2, hg]
    · simp [DB.addAof, DB.Expire, putKey]
    · simp only [DB.addAof, DB.Expire, MakeExpireCmd, hn2, hd2]

/-- Witness for C40: the key "a" of the example keyspace, at the time 0, with
the arguments "1700000000000" (milliseconds) and "1700000000" (seconds). -/
theorem expiry_logged_as_set_witness :
    (exampleDB.GetEntity 0 [97]).2 = some (Data.bytes [120]) ∧
    ParseInt [49, 55, 48, 48, 48, 48, 48, 48, 48, 48, 48, 48, 48] 64 = some 1700000000000 ∧
    |(1700000000000 : Int)| * 1000000 < 2 ^ 63 ∧
    ParseInt [49, 55, 48, 48, 48, 48, 48, 48, 48, 48] 64 = some 1700000000 ∧
    |(1700000000 : Int)| * 1000000000 < 2 ^ 63 ∧
    ∃ db1, execPExpireAt 0 exampleDB [[97], [49, 55, 48, 48, 48, 48, 48, 48, 48, 48, 48, 48, 48]] =
        Res.ok (db1, Reply.int 1) ∧
      db1.ttlMap [97] = some (1700000000000 * 1000000) ∧ db1.data = exampleDB.data ∧
      db1.aof = exampleDB.aof ++ [[pExpireAtBytes, [97], Itoa 1700000000000]] :=
  ⟨by decide, by decide, by decide, by decide, by decide,
   (expiry_logged_as_set 0 exampleDB [97] [49, 55, 48, 48, 48, 48, 48, 48, 48, 48, 48, 48, 48]
      [49, 55, 48, 48, 48, 48, 48, 48, 48, 48] 1700000000000 1700000000 (Data.bytes [120])
      (by decide) (by decide) (by decide) (by decide) (by decide)).2.2.1⟩

/-- C31: `RENAME src dest` on a keyspace of values and expirations.  When `src`
has no entry, the reply is the error "no such key" and the keyspace and the log
are unchanged.  When `GetEntity` finds `src` (it has an entry that is not
expired) and `src` differs from `dest`, the reply is OK and afterwards `dest`
holds the former value of `src`, `src` is absent from both maps, the expiration
of `dest` is the former expiration of `src` (none when `src` had none, whatever
`dest` carried), every other key is as before, and `[rename, src, dest]` is
logged. -/
theorem rename_moves_value_and_ttl (now : Int) (db : DB) (src dest : Bytes) :
    (db.data src = none → execRename now db [src, dest] = (db, Reply.err noSuchKey)) ∧
    (∀ e, (db.GetEntity now src).2 = some e → src ≠ dest →
      ∃ db1, execRename now db [src, dest] = (db1, okReply) ∧
        db1.data dest = some e ∧ db1.data src = none ∧ db1.ttlMap src = none ∧
        db1.ttlMap dest = db.ttlMap src ∧
        (∀ k, k ≠ src → k ≠ dest → db1.data k = db.data k ∧ db1.ttlMap k = db.ttlMap k) ∧
        db1.aof = db.aof ++ [[Rename, src, dest]]) := by
  constructor
  · intro h
    simp only [execRename, GetEntity_absent db now src h]
  · intro e h hne
    obtain ⟨hg, -, -⟩ := GetEntity_some db now src e h
    have hne2 : dest ≠ src := fun h => hne h.symm
    cases ht : db.ttlMap src with
    | none =>
      refine ⟨((db.PutEntity dest e).Remove src).addAof [Rename, src, dest], ?_, ?_, ?_, ?_, ?_,
        ?_, rfl⟩
      · simp only [execRename, hg, ht]
      · simp [DB.addAof, DB.Remove, DB.PutEntity, putKey, hne2]
      · simp [DB.addAof, DB.Remove, DB.PutEntity, putKey]
      · simp [DB.addAof, DB.Remove, DB.PutEntity, putKey]
      · simp [DB.addAof, DB.Remove, DB.PutEntity, putKey, hne2]
      · intro k h1 h2
        simp [DB.addAof, DB.Remove, DB.PutEntity, putKey, h1, h2]
    | some t =>
      refine ⟨(((((db.PutEntity dest e).Remove src).Persist src).Persist dest).Expire dest
        t).addAof [Rename, src, dest], ?_, ?_, ?_, ?_, ?_, ?_, rfl⟩
      · simp only [execRename, hg, ht]
      · simp [DB.addAof, DB.Remove, DB.PutEntity, DB.Persist, DB.Expire, putKey, hne2]
      · simp [DB.addAof, DB.Remove, DB.PutEntity, DB.Persist, DB.Expire, putKey]
      · simp [DB.addAof, DB.Remove, DB.PutEntity, DB.Persist, DB.Expire, putKey, hne]
      · simp [DB.addAof, DB.Remove, DB.PutEntity, DB.Persist, DB.Expire, putKey]
      · intro k h1 h2
        simp [DB.addAof, DB.Remove, DB.PutEntity, DB.Persist, DB.Expire, putKey, h1, h2]

/-- Witness for C31 on the example keyspace at the time 0: the key "c" is
absent; the key "a" is renamed to "b". -/
theorem rename_moves_value_and_ttl_witness :
    (exampleDB.data [99] = none ∧
      execRename 0 exampleDB [[99], [98]] = (exampleDB, Reply.err noSuchKey)) ∧
    ((exampleDB.GetEntity 0 [97]).2 = some (Data.bytes [120]) ∧ ([97] : Bytes) ≠ [98] ∧
      ∃ db1, execRename 0 exampleDB [[97], [98]] = (db1, okReply) ∧
        db1.data [98] = some (Data.bytes [120]) ∧ db1.data [97] = none ∧
        db1.ttlMap [97] = none ∧ db1.ttlMap [98] = exampleDB.ttlMap [97] ∧
        (∀ k, k ≠ [97] → k ≠ [98] →
          db1.data k = exampleDB.data k ∧ db1.ttlMap k = exampleDB.ttlMap k) ∧
        db1.aof = exampleDB.aof ++ [[Rename, [97], [98]]]) :=
  ⟨⟨by decide, (rename_moves_value_and_ttl 0 exampleDB [99] [98]).1 (by decide)⟩,
   by decide, by decide,
   (rename_moves_value_and_ttl 0 exampleDB [97] [98]).2 (Data.bytes [120]) (by decide)
     (by decide)⟩

/-! ### C33: the command that rebuilds a value -/

/-- The consumer of `listToCmd` fills the slots with the values of the list in
order. -/
theorem forEachLoop_fill {l : list.LinkedList} {ids : List Nat} {xs : List utils.Val}
    (h : l.Holds ids xs) :
    ∀ (m j fuel : Nat) (done : List Bytes), j + m = ids.length → m < fuel → done.length = j →
      list.forEachLoop listConsumer l.nodes fuel ids[j]? (j : Int)
          (some (done ++ List.replicate m [])) =
        Res.ok (some (done ++ (xs.drop j).map valBytes)) := by
  intro m
  induction m with
  | zero =>
    intro j fuel done hj hf _
    obtain ⟨f1, rfl⟩ : ∃ k, fuel = k + 1 := ⟨fuel - 1, by omega⟩
    have hnone : ids[j]? = none := List.getElem?_eq_none (by omega)
    have hd : xs.drop j = [] := List.drop_eq_nil_of_le (by rw [h.len]; omega)
    rw [hnone, hd]
    simp [list.forEachLoop]
  | succ m ih =>
    intro j fuel done hj hf hdone
    obtain ⟨f1, rfl⟩ : ∃ k, fuel = k + 1 := ⟨fuel - 1, by omega⟩
    obtain ⟨x, n, v, hx, hv, hn, hnv, hnext, _⟩ := h.get j (by omega)
    have hjx : j < xs.length := by rw [h.len]; omega
    have hd : xs.drop j = v :: xs.drop (j + 1) := by
      rw [List.drop_eq_getElem_cons hjx]
      congr 1
      have := List.getElem?_eq_getElem hjx
      rw [hv] at this
      exact (Option.some.inj this).symm
    have hset : setArg (done ++ List.replicate (m + 1) []) (j : Int) (valBytes v) =
        some ((done ++ [valBytes v]) ++ List.replicate m []) := by
      unfold setArg
      have hc : (0 : Int) ≤ (j : Int) ∧
          (j : Int) < ((done ++ List.replicate (m + 1) ([] : Bytes)).length : Int) := by
        rw [List.length_append, List.length_replicate]
        omega
      rw [if_pos hc, Int.toNat_ofNat, ← hdone, List.replicate_succ]
      simp
    rw [hx]
    unfold list.forEachLoop
    simp only [hn, hnv, listConsumer, hset, if_true, hnext]
    have := ih (j + 1) f1 (done ++ [valBytes v]) (by omega) (by omega) (by simp [hdone])
    rw [Nat.cast_succ] at this
    rw [this, hd]
    simp

/-- On a well-formed list `listToCmd` returns `rpush`, the key and the values
of the list in order, as byte strings. -/
theorem listToCmd_spec {l : list.LinkedList} {ids : List Nat} {xs : List utils.Val}
    (h : l.Holds ids xs) (key : Bytes) :
    listToCmd key l = Res.ok (rPushAllCmd :: key :: xs.map valBytes) := by
  unfold listToCmd list.LinkedList.ForEach
  have hlen : l.Len = (ids.length : Int) := h.size
  have hle := h.length_le
  rw [hlen, if_neg (by omega), Int.toNat_ofNat, h.first]
  have := forEachLoop_fill h ids.length 0 (l.nodes.length + 1) [] (by omega) (by omega) rfl
  simp only [List.nil_append, List.drop_zero, Nat.cast_zero] at this
  rw [this]

theorem map_valBytes (es : List Bytes) :
    (es.map (fun e => utils.Val.bytes (some e))).map valBytes = es := by
  induction es with
  | nil => rfl
  | cons e t ih =>
    rw [List.map_cons, List.map_cons, ih]
    rfl

/-- C33: `EntityToCmd` on a byte string returns `[set, key, value]`; on a list
reached by calls from the empty list whose elements, from head to tail, are the
byte strings `es`, it returns `[rpush, key] ++ es`, of length `Len() + 2`, and
pushing the arguments after the key, in order, at the tail of a new list
(`list.Make`) gives a list with the same elements in the same order; on the nil
entity it returns the nil reply. -/
theorem entityToCmd_rebuilds (fmt : Int → Bytes) (key b : Bytes) (ops : List list.Op)
    (l : list.LinkedList) (es : List Bytes)
    (hrun : list.LinkedList.run ops {} = Res.ok l)
    (hes : l.toList = Res.ok (es.map (fun e => utils.Val.bytes (some e)))) :
    EntityToCmd fmt key (some (Data.bytes b)) = Res.ok (some [setCmd, key, b]) ∧
    EntityToCmd fmt key (some (Data.list l)) = Res.ok (some (rPushAllCmd :: key :: es)) ∧
    ((rPushAllCmd :: key :: es).length : Int) = l.Len + 2 ∧
    (list.Make (((rPushAllCmd :: key :: es).drop 2).map
      (fun e => utils.Val.bytes (some e)))).toList = l.toList ∧
    EntityToCmd fmt key none = Res.ok none := by
  obtain ⟨ids, h⟩ := list.reach_Holds ops l _ hrun hes
  refine ⟨rfl, ?_, ?_, ?_, rfl⟩
  · unfold EntityToCmd
    simp only [listToCmd_spec h key, map_valBytes]
  · have hlen : l.Len = (ids.length : Int) := h.size
    have := h.len
    rw [List.length_map] at this
    rw [hlen, ← this]
    simp only [List.length_cons]
    push_cast
    ring
  · obtain ⟨ids1, h1⟩ := list.Make_Holds_aux (es.map (fun e => utils.Val.bytes (some e))) {} [] []
      list.Holds_empty
    rw [hes]
    have := list.toList_spec h1
    simpa [list.Make] using this

/-- Witness for C33: the list of "a" and "b" under the key "k". -/
theorem entityToCmd_rebuilds_witness :
    list.LinkedList.run [list.Op.add (utils.Val.bytes (some [97])),
        list.Op.add (utils.Val.bytes (some [98]))] {} =
      Res.ok (list.Make [utils.Val.bytes (some [97]), utils.Val.bytes (some [98])]) ∧
    (list.Make [utils.Val.bytes (some [97]), utils.Val.bytes (some [98])]).toList =
      Res.ok (([[97], [98]] : List Bytes).map (fun e => utils.Val.bytes (some e))) ∧
    EntityToCmd Itoa [107]
        (some (Data.list (list.Make [utils.Val.bytes (some [97]), utils.Val.bytes (some [98])]))) =
      Res.ok (some [rPushAllCmd, [107], [97], [98]]) :=
  ⟨by decide, by decide,
   (entityToCmd_rebuilds Itoa [107] [118]
      [list.Op.add (utils.Val.bytes (some [97])), list.Op.add (utils.Val.bytes (some [98]))]
      (list.Make [utils.Val.bytes (some [97]), utils.Val.bytes (some [98])]) [[97], [98]]
      (by decide) (by decide)).2.1⟩

/-! ### C32: the undo log of whole keys -/

theorem tdiv_thousand_bounds (x : Int) :
    (0 ≤ x → 0 ≤ Int.tdiv x 1000 ∧ Int.tdiv x 1000 * 1000 ≤ x) ∧
    (x ≤ 0 → Int.tdiv x 1000 ≤ 0 ∧ x ≤ Int.tdiv x 1000 * 1000) := by
  constructor
  · intro h
    rw [Int.tdiv_eq_ediv h (by norm_num)]
    omega
  · intro h
    have h1 : x = -(-x) := by omega
    rw [h1, Int.neg_tdiv, Int.tdiv_eq_ediv (by omega) (by norm_num)]
    omega

/-- The millisecond count that `toTTLCmd` writes is a 64-bit integer, and the
instant `PEXPIREAT` makes of it does not wrap. -/
theorem ttl_ms_bounds (t : Int) :
    -(2 : Int) ^ 63 ≤ Int.tdiv (Int.tdiv (UnixNano t) 1000) 1000 ∧
    Int.tdiv (Int.tdiv (UnixNano t) 1000) 1000 < (2 : Int) ^ 63 ∧
    wrap64 (Int.tdiv (Int.tdiv (UnixNano t) 1000) 1000 * 1000000) =
      Int.tdiv (Int.tdiv (UnixNano t) 1000) 1000 * 1000000 := by
  obtain ⟨b1, b2⟩ := wrap64_bounds t
  unfold UnixNano
  generalize wrap64 t = x at b1 b2
  obtain ⟨p1, n1⟩ := tdiv_thousand_bounds x
  obtain ⟨p2, n2⟩ := tdiv_thousand_bounds (Int.tdiv x 1000)
  generalize Int.tdiv (Int.tdiv x 1000) 1000 = m at p2 n2
  generalize Int.tdiv x 1000 = q at p1 n1 p2 n2
  norm_num at b1 b2 ⊢
  have hb : -9223372036854775808 ≤ m * 1000000 ∧ m * 1000000 < 9223372036854775808 := by
    rcases le_total 0 x with hx | hx
    · obtain ⟨q0, q1⟩ := p1 hx
      obtain ⟨m0, m1⟩ := p2 q0
      omega
    · obtain ⟨q0, q1⟩ := n1 hx
      obtain ⟨m0, m1⟩ := n2 q0
      omega
  refine ⟨by omega, by omega, ?_⟩
  have := wrap64_of_int64 (m * 1000000) (by norm_num; omega) (by norm_num; omega)
  exact this

theorem listToCmd_head (key : Bytes) (l : list.LinkedList) (c : CmdLine)
    (h : listToCmd key l = Res.ok c) : ∃ slots, c = rPushAllCmd :: key :: slots := by
  unfold listToCmd at h
  split at h
  · exact Res.noConfusion h
  · split at h
    · exact ⟨_, (Res.ok.inj h).symm⟩
    · exact Res.noConfusion h
    · exact Res.noConfusion h
    · exact Res.noConfusion h

theorem zSetToCmd_head (fmt : Int → Bytes) (key : Bytes) (z : SortedSet) (c : CmdLine)
    (h : zSetToCmd fmt key z = Res.ok c) : ∃ slots, c = zAddCmd :: key :: slots := by
  unfold zSetToCmd at h
  split at h
  · exact ⟨_, (Res.ok.inj h).symm⟩
  · exact Res.noConfusion h
  · exact Res.noConfusion h
  · exact Res.noConfusion h

/-- The command `EntityToCmd` returns is none of `del`, `pexpireat` and
`persist`. -/
theorem EntityToCmd_name (fmt : Int → Bytes) (key : Bytes) (e : Data) (cmd : CmdLine)
    (h : EntityToCmd fmt key (some e) = Res.ok (some cmd)) :
    ∃ name rest, cmd = name :: rest ∧ name.map toLower ≠ Del ∧
      name.map toLower ≠ PExpireAt ∧ name.map toLower ≠ Persist := by
  cases e with
  | bytes b =>
    have : cmd = [setCmd, key, b] := (Option.some.inj (Res.ok.inj h)).symm
    exact ⟨setCmd, _, this, by decide, by decide, by decide⟩
  | list l =>
    unfold EntityToCmd at h
    simp only [] at h
    split at h
    · rename_i c hc
      obtain ⟨slots, hs⟩ := listToCmd_head key l c hc
      have : cmd = c := (Option.some.inj (Res.ok.inj h)).symm
      exact ⟨rPushAllCmd, _, this.trans hs, by decide, by decide, by decide⟩
    · exact Res.noConfusion h
    · exact Res.noConfusion h
  | set m =>
    have : cmd = sAddCmd :: key :: m := (Option.some.inj (Res.ok.inj h)).symm
    exact ⟨sAddCmd, _, this, by decide, by decide, by decide⟩
  | dict d =>
    have : cmd = hashToCmd key d := (Option.some.inj (Res.ok.inj h)).symm
    exact ⟨hMSetCmd, _, this, by decide, by decide, by decide⟩
  | zset z =>
    unfold EntityToCmd at h
    simp only [] at h
    split at h
    · rename_i c hc
      obtain ⟨slots, hs⟩ := zSetToCmd_head fmt key z c hc
      have : cmd = c := (Option.some.inj (Res.ok.inj h)).symm
      exact ⟨zAddCmd, _, this.trans hs, by decide, by decide, by decide⟩
    · exact Res.noConfusion h
    · exact Res.noConfusion h

theorem execCmd_others (others : DB → CmdLine → DB) (now : Int) (db : DB) (name : Bytes)
    (rest : List Bytes) (h1 : name.map toLower ≠ Del) (h2 : name.map toLower ≠ PExpireAt)
    (h3 : name.map toLower ≠ Persist) :
    execCmd others now db (name :: rest) = Res.ok (others db (name :: rest)) := by
  unfold execCmd
  simp only [if_neg h1, if_neg h2, if_neg h3]

/-- `DEL key` leaves no entry and, on a keyspace whose expirations belong to
entries, no expiration of the key. -/
theorem execCmd_del (others : DB → CmdLine → DB) (now : Int) (db : DB) (key : Bytes)
    (hinv : db.data key = none → db.ttlMap key = none) :
    ∃ db1, execCmd others now db [Del, key] = Res.ok db1 ∧
      db1.data = putKey db.data key none ∧ db1.ttlMap = putKey db.ttlMap key none := by
  have hd : Del.map toLower = Del := by decide
  have ha : validateArity (-2) [Del, key] = true := by simp [validateArity]
  unfold execCmd
  simp only [hd, if_true, ha]
  refine ⟨_, rfl, ?_, ?_⟩
  · unfold execDel DB.Removes
    cases hk : db.data key with
    | none =>
      simp only [DB.Removes]
      have : ¬ ((0 : Int) > 0) := by omega
      simp only [if_neg this]
      funext k
      unfold putKey
      by_cases hkk : k = key
      · rw [hkk, if_pos rfl, hk]
      · rw [if_neg hkk]
    | some e =>
      simp only [DB.Removes]
      have : ((0 : Int) + 1 > 0) := by omega
      simp only [if_pos this]
      rfl
  · unfold execDel DB.Removes
    cases hk : db.data key with
    | none =>
      simp only [DB.Removes]
      have : ¬ ((0 : Int) > 0) := by omega
      simp only [if_neg this]
      funext k
      unfold putKey
      by_cases hkk : k = key
      · rw [hkk, if_pos rfl, hinv hk]
      · rw [if_neg hkk]
    | some e =>
      simp only [DB.Removes]
      have : ((0 : Int) + 1 > 0) := by omega
      simp only [if_pos this]
      rfl

theorem putKey_putKey {α : Type} (m : Bytes → Option α) (key : Bytes) (a b : Option α) :
    putKey (putKey m key a) key b = putKey m key b := by
  funext k
  unfold putKey
  by_cases h : k = key
  · simp [h]
  · simp [h]

theorem GetEntity_noTTL (db : DB) (now : Int) (key : Bytes) (e : Data)
    (hd : db.data key = some e) (ht : db.ttlMap key = none) :
    db.GetEntity now key = (db, some e) := by
  unfold DB.GetEntity DB.IsExpired
  rw [hd, ht]
  rfl

/-- `PERSIST key` on a key without expiration changes nothing. -/
theorem execCmd_persist (others : DB → CmdLine → DB) (now : Int) (db : DB) (key : Bytes)
    (e : Data) (hd : db.data key = some e) (ht : db.ttlMap key = none) :
    execCmd others now db [Persist, key] = Res.ok db := by
  have h1 : ¬ (Persist = Del) := by decide
  have h2 : ¬ (Persist = PExpireAt) := by decide
  have h3 : Persist.map toLower = Persist := by decide
  have ha : validateArity 2 [Persist, key] = true := by simp [validateArity]
  have hp : execPersist now db [key] = Res.ok (db, Reply.int 0) := by
    unfold execPersist
    simp only [List.getElem?_cons_zero, GetEntity_noTTL db now key e hd ht, ht]
  unfold execCmd
  simp only [h3]
  simp only [if_neg h1, if_neg h2, if_true, ha, hp]

/-- `PEXPIREAT key m`, with the millisecond count `m` that `toTTLCmd` writes for
the instant `t`, sets the expiration of a key without expiration to `m`
milliseconds after the epoch. -/
theorem execCmd_pexpireat (others : DB → CmdLine → DB) (now : Int) (db : DB) (key : Bytes)
    (e : Data) (t : Int) (hd : db.data key = some e) (ht : db.ttlMap key = none) :
    ∃ db1, execCmd others now db
        [PExpireAt, key, Itoa (Int.tdiv (Int.tdiv (UnixNano t) 1000) 1000)] = Res.ok db1 ∧
      db1.data = db.data ∧
      db1.ttlMap = putKey db.ttlMap key
        (some (Int.tdiv (Int.tdiv (UnixNano t) 1000) 1000 * 1000000)) := by
  obtain ⟨b1, b2, b3⟩ := ttl_ms_bounds t
  generalize Int.tdiv (Int.tdiv (UnixNano t) 1000) 1000 = m at b1 b2 b3
  have h1 : ¬ (PExpireAt = Del) := by decide
  have h2 : PExpireAt.map toLower = PExpireAt := by decide
  have ha : validateArity 3 [PExpireAt, key, Itoa m] = true := by simp [validateArity]
  have hu : Unix 0 (wrap64 (m * 1000000)) = m * 1000000 := by
    unfold Unix
    rw [b3]
    ring
  have hp : execPExpireAt now db [key, Itoa m] =
      Res.ok ((db.Expire key (m * 1000000)).addAof (MakeExpireCmd key (m * 1000000)),
        Reply.int 1) := by
    unfold execPExpireAt
    simp only [List.getElem?_cons_zero, List.getElem?_cons_succ, ParseInt_Itoa m b1 b2, hu,
      GetEntity_noTTL db now key e hd ht]
  unfold execCmd
  simp only [h2]
  simp only [if_neg h1, if_true, ha, hp]
  exact ⟨_, rfl, rfl, rfl⟩

theorem execCmds_cons (others : DB → CmdLine → DB) (now : Int) (db db1 : DB) (line : CmdLine)
    (lines : List CmdLine) (h : execCmd others now db line = Res.ok db1) :
    execCmds others now db (line :: lines) = execCmds others now db1 lines := by
  rw [execCmds, h]

theorem execCmds_append (others : DB → CmdLine → DB) (now : Int) (a b : List CmdLine) :
    ∀ (db db1 : DB), execCmds others now db a = Res.ok db1 →
      execCmds others now db (a ++ b) = execCmds others now db1 b := by
  induction a with
  | nil =>
    intro db db1 h
    have : db = db1 := Res.ok.inj h
    rw [this, List.nil_append]
  | cons line t ih =>
    intro db db1 h
    rw [execCmds] at h
    rw [List.cons_append, execCmds]
    cases hl : execCmd others now db line with
    | ok d =>
      rw [hl] at h
      simp only [] at h ⊢
      exact ih d db1 h
    | panic => rw [hl] at h; exact Res.noConfusion h
    | outOfFuel => rw [hl] at h; exact Res.noConfusion h

/-- The undo lines of one key, executed on a keyspace whose expirations belong
to entries, give the key the value `GetEntity` found when the lines were made
and the expiration `restoredTTL`, and leave the other keys alone. -/
theorem exec_undoOfKey (fmt : Int → Bytes) (now now2 : Int) (db0 : DB)
    (others : DB → CmdLine → DB) (key : Bytes)
    (hre : Rebuilds fmt now db0 others key)
    (db : DB) (hinv : db.data key = none → db.ttlMap key = none) :
    ∃ db3, execCmds others now2 db (undoOfKey fmt now db0 key) = Res.ok db3 ∧
      db3.data = putKey db.data key (db0.GetEntity now key).2 ∧
      db3.ttlMap = putKey db.ttlMap key (restoredTTL now db0 key) := by
  obtain ⟨db1, hdel, hd1, ht1⟩ := execCmd_del others now2 db key hinv
  unfold undoOfKey restoredTTL
  cases hl : (db0.GetEntity now key).2 with
  | none =>
    simp only []
    refine ⟨db1, ?_, hd1, ht1⟩
    rw [execCmds_cons _ _ _ _ _ _ hdel]
    rfl
  | some e =>
    obtain ⟨cmd, hc, hoth⟩ := hre e hl
    obtain ⟨name, rest, hn, n1, n2, n3⟩ := EntityToCmd_name fmt key e cmd hc
    have hk1 : db1.data key = none := by rw [hd1, putKey_same]
    have hk2 : db1.ttlMap key = none := by rw [ht1, putKey_same]
    obtain ⟨ho1, ho2⟩ := hoth db1 hk1 hk2
    have hrec : execCmd others now2 db1 cmd = Res.ok (others db1 cmd) := by
      rw [hn]
      exact execCmd_others others now2 db1 name rest n1 n2 n3
    have hd2 : (others db1 cmd).data key = some e := by rw [ho1, putKey_same]
    have ht2 : (others db1 cmd).ttlMap key = none := by rw [ho2, ht1, putKey_same]
    have hdata : (others db1 cmd).data = putKey db.data key (some e) := by
      rw [ho1, hd1, putKey_putKey]
    simp only [hc]
    rw [execCmds_cons _ _ _ _ _ _ hdel, execCmds_cons _ _ _ _ _ _ hrec]
    unfold toTTLCmd
    cases ht : db0.ttlMap key with
    | none =>
      simp only []
      refine ⟨others db1 cmd, ?_, hdata, ?_⟩
      · rw [execCmds_cons _ _ _ _ _ _ (execCmd_persist others now2 _ key e hd2 ht2)]
        rfl
      · rw [ho2, ht1]
    | some t =>
      simp only []
      obtain ⟨db3, hx, hxd, hxt⟩ := execCmd_pexpireat others now2 _ key e t hd2 ht2
      refine ⟨db3, ?_, ?_, ?_⟩
      · rw [execCmds_cons _ _ _ _ _ _ hx]
        rfl
      · rw [hxd, hdata]
      · rw [hxt, ho2, ht1, putKey_putKey]

/-- The undo lines of a list of keys, executed in order, give every key of the
list the value and the expiration of its own lines and leave the other keys
alone. -/
theorem exec_undo_keys (fmt : Int → Bytes) (now now2 : Int) (db0 : DB)
    (others : DB → CmdLine → DB) :
    ∀ (keys : List Bytes) (db : DB),
      (∀ key ∈ keys, Rebuilds fmt now db0 others key) → db.ttlOwned →
      ∃ db3, execCmds others now2 db (keys.map (undoOfKey fmt now db0)).flatten = Res.ok db3 ∧
        (∀ k, db3.data k = if k ∈ keys then (db0.GetEntity now k).2 else db.data k) ∧
        (∀ k, db3.ttlMap k = if k ∈ keys then restoredTTL now db0 k else db.ttlMap k) := by
  intro keys
  induction keys with
  | nil =>
    intro db _ _
    exact ⟨db, rfl, fun k => by simp, fun k => by simp⟩
  | cons key rest ih =>
    intro db hre hinv
    obtain ⟨db1, hx, hd1, ht1⟩ := exec_undoOfKey fmt now now2 db0 others key
      (hre key (List.mem_cons_self _ _)) db (hinv key)
    have hinv1 : db1.ttlOwned := by
      intro k hk
      rw [hd1] at hk
      rw [ht1]
      unfold putKey at hk ⊢
      by_cases hkk : k = key
      · rw [if_pos hkk] at hk
        rw [if_pos hkk]
        unfold restoredTTL
        rw [hk]
      · rw [if_neg hkk] at hk
        rw [if_neg hkk]
        exact hinv k hk
    obtain ⟨db3, hy, hd3, ht3⟩ := ih db1 (fun k hk => hre k (List.mem_cons_of_mem _ hk)) hinv1
    refine ⟨db3, ?_, ?_, ?_⟩
    · rw [List.map_cons, List.flatten_cons, execCmds_append _ _ _ _ _ _ hx]
      exact hy
    · intro k
      rw [hd3 k, hd1]
      unfold putKey
      by_cases h1 : k ∈ rest
      · simp [h1]
      · by_cases h2 : k = key
        · simp [h2]
        · simp [h1, h2]
    · intro k
      rw [ht3 k, ht1]
      unfold putKey
      by_cases h1 : k ∈ rest
      · simp [h1]
      · by_cases h2 : k = key
        · simp [h2]
        · simp [h1, h2]

/-- The lazy removal of an expired key by `GetEntity` changes neither what
`GetEntity` finds for any key nor the expiration of a key that is found. -/
theorem GetEntity_step (db : DB) (now : Int) (k key : Bytes) :
    ((db.GetEntity now k).1.GetEntity now key).2 = (db.GetEntity now key).2 ∧
      ((db.GetEntity now key).2 ≠ none →
        (db.GetEntity now k).1.ttlMap key = db.ttlMap key) := by
  cases hk : db.data k with
  | none =>
    rw [GetEntity_absent db now k hk]
    exact ⟨rfl, fun _ => rfl⟩
  | some e =>
    cases hx : db.IsExpired now k with
    | false =>
      have : db.GetEntity now k = (db, some e) := by
        unfold DB.GetEntity
        rw [hk]
        simp only [hx]
        rfl
      rw [this]
      exact ⟨rfl, fun _ => rfl⟩
    | true =>
      have h1 : db.GetEntity now k = (db.Remove k, none) := by
        unfold DB.GetEntity
        rw [hk]
        simp only [hx]
        rfl
      rw [h1]
      by_cases hkk : key = k
      · rw [hkk]
        constructor
        · rw [h1]
          have : (db.Remove k).data k = none := by
            unfold DB.Remove
            exact putKey_same _ _ _
          rw [GetEntity_absent _ now k this]
        · intro hne
          rw [h1] at hne
          exact absurd rfl hne
      · have e1 : (db.Remove k).data key = db.data key := by
          unfold DB.Remove
          exact putKey_other _ _ _ _ hkk
        have e2 : (db.Remove k).ttlMap key = db.ttlMap key := by
          unfold DB.Remove
          exact putKey_other _ _ _ _ hkk
        refine ⟨?_, fun _ => e2⟩
        unfold DB.GetEntity DB.IsExpired
        rw [e1, e2]
        cases db.data key with
        | none => rfl
        | some v =>
          simp only []
          split <;> rfl

/-- The shape of the undo log: `rollbackGivenKeys` returns, and the lines are
those of each key in order. -/
theorem rollbackGivenKeys_shape (fmt : Int → Bytes) (now : Int) (db0 : DB) :
    ∀ (keys : List Bytes) (db1 : DB),
      (∀ key, (db1.GetEntity now key).2 = (db0.GetEntity now key).2 ∧
        ((db0.GetEntity now key).2 ≠ none → db1.ttlMap key = db0.ttlMap key)) →
      (∀ key ∈ keys, ∀ e, (db0.GetEntity now key).2 = some e →
        ∃ cmd, EntityToCmd fmt key (some e) = Res.ok (some cmd)) →
      ∃ db2, rollbackGivenKeys fmt now db1 keys =
        Res.ok (db2, (keys.map (undoOfKey fmt now db0)).flatten) := by
  intro keys
  induction keys with
  | nil =>
    intro db1 _ _
    exact ⟨db1, rfl⟩
  | cons key rest ih =>
    intro db1 hsame hcmd
    have hnext : ∀ k, (((db1.GetEntity now key).1).GetEntity now k).2 = (db0.GetEntity now k).2 ∧
        ((db0.GetEntity now k).2 ≠ none →
          ((db1.GetEntity now key).1).ttlMap k = db0.ttlMap k) := by
      intro k
      obtain ⟨s1, s2⟩ := GetEntity_step db1 now key k
      obtain ⟨t1, t2⟩ := hsame k
      refine ⟨s1.trans t1, fun hne => ?_⟩
      rw [s2 (by rw [t1]; exact hne)]
      exact t2 hne
    obtain ⟨db2, hrec⟩ := ih (db1.GetEntity now key).1 hnext
      (fun k hk => hcmd k (List.mem_cons_of_mem _ hk))
    obtain ⟨g1, g2⟩ := hsame key
    rw [rollbackGivenKeys, List.map_cons, List.flatten_cons]
    unfold undoOfKey
    rw [g1]
    cases hl : (db0.GetEntity now key).2 with
    | none =>
      simp only [hrec]
      exact ⟨db2, rfl⟩
    | some e =>
      obtain ⟨cmd, hc⟩ := hcmd key (List.mem_cons_self _ _) e hl
      have hsome : (db1.GetEntity now key).2 = some e := by rw [g1, hl]
      obtain ⟨hg, -, -⟩ := GetEntity_some db1 now key e hsome
      have htt : toTTLCmd (db1.GetEntity now key).1 key = toTTLCmd db0 key := by
        rw [hg]
        unfold toTTLCmd
        rw [g2 (by rw [hl]; exact Option.noConfusion)]
      simp only [hc, hrec, htt]
      exact ⟨db2, rfl⟩

/-- C32, as stated, fails: in the example keyspace the key "b" holds "y" and
expires 7.5 ms after the epoch.  Its undo lines, taken at the time 0, are
`[del b]`, `[set b y]`, `[pexpireat b 7]`; executed in order (with the `SET` of
the examples) they give "b" the value "y" and the expiration 7 ms, not the
7.5 ms it had: at the time 7.2 ms the key was still found before and is expired
after. -/
theorem undo_log_cuts_expiration :
    exampleDB.ttlMap [98] = some 7500000 ∧
    (∃ db1, rollbackGivenKeys Itoa 0 exampleDB [[98]] =
      Res.ok (db1, [[Del, [98]], [setCmd, [98], [121]], [PExpireAt, [98], [55]]])) ∧
    (∃ db3, execCmds execSetOnly 0 exampleDB
        [[Del, [98]], [setCmd, [98], [121]], [PExpireAt, [98], [55]]] = Res.ok db3 ∧
      db3.data [98] = some (Data.bytes [121]) ∧ db3.ttlMap [98] = some 7000000 ∧
      (exampleDB.GetEntity 7200000 [98]).2 = some (Data.bytes [121]) ∧
      (db3.GetEntity 7200000 [98]).2 = none) := by
  refine ⟨by decide, ⟨_, rfl⟩, ⟨_, rfl, by decide, by decide, by decide, by decide⟩⟩

theorem ttl_ms_whole (ms : Int) (h : |ms| * 1000000 < 2 ^ 63) :
    Int.tdiv (Int.tdiv (UnixNano (ms * 1000000)) 1000) 1000 = ms := by
  obtain ⟨b1, b2⟩ := abs_mul_bound ms 1000000 (2 ^ 63) (by norm_num) h
  unfold UnixNano
  rw [wrap64_of_int64 _ (le_of_lt b1) b2]
  have e : ms * 1000000 = ms * 1000 * 1000 := by ring
  rw [e, Int.mul_tdiv_cancel _ (by norm_num), Int.mul_tdiv_cancel _ (by norm_num)]

/-- C32, amended.  For every key list whose values can be rebuilt (`EntityToCmd`
returns a command for each value found, and the handler of that command puts the
value back), `rollbackGivenKeys` returns the lines of each key in order: the
single line `[del key]` when `GetEntity` does not find the key, and otherwise
`[del key]`, the command of `EntityToCmd` and the TTL command, which is
`[persist key]` without expiration and `[pexpireat key ms]` with `ms` the
expiration in whole milliseconds, cut toward zero.  Executing the lines in order
on any keyspace in which every expiration belongs to an entry returns, and
afterwards every key of the list has the value it had when the log was taken
(none when it was absent) and its expiration cut to whole milliseconds: no
expiration when it was absent or had none, and the same expiration when that was
a whole number `ms` of milliseconds with `|ms| * 10^6 < 2^63`. -/
theorem undo_log_restores (fmt : Int → Bytes) (now now2 : Int) (db0 db2 : DB)
    (keys : List Bytes) (others : DB → CmdLine → DB)
    (hre : ∀ key ∈ keys, Rebuilds fmt now db0 others key) (hinv : db2.ttlOwned) :
    ∃ db1 db3,
      rollbackGivenKeys fmt now db0 keys =
        Res.ok (db1, (keys.map (undoOfKey fmt now db0)).flatten) ∧
      execCmds others now2 db2 (keys.map (undoOfKey fmt now db0)).flatten = Res.ok db3 ∧
      ∀ key ∈ keys,
        db3.data key = (db0.GetEntity now key).2 ∧
        ((db0.GetEntity now key).2 = none →
          undoOfKey fmt now db0 key = [[Del, key]] ∧ db3.ttlMap key = none) ∧
        (∀ e, (db0.GetEntity now key).2 = some e →
          ∃ cmd, EntityToCmd fmt key (some e) = Res.ok (some cmd) ∧
            undoOfKey fmt now db0 key = [[Del, key], cmd, toTTLCmd db0 key] ∧
            (db0.ttlMap key = none →
              toTTLCmd db0 key = [Persist, key] ∧ db3.ttlMap key = none) ∧
            (∀ t, db0.ttlMap key = some t →
              toTTLCmd db0 key =
                [PExpireAt, key, Itoa (Int.tdiv (Int.tdiv (UnixNano t) 1000) 1000)] ∧
              db3.ttlMap key =
                some (Int.tdiv (Int.tdiv (UnixNano t) 1000) 1000 * 1000000)) ∧
            (∀ ms, db0.ttlMap key = some (ms * 1000000) → |ms| * 1000000 < 2 ^ 63 →
              toTTLCmd db0 key = [PExpireAt, key, Itoa ms] ∧
              db3.ttlMap key = db0.ttlMap key)) := by
  obtain ⟨db1, h1⟩ := rollbackGivenKeys_shape fmt now db0 keys db0 (fun _ => ⟨rfl, fun _ => rfl⟩)
    (fun key hk e he => by
      obtain ⟨cmd, hc, -⟩ := hre key hk e he
      exact ⟨cmd, hc⟩)
  obtain ⟨db3, h3, hd, ht⟩ := exec_undo_keys fmt now now2 db0 others keys db2 hre hinv
  refine ⟨db1, db3, h1, h3, ?_⟩
  intro key hk
  have hdk := hd key
  have htk := ht key
  rw [if_pos hk] at hdk htk
  refine ⟨hdk, ?_, ?_⟩
  · intro hn
    constructor
    · unfold undoOfKey
      rw [hn]
    · rw [htk]
      unfold restoredTTL
      rw [hn]
  · intro e he
    obtain ⟨cmd, hc, -⟩ := hre key hk e he
    refine ⟨cmd, hc, ?_, ?_, ?_, ?_⟩
    · unfold undoOfKey
      rw [he]
      simp only [hc]
    · intro hnone
      constructor
      · unfold toTTLCmd
        rw [hnone]
      · rw [htk]
        unfold restoredTTL
        rw [he]
        simp only [hnone]
    · intro t hsome
      constructor
      · unfold toTTLCmd
        rw [hsome]
      · rw [htk]
        unfold restoredTTL
        rw [he]
        simp only [hsome]
    · intro ms hsome hb
      constructor
      · unfold toTTLCmd
        rw [hsome]
        simp only [ttl_ms_whole ms hb]
      · rw [htk, hsome]
        unfold restoredTTL
        rw [he]
        simp only [hsome, ttl_ms_whole ms hb]

theorem exampleDB_rebuilds :
    ∀ key ∈ ([[97], [99]] : List Bytes), Rebuilds Itoa 0 exampleDB execSetOnly key := by
  intro key hk e he
  have hk2 : key = [97] ∨ key = [99] := by simpa using hk
  rcases hk2 with rfl | rfl
  · have h1 : (exampleDB.GetEntity 0 [97]).2 = some (Data.bytes [120]) := by decide
    rw [h1] at he
    have he2 : e = Data.bytes [120] := (Option.some.inj he).symm
    subst he2
    refine ⟨[setCmd, [97], [120]], rfl, ?_⟩
    intro d _ h3
    have hs : execSetOnly d [setCmd, [97], [120]] = d.PutEntity [97] (Data.bytes [120]) := by
      have : setCmd.map toLower = setCmd := by decide
      simp only [execSetOnly, this, if_true]
    rw [hs]
    refine ⟨rfl, ?_⟩
    unfold DB.PutEntity
    funext k
    show putKey d.ttlMap [97] none k = d.ttlMap k
    unfold putKey
    by_cases hkk : k = [97]
    · rw [if_pos hkk, hkk, h3]
    · rw [if_neg hkk]
  · have h1 : (exampleDB.GetEntity 0 [99]).2 = none := by decide
    rw [h1] at he
    exact Option.noConfusion he

theorem exampleDB_ttlOwned : exampleDB.ttlOwned := by
  intro k hk
  unfold exampleDB at hk ⊢
  simp only [] at hk ⊢
  by_cases h1 : k = [97]
  · simp [h1] at hk
  · by_cases h2 : k = [98]
    · simp [h2] at hk
    · simp [h1, h2]

/-- Witness for C32, amended: the keys "a" (the string "x", expiring 5 ms after
the epoch) and "c" (absent) of the example keyspace, with the `SET` of the
examples; the log is taken and executed at the time 0. -/
theorem undo_log_restores_witness :
    (∀ key ∈ ([[97], [99]] : List Bytes), Rebuilds Itoa 0 exampleDB execSetOnly key) ∧
    exampleDB.ttlOwned ∧
    ∃ db1 db3,
      rollbackGivenKeys Itoa 0 exampleDB [[97], [99]] =
        Res.ok (db1, (([[97], [99]] : List Bytes).map (undoOfKey Itoa 0 exampleDB)).flatten) ∧
      execCmds execSetOnly 0 exampleDB
        (([[97], [99]] : List Bytes).map (undoOfKey Itoa 0 exampleDB)).flatten = Res.ok db3 ∧
      (([[97], [99]] : List Bytes).map (undoOfKey Itoa 0 exampleDB)).flatten =
        [[Del, [97]], [setCmd, [97], [120]], [PExpireAt, [97], [53]], [Del, [99]]] ∧
      db3.data [97] = some (Data.bytes [120]) ∧ db3.ttlMap [97] = some 5000000 ∧
      db3.data [99] = none ∧ db3.ttlMap [99] = none := by
  refine ⟨exampleDB_rebuilds, exampleDB_ttlOwned, ?_⟩
  obtain ⟨db1, db3, h1, h3, h⟩ := undo_log_restores Itoa 0 0 exampleDB exampleDB [[97], [99]]
    execSetOnly exampleDB_rebuilds exampleDB_ttlOwned
  obtain ⟨a1, -, a3⟩ := h [97] (by simp)
  obtain ⟨c1, c2, -⟩ := h [99] (by simp)
  obtain ⟨cmd, -, -, -, -, a4⟩ := a3 (Data.bytes [120]) (by decide)
  have a5 := (a4 5 (by decide) (by decide)).2
  refine ⟨db1, db3, h1, h3, by decide, ?_, ?_, ?_, ?_⟩
  · rw [a1]; decide
  · rw [a5]; decide
  · rw [c1]; decide
  · exact (c2 (by decide)).2

end Godis
